import Mathlib

/-!
The reachability order of storm-pars (`storm-pars/analysis/Order.cpp`).

A shallow embedding of the class `storm::analysis::Order`: the relation
lattice that records which states of a parametric Markov model are proven to
lie above, below or at the same value as other states.

* Node objects live in an explicit heap (`Order.heap`); a `Node*` is an
  optional index into it (`none` is `nullptr`), so that pointer identity,
  aliasing and nodes that are no longer referenced are all represented.
* Methods that mutate the order return the new order; `compare` and `above`
  return their answer together with the order after their write-back.
* Assertions (`assert`, `STORM_LOG_ASSERT`, the range checks inside
  `storm::storage::BitVector`) are modelled as active: a violated one yields
  `Fault.assertion`.  Dereferencing a null pointer or indexing a vector out of
  range yields `Fault.undefined`.  Log statements are not modelled.
* Loops whose termination is not structural carry a fuel counter and yield
  `Fault.fuel` when it runs out.
-/

namespace Storm

/-- Ways in which a call does not return normally. -/
inductive Fault where
  | assertion
  | undefined
  | fuel
deriving DecidableEq, Repr

deriving instance DecidableEq for Except

/-- The result enumeration `Order::NodeComparison`. -/
inductive NodeComparison where
  | UNKNOWN
  | BELOW
  | ABOVE
  | SAME
deriving DecidableEq, Repr

open NodeComparison

/-! ## `storm::storage::BitVector` -/

/-- A bit vector of `size` bits; bit `i` is `bits.testBit i`. -/
structure BitVector where
  size : Nat
  bits : Nat
deriving DecidableEq, Repr

namespace BitVector

/-- The constructor `BitVector(n, false)`. -/
def zeros (n : Nat) : BitVector := ⟨n, 0⟩

/-- The constructor `BitVector(n, true)`. -/
def ones (n : Nat) : BitVector := ⟨n, 2 ^ n - 1⟩

/-- Reading a bit, `bv[i]`; the index is range-checked. -/
def get (b : BitVector) (i : Nat) : Except Fault Bool :=
  if i < b.size then .ok (b.bits.testBit i) else .error .assertion

/-- Setting a bit, `bv.set(i)`; the index is range-checked. -/
def set (b : BitVector) (i : Nat) : Except Fault BitVector :=
  if i < b.size then .ok ⟨b.size, b.bits ||| 2 ^ i⟩ else .error .assertion

/-- The operator `a |= b`; both vectors must have the same size. -/
def orAssign (a b : BitVector) : Except Fault BitVector :=
  if a.size = b.size then .ok ⟨a.size, a.bits ||| b.bits⟩ else .error .assertion

/-- Calling `set` for every element of a list, in order. -/
def setAll (b : BitVector) : List Nat → Except Fault BitVector
  | [] => .ok b
  | i :: is => do
    let b1 ← b.set i
    setAll b1 is

/-- The bits after setting every index of a list. -/
def setBits (bits : Nat) : List Nat → Nat
  | [] => bits
  | i :: is => setBits (bits ||| 2 ^ i) is

/-- The indices of the set bits in increasing order (iteration over a bit vector). -/
def indices (b : BitVector) : List Nat :=
  (List.range b.size).filter (fun i => b.bits.testBit i)

/-- The method `full()`: every bit is set. -/
def full (b : BitVector) : Bool := (List.range b.size).all (fun i => b.bits.testBit i)

/-- The method `empty()`: no bit is set. -/
def empty (b : BitVector) : Bool := b.indices.isEmpty

/-- The method `getNumberOfSetBits()`. -/
def getNumberOfSetBits (b : BitVector) : Nat := b.indices.length

end BitVector

/-! ## Nodes and the order -/

/-- Insertion into a `flat_set`: a strictly increasing list without duplicates. -/
def setInsert (x : Nat) : List Nat → List Nat
  | [] => [x]
  | y :: ys => if x < y then x :: y :: ys else if x = y then y :: ys else y :: setInsert x ys

/-- Range insertion `s.insert(first, last)`. -/
def setInsertAll (xs : List Nat) (s : List Nat) : List Nat := xs.foldl (fun acc x => setInsert x acc) s

/-- The struct `Order::Node`: the member states and the states proven above them. -/
structure Node where
  states : List Nat
  statesAbove : BitVector
deriving DecidableEq, Repr

/-- A `Node*`: `none` is the null pointer, `some k` addresses heap cell `k`. -/
abbrev Ptr := Option Nat

/-- The data members of `storm::analysis::Order`, together with the heap of nodes it allocated. -/
structure Order where
  heap : List Node
  nodes : List Ptr
  top : Ptr
  bottom : Ptr
  numberOfStates : Nat
  numberOfAddedStates : Nat
  onlyInitialOrder : Bool
  doneBuilding : Bool
  optimistic : Bool
  changed : Bool
  trivialStates : BitVector
  sufficientForState : BitVector
  doneForState : BitVector
  statesSorted : List Nat
  statesToHandle : List Nat
  specialStatesToHandle : List Nat
  mdpScheduler : Option (List Nat)
deriving DecidableEq, Repr

namespace Order

/-- Dereferencing a node pointer. -/
def deref (o : Order) : Ptr → Except Fault Node
  | none => .error .undefined
  | some k =>
    match o.heap[k]? with
    | some n => .ok n
    | none => .error .undefined

/-- Writing through a node pointer. -/
def store (o : Order) (p : Ptr) (n : Node) : Except Fault Order :=
  match p with
  | none => .error .undefined
  | some k => if k < o.heap.length then .ok { o with heap := o.heap.set k n } else .error .undefined

/-- The expression `new Node()`: a fresh heap cell holding `n`; returns its address. -/
def alloc (o : Order) (n : Node) : Ptr × Order :=
  (some o.heap.length, { o with heap := o.heap ++ [n] })

/-- Unchecked indexing `nodes[state]`. -/
def nodeAt (o : Order) (state : Nat) : Except Fault Ptr :=
  match o.nodes[state]? with
  | some p => .ok p
  | none => .error .undefined

/-- The assignment `nodes[state] = p`. -/
def setNodeAt (o : Order) (state : Nat) (p : Ptr) : Except Fault Order :=
  if state < o.nodes.length then .ok { o with nodes := o.nodes.set state p } else .error .undefined

/-- The method `Order::getNode`. -/
def getNode (o : Order) (stateNumber : Nat) : Except Fault Ptr :=
  if stateNumber < o.numberOfStates then o.nodeAt stateNumber else .error .assertion

/-- The method `Order::contains`. -/
def contains (o : Order) (state : Nat) : Bool :=
  decide (state < o.numberOfStates) &&
    (match o.nodes[state]? with
     | some (some _) => true
     | _ => false)

/-- The method `Order::getTop`. -/
def getTop (o : Order) : Ptr := o.top

/-- The method `Order::getBottom`. -/
def getBottom (o : Order) : Ptr := o.bottom

/-- The method `Order::getNumberOfAddedStates`. -/
def getNumberOfAddedStates (o : Order) : Nat := o.numberOfAddedStates

/-- The method `Order::getNumberOfStates`. -/
def getNumberOfStates (o : Order) : Nat := o.numberOfStates

/-- The method `Order::isBottomState`. -/
def isBottomState (o : Order) (state : Nat) : Except Fault Bool := do
  let b ← o.deref o.bottom
  pure (decide (state ∈ b.states))

/-- The method `Order::isTopState`. -/
def isTopState (o : Order) (state : Nat) : Except Fault Bool :=
  if o.top = none then .ok false
  else do
    let t ← o.deref o.top
    pure (decide (state ∈ t.states))

/-- The method `Order::setSufficientForState`. -/
def setSufficientForState (o : Order) (stateNumber : Nat) : Except Fault Order := do
  let b ← o.sufficientForState.set stateNumber
  pure { o with sufficientForState := b }

/-- The method `Order::setDoneForState`. -/
def setDoneForState (o : Order) (stateNumber : Nat) : Except Fault Order := do
  let s ← o.sufficientForState.get stateNumber
  if s && o.contains stateNumber then
    let b ← o.doneForState.set stateNumber
    pure { o with doneForState := b }
  else .error .assertion

/-- The recurring statement
`if (numberOfAddedStates == numberOfStates) doneBuilding = sufficientForState.full();`. -/
def updateDoneBuilding (o : Order) : Order :=
  if o.numberOfAddedStates = o.numberOfStates then { o with doneBuilding := o.sufficientForState.full }
  else o

/-! ## Construction -/

/-- The private method `Order::init`.  A decomposition is the list of its
strongly connected components, each the increasing list of its states. -/
def init (numberOfStates : Nat) (decomposition : List (List Nat)) (isOptimistic : Bool)
    (doneBuilding : Bool) : Except Fault Order := do
  let trivialStates ←
    if decomposition.length = 0 then pure (BitVector.ones numberOfStates)
    else
      decomposition.foldlM
        (fun (tr : BitVector) (scc : List Nat) =>
          if scc.length = 1 then
            match scc.head? with
            | some s => tr.set s
            | none => .error .undefined
          else pure tr)
        (BitVector.zeros numberOfStates)
  -- `top` is allocated first, then `bottom`
  pure
    { heap := [⟨[], BitVector.zeros numberOfStates⟩, ⟨[], BitVector.zeros numberOfStates⟩]
      nodes := List.replicate numberOfStates none
      top := some 0
      bottom := some 1
      numberOfStates := numberOfStates
      numberOfAddedStates := 0
      onlyInitialOrder := false
      doneBuilding := doneBuilding
      optimistic := isOptimistic
      changed := false
      trivialStates := trivialStates
      sufficientForState := BitVector.zeros numberOfStates
      doneForState := BitVector.zeros numberOfStates
      statesSorted := []
      statesToHandle := []
      specialStatesToHandle := []
      mdpScheduler := none }

/-- The statements both constructors run for one state `i` of a sentinel node `p`:
mark `i` sufficient and done, insert it into the node and map it there. -/
def placeSentinelState (o : Order) (p : Ptr) (i : Nat) : Except Fault Order := do
  let suff ← o.sufficientForState.set i
  let done ← o.doneForState.set i
  let o1 : Order := { o with sufficientForState := suff, doneForState := done }
  let n ← o1.deref p
  let o2 ← o1.store p { n with states := setInsert i n.states }
  o2.setNodeAt i p

/-- The loop of the first constructor over the top states. -/
def placeTopStates (o : Order) : List Nat → Except Fault Order
  | [] => .ok o
  | i :: is => do
    let suff ← o.sufficientForState.set i
    let done ← o.doneForState.set i
    let o1 : Order := { o with sufficientForState := suff, doneForState := done }
    let b ← o1.deref o1.bottom
    let sa ← b.statesAbove.set i
    let o2 ← o1.store o1.bottom { b with statesAbove := sa }
    let t ← o2.deref o2.top
    let o3 ← o2.store o2.top { t with states := setInsert i t.states }
    let o4 ← o3.setNodeAt i o3.top
    placeTopStates { o4 with numberOfAddedStates := o4.numberOfAddedStates + 1 } is

/-- The loop of the first constructor over the bottom states. -/
def placeBottomStates (o : Order) : List Nat → Except Fault Order
  | [] => .ok o
  | i :: is => do
    let o1 ← o.placeSentinelState o.bottom i
    placeBottomStates { o1 with numberOfAddedStates := o1.numberOfAddedStates + 1 } is

/-- The constructor `Order(BitVector* topStates, BitVector* bottomStates, numberOfStates,
decomposition, statesSorted, isOptimistic)`.  The value `doneBuilding` stands for the default
argument of `init`, which the header declares. -/
def ofBitVectors (topStates bottomStates : BitVector) (numberOfStates : Nat)
    (decomposition : List (List Nat)) (statesSorted : List Nat) (isOptimistic : Bool)
    (doneBuilding : Bool) : Except Fault Order := do
  if ¬ (bottomStates.getNumberOfSetBits > 0) then .error .assertion
  else
    let o0 ← init numberOfStates decomposition isOptimistic doneBuilding
    let o1 : Order := { o0 with numberOfAddedStates := 0, onlyInitialOrder := true }
    let o2 ←
      if ¬ topStates.empty then placeTopStates o1 topStates.indices
      else pure { o1 with top := none }
    let o3 : Order := { o2 with statesSorted := statesSorted }
    let o4 ← placeBottomStates o3 bottomStates.indices
    if ¬ (o4.numberOfAddedStates ≤ numberOfStates) then .error .assertion
    else if ¬ (o4.sufficientForState.getNumberOfSetBits
        = topStates.getNumberOfSetBits + bottomStates.getNumberOfSetBits) then .error .assertion
    else
      let o5 := o4.updateDoneBuilding
      pure { o5 with changed := true }

/-- The constructor `Order(uint_fast64_t topState, uint_fast64_t bottomState, numberOfStates,
decomposition, statesSorted, isOptimistic)`. -/
def ofStates (topState bottomState : Nat) (numberOfStates : Nat)
    (decomposition : List (List Nat)) (statesSorted : List Nat) (isOptimistic : Bool)
    (doneBuilding : Bool) : Except Fault Order := do
  let o0 ← init numberOfStates decomposition isOptimistic doneBuilding
  let o1 : Order := { o0 with onlyInitialOrder := true }
  let suff ← o1.sufficientForState.set topState
  let done ← o1.doneForState.set topState
  let o2 : Order := { o1 with sufficientForState := suff, doneForState := done }
  let b ← o2.deref o2.bottom
  let sa ← b.statesAbove.set topState
  let o3 ← o2.store o2.bottom { b with statesAbove := sa }
  let t ← o3.deref o3.top
  let o4 ← o3.store o3.top { t with states := setInsert topState t.states }
  let o5 ← o4.setNodeAt topState o4.top
  let o6 ← o5.placeSentinelState o5.bottom bottomState
  let o7 : Order := { o6 with numberOfAddedStates := 2 }
  if ¬ (o7.numberOfAddedStates ≤ numberOfStates) then .error .assertion
  else
    let o8 : Order := { o7 with statesSorted := statesSorted }
    if ¬ (o8.sufficientForState.getNumberOfSetBits = 2) then .error .assertion
    else
      let o9 := o8.updateDoneBuilding
      pure { o9 with changed := true }

/-! ## Comparison -/

/-- The loop of `Order::aboveFast`: the first member state of `node1` whose bit is set in
`statesAbove` ends the search. -/
def aboveFastLoop (o : Order) (node2 : Ptr) : List Nat → Except Fault Bool
  | [] => .ok false
  | state :: rest => do
    let n2 ← o.deref node2
    let found ← n2.statesAbove.get state
    if found then pure true else aboveFastLoop o node2 rest

/-- The private method `Order::aboveFast`. -/
def aboveFast (o : Order) (node1 node2 : Ptr) : Except Fault Bool := do
  let n1 ← o.deref node1
  aboveFastLoop o node2 n1.states

/-- The short-circuit test `cond && ((a == b || c == d) || aboveFast(node1, node2))` of
`compareFast`; `sentinel` is the value of `a == b || c == d`. -/
def fastWhen (o : Order) (cond sentinel : Bool) (node1 node2 : Ptr) : Except Fault Bool :=
  if cond then
    if sentinel then .ok true else o.aboveFast node1 node2
  else .ok false

/-- The method `Order::compareFast(Node*, Node*, NodeComparison)`. -/
def compareFastNodes (o : Order) (node1 node2 : Ptr) (hypothesis : NodeComparison) :
    Except Fault NodeComparison :=
  if node1 ≠ none ∧ node2 ≠ none then
    if node1 = node2 then .ok SAME
    else do
      let isAbove ←
        o.fastWhen (decide (hypothesis = UNKNOWN ∨ hypothesis = ABOVE))
          (decide (node1 = o.top ∨ node2 = o.bottom)) node1 node2
      if isAbove then pure ABOVE
      else
        let isBelow ←
          o.fastWhen (decide (hypothesis = UNKNOWN ∨ hypothesis = BELOW))
            (decide (node2 = o.top ∨ node1 = o.bottom)) node2 node1
        if isBelow then pure BELOW else pure UNKNOWN
  else if (o.top ≠ none ∧ node1 = o.top) ∨ node2 = o.bottom then .ok ABOVE
  else if (o.top ≠ none ∧ node1 = o.top) ∨ node1 = o.bottom then .ok BELOW
  else .ok UNKNOWN

/-- The method `Order::compareFast(uint_fast64_t, uint_fast64_t, NodeComparison)`. -/
def compareFast (o : Order) (state1 state2 : Nat) (hypothesis : NodeComparison) :
    Except Fault NodeComparison := do
  let node1 ← o.getNode state1
  let node2 ← o.getNode state2
  o.compareFastNodes node1 node2 hypothesis

/-- The inner loop of `Order::above` over the bits of `node->statesAbove`: every state not seen
yet is pushed onto the queue and marked as seen. -/
def aboveEnqueue (queue : List Nat) (statesSeen : BitVector) :
    List Nat → Except Fault (List Nat × BitVector)
  | [] => .ok (queue, statesSeen)
  | newState :: rest => do
    let seen ← statesSeen.get newState
    if ¬ seen then
      let statesSeen1 ← statesSeen.set newState
      aboveEnqueue (queue ++ [newState]) statesSeen1 rest
    else aboveEnqueue queue statesSeen rest

/-- The `while (!above && !statesToHandle.empty())` loop of `Order::above`; the queue is a list
whose head is the front. -/
def aboveLoop (o : Order) (node1 : Ptr) : Nat → List Nat → BitVector → Except Fault Bool
  | 0, _, _ => .error .fuel
  | _ + 1, [], _ => .ok false
  | fuel + 1, state :: queue, statesSeen => do
    let node ← o.getNode state
    let found ← o.aboveFast node1 node
    if found then pure true
    else
      let n ← o.deref node
      let (queue1, statesSeen1) ← aboveEnqueue queue statesSeen n.statesAbove.indices
      aboveLoop o node1 fuel queue1 statesSeen1

/-- The search part of `Order::above` (the block guarded by
`if (!trivialStates.full() || !doneBuilding)`): a breadth-first search through the `statesAbove`
sets starting at `node2`.  Every state enters the queue at most once, so the loop body runs at
most `numberOfStates` times. -/
def aboveSearch (o : Order) (node1 node2 : Ptr) : Except Fault Bool :=
  if ¬ o.trivialStates.full ∨ ¬ o.doneBuilding then do
    let n2 ← o.deref node2
    let statesSeen := n2.statesAbove
    aboveLoop o node1 (o.numberOfStates + 1) statesSeen.indices statesSeen
  else pure false

/-- The private method `Order::above`: the search, and the write-back of a relation that was
found. -/
def above (o : Order) (node1 node2 : Ptr) : Except Fault (Bool × Order) := do
  let fast ← o.aboveFast node1 node2
  if fast then .error .assertion
  else
    let isAbove ← o.aboveSearch node1 node2
    if isAbove then
      let n1 ← o.deref node1
      let n2 ← o.deref node2
      let sa ← n2.statesAbove.setAll n1.states
      let o1 ← o.store node2 { n2 with statesAbove := sa }
      pure (true, o1)
    else pure (false, o)

/-- The short-circuit conjunction `cond && above(node1, node2)`. -/
def aboveWhen (o : Order) (cond : Bool) (node1 node2 : Ptr) : Except Fault (Bool × Order) :=
  if cond then o.above node1 node2 else .ok (false, o)

/-- The method `Order::compare(Node*, Node*, NodeComparison)`. -/
def compareNodes (o : Order) (node1 node2 : Ptr) (hypothesis : NodeComparison) :
    Except Fault (NodeComparison × Order) :=
  if node1 ≠ none ∧ node2 ≠ none then do
    let comp ← o.compareFastNodes node1 node2 hypothesis
    if comp ≠ UNKNOWN then pure (comp, o)
    else
      let (isAbove, o1) ←
        o.aboveWhen (decide (hypothesis = UNKNOWN ∨ hypothesis = ABOVE)) node1 node2
      if isAbove then
        -- `assert(!above(node2, node1))`
        let (reverse, o2) ← o1.above node2 node1
        if reverse then .error .assertion else pure (ABOVE, o2)
      else
        let (isBelow, o2) ←
          o1.aboveWhen (decide (hypothesis = UNKNOWN ∨ hypothesis = BELOW)) node2 node1
        if isBelow then pure (BELOW, o2) else pure (UNKNOWN, o2)
  else if (o.top ≠ none ∧ node1 = o.top) ∨ node2 = o.bottom then .ok (ABOVE, o)
  else if (o.top ≠ none ∧ node2 = o.top) ∨ node1 = o.bottom then .ok (BELOW, o)
  else .ok (UNKNOWN, o)

/-- The method `Order::compare(uint_fast64_t, uint_fast64_t, NodeComparison)`. -/
def compare (o : Order) (state1 state2 : Nat) (hypothesis : NodeComparison) :
    Except Fault (NodeComparison × Order) := do
  let node1 ← o.getNode state1
  let node2 ← o.getNode state2
  o.compareNodes node1 node2 hypothesis

/-! ## Modifying the order -/

/-- The method `Order::addRelationNodes`. -/
def addRelationNodes (o : Order) (above below : Ptr) : Except Fault Order := do
  let a ← o.deref above
  let b ← o.deref below
  let sa ← b.statesAbove.orAssign a.statesAbove
  let o1 ← o.store below { b with statesAbove := sa }
  -- the loop reads `above->states` and sets the bits in `below->statesAbove`
  let a1 ← o1.deref above
  let b1 ← o1.deref below
  let sa1 ← b1.statesAbove.setAll a1.states
  o1.store below { b1 with statesAbove := sa1 }

/-- The method `Order::addRelation`; its parameter `allowMerge` is not used by the body. -/
def addRelation (o : Order) (above below : Nat) (_allowMerge : Bool) : Except Fault Order := do
  let a ← o.getNode above
  let b ← o.getNode below
  o.addRelationNodes a b

/-- The method `Order::addAbove`. -/
def addAbove (o : Order) (state : Nat) (node : Ptr) : Except Fault Order :=
  if node = none then .error .assertion
  else if ¬ (state < o.numberOfStates) then .error .assertion
  else do
    let cur ← o.nodeAt state
    if cur = none then
      let (newNode, o1) := o.alloc ⟨[], BitVector.zeros 0⟩
      let o2 ← o1.setNodeAt state newNode
      let n ← o2.deref newNode
      let o3 ← o2.store newNode { n with states := setInsert state n.states }
      let n3 ← o3.deref newNode
      let o4 ← o3.store newNode { n3 with statesAbove := BitVector.zeros o3.numberOfStates }
      let o5 ←
        if o4.top ≠ none then do
          let t ← o4.deref o4.top
          let n4 ← o4.deref newNode
          let sa ← n4.statesAbove.setAll t.states
          o4.store newNode { n4 with statesAbove := sa }
        else pure o4
      let nd ← o5.deref node
      let sa ← nd.statesAbove.set state
      let o6 ← o5.store node { nd with statesAbove := sa }
      let o7 : Order :=
        { o6 with numberOfAddedStates := o6.numberOfAddedStates + 1, onlyInitialOrder := false }
      pure o7.updateDoneBuilding
    else do
      let p ← o.getNode state
      o.addRelationNodes p node

/-- The shared body of `addBelow` and `addBetween` for a state that is not in the order yet:
a fresh node for `state` whose `statesAbove` is a copy of `anchor->statesAbove` with the member
states of `anchor` set; afterwards bit `state` is set in `receiver->statesAbove`. -/
def insertBelowAnchor (o : Order) (state : Nat) (anchor receiver : Ptr) : Except Fault Order := do
  let (newNode, o1) := o.alloc ⟨[], BitVector.zeros 0⟩
  let o2 ← o1.setNodeAt state newNode
  let n ← o2.deref newNode
  let o3 ← o2.store newNode { n with states := setInsert state n.states }
  let a ← o3.deref anchor
  let n3 ← o3.deref newNode
  let o4 ← o3.store newNode { n3 with statesAbove := a.statesAbove }
  let a4 ← o4.deref anchor
  let n4 ← o4.deref newNode
  let sa ← n4.statesAbove.setAll a4.states
  let o5 ← o4.store newNode { n4 with statesAbove := sa }
  let r ← o5.deref receiver
  let sr ← r.statesAbove.set state
  let o6 ← o5.store receiver { r with statesAbove := sr }
  let o7 : Order :=
    { o6 with numberOfAddedStates := o6.numberOfAddedStates + 1, onlyInitialOrder := false }
  pure o7.updateDoneBuilding

/-- The method `Order::addBelow`. -/
def addBelow (o : Order) (state : Nat) (node : Ptr) : Except Fault Order :=
  if node = none then .error .assertion
  else if ¬ (state < o.numberOfStates) then .error .assertion
  else do
    let o1 ←
      if ¬ o.contains state then o.insertBelowAnchor state node o.bottom
      else do
        let p ← o.getNode state
        o.addRelationNodes node p
    if ¬ (o1.numberOfAddedStates ≤ o1.numberOfStates) then .error .assertion else pure o1

/-- The method `Order::addBetween(uint_fast64_t, Node*, Node*)`. -/
def addBetweenNodes (o : Order) (state : Nat) (above below : Ptr) : Except Fault Order :=
  if above = below then .error .assertion
  else if above = none then o.addAbove state below
  else do
    let (c, o1) ← o.compareNodes above below UNKNOWN
    if c ≠ ABOVE then .error .assertion
    else if ¬ (above ≠ none ∧ below ≠ none) then .error .assertion
    else do
      let cur ← o1.nodeAt state
      if cur = none then
        let o2 ← o1.insertBelowAnchor state above below
        if ¬ (o2.numberOfAddedStates ≤ o2.numberOfStates) then .error .assertion else pure o2
      else do
        let o2 ← o1.addRelationNodes above cur
        let cur2 ← o2.nodeAt state
        o2.addRelationNodes cur2 below

/-- The method `Order::addBetween(uint_fast64_t, uint_fast64_t, uint_fast64_t)`. -/
def addBetween (o : Order) (state above below : Nat) : Except Fault Order := do
  let pb ← o.getNode below
  let nb ← o.deref pb
  if below ∉ nb.states then .error .assertion
  else
    let pa ← o.getNode above
    let na ← o.deref pa
    if above ∉ na.states then .error .assertion
    else
      let pa1 ← o.getNode above
      let pb1 ← o.getNode below
      o.addBetweenNodes state pa1 pb1

/-- The method `Order::add`. -/
def add (o : Order) (state : Nat) : Except Fault Order := do
  let cur ← o.nodeAt state
  if cur ≠ none then .error .assertion
  else if o.top = none then o.addAbove state o.bottom
  else o.addBetweenNodes state o.top o.bottom

/-- The loop `for (auto const& i : node2->states) nodes[i] = node1;` of `mergeNodes`. -/
def remap (o : Order) (node1 : Ptr) : List Nat → Except Fault Order
  | [] => .ok o
  | i :: is => do
    let o1 ← o.setNodeAt i node1
    remap o1 node1 is

/-- The inner `for (auto state2 : node2->states)` loop of `mergeNodes` for one entry `node` of
`nodes`: at the first member of `node2` found in `node->statesAbove`, all members of `node1` are
set there and the loop is left. -/
def propagateNode (o : Order) (node1 node2 node : Ptr) : List Nat → Except Fault Order
  | [] => .ok o
  | state2 :: rest => do
    let n ← o.deref node
    let hit ← n.statesAbove.get state2
    if hit then
      let n1 ← o.deref node1
      let sa ← n.statesAbove.setAll n1.states
      o.store node { n with statesAbove := sa }
    else propagateNode o node1 node2 node rest

/-- The body of the loop `for (auto const& node : nodes)` of `mergeNodes` for one entry. -/
def propagateEntry (o : Order) (node1 node2 node : Ptr) : Except Fault Order :=
  if node ≠ none then do
    let n2 ← o.deref node2
    o.propagateNode node1 node2 node n2.states
  else pure o

/-- The loop `for (auto const& node : nodes)` of `mergeNodes`. -/
def propagate (o : Order) (node1 node2 : Ptr) : List Ptr → Except Fault Order
  | [] => .ok o
  | node :: rest => do
    let o1 ← o.propagateEntry node1 node2 node
    propagate o1 node1 node2 rest

/-- The first part of `Order::mergeNodes` (up to the re-scan): `node2` is merged into `node1`,
its states are mapped to `node1`, and every node that has a member of `node2` above it gets all
members of `node1` above it. -/
def mergeTransfer (o : Order) (node1 node2 : Ptr) : Except Fault Order := do
  let n1 ← o.deref node1
  let n2 ← o.deref node2
  let sa ← n1.statesAbove.orAssign n2.statesAbove
  let o1 ← o.store node1 { n1 with statesAbove := sa }
  let n1a ← o1.deref node1
  let n2a ← o1.deref node2
  let o2 ← o1.store node1 { n1a with states := setInsertAll n2a.states n1a.states }
  let n2b ← o2.deref node2
  let o3 ← o2.remap node1 n2b.states
  o3.propagate node1 node2 o3.nodes

/-- The pairs `(i, j)` with `i < j < n` in the order in which the re-scan of `mergeNodes`
visits them. -/
def scanPairs (n : Nat) : List (Nat × Nat) :=
  (List.range n).flatMap (fun i => ((List.range n).filter (fun j => i < j)).map (fun j => (i, j)))

/-- The condition under which the re-scan leaves a pair alone. -/
def consistent (comp1 comp2 : NodeComparison) : Bool :=
  (comp1 = BELOW && comp2 = ABOVE) || (comp1 = ABOVE && comp2 = BELOW) ||
  (comp1 = UNKNOWN && comp2 = UNKNOWN) || (comp1 = SAME && comp2 = SAME)

/-- The body of the re-scan of `mergeNodes` for one pair; `mergeStates` is the call
`merge(i, j)`. -/
def rescanStep (mergeStates : Order → Nat → Nat → Except Fault Order) (o : Order) (i j : Nat) :
    Except Fault Order := do
  let (comp1, o1) ← o.compare i j UNKNOWN
  let (comp2, o2) ← o1.compare j i UNKNOWN
  if ¬ consistent comp1 comp2 then mergeStates o2 i j else pure o2

/-- The re-scan of `mergeNodes` over a list of pairs. -/
def rescan (mergeStates : Order → Nat → Nat → Except Fault Order) (o : Order) :
    List (Nat × Nat) → Except Fault Order
  | [] => .ok o
  | (i, j) :: rest => do
    let o1 ← rescanStep mergeStates o i j
    rescan mergeStates o1 rest

/-- The method `Order::mergeNodes`, mutually recursive with `Order::merge` through the re-scan;
`fuel` bounds the depth of that recursion. -/
def mergeNodesFuel : Nat → Order → Ptr → Ptr → Except Fault Order
  | 0, _, _, _ => .error .fuel
  | fuel + 1, o, node1, node2 => do
    let o1 ← o.mergeTransfer node1 node2
    rescan
      (fun (a : Order) (i j : Nat) => do
        let p ← a.getNode i
        let q ← a.getNode j
        mergeNodesFuel fuel a p q)
      o1 (scanPairs o1.numberOfStates)

/-- The method `Order::mergeNodes`.  Every nested merge that the re-scan starts joins two
different mapped nodes, so the recursion is at most `numberOfStates` deep. -/
def mergeNodes (o : Order) (node1 node2 : Ptr) : Except Fault Order :=
  mergeNodesFuel (o.numberOfStates + 2) o node1 node2

/-- The method `Order::merge`. -/
def merge (o : Order) (state1 state2 : Nat) : Except Fault Order := do
  let p ← o.getNode state1
  let q ← o.getNode state2
  o.mergeNodes p q

/-- The method `Order::addToNode`. -/
def addToNode (o : Order) (state : Nat) (node : Ptr) : Except Fault Order := do
  let cur ← o.nodeAt state
  if cur = none then
    let n ← o.deref node
    let o1 ← o.store node { n with states := setInsert state n.states }
    let o2 ← o1.setNodeAt state node
    let o3 : Order := { o2 with numberOfAddedStates := o2.numberOfAddedStates + 1 }
    let o4 := o3.updateDoneBuilding
    if ¬ (o4.numberOfAddedStates ≤ o4.numberOfStates) then .error .assertion else pure o4
  else o.mergeNodes cur node

/-! ## Copying -/

/-- The loop `for (uint64_t const& i : oldNode->states)` of `Order::copy`; `c` is the copy under
construction and `newNode` the node that replaces `oldNode` in it. -/
def copyStates (c : Order) (newNode : Ptr) (seenStates : BitVector) :
    List Nat → Except Fault (Order × BitVector)
  | [] => .ok (c, seenStates)
  | i :: rest => do
    let seen ← seenStates.get i
    if seen then .error .assertion
    else
      let n ← c.deref newNode
      let c1 ← c.store newNode { n with states := setInsert i n.states }
      let seenStates1 ← seenStates.set i
      let c2 ← c1.setNodeAt i newNode
      copyStates c2 newNode seenStates1 rest

/-- The loop `for (uint64_t state = 0; state < numberOfStates; ++state)` of `Order::copy`. -/
def copyNodes (o : Order) (c : Order) (seenStates : BitVector) :
    List Nat → Except Fault (Order × BitVector)
  | [] => .ok (c, seenStates)
  | state :: rest => do
    let oldNode ← o.nodeAt state
    if oldNode ≠ none then
      let old ← o.deref oldNode
      match old.states.head? with
      | none => .error .undefined
      | some first =>
        let seen ← seenStates.get first
        if ¬ seen then
          let (newNode, c1) := c.alloc ⟨[], BitVector.zeros 0⟩
          let c2 : Order :=
            if oldNode = o.top then { c1 with top := newNode }
            else if oldNode = o.bottom then { c1 with bottom := newNode }
            else c1
          let n ← c2.deref newNode
          let c3 ← c2.store newNode { n with statesAbove := old.statesAbove }
          let (c4, seenStates1) ← copyStates c3 newNode seenStates old.states
          copyNodes o c4 seenStates1 rest
        else copyNodes o c seenStates rest
    else do
      let p ← c.nodeAt state
      if p ≠ none then .error .assertion else copyNodes o c seenStates rest

/-- The method `Order::copy`.  The copy starts as a default-constructed `Order`, whose
constructor assigns neither `top` nor `bottom`; `uninitTop` and `uninitBottom` stand for the
values these two pointers hold until `copy` assigns them. -/
def copy (o : Order) (uninitTop uninitBottom : Ptr) : Except Fault Order := do
  let c0 : Order :=
    { heap := []
      nodes := List.replicate o.numberOfStates none
      top := uninitTop
      bottom := uninitBottom
      numberOfStates := o.getNumberOfStates
      numberOfAddedStates := o.numberOfAddedStates
      onlyInitialOrder := o.onlyInitialOrder
      doneBuilding := o.doneBuilding
      optimistic := o.optimistic
      changed := o.changed
      trivialStates := o.trivialStates
      sufficientForState := o.sufficientForState
      doneForState := o.doneForState
      statesSorted := o.statesSorted
      statesToHandle := o.statesToHandle
      specialStatesToHandle := o.specialStatesToHandle
      mdpScheduler := none }
  let seenStates := BitVector.zeros o.numberOfStates
  let c1 : Order := if o.top = none then { c0 with top := none } else c0
  let (c2, _) ← copyNodes o c1 seenStates (List.range o.numberOfStates)
  pure c2

end Order

/-! ## Predicates used to state the properties -/

namespace Order

/-- Type-level well-formedness: the node table has one entry per state, every pointer held by the
order addresses an allocated node, every `statesAbove` has `numberOfStates` bits and every member
state is a state of the model. -/
def Valid (o : Order) : Prop :=
  o.nodes.length = o.numberOfStates ∧
  (∀ p ∈ o.nodes, ∀ k ∈ p, k < o.heap.length) ∧
  (∀ k ∈ o.top, k < o.heap.length) ∧
  (∀ k ∈ o.bottom, k < o.heap.length) ∧
  (∀ n ∈ o.heap, n.statesAbove.size = o.numberOfStates ∧ ∀ s ∈ n.states, s < o.numberOfStates)

instance (o : Order) : Decidable o.Valid := by
  unfold Valid
  infer_instance

/-- Every mapped state is a member of the node it is mapped to. -/
def Anchored (o : Order) : Prop :=
  ∀ s ∈ List.range o.nodes.length, ∀ p ∈ o.nodes.getD s none, ∃ n ∈ o.heap[p]?, s ∈ n.states

instance (o : Order) : Decidable o.Anchored := by
  unfold Anchored
  infer_instance

/-- Every member of a node in the image of the state-to-node mapping is mapped to that node. -/
def Exclusive (o : Order) : Prop :=
  ∀ p ∈ o.nodes, ∀ k ∈ p, ∀ n ∈ o.heap[k]?, ∀ s ∈ n.states, o.nodes[s]? = some (some k)

instance (o : Order) : Decidable o.Exclusive := by
  unfold Exclusive
  infer_instance

/-- The partition invariant: `getNode(s) == N` exactly for the members `s` of a mapped node `N`. -/
def Partition (o : Order) : Prop := o.Anchored ∧ o.Exclusive

instance (o : Order) : Decidable o.Partition := by
  unfold Partition
  infer_instance

/-- The value `aboveFast(node1, node2)` computes for two allocated nodes: some member of `node1`
has its bit set in `node2->statesAbove`. -/
def aboveFastP (o : Order) (p q : Nat) : Bool :=
  match o.heap[p]?, o.heap[q]? with
  | some n1, some n2 => n1.states.any (fun s => n2.statesAbove.bits.testBit s)
  | _, _ => false

/-- The test `(node1 == top || node2 == bottom) || aboveFast(node1, node2)` of `compareFast`. -/
def fastAboveP (o : Order) (p q : Nat) : Bool :=
  decide (some p = o.top) || decide (some q = o.bottom) || o.aboveFastP p q

/-- The order with heap cell `k` replaced by `n`. -/
def setHeap (o : Order) (k : Nat) (n : Node) : Order := { o with heap := o.heap.set k n }

/-- The node `n` with the bits of `statesAbove` replaced. -/
def withAboveBits (n : Node) (bits : Nat) : Node :=
  { n with statesAbove := ⟨n.statesAbove.size, bits⟩ }

/-- A small order used in the examples: four states, top state 0, bottom state 1, and the states
2 and 3 added by `add`. -/
def sampleOrder : Except Fault Order := do
  let o ← ofStates 0 1 4 [] [] true false
  let o1 ← o.add 2
  o1.add 3

/-- The sample order after `addRelation(2, 3)` and `addRelation(3, 2)`. -/
def sampleCycle : Except Fault Order := do
  let o ← sampleOrder
  let o1 ← o.addRelation 2 3 false
  o1.addRelation 3 2 false

/-- The sample order after `addRelation(1, 2)`: the bottom state 1 is recorded above state 2. -/
def sampleBottomAbove : Except Fault Order := do
  let o ← sampleOrder
  o.addRelation 1 2 false

/-- The order after a new state was placed in a node of its own: `newNode` is appended to the
heap, `state` is mapped to it, heap cell `receiver` (the node that gets bit `state`) is replaced by
`r`, and the counters are updated. -/
def placed (o : Order) (state : Nat) (newNode : Node) (receiver : Nat) (r : Node) : Order :=
  updateDoneBuilding
    { o with
      heap := (o.heap ++ [newNode]).set receiver r
      nodes := o.nodes.set state (some o.heap.length)
      numberOfAddedStates := o.numberOfAddedStates + 1
      onlyInitialOrder := false }

/-- The counter invariant: `numberOfAddedStates` is the number of mapped states. -/
def Counted (o : Order) : Prop := o.numberOfAddedStates = o.nodes.countP (fun p => p.isSome)

instance (o : Order) : Decidable o.Counted := by
  unfold Counted
  infer_instance

/-- The sample order before state 3 is added: top state 0, bottom state 1, state 2 in between. -/
def sampleBase : Except Fault Order := do
  let o ← ofStates 0 1 4 [] [] true false
  o.add 2

/-- The sample base after `merge(2, 1)`, which moves the bottom state 1 into the node of state 2,
followed by `add(3)`. -/
def sampleBottomMerged : Except Fault Order := do
  let o ← sampleBase
  let o1 ← o.merge 2 1
  o1.add 3

/-- The node `n1` has the size of `n` and all of its members and bits. -/
def NodeLe (n n1 : Node) : Prop :=
  n1.statesAbove.size = n.statesAbove.size ∧ (∀ s ∈ n.states, s ∈ n1.states) ∧
    ∀ i, n.statesAbove.bits.testBit i = true → n1.statesAbove.bits.testBit i = true

/-- The order `o1` differs from `o` at most in the heap and the node table. -/
def SameFrame (o o1 : Order) : Prop := o1 = { o with heap := o1.heap, nodes := o1.nodes }

/-- The heap of `o1` has the cells of `o`, and no cell lost a member or a bit. -/
def HeapGrows (o o1 : Order) : Prop :=
  o1.heap.length = o.heap.length ∧
    ∀ (k : Nat) (n : Node), o.heap[k]? = some n → ∃ n1, o1.heap[k]? = some n1 ∧ NodeLe n n1

/-- The order `o1` arises from `o` by setting bits in `statesAbove` sets only. -/
def BitsGrow (o o1 : Order) : Prop :=
  o1 = { o with heap := o1.heap } ∧ o1.heap.length = o.heap.length ∧
    ∀ (k : Nat) (n : Node), o.heap[k]? = some n →
      ∃ n1, o1.heap[k]? = some n1 ∧ n1.states = n.states ∧ NodeLe n n1

/-- The state-to-node mapping of `o1` is a coarsening of that of `o`: unmapped states stay
unmapped, mapped states stay mapped, their node does not lose members or bits, and states that
shared a node still do. -/
def Coarsens (o o1 : Order) : Prop :=
  o1.nodes.length = o.nodes.length ∧
  (∀ x : Nat, o.nodes[x]? = some none → o1.nodes[x]? = some none) ∧
  (∀ x p : Nat, o.nodes[x]? = some (some p) → ∃ p1 : Nat, o1.nodes[x]? = some (some p1) ∧
    ∀ n : Node, o.heap[p]? = some n → ∃ n1, o1.heap[p1]? = some n1 ∧ NodeLe n n1) ∧
  (∀ x y p : Nat, o.nodes[x]? = some (some p) → o.nodes[y]? = some (some p) →
    o1.nodes[x]? = o1.nodes[y]?)

/-- The relation between an order and the order after a merge. -/
def Extends (o o1 : Order) : Prop := SameFrame o o1 ∧ HeapGrows o o1 ∧ Coarsens o o1

/-- Some state is mapped to node `k`. -/
def IsMapped (o : Order) (k : Nat) : Prop := some k ∈ o.nodes

/-- A five-state order: top state 0, bottom state 1, the states 2, 3 and 4 added by `add`, then
`addRelation(2, 4)` and `addRelation(4, 3)`: state 2 is recorded above 4, and 4 above 3. -/
def sampleChain : Except Fault Order := do
  let o ← ofStates 0 1 5 [] [] true false
  let o1 ← o.add 2
  let o2 ← o1.add 3
  let o3 ← o2.add 4
  let o4 ← o3.addRelation 2 4 false
  o4.addRelation 4 3 false

/-- The sample base order after `addToNode(3, getNode(2))`: the states 2 and 3 share a node, and
the bottom node has bit 2 but not bit 3 in its `statesAbove`. -/
def sampleShared : Except Fault Order := do
  let o ← sampleBase
  let p ← o.getNode 2
  o.addToNode 3 p

/-- No state is mapped to node `k`, and the member list of that node is `l`. -/
def Detached (o : Order) (k : Nat) (l : List Nat) : Prop :=
  some k ∉ o.nodes ∧ ∃ n, o.heap[k]? = some n ∧ n.states = l

/-- The nodes `p` and `q` are recorded above each other: the fast test succeeds both ways. -/
def Mutual (o : Order) (p q : Nat) : Prop := o.fastAboveP p q = true ∧ o.fastAboveP q p = true

/-- The states `i` and `j` are not mapped to two different nodes that are recorded above each
other. -/
def NoMutualAt (o : Order) (i j : Nat) : Prop :=
  ∀ p q : Nat, o.nodes[i]? = some (some p) → o.nodes[j]? = some (some q) → p ≠ q → ¬ o.Mutual p q

/-- No two different mapped nodes are recorded above each other. -/
def NoMutual (o : Order) : Prop := ∀ i j : Nat, o.NoMutualAt i j

/-- The sample order after a merge whose re-scan finds nothing to do, followed by
`addRelation(2, 3)` and `addRelation(3, 2)`. -/
def sampleCycleAfterMerge : Except Fault Order := do
  let o ← sampleOrder
  let o1 ← o.merge 0 0
  let o2 ← o1.addRelation 2 3 false
  o2.addRelation 3 2 false

/-- The default constructor `Order()`: it assigns `optimistic` and `changed` only; the containers
start empty.  The pointers `top` and `bottom`, which it leaves unassigned, are given as
arguments. -/
def defaultOrder (uninitTop uninitBottom : Ptr) : Order :=
  { heap := []
    nodes := []
    top := uninitTop
    bottom := uninitBottom
    numberOfStates := 0
    numberOfAddedStates := 0
    onlyInitialOrder := false
    doneBuilding := false
    optimistic := true
    changed := false
    trivialStates := BitVector.zeros 0
    sufficientForState := BitVector.zeros 0
    doneForState := BitVector.zeros 0
    statesSorted := []
    statesToHandle := []
    specialStatesToHandle := []
    mdpScheduler := none }

/-- The order a call returned, for use in examples (a default-constructed order if the call
failed). -/
def returned (x : Except Fault Order) : Order :=
  match x with
  | .ok o => o
  | .error _ => defaultOrder none none

/-- The node a state is mapped to, if any. -/
def nodeOfState (o : Order) (s : Nat) : Option Node :=
  match o.nodes[s]? with
  | some (some p) => o.heap[p]?
  | _ => none

/-- The states reachable from the bit vector `start` by repeatedly following `statesAbove`
bits: a set bit of `start`, or a set bit of the `statesAbove` of the node of a reachable state. -/
inductive ReachAbove (o : Order) (start : BitVector) : Nat → Prop where
  | base {s : Nat} : s ∈ start.indices → ReachAbove o start s
  | step {x s : Nat} {n : Node} : ReachAbove o start x → o.nodeOfState x = some n →
      s ∈ n.statesAbove.indices → ReachAbove o start s

/-- A chain from node `q` up to node `p`: some state reachable from the `statesAbove` of `q`
belongs to a node whose `statesAbove` contains a member of `p`. -/
def Chain (o : Order) (p q : Nat) : Prop :=
  ∃ n1 n2 x nx, o.heap[p]? = some n1 ∧ o.heap[q]? = some n2 ∧
    ReachAbove o n2.statesAbove x ∧ o.nodeOfState x = some nx ∧
    ∃ s ∈ n1.states, nx.statesAbove.bits.testBit s = true

/-- Every bit set in a `statesAbove` is the bit of a mapped state. -/
def BitsMapped (o : Order) : Prop :=
  ∀ n ∈ o.heap, ∀ i ∈ n.statesAbove.indices, (o.nodes.getD i none).isSome = true

instance (o : Order) : Decidable o.BitsMapped := by
  unfold BitsMapped
  infer_instance

/-- The guard `!trivialStates.full() || !doneBuilding` of the search in `Order::above`. -/
def SearchEnabled (o : Order) : Prop := ¬ o.trivialStates.full ∨ ¬ o.doneBuilding

instance (o : Order) : Decidable o.SearchEnabled := by
  unfold SearchEnabled
  infer_instance

/-- A five-state order in which every state is sufficient, so that the last `add` sets
`doneBuilding`; then `addRelation(3, 4)` and `addRelation(2, 3)`: 3 is recorded above 4 and 2
above 3.  All states are trivial (empty decomposition). -/
def sampleDone : Except Fault Order := do
  let o ← ofStates 0 1 5 [] [] true false
  let o1 ← o.setSufficientForState 2
  let o2 ← o1.setSufficientForState 3
  let o3 ← o2.setSufficientForState 4
  let o4 ← o3.add 2
  let o5 ← o4.add 3
  let o6 ← o5.add 4
  let o7 ← o6.addRelation 3 4 false
  o7.addRelation 2 3 false

/-- The number of states the search of `Order::above` has not seen yet: the unset bits of
`statesSeen`. -/
def unseen (statesSeen : BitVector) : Nat :=
  ((List.range statesSeen.size).filter (fun i => !statesSeen.bits.testBit i)).length

/-- The node of state `x` has a member of `n1` in its `statesAbove`: the test
`aboveFast(node1, getNode(x))` of the search. -/
def Hit (o : Order) (n1 : Node) (x : Nat) : Prop :=
  ∃ nx, o.nodeOfState x = some nx ∧ ∃ s ∈ n1.states, nx.statesAbove.bits.testBit s = true

/-- A seven-state order: top state 0, bottom state 1, the states 2 to 6 added by `add`, then
`addRelation(5, 6)`, `addRelation(4, 5)`, `addRelation(3, 4)` and `addRelation(2, 3)`: each of
the states 2 to 5 is recorded directly above its successor only.  No state is marked sufficient,
so `doneBuilding` stays false. -/
def sampleLadder : Except Fault Order := do
  let o ← ofStates 0 1 7 [] [] true false
  let o1 ← o.add 2
  let o2 ← o1.add 3
  let o3 ← o2.add 4
  let o4 ← o3.add 5
  let o5 ← o4.add 6
  let o6 ← o5.addRelation 5 6 false
  let o7 ← o6.addRelation 4 5 false
  let o8 ← o7.addRelation 3 4 false
  o8.addRelation 2 3 false

/-- The sample base after `merge(2, 0)`, which moves the top state 0 into the node of state 2 and
leaves `top` pointing at the old top node, followed by `addToNode(3, getTop())`. -/
def sampleTopReused : Except Fault Order := do
  let o ← sampleBase
  let o1 ← o.merge 2 0
  o1.addToNode 3 o1.getTop

/-- One call of a modifying method of `Order`. -/
inductive Call where
  | add (state : Nat)
  | addAbove (state : Nat) (node : Ptr)
  | addBelow (state : Nat) (node : Ptr)
  | addBetweenNodes (state : Nat) (above below : Ptr)
  | addBetween (state above below : Nat)
  | addToNode (state : Nat) (node : Ptr)
  | addRelation (above below : Nat) (allowMerge : Bool)
  | merge (state1 state2 : Nat)
deriving DecidableEq, Repr

/-- Running one call on an order. -/
def run (o : Order) : Call → Except Fault Order
  | .add state => o.add state
  | .addAbove state node => o.addAbove state node
  | .addBelow state node => o.addBelow state node
  | .addBetweenNodes state above below => o.addBetweenNodes state above below
  | .addBetween state above below => o.addBetween state above below
  | .addToNode state node => o.addToNode state node
  | .addRelation above below allowMerge => o.addRelation above below allowMerge
  | .merge state1 state2 => o.merge state1 state2

/-- Running a sequence of calls, one after the other. -/
def runAll (o : Order) : List Call → Except Fault Order
  | [] => .ok o
  | c :: cs => do
    let o1 ← o.run c
    runAll o1 cs

/-- The order `o1` has the states of `o`, at least its number of added states, and every state
that is mapped in `o` is mapped in `o1`. -/
def Grows (o o1 : Order) : Prop :=
  o1.numberOfStates = o.numberOfStates ∧ o.numberOfAddedStates ≤ o1.numberOfAddedStates ∧
    ∀ s k : Nat, o.nodes[s]? = some (some k) → ∃ k1 : Nat, o1.nodes[s]? = some (some k1)

/-- The outcome of the inner loop of the sort methods for one state: the state was put into the
result (inserted, or appended at the end), or its comparison with the element `other` of the
result was UNKNOWN. -/
inductive Placement where
  | placed (result : List Nat)
  | unknown (other : Nat)
deriving DecidableEq, Repr

/-- The inner loop `for (auto itr = result.begin(); itr != result.end(); ++itr)` of `sortStates`
and `sortStatesUnorderedPair`, followed by `if (!added) result.push_back(state)`; `front` holds
the elements the iterator has passed.  The value `hypothesis` stands for the default argument of
`compare(state, *itr)`, which the header declares. -/
def placeState (hypothesis : NodeComparison) (state : Nat) :
    Order → List Nat → List Nat → Except Fault (Placement × Order)
  | o, front, [] => .ok (.placed (front ++ [state]), o)
  | o, front, y :: rest => do
    let (compareRes, o1) ← o.compare state y hypothesis
    if compareRes = ABOVE ∨ compareRes = SAME then pure (.placed (front ++ state :: y :: rest), o1)
    else if compareRes = UNKNOWN then pure (.unknown y, o1)
    else placeState hypothesis state o1 (front ++ [y]) rest

/-- The loop `for (auto state : states)` of `Order::sortStatesUnorderedPair` and the statements
after it; `total` is `numberOfStatesToSort`. -/
def sortPairLoop (hypothesis : NodeComparison) (total : Nat) :
    Order → List Nat → List Nat → Except Fault (((Nat × Nat) × List Nat) × Order)
  | o, result, [] =>
    if result.length = total then .ok (((o.numberOfStates, o.numberOfStates), result), o)
    else .error .assertion
  | o, result, state :: rest =>
    if result.length = 0 then sortPairLoop hypothesis total o (result ++ [state]) rest
    else do
      let (placement, o1) ← placeState hypothesis state o [] result
      match placement with
      | .placed r => sortPairLoop hypothesis total o1 r rest
      | .unknown other => pure (((other, state), result), o1)

/-- The method `Order::sortStatesUnorderedPair`. -/
def sortStatesUnorderedPair (o : Order) (hypothesis : NodeComparison) (states : List Nat) :
    Except Fault (((Nat × Nat) × List Nat) × Order) :=
  sortPairLoop hypothesis states.length o [] states

/-- The loop `for (auto state : states)` of `Order::sortStates`, which is left at the first
UNKNOWN comparison. -/
def sortLoop (hypothesis : NodeComparison) :
    Order → List Nat → List Nat → Except Fault (List Nat × Order)
  | o, result, [] => .ok (result, o)
  | o, result, state :: rest =>
    if result.length = 0 then sortLoop hypothesis o (result ++ [state]) rest
    else do
      let (placement, o1) ← placeState hypothesis state o [] result
      match placement with
      | .placed r => sortLoop hypothesis o1 r rest
      | .unknown _ => pure (result, o1)

/-- The method `Order::sortStates`: the result of the loop is filled up with `numberOfStates`
to the length of the input. -/
def sortStates (o : Order) (hypothesis : NodeComparison) (states : List Nat) :
    Except Fault (List Nat × Order) :=
  if ¬ (states.length > 0) then .error .assertion
  else do
    let (result, o1) ← sortLoop hypothesis o [] states
    let filled := result ++ List.replicate (states.length - result.length) o1.numberOfStates
    if filled.length = states.length then pure (filled, o1) else .error .assertion

/-- The fast comparison of `x` with `y` answers ABOVE or SAME. -/
def FastGeq (o : Order) (x y : Nat) : Prop :=
  o.compareFast x y UNKNOWN = Except.ok ABOVE ∨ o.compareFast x y UNKNOWN = Except.ok SAME

/-- The comparison of `x` with `y` answers ABOVE or SAME and leaves the order as it is. -/
def Descends (o : Order) (x y : Nat) : Prop :=
  o.compare x y UNKNOWN = Except.ok (ABOVE, o) ∨ o.compare x y UNKNOWN = Except.ok (SAME, o)

/-- The member sets of the allocated nodes, by address. -/
def memberLists (o : Order) : List (List Nat) := o.heap.map (fun n => n.states)

/-- The orders `o` and `o1` have the same state-to-node mapping and the same member sets. -/
def SameShape (o o1 : Order) : Prop := o1.nodes = o.nodes ∧ o1.memberLists = o.memberLists

/-- The calls that the amended partition invariant admits: `addToNode` is given a node that some
state is mapped to; the other calls are not restricted. -/
def Admissible (o : Order) : Call → Prop
  | .addToNode _ node => ∃ k, node = some k ∧ o.IsMapped k
  | _ => True

/-- The orders that arise from a constructor by admissible calls and by `copy`. -/
inductive Reachable : Order → Prop where
  | ofBitVectors {topStates bottomStates : BitVector} {numberOfStates : Nat}
      {decomposition : List (List Nat)} {statesSorted : List Nat}
      {isOptimistic doneBuilding : Bool} {o : Order} :
      ofBitVectors topStates bottomStates numberOfStates decomposition statesSorted isOptimistic
        doneBuilding = Except.ok o → Reachable o
  | ofStates {topState bottomState numberOfStates : Nat} {decomposition : List (List Nat)}
      {statesSorted : List Nat} {isOptimistic doneBuilding : Bool} {o : Order} :
      ofStates topState bottomState numberOfStates decomposition statesSorted isOptimistic
        doneBuilding = Except.ok o → Reachable o
  | call {o o1 : Order} {c : Call} :
      Reachable o → o.Admissible c → o.run c = Except.ok o1 → Reachable o1
  | copy {o c : Order} {uninitTop uninitBottom : Ptr} :
      Reachable o → o.copy uninitTop uninitBottom = Except.ok c → Reachable c

/-- The invariant of the loops of `Order::copy` for the copy `c` under construction: every
mapped state has been seen and is a member of its node, and every member of a node is mapped to
that node. -/
def CopyInv (c : Order) (seenStates : BitVector) : Prop :=
  (∀ i p : Nat, c.nodes[i]? = some (some p) →
    seenStates.bits.testBit i = true ∧ ∃ l, c.memberLists[p]? = some l ∧ i ∈ l) ∧
  (∀ (p : Nat) (l : List Nat) (j : Nat), c.memberLists[p]? = some l → j ∈ l →
    c.nodes[j]? = some (some p))

/-- The sample base after `merge(2, 0)`: states 0 and 2 share the node at address 2. -/
def sampleMerged : Except Fault Order := do
  let o ← sampleBase
  o.merge 2 0

/-- The merged sample after `addToNode(3, getNode(2))`. -/
def sampleJoined : Except Fault Order := do
  let o ← sampleMerged
  o.addToNode 3 (some 2)

/-- A copy of the joined sample. -/
def sampleJoinedCopy : Except Fault Order := do
  let o ← sampleJoined
  o.copy none none

/-! ## The scheduler of an order -/

/-- The value `std::numeric_limits<uint64_t>::max()`, which marks a state without an action. -/
def uint64Max : Nat := 2 ^ 64 - 1

/-- The method `Order::addToMdpScheduler`. -/
def addToMdpScheduler (o : Order) (state action : Nat) : Except Fault Order :=
  let scheduler : List Nat :=
    match o.mdpScheduler with
    | none => List.replicate o.numberOfStates uint64Max
    | some v => v
  if state < scheduler.length then .ok { o with mdpScheduler := some (scheduler.set state action) }
  else .error .undefined

/-- The method `Order::getActionAtState`. -/
def getActionAtState (o : Order) (state : Nat) : Except Fault Nat :=
  match o.mdpScheduler with
  | none => .ok 0
  | some v =>
    if v.length > state then
      match v[state]? with
      | some a => .ok a
      | none => .error .undefined
    else .error .assertion

/-- The method `Order::isActionSetAtState`. -/
def isActionSetAtState (o : Order) (state : Nat) : Bool :=
  match o.mdpScheduler with
  | none => false
  | some v =>
    if state ≥ v.length then false
    else
      match v[state]? with
      | some a => decide (a ≠ uint64Max)
      | none => false

end Order

namespace BitVector

/-- The operator `a & b`; both vectors must have the same size. -/
def andWith (a b : BitVector) : Except Fault BitVector :=
  if a.size = b.size then .ok ⟨a.size, a.bits &&& b.bits⟩ else .error .assertion

end BitVector

/-! ## `storm::analysis::ReachabilityOrderExtender` and `ReachabilityOrderExtenderMdp` -/

/-- The enumeration `ActionComparison` of `ReachabilityOrderExtenderMdp`. -/
inductive ActionComparison where
  | GEQ
  | LEQ
  | UNKNOWN
deriving DecidableEq, Repr

/-- A query as the extender hands it to the SMT solver.  Values of type `V` are the entries of
the transition matrix (rational functions) and `R` is the type of parameter regions. -/
inductive SmtQuery (V R : Type) where
  /-- The query of `isFunctionGreaterEqual`: `f1 < f2` with the parameters inside `region`. -/
  | functionLess (f1 f2 : V) (region : R)
  /-- The query of `actionSMTCompare`: the weighted sum of `action1` is smaller than that of
  `action2`, where every state of `occSuccs` has a value in (0, 1), the value of each state is
  equal to that of its predecessor in `occSuccs` if the entry of `same` says so and smaller if
  not, and the parameters are inside `region`. -/
  | actionLess (occSuccs : List Nat) (same : List Bool) (action1 action2 : List (Nat × V))
      (region : R)

/-- The members of the extender classes that the methods below read; their declarations are in
headers outside this development, so they are parameters.  A row of the matrix is the list of its
entries (column, value).  The field `isUnsat` stands for `Z3SmtSolver::check() == Unsat`. -/
structure ReachabilityOrderExtender (V R : Type) where
  numberOfStates : Nat
  prMax : Bool
  stateMap : List (List (List Nat))
  getRowCount : Nat
  getRowGroupSize : Nat → Nat
  getRowGroupIndices : Nat → Nat
  getRow : Nat → List (Nat × V)
  getSuccessors : Nat → Order → List Nat
  isUnsat : SmtQuery V R → Bool

namespace ReachabilityOrderExtender

variable {V R : Type}

/-- The method `ReachabilityOrderExtender::handleOneSuccessor`. -/
def handleOneSuccessor (o : Order) (currentState successor : Nat) : Except Fault Order :=
  if ¬ o.contains successor then .error .assertion
  else if currentState ≠ successor then
    if o.contains currentState then o.merge currentState successor
    else do
      let node ← o.getNode successor
      o.addToNode currentState node
  else .ok o

/-- The branch of `extendByBackwardReasoning` for `compare(highest, lowest) == SAME`. -/
def placeTie (o : Order) (currentState highest : Nat) : Except Fault Order :=
  if ¬ o.contains currentState then do
    let node ← o.getNode highest
    o.addToNode currentState node
  else o.merge currentState highest

/-- The statement `if (!order->contains(sortedSuccs[0])) { ... addAbove(sortedSuccs[0],
order->getBottom()); }` of `extendByBackwardReasoning`. -/
def placeHighest (o : Order) (highest lowest size : Nat) : Except Fault Order :=
  if ¬ o.contains highest then do
    let isBottom ← o.isBottomState lowest
    if ¬ isBottom then .error .assertion
    else if ¬ (size = 2) then .error .assertion
    else o.addAbove highest o.getBottom
  else .ok o

/-- The statement `if (!order->contains(sortedSuccs[sortedSuccs.size() - 1])) { ...
addBelow(sortedSuccs[sortedSuccs.size() - 1], order->getTop()); }` of
`extendByBackwardReasoning`. -/
def placeLowest (o : Order) (highest lowest size : Nat) : Except Fault Order :=
  if ¬ o.contains lowest then do
    let isTop ← o.isTopState highest
    if ¬ isTop then .error .assertion
    else if ¬ (size = 2) then .error .assertion
    else o.addBelow lowest o.getTop
  else .ok o

/-- The branch of `extendByBackwardReasoning` for `compare(highest, lowest) != SAME`. -/
def placeStrict (o : Order) (currentState highest lowest size : Nat) : Except Fault Order := do
  let o1 ← placeHighest o highest lowest size
  let o2 ← placeLowest o1 highest lowest size
  if ¬ o2.contains currentState then o2.addBetween currentState highest lowest
  else do
    let o3 ← o2.addRelation highest currentState false
    o3.addRelation currentState lowest false

/-- The condition of the assertion that ends `extendByBackwardReasoning` and
`extendByForwardReasoning`: `order->contains(currentState) &&
order->compare(order->getNode(currentState), order->getBottom()) == Order::ABOVE &&
order->compare(order->getNode(currentState), order->getTop()) == Order::BELOW`. -/
def strictlyBetweenSentinels (hypothesis : NodeComparison) (o : Order) (currentState : Nat) :
    Except Fault (Bool × Order) :=
  if ¬ o.contains currentState then .ok (false, o)
  else do
    let node ← o.getNode currentState
    let (c1, o1) ← o.compareNodes node o.getBottom hypothesis
    if ¬ (c1 = ABOVE) then pure (false, o1)
    else do
      let node1 ← o1.getNode currentState
      let (c2, o2) ← o1.compareNodes node1 o1.getTop hypothesis
      pure (decide (c2 = BELOW), o2)

/-- The part of `extendByBackwardReasoning` after the successors were sorted without an
unresolved pair. -/
def placeSorted (hypothesis : NodeComparison) (numberOfStates : Nat) (o : Order)
    (currentState : Nat) (sortedSuccs : List Nat) : Except Fault ((Nat × Nat) × Order) := do
  let highest ←
    match sortedSuccs[0]? with
    | some s => Except.ok s
    | none => Except.error Fault.undefined
  let lowest ←
    match sortedSuccs[sortedSuccs.length - 1]? with
    | some s => Except.ok s
    | none => Except.error Fault.undefined
  let (c, o1) ← o.compare highest lowest hypothesis
  let o2 ←
    (if c = SAME then placeTie o1 currentState highest
     else placeStrict o1 currentState highest lowest sortedSuccs.length)
  let (ok, o3) ← strictlyBetweenSentinels hypothesis o2 currentState
  if ¬ ok then .error .assertion
  else pure ((numberOfStates, numberOfStates), o3)

/-- The method `ReachabilityOrderExtender::extendByBackwardReasoning`.  The value `hypothesis`
stands for the default argument of `Order::compare`, which the header declares. -/
def extendByBackwardReasoning (ext : ReachabilityOrderExtender V R) (hypothesis : NodeComparison)
    (o : Order) (_region : R) (currentState : Nat) : Except Fault ((Nat × Nat) × Order) := do
  let successors := ext.getSuccessors currentState o
  let ((pair, sortedSuccs), o1) ← o.sortStatesUnorderedPair hypothesis successors
  if pair.1 ≠ ext.numberOfStates then pure (pair, o1)
  else placeSorted hypothesis ext.numberOfStates o1 currentState sortedSuccs

/-- The method `ReachabilityOrderExtenderMdp::isFunctionGreaterEqual`: the solver is asked
whether `f1 < f2` can hold inside the region. -/
def isFunctionGreaterEqual (ext : ReachabilityOrderExtender V R) (f1 f2 : V) (region : R) : Bool :=
  ext.isUnsat (.functionLess f1 f2 region)

/-- The inner loop `for (uint64_t i = 0; i < orderedSuccs.size(); i++)` of `getHitSuccs`. -/
def hitPositions (succ : Nat) (orderedSuccs : List Nat) :
    BitVector → List Nat → Except Fault BitVector
  | res, [] => .ok res
  | res, i :: rest =>
    if orderedSuccs[i]? = some succ then do
      let res1 ← res.set i
      hitPositions succ orderedSuccs res1 rest
    else hitPositions succ orderedSuccs res rest

/-- The method `ReachabilityOrderExtenderMdp::getHitSuccs`. -/
def getHitSuccs (ext : ReachabilityOrderExtender V R) (state action : Nat)
    (orderedSuccs : List Nat) : Except Fault BitVector := do
  let actions ←
    match ext.stateMap[state]? with
    | some a => Except.ok a
    | none => Except.error Fault.undefined
  let succs ←
    match actions[action]? with
    | some s => Except.ok s
    | none => Except.error Fault.undefined
  succs.foldlM
    (fun (res : BitVector) (succ : Nat) =>
      hitPositions succ orderedSuccs res (List.range orderedSuccs.length))
    (BitVector.zeros orderedSuccs.length)

/-- The first loop of `simpleActionCheck`; `none` is the early `return std::make_pair(false,
0)`, and otherwise the loop yields `bestAct` (unassigned while `foundOne` is false), `foundOne`
and the table of hit sets. -/
def hitTable (ext : ReachabilityOrderExtender V R) (state : Nat) (orderedSuccs : List Nat) :
    List Nat → Option Nat → Bool → List BitVector →
      Except Fault (Option (Option Nat × Bool × List BitVector))
  | [], bestAct, foundOne, bitVecTable => .ok (some (bestAct, foundOne, bitVecTable))
  | i :: rest, bestAct, foundOne, bitVecTable => do
    let hitSuccs ← ext.getHitSuccs state i orderedSuccs
    let hit ← hitSuccs.get 0
    if hit then
      if foundOne then pure none
      else hitTable ext state orderedSuccs rest (some i) true (bitVecTable.set i hitSuccs)
    else hitTable ext state orderedSuccs rest bestAct foundOne (bitVecTable.set i hitSuccs)

/-- The second loop of `simpleActionCheck`: the union of the hit sets of the other actions. -/
def otherHits (bestAct : Nat) (bitVecTable : List BitVector) :
    BitVector → List Nat → Except Fault BitVector
  | others, [] => .ok others
  | others, i :: rest =>
    if i ≠ bestAct then
      match bitVecTable[i]? with
      | some b => do
        let others1 ← others.orAssign b
        otherHits bestAct bitVecTable others1 rest
      | none => .error .undefined
    else otherHits bestAct bitVecTable others rest

/-- The method `ReachabilityOrderExtenderMdp::simpleActionCheck`. -/
def simpleActionCheck (ext : ReachabilityOrderExtender V R) (state : Nat)
    (orderedSuccs : List Nat) : Except Fault (Bool × Nat) := do
  let actions ←
    match ext.stateMap[state]? with
    | some a => Except.ok a
    | none => Except.error Fault.undefined
  let noa := actions.length
  let table ← hitTable ext state orderedSuccs (List.range noa) none false
    (List.replicate noa (BitVector.zeros 0))
  match table with
  | none => pure (false, 0)
  | some (bestActOpt, _, bitVecTable) =>
    -- `bestAct` is read here; it is uninitialised if no action hit position 0
    match bestActOpt with
    | none => .error .undefined
    | some bestAct =>
      match bitVecTable[bestAct]? with
      | none => .error .undefined
      | some candidate => do
        let others ← otherHits bestAct bitVecTable (BitVector.zeros orderedSuccs.length)
          (List.range noa)
        let both ← candidate.andWith others
        if both.empty then pure (true, bestAct) else pure (false, 0)

/-- The loop `for (uint_fast64_t i = 0; i < occSuccs.size(); i++)` of `actionSMTCompare` from
its second iteration on: the comparison of each state with the state before it. -/
def stateRelations (hypothesis : NodeComparison) :
    Order → Nat → List Nat → Except Fault (List Bool × Order)
  | o, _, [] => .ok ([], o)
  | o, previous, s :: rest => do
    let (c, o1) ← o.compare s previous hypothesis
    let (same, o2) ← stateRelations hypothesis o1 s rest
    pure (decide (c = SAME) :: same, o2)

/-- The loop `for (uint_fast64_t i = 0; i < occSuccs.size(); i++)` of `actionSMTCompare`; its
first iteration compares nothing. -/
def occRelations (hypothesis : NodeComparison) (o : Order) :
    List Nat → Except Fault (List Bool × Order)
  | [] => .ok ([], o)
  | s :: rest => stateRelations hypothesis o s rest

/-- The method `ReachabilityOrderExtenderMdp::actionSMTCompare`.  The declaration of the
variables and the translation of the sums are the work of the expression library; the query
records what they are built from. -/
def actionSMTCompare (ext : ReachabilityOrderExtender V R) (hypothesis : NodeComparison)
    (o : Order) (orderedSuccs : List Nat) (region : R) (action1 action2 : List (Nat × V)) :
    Except Fault (ActionComparison × Order) := do
  let occSuccs := orderedSuccs.filter
    (fun a => decide (a ∈ action1.map Prod.fst) || decide (a ∈ action2.map Prod.fst))
  let (same, o1) ← occRelations hypothesis o occSuccs
  if ext.isUnsat (.actionLess occSuccs same action1 action2 region) then
    pure (ActionComparison.GEQ, o1)
  else if ext.isUnsat (.actionLess occSuccs same action2 action1 region) then
    pure (ActionComparison.LEQ, o1)
  else pure (ActionComparison.UNKNOWN, o1)

/-- The loop `for (uint_fast64_t i = 0; i < candidates.size(); i++)` of `findBestAction` for
the action `index`: a candidate for which the comparison answers `drop` is erased, and the
answer `out` clears the flag `in`.  The number `fuel` bounds the iterations; the loop needs at
most `candidates.size()` of them. -/
def compareWithCandidates (ext : ReachabilityOrderExtender V R) (hypothesis : NodeComparison)
    (orderedSuccs : List Nat) (region : R) (state index : Nat) (drop out : ActionComparison) :
    Nat → Nat → List Nat → Bool → Order → Except Fault (List Nat × Bool × Order)
  | 0, i, candidates, isIn, o =>
    if i < candidates.length then .error .fuel else .ok (candidates, isIn, o)
  | fuel + 1, i, candidates, isIn, o =>
    if i < candidates.length then
      match candidates[i]? with
      | none => .error .undefined
      | some candidate => do
        let rowA := ext.getRow (ext.getRowGroupIndices state + index)
        let rowB := ext.getRow (ext.getRowGroupIndices state + candidate)
        let (compRes, o1) ← ext.actionSMTCompare hypothesis o orderedSuccs region rowA rowB
        if compRes = drop then
          compareWithCandidates ext hypothesis orderedSuccs region state index drop out fuel
            (i + 1) (candidates.eraseIdx i) isIn o1
        else if compRes = out then
          compareWithCandidates ext hypothesis orderedSuccs region state index drop out fuel
            (i + 1) candidates false o1
        else
          compareWithCandidates ext hypothesis orderedSuccs region state index drop out fuel
            (i + 1) candidates isIn o1
    else .ok (candidates, isIn, o)

/-- The loop `while (index < numberOfOptionsForState)` of the candidate elimination of
`findBestAction`. -/
def eliminateCandidates (ext : ReachabilityOrderExtender V R) (hypothesis : NodeComparison)
    (orderedSuccs : List Nat) (region : R) (state : Nat) (drop out : ActionComparison) :
    List Nat → List Nat → Order → Except Fault (List Nat × Order)
  | [], candidates, o => .ok (candidates, o)
  | index :: rest, candidates, o => do
    let (candidates1, isIn, o1) ←
      compareWithCandidates ext hypothesis orderedSuccs region state index drop out
        candidates.length 0 candidates true o
    eliminateCandidates ext hypothesis orderedSuccs region state drop out rest
      (if isIn then candidates1 ++ [index] else candidates1) o1

/-- The branch `if (prMax)` of `findBestAction`; the result is the value of `bestAct`. -/
def bestActionMax (ext : ReachabilityOrderExtender V R) (hypothesis : NodeComparison)
    (o : Order) (region : R) (state : Nat) (orderedSuccs : List Nat) :
    Except Fault (Nat × Order) := do
  let simpleCheckResult ← ext.simpleActionCheck state orderedSuccs
  if simpleCheckResult.1 = true then pure (simpleCheckResult.2, o)
  else do
    let (candidates, o1) ←
      ext.eliminateCandidates hypothesis orderedSuccs region state ActionComparison.GEQ
        ActionComparison.LEQ (List.range (ext.getRowGroupSize state)) [] o
    if candidates.length = 1 then
      match candidates[0]? with
      | some a => pure (a, o1)
      | none => .error .undefined
    else .error .assertion

/-- The loop `while (index < numberOfOptionsForState)` of the branch `nrOfSuccs == 2` of
`findBestAction`.  The row is `getRow(getRowGroupIndices()[state])` in every iteration. -/
def bestOfTwoLoop (ext : ReachabilityOrderExtender V R) (region : R) (state bestSucc : Nat) :
    List Nat → Option V → Nat → Except Fault (Option V × Nat)
  | [], bestFunc, bestAct => .ok (bestFunc, bestAct)
  | index :: rest, bestFunc, bestAct =>
    let row := ext.getRow (ext.getRowGroupIndices state)
    let itr := row.find? (fun entry => decide (entry.1 = bestSucc))
    let update : Bool :=
      match bestFunc with
      | none => true
      | some f =>
        match itr with
        | none => false
        | some entry => ext.isFunctionGreaterEqual f entry.2 region
    if update then
      match itr with
      | none => .error .undefined
      | some entry => bestOfTwoLoop ext region state bestSucc rest (some entry.2) index
    else bestOfTwoLoop ext region state bestSucc rest bestFunc bestAct

/-- The branch `else` (PrMin) of `findBestAction`; the result is the value of `bestAct`. -/
def bestActionMin (ext : ReachabilityOrderExtender V R) (hypothesis : NodeComparison)
    (o : Order) (region : R) (state : Nat) (orderedSuccs : List Nat) (bestAct : Nat) :
    Except Fault (Nat × Order) :=
  if orderedSuccs.length = 2 then
    match orderedSuccs[1]? with
    | none => .error .undefined
    | some bestSucc => do
      let (_, best) ←
        ext.bestOfTwoLoop region state bestSucc (List.range (ext.getRowGroupSize state)) none
          bestAct
      pure (best, o)
  else do
    let revOrderedSuccs := orderedSuccs
    let reversed := orderedSuccs.reverse
    let simpleCheckResult ← ext.simpleActionCheck state revOrderedSuccs
    if simpleCheckResult.1 = true then pure (simpleCheckResult.2, o)
    else do
      let (candidates, o1) ←
        ext.eliminateCandidates hypothesis reversed region state ActionComparison.LEQ
          ActionComparison.GEQ (List.range (ext.getRowGroupSize state)) [] o
      if candidates.length = 1 then
        match candidates[0]? with
        | some a => pure (a, o1)
        | none => .error .undefined
      else pure (bestAct, o1)

/-- The statements of `findBestAction` after the tests for a state whose action is known. -/
def chooseAction (ext : ReachabilityOrderExtender V R) (hypothesis : NodeComparison)
    (o : Order) (region : R) (state : Nat) : Except Fault (Bool × Order) := do
  let bestAct := ext.getRowCount
  let successors := ext.getSuccessors state o
  let (orderedSuccs, o1) ← o.sortStates hypothesis successors
  match orderedSuccs.getLast? with
  | none => .error .undefined
  | some last =>
    if last = ext.numberOfStates then pure (false, o1)
    else do
      let (best, o2) ←
        (if ext.prMax then ext.bestActionMax hypothesis o1 region state orderedSuccs
         else ext.bestActionMin hypothesis o1 region state orderedSuccs bestAct)
      if best ≠ ext.getRowCount then do
        let o3 ← o2.addToMdpScheduler state best
        pure (true, o3)
      else pure (false, o2)

/-- The method `ReachabilityOrderExtenderMdp::findBestAction`. -/
def findBestAction (ext : ReachabilityOrderExtender V R) (hypothesis : NodeComparison)
    (o : Order) (region : R) (state : Nat) : Except Fault (Bool × Order) :=
  if o.isActionSetAtState state then .ok (true, o)
  else
    match ext.stateMap[state]? with
    | none => .error .undefined
    | some actions =>
      if actions.length = 1 then do
        let o1 ← o.addToMdpScheduler state 0
        pure (true, o1)
      else do
        let isTop ← o.isTopState state
        if isTop then do
          let o1 ← o.addToMdpScheduler state 0
          pure (true, o1)
        else do
          let isBottom ← o.isBottomState state
          if isBottom then do
            let o1 ← o.addToMdpScheduler state 0
            pure (true, o1)
          else ext.chooseAction hypothesis o region state

end ReachabilityOrderExtender

namespace Order

end Order

/-! ## Sample models for the examples -/

namespace ReachabilityOrderExtender

/-- The weight of an action with constant entries on the successor `s`. -/
def sampleWeight (action : List (Nat × Nat)) (s : Nat) : Nat :=
  ((action.filter (fun entry => decide (entry.1 = s))).map Prod.snd).sum

/-- The solver of the examples, which is exact for matrices with constant entries.  For two
constants, `f1 < f2` cannot hold exactly if `f2 ≤ f1`.  For two actions, the states of `occSuccs`
are listed from the highest value to the lowest; the sum of `action1` can be smaller than that of
`action2` exactly if, at some position after which the value drops, the weights that `action1`
has put on the states so far add up to less than those of `action2`. -/
def sampleIsUnsat : SmtQuery Nat Unit → Bool
  | .functionLess f1 f2 _ => decide (f2 ≤ f1)
  | .actionLess occSuccs same action1 action2 _ =>
    (List.range occSuccs.length).all (fun i =>
      same.getD i false ||
        decide ((((occSuccs.take (i + 1)).map (sampleWeight action2)).sum)
          ≤ (((occSuccs.take (i + 1)).map (sampleWeight action1)).sum)))

/-- An extender for a model with constant entries, given by the row group indices and the rows
of its matrix; the successors of a state are the columns of its rows in increasing order. -/
def sampleExtender (prMax : Bool) (numberOfStates : Nat) (rowGroupIndices : List Nat)
    (rows : List (List (Nat × Nat))) : ReachabilityOrderExtender Nat Unit where
  numberOfStates := numberOfStates
  prMax := prMax
  stateMap :=
    (List.range numberOfStates).map (fun s =>
      (List.range (rowGroupIndices.getD (s + 1) 0 - rowGroupIndices.getD s 0)).map (fun a =>
        (rows.getD (rowGroupIndices.getD s 0 + a) []).map Prod.fst))
  getRowCount := rows.length
  getRowGroupSize := fun s => rowGroupIndices.getD (s + 1) 0 - rowGroupIndices.getD s 0
  getRowGroupIndices := fun s => rowGroupIndices.getD s 0
  getRow := fun r => rows.getD r []
  getSuccessors := fun s _ =>
    setInsertAll
      (((List.range (rowGroupIndices.getD (s + 1) 0 - rowGroupIndices.getD s 0)).map (fun a =>
        (rows.getD (rowGroupIndices.getD s 0 + a) []).map Prod.fst)).flatten) []
  isUnsat := sampleIsUnsat

/-- A model with three states for the order with top state 0 and bottom state 1, minimising:
state 2 has two actions, the first goes to the bottom state with weight 9 of 10, the second with
weight 1 of 10. -/
def sampleMdpMin : ReachabilityOrderExtender Nat Unit :=
  sampleExtender false 3 [0, 1, 2, 4]
    [[(0, 10)], [(1, 10)], [(0, 1), (1, 9)], [(0, 9), (1, 1)]]

/-- A model with four states for the sample base order (top state 0, then state 2, then bottom
state 1), maximising: state 3 has three actions; action 0 goes to the states 0 and 1 with equal
weight, action 1 to state 2, and action 2 to state 0. -/
def sampleMdpMax : ReachabilityOrderExtender Nat Unit :=
  sampleExtender true 4 [0, 1, 2, 3, 6]
    [[(0, 2)], [(1, 2)], [(0, 1), (1, 1)], [(0, 1), (1, 1)], [(2, 2)], [(0, 2)]]

/-- A model with four states for the sample base order, maximising: state 3 has two actions;
action 0 goes to the states 0 and 1 with equal weight and action 1 to state 2. -/
def sampleMdpInterleaved : ReachabilityOrderExtender Nat Unit :=
  sampleExtender true 4 [0, 1, 2, 3, 5]
    [[(0, 2)], [(1, 2)], [(0, 1), (1, 1)], [(0, 1), (1, 1)], [(2, 2)]]

/-- A model with four states for the sample base order: state 3 has two actions, neither of
which is at least as good as the other for all values of the states; action 0 goes to state 0
with weight 3 of 4 and to state 1 with weight 1 of 4, action 1 to the states 0 and 2 with equal
weight. -/
def sampleMdpUndecided (prMax : Bool) : ReachabilityOrderExtender Nat Unit :=
  sampleExtender prMax 4 [0, 1, 2, 3, 5]
    [[(0, 4)], [(1, 4)], [(0, 2), (1, 2)], [(0, 3), (1, 1)], [(0, 2), (2, 2)]]

end ReachabilityOrderExtender

namespace Order

end Order

namespace Order

/-- A five-state order: top state 0, bottom state 1, and the states 2 and 3 added by `add`; state
4 is not in the order. -/
def sampleOpen : Except Fault Order := do
  let o ← ofStates 0 1 5 [] [] true false
  let o1 ← o.add 2
  o1.add 3

end Order

namespace ReachabilityOrderExtender

/-- A model with five states in which state 4 goes to the states given by `row`, and every other
state has one action. -/
def sampleDtmc (row : List (Nat × Nat)) : ReachabilityOrderExtender Nat Unit :=
  sampleExtender false 5 [0, 1, 2, 3, 4, 5]
    [[(0, 2)], [(1, 2)], [(0, 1), (1, 1)], [(0, 1), (1, 1)], row]

end ReachabilityOrderExtender

namespace Order

/-- The order after an unmapped state was put into the allocated node `k`, whose content was
`n`: the state is a member of the node and mapped to it, and the counters are updated. -/
def attached (o : Order) (state k : Nat) (n : Node) : Order :=
  updateDoneBuilding
    { o with
      heap := o.heap.set k { n with states := setInsert state n.states }
      nodes := o.nodes.set state (some k)
      numberOfAddedStates := o.numberOfAddedStates + 1 }

/-- The order with top state 0 and bottom state 1 after `addToNode(2, getTop())`: the states 0
and 2 are in the top node; state 3 is not in the order. -/
def sampleTopPair : Except Fault Order := do
  let o ← ofStates 0 1 4 [] [] true false
  o.addToNode 2 o.getTop

/-- A five-state order: top state 0, bottom state 1, state 2 added by `add`, and state 3 put
into the node of state 2; state 4 is not in the order. -/
def sampleTied : Except Fault Order := do
  let o ← ofStates 0 1 5 [] [] true false
  let o1 ← o.add 2
  let p ← o1.getNode 2
  o1.addToNode 3 p

end Order

namespace ReachabilityOrderExtender

/-- A model with four states in which state 3 goes to the states given by `row`, and every other
state has one action. -/
def sampleDtmcFour (row : List (Nat × Nat)) : ReachabilityOrderExtender Nat Unit :=
  sampleExtender false 4 [0, 1, 2, 3, 4] [[(0, 2)], [(1, 2)], [(0, 2)], row]

end ReachabilityOrderExtender

namespace Order

/-- The nodes that have a state mapped to them. -/
def mappedNodes (o : Order) : Finset Nat := (o.nodes.filterMap id).toFinset

/-- Well-formed orders: the order is valid, satisfies the partition invariant, every bit of a
`statesAbove` belongs to a mapped state, and `bottom` is a node different from `top`. -/
def WellFormed (o : Order) : Prop :=
  o.Valid ∧ o.Partition ∧ o.BitsMapped ∧ o.bottom ≠ none ∧ o.top ≠ o.bottom

instance (o : Order) : Decidable o.WellFormed := by
  unfold WellFormed
  infer_instance

/-- The result of a merge on a well-formed order: it stops at an assertion, or returns a
well-formed order in which no further node is mapped. -/
def MergeResult (o : Order) (r : Except Fault Order) : Prop :=
  r = Except.error Fault.assertion ∨
    ∃ o1, r = Except.ok o1 ∧ o1.WellFormed ∧ o1.mappedNodes ⊆ o.mappedNodes ∧
      o1.numberOfStates = o.numberOfStates

/-- The sample base with action 1 chosen for state 2. -/
def sampleScheduled : Except Fault Order := do
  let o ← sampleBase
  o.addToMdpScheduler 2 1

end Order

namespace ReachabilityOrderExtender

/-- A model with four states for the sample base order (top state 0, then state 2, then bottom
state 1), minimising: state 3 has two actions; action 0 goes to the top state 0, action 1 goes to
the states 2 and 1 with equal weight. -/
def sampleMdpMinThree : ReachabilityOrderExtender Nat Unit :=
  sampleExtender false 4 [0, 1, 2, 3, 5]
    [[(0, 2)], [(1, 2)], [(0, 1), (1, 1)], [(0, 2)], [(1, 1), (2, 1)]]

end ReachabilityOrderExtender

namespace Order

end Order

/-! ## Monotonicity checking on samples (`MonotonicityHelper.cpp`) -/

namespace MonotonicityHelper

/-- The part of `storage::ParameterRegion` that `checkMonotonicityOnSamples` reads: the lower and
the upper boundary of every parameter.  The class is not among the sources; the coefficient type
of `RationalFunction` is the rational numbers. -/
structure ParameterRegion (Var : Type) where
  getLowerBoundary : Var → ℚ
  getUpperBoundary : Var → ℚ

/-- The valuation that `checkMonotonicityOnSamples` creates in iteration `i` of its loop for the
variable `itr` (the loop `for (auto itr2 = variables.begin(); ...)`): the entries
`valuation[*itr2]` in the order of the set `variables` (here `vars`). -/
def sampleValuation {Var : Type} [DecidableEq Var] (region : ParameterRegion Var)
    (vars : List Var) (itr : Var) (i numberOfSamples : Nat) : List (Var × ℚ) :=
  vars.map (fun itr2 =>
    if itr = itr2 then
      let lb := region.getLowerBoundary itr
      let ub := region.getUpperBoundary itr
      (itr2, lb + (i : ℚ) * (ub - lb) / ((numberOfSamples - 1 : Nat) : ℚ))
    else
      let lb := region.getLowerBoundary itr
      (itr2, lb))

/-- A region for two parameters: parameter 0 ranges over `[1/10, 9/10]`, parameter 1 over
`[3/10, 7/10]`. -/
def sampleRegion : ParameterRegion Nat where
  getLowerBoundary := fun v => if v = 0 then 1 / 10 else 3 / 10
  getUpperBoundary := fun v => if v = 0 then 9 / 10 else 7 / 10

end MonotonicityHelper

namespace Order

end Order

/-! ## The assumption search (`MonotonicityHelper::extendOrderWithAssumptions`) -/

/-- The enumeration `AssumptionStatus` of `AssumptionChecker.h`. -/
inductive AssumptionStatus where
  | VALID
  | INVALID
  | UNKNOWN
deriving DecidableEq, Repr

/-- What `extendOrderWithAssumptions` uses of classes that are not among the sources.  `A` is the
type of assumptions (`expressions::BinaryRelationExpression`), `M` the content of a
`MonotonicityResult` and `E` the state of the order extender.  An `Order` object is addressed by
its index in the list of all `Order` objects, which stands for a `std::shared_ptr<Order>`;
`extendOrder` may change the objects and returns the tuple `(order, val1, val2)`. -/
structure MonotonicityHelper (A M E : Type) where
  getNumberOfStates : Nat
  createAndCheckAssumptions : Nat → Nat → Order → List (A × AssumptionStatus)
  extendOrder : E → List Order → Nat → M → A →
    Except Fault (E × List Order × M × (Nat × Nat × Nat))
  copy : M → M
  isSomewhereMonotonicity : M → Bool
  getAddedStates : Order → BitVector

namespace MonotonicityHelper

variable {A M E : Type}

/-- The state that `extendOrderWithAssumptions` works on: the extender, the `Order` objects and
the member `monResults`, a map from `std::shared_ptr<Order>` to a pair of a monotonicity result
and a list of assumptions, here in the order of insertion. -/
structure Search (A M E : Type) where
  extender : E
  orders : List Order
  monResults : List (Nat × M × List A)

/-- The call `monResults.insert(...)`: `std::map::insert` leaves an existing entry as it is. -/
def insertResult (w : Search A M E) (order : Nat) (monRes : M) (assumptions : List A) :
    Search A M E :=
  if w.monResults.any (fun r => decide (r.1 = order)) then w
  else { w with monResults := w.monResults ++ [(order, monRes, assumptions)] }

/-- The statement `if (monRes->isSomewhereMonotonicity()) extendOrderWithAssumptions(...)` that
follows a call of `extendOrder`; `recurse` is the recursive call, which returns the state and the
content of the monotonicity result it was given. -/
def recurseWhen (h : MonotonicityHelper A M E)
    (recurse : Search A M E → Nat → Nat → Nat → List A → M → Except Fault (Search A M E × M))
    (w : Search A M E) (criticalTuple : Nat × Nat × Nat) (assumptions : List A) (monRes : M) :
    Except Fault (Search A M E × M) :=
  if h.isSomewhereMonotonicity monRes then
    recurse w criticalTuple.1 criticalTuple.2.1 criticalTuple.2.2 assumptions monRes
  else .ok (w, monRes)

/-- The loop `while (itr != newAssumptions.end())` of `extendOrderWithAssumptions` for the order
object `order`.  The result holds the state, the local variable `assumptions` and the content of
the object `monRes` after the loop. -/
def exploreCandidates (h : MonotonicityHelper A M E)
    (recurse : Search A M E → Nat → Nat → Nat → List A → M → Except Fault (Search A M E × M))
    (order : Nat) :
    Search A M E → List A → M → List (A × AssumptionStatus) →
      Except Fault (Search A M E × List A × M)
  | w, assumptions, monRes, [] => .ok (w, assumptions, monRes)
  | w, assumptions, monRes, assumption :: rest =>
    if assumption.2 ≠ AssumptionStatus.INVALID then
      if rest.length ≠ 0 then do
        -- `auto orderCopy = std::shared_ptr<Order>(order);` is a second pointer to the object
        let orderCopy := order
        let assumptionsCopy :=
          if assumption.2 = AssumptionStatus.UNKNOWN then assumptions ++ [assumption.1]
          else assumptions
        let monResCopy := h.copy monRes
        let (e1, orders1, monResCopy1, criticalTuple) ←
          h.extendOrder w.extender w.orders orderCopy monResCopy assumption.1
        let (w2, _) ←
          h.recurseWhen recurse { w with extender := e1, orders := orders1 } criticalTuple
            assumptionsCopy monResCopy1
        exploreCandidates h recurse order w2 assumptions monRes rest
      else do
        let assumptions1 :=
          if assumption.2 = AssumptionStatus.UNKNOWN then assumptions ++ [assumption.1]
          else assumptions
        let (e1, orders1, monRes1, criticalTuple) ←
          h.extendOrder w.extender w.orders order monRes assumption.1
        let (w2, monRes2) ←
          h.recurseWhen recurse { w with extender := e1, orders := orders1 } criticalTuple
            assumptions1 monRes1
        exploreCandidates h recurse order w2 assumptions1 monRes2 rest
    else exploreCandidates h recurse order w assumptions monRes rest

/-- The method `MonotonicityHelper::extendOrderWithAssumptions`; `fuel` bounds the depth of its
recursion.  The result holds the state and the content of the object `monRes`. -/
def extendOrderWithAssumptions (h : MonotonicityHelper A M E) :
    Nat → Search A M E → Nat → Nat → Nat → List A → M → Except Fault (Search A M E × M)
  | 0, _, _, _, _, _, _ => .error .fuel
  | fuel + 1, w, order, val1, val2, assumptions, monRes =>
    match w.orders[order]? with
    | none => .error .undefined
    | some o =>
      if val1 = h.getNumberOfStates ∨ val2 = h.getNumberOfStates then
        if ¬ (val1 = val2) then .error .assertion
        else if ¬ ((h.getAddedStates o).size = (h.getAddedStates o).getNumberOfSetBits) then
          .error .assertion
        else .ok (insertResult w order monRes assumptions, monRes)
      else
        let newAssumptions := h.createAndCheckAssumptions val1 val2 o
        if ¬ (newAssumptions.length ≤ 3) then .error .assertion
        else do
          let (w1, assumptions1, monRes1) ←
            h.exploreCandidates (h.extendOrderWithAssumptions fuel) order w assumptions monRes
              newAssumptions
          if w1.monResults.length = 0 then
            pure (insertResult w1 order monRes1 assumptions1, monRes1)
          else pure (w1, monRes1)

end MonotonicityHelper

namespace Order

end Order

namespace MonotonicityHelper

variable {A M E : Type}

/-- What one call of the loop of `extendOrderWithAssumptions` is observed to do: it calls
`extendOrder` with an assumption, or it continues the search with a list of assumptions. -/
inductive SearchEvent (A : Type) where
  | extended (assumption : A)
  | branched (assumptions : List A)
deriving DecidableEq, Repr

/-- The helper `h` with an extender that also records the assumption of every call of
`extendOrder`. -/
def logging (h : MonotonicityHelper A M E) : MonotonicityHelper A M (E × List (SearchEvent A)) where
  getNumberOfStates := h.getNumberOfStates
  createAndCheckAssumptions := h.createAndCheckAssumptions
  extendOrder := fun e orders order monRes assumption => do
    let (e1, r) ← h.extendOrder e.1 orders order monRes assumption
    pure ((e1, e.2 ++ [SearchEvent.extended assumption]), r)
  copy := h.copy
  isSomewhereMonotonicity := h.isSomewhereMonotonicity
  getAddedStates := h.getAddedStates

/-- A recursive call that records the list of assumptions it is given and does `g` to the `Order`
objects. -/
def recordBranch (g : List Order → List Order) (w : Search A M (E × List (SearchEvent A)))
    (_order _val1 _val2 : Nat) (assumptions : List A) (monRes : M) :
    Except Fault (Search A M (E × List (SearchEvent A)) × M) :=
  .ok ({ w with extender := (w.extender.1, w.extender.2 ++ [SearchEvent.branched assumptions])
                orders := g w.orders }, monRes)

/-- Modelled from the spec: the assumption list of the branch of a candidate, which has the
candidate appended exactly when its status is UNKNOWN. -/
def branchAssumptions (assumptions : List A) (candidate : A × AssumptionStatus) : List A :=
  if candidate.2 = AssumptionStatus.UNKNOWN then assumptions ++ [candidate.1] else assumptions

/-- Modelled from the spec: the candidates that are explored, those whose status is not
INVALID. -/
def explored (candidates : List (A × AssumptionStatus)) : List (A × AssumptionStatus) :=
  candidates.filter (fun c => decide (c.2 ≠ AssumptionStatus.INVALID))

/-- Modelled from the spec: the events of exploring the candidates: for every explored candidate
a call of `extendOrder` with it, followed, where the flag says that the search continues, by the
continuation with the assumption list of its branch. -/
def expectedEvents (assumptions : List A) (candidates : List (A × AssumptionStatus))
    (flags : List Bool) : List (SearchEvent A) :=
  ((explored candidates).zip flags).flatMap (fun cf =>
    SearchEvent.extended cf.1.1 ::
      (if cf.2 then [SearchEvent.branched (branchAssumptions assumptions cf.1)] else []))

/-- A helper for the examples.  An assumption `(x, y)` says that state `x` is above state `y`;
the candidates for a pair are the two directions, both of status UNKNOWN.  `extendOrder` records
in the monotonicity result what `compare(x, y)` answers on the order it is given, applies the
assumption with `addRelation(x, y)` and returns the order as complete. -/
def sampleHelper : MonotonicityHelper (Nat × Nat) (List (Nat × Nat × NodeComparison)) Unit where
  getNumberOfStates := 5
  createAndCheckAssumptions := fun val1 val2 _ =>
    [((val1, val2), AssumptionStatus.UNKNOWN), ((val2, val1), AssumptionStatus.UNKNOWN)]
  extendOrder := fun e orders order monRes assumption =>
    match orders[order]? with
    | none => .error .undefined
    | some o => do
      let (c, o1) ← o.compare assumption.1 assumption.2 UNKNOWN
      let o2 ← o1.addRelation assumption.1 assumption.2 false
      pure (e, orders.set order o2, monRes ++ [(assumption.1, assumption.2, c)], (order, 5, 5))
  copy := fun monRes => monRes
  isSomewhereMonotonicity := fun _ => true
  getAddedStates := fun _ => BitVector.zeros 0

end MonotonicityHelper

namespace Order

/-- Every member of an allocated node is a mapped state. -/
def MembersMapped (o : Order) : Prop :=
  ∀ l ∈ o.memberLists, ∀ s ∈ l, (o.nodes.getD s none).isSome = true

instance (o : Order) : Decidable o.MembersMapped := by
  unfold MembersMapped
  infer_instance

/-- The invariant behind the counter: `numberOfAddedStates` is the number of mapped states, every
member of a node is mapped, and the node table has one entry per state. -/
def Tallied (o : Order) : Prop :=
  o.Counted ∧ o.MembersMapped ∧ o.nodes.length = o.numberOfStates

instance (o : Order) : Decidable o.Tallied := by
  unfold Tallied
  infer_instance

/-- The number of states `s` with `contains(s)`. -/
def containedCount (o : Order) : Nat :=
  ((List.range o.numberOfStates).filter (fun s => o.contains s)).length

/-- The outcome of `compare` on two different allocated nodes `u` and `v`, read off the recorded
bits and the chains: the fast test decides if it can, a disabled search answers `UNKNOWN`, and an
enabled search answers by the chains, writes the relation it found back, and stops at the
assertion `!above(node2, node1)` when there are chains in both directions. -/
def Outcome (o : Order) (u v : Nat) (r : Except Fault (NodeComparison × Order)) : Prop :=
  if o.fastAboveP u v = true then r = Except.ok (ABOVE, o)
  else if o.fastAboveP v u = true then r = Except.ok (BELOW, o)
  else if ¬ o.SearchEnabled then r = Except.ok (UNKNOWN, o)
  else (o.Chain u v ∧ o.Chain v u ∧ r = Except.error Fault.assertion) ∨
    (o.Chain u v ∧ ¬ o.Chain v u ∧ ∃ nu nv, o.heap[u]? = some nu ∧ o.heap[v]? = some nv ∧
      r = Except.ok (ABOVE, o.setHeap v
        (withAboveBits nv (BitVector.setBits nv.statesAbove.bits nu.states)))) ∨
    (¬ o.Chain u v ∧ o.Chain v u ∧ ∃ nu nv, o.heap[u]? = some nu ∧ o.heap[v]? = some nv ∧
      r = Except.ok (BELOW, o.setHeap u
        (withAboveBits nu (BitVector.setBits nu.statesAbove.bits nv.states)))) ∨
    (¬ o.Chain u v ∧ ¬ o.Chain v u ∧ r = Except.ok (UNKNOWN, o))

/-- The loop `while (!v.empty()) { state = v.back(); v.pop_back(); if (!doneForState[state])
return state; }` of `getNextStateNumber` and `getStateToHandle`.  The argument is the vector read
from its back; the result is the state found, if any, and what is left of the vector, read from
its back. -/
def popUndone (doneForState : BitVector) : List Nat → Except Fault (Option Nat × List Nat)
  | [] => .ok (none, [])
  | state :: rest => do
    let isDone ← doneForState.get state
    if ¬ isDone then pure (some state, rest) else popUndone doneForState rest

/-- The method `Order::getNextStateNumber`. -/
def getNextStateNumber (o : Order) : Except Fault ((Nat × Bool) × Order) :=
  if ¬ o.statesToHandle.isEmpty then .error .assertion
  else do
    let (found, rest) ← popUndone o.doneForState o.statesSorted.reverse
    let o1 : Order := { o with statesSorted := rest.reverse }
    match found with
    | some state => pure ((state, true), o1)
    | none => pure ((o1.numberOfStates, true), o1)

/-- The method `Order::getStateToHandle`. -/
def getStateToHandle (o : Order) : Except Fault ((Nat × Bool) × Order) :=
  match o.specialStatesToHandle.reverse with
  | state :: rest => .ok ((state, false), { o with specialStatesToHandle := rest.reverse })
  | [] => do
    let (found, rest) ← popUndone o.doneForState o.statesToHandle.reverse
    let o1 : Order := { o with statesToHandle := rest.reverse }
    match found with
    | some state => pure ((state, false), o1)
    | none => o1.getNextStateNumber

/-- The loop `while (!statesToHandle.empty() && contains(statesToHandle.back()) &&
sufficientForState[statesToHandle.back()]) statesToHandle.pop_back();` of `existsStateToHandle`,
on the vector read from its back. -/
def dropHandled (o : Order) : List Nat → Except Fault (List Nat)
  | [] => .ok []
  | state :: rest =>
    if o.contains state then do
      let sufficient ← o.sufficientForState.get state
      if sufficient then dropHandled o rest else pure (state :: rest)
    else pure (state :: rest)

/-- The method `Order::existsStateToHandle`. -/
def existsStateToHandle (o : Order) : Except Fault (Bool × Order) :=
  if ¬ o.specialStatesToHandle.isEmpty then .ok (true, o)
  else do
    let rest ← dropHandled o o.statesToHandle.reverse
    let o1 : Order := { o with statesToHandle := rest.reverse }
    pure (!o1.statesToHandle.isEmpty, o1)

/-- The method `Order::addStateToHandle`. -/
def addStateToHandle (o : Order) (state : Nat) : Except Fault Order := do
  let sufficient ← o.sufficientForState.get state
  if ¬ sufficient then pure { o with statesToHandle := o.statesToHandle ++ [state] } else pure o

/-- The method `Order::addSpecialStateToHandle`. -/
def addSpecialStateToHandle (o : Order) (state : Nat) : Order :=
  { o with specialStatesToHandle := o.specialStatesToHandle ++ [state] }

/-- The method `Order::addStateSorted`. -/
def addStateSorted (o : Order) (state : Nat) : Order :=
  { o with statesSorted := o.statesSorted ++ [state] }

/-- One call of a method of `Order` that can change the order: the modifying methods, `compare`
(which writes back what its search finds), the setters and the methods of the work queues. -/
inductive Mutation where
  | modify (call : Call)
  | compare (state1 state2 : Nat) (hypothesis : NodeComparison)
  | setSufficientForState (stateNumber : Nat)
  | setDoneForState (stateNumber : Nat)
  | addStateToHandle (state : Nat)
  | addSpecialStateToHandle (state : Nat)
  | addStateSorted (state : Nat)
  | getNextStateNumber
  | getStateToHandle
  | existsStateToHandle
deriving DecidableEq, Repr

/-- Running one mutation on an order; the value the method returns is dropped. -/
def mutate (o : Order) : Mutation → Except Fault Order
  | .modify call => o.run call
  | .compare state1 state2 hypothesis => (o.compare state1 state2 hypothesis).map Prod.snd
  | .setSufficientForState stateNumber => o.setSufficientForState stateNumber
  | .setDoneForState stateNumber => o.setDoneForState stateNumber
  | .addStateToHandle state => o.addStateToHandle state
  | .addSpecialStateToHandle state => .ok (o.addSpecialStateToHandle state)
  | .addStateSorted state => .ok (o.addStateSorted state)
  | .getNextStateNumber => o.getNextStateNumber.map Prod.snd
  | .getStateToHandle => o.getStateToHandle.map Prod.snd
  | .existsStateToHandle => o.existsStateToHandle.map Prod.snd

/-- Running a sequence of mutations, one after the other. -/
def mutateAll (o : Order) : List Mutation → Except Fault Order
  | [] => .ok o
  | m :: ms => do
    let o1 ← o.mutate m
    mutateAll o1 ms

/-- The loop `for (uint64_t state = 0; state < numberOfStates; ++state)` of `Order::copy` in the
memory of the original: the heap of the copy `c` under construction is the common memory, in
which `new Node()` takes a fresh cell and from which the old nodes are read. -/
def copyNodesShared (o : Order) (c : Order) (seenStates : BitVector) :
    List Nat → Except Fault (Order × BitVector)
  | [] => .ok (c, seenStates)
  | state :: rest => do
    let oldNode ← o.nodeAt state
    if oldNode ≠ none then
      let old ← c.deref oldNode
      match old.states.head? with
      | none => .error .undefined
      | some first =>
        let seen ← seenStates.get first
        if ¬ seen then
          let (newNode, c1) := c.alloc ⟨[], BitVector.zeros 0⟩
          let c2 : Order :=
            if oldNode = o.top then { c1 with top := newNode }
            else if oldNode = o.bottom then { c1 with bottom := newNode }
            else c1
          let n ← c2.deref newNode
          let oldNow ← c2.deref oldNode
          let c3 ← c2.store newNode { n with statesAbove := oldNow.statesAbove }
          let oldThen ← c3.deref oldNode
          let (c4, seenStates1) ← copyStates c3 newNode seenStates oldThen.states
          copyNodesShared o c4 seenStates1 rest
        else copyNodesShared o c seenStates rest
    else do
      let p ← c.nodeAt state
      if p ≠ none then .error .assertion else copyNodesShared o c seenStates rest

/-- The method `Order::copy` in the memory of the original: the copy starts as a
default-constructed `Order` whose nodes will be allocated in the memory that holds the nodes of
`o`; `uninitTop` and `uninitBottom` stand for the values the pointers `top` and `bottom` hold
until `copy` assigns them. -/
def copyShared (o : Order) (uninitTop uninitBottom : Ptr) : Except Fault Order := do
  let c0 : Order :=
    { heap := o.heap
      nodes := List.replicate o.numberOfStates none
      top := uninitTop
      bottom := uninitBottom
      numberOfStates := o.getNumberOfStates
      numberOfAddedStates := o.numberOfAddedStates
      onlyInitialOrder := o.onlyInitialOrder
      doneBuilding := o.doneBuilding
      optimistic := o.optimistic
      changed := o.changed
      trivialStates := o.trivialStates
      sufficientForState := o.sufficientForState
      doneForState := o.doneForState
      statesSorted := o.statesSorted
      statesToHandle := o.statesToHandle
      specialStatesToHandle := o.specialStatesToHandle
      mdpScheduler := none }
  let seenStates := BitVector.zeros o.numberOfStates
  let c1 : Order := if o.top = none then { c0 with top := none } else c0
  let (c2, _) ← copyNodesShared o c1 seenStates (List.range o.numberOfStates)
  pure c2

/-- The pointer `p` is null or addresses a cell at or beyond `base`. -/
def Owns (base : Nat) (p : Ptr) : Prop := ∀ k ∈ p, base ≤ k

instance (base : Nat) (p : Ptr) : Decidable (Owns base p) := by
  unfold Owns
  infer_instance

/-- The order `c` keeps apart from the first `base` cells of the memory: the memory has at least
`base` cells, and no pointer held by `c` addresses one of the first `base` cells. -/
def Apart (base : Nat) (c : Order) : Prop :=
  base ≤ c.heap.length ∧ (∀ p ∈ c.nodes, Owns base p) ∧ Owns base c.top ∧ Owns base c.bottom

instance (base : Nat) (c : Order) : Decidable (Apart base c) := by
  unfold Apart
  infer_instance

/-- From `c` to `c1` the first `base` cells of the memory are unchanged, and `c1` keeps apart
from them. -/
def Keeps (base : Nat) (c c1 : Order) : Prop :=
  Apart base c1 ∧ c1.heap.take base = c.heap.take base

/-- The node arguments through which a call writes, or which it stores, are null or address
cells at or beyond `base`; `addBelow` only reads the node it is given. -/
def Call.Within (base : Nat) : Call → Prop
  | .addAbove _ node => Owns base node
  | .addBetweenNodes _ above below => Owns base above ∧ Owns base below
  | .addToNode _ node => Owns base node
  | _ => True

/-- The node arguments through which a mutation writes, or which it stores, are null or address
cells at or beyond `base`. -/
def Mutation.Within (base : Nat) : Mutation → Prop
  | .modify call => call.Within base
  | _ => True

/-- The sample chain, copied in its own memory, with null pointers for the values the default
constructor leaves in `top` and `bottom`. -/
def sampleChainShared : Except Fault Order := do
  let o ← sampleChain
  o.copyShared none none

instance (base : Nat) (call : Call) : Decidable (call.Within base) := by
  cases call <;> unfold Call.Within <;> infer_instance

instance (base : Nat) (m : Mutation) : Decidable (m.Within base) := by
  cases m <;> unfold Mutation.Within <;> infer_instance

/-- A sequence of mutations for the copy of the sample chain, whose nodes are the cells 5 to 9 of
the common memory: a comparison, a merge, an `addToNode` into the node of state 3, two setters,
three pushes and two pops. -/
def sampleMutations : List Mutation :=
  [.compare 2 3 UNKNOWN, .modify (.merge 3 4), .modify (.addToNode 2 (some 8)),
    .setSufficientForState 2, .setDoneForState 2, .addStateToHandle 3, .addStateSorted 4,
    .addSpecialStateToHandle 3, .getStateToHandle, .existsStateToHandle]

-- PREDICATES

end Order

/-! Part II: properties. -/

/-! ## Basic facts about the result monad and bit vectors -/

section Basics

variable {α β : Type}

@[simp] theorem ok_bind (a : α) (f : α → Except Fault β) : (Except.ok a >>= f) = f a := rfl

@[simp] theorem error_bind (e : Fault) (f : α → Except Fault β) :
    ((Except.error e : Except Fault α) >>= f) = Except.error e := rfl

@[simp] theorem pure_eq_ok (a : α) : (pure a : Except Fault α) = Except.ok a := rfl

theorem bind_eq_ok {x : Except Fault α} {f : α → Except Fault β} {b : β} :
    (x >>= f) = Except.ok b ↔ ∃ a, x = Except.ok a ∧ f a = Except.ok b := by
  cases x with
  | error e => simp
  | ok a => simp

end Basics

namespace BitVector

theorem get_eq_ok {b : BitVector} {i : Nat} {r : Bool} :
    b.get i = Except.ok r ↔ i < b.size ∧ r = b.bits.testBit i := by
  unfold get
  split <;> simp_all [eq_comm]

theorem get_of_lt {b : BitVector} {i : Nat} (h : i < b.size) :
    b.get i = Except.ok (b.bits.testBit i) := by
  simp [get, h]

theorem set_eq_ok {b c : BitVector} {i : Nat} :
    b.set i = Except.ok c ↔ i < b.size ∧ c = ⟨b.size, b.bits ||| 2 ^ i⟩ := by
  unfold set
  split <;> simp_all [eq_comm]

theorem set_of_lt {b : BitVector} {i : Nat} (h : i < b.size) :
    b.set i = Except.ok ⟨b.size, b.bits ||| 2 ^ i⟩ := by
  simp [set, h]

theorem orAssign_eq_ok {a b c : BitVector} :
    a.orAssign b = Except.ok c ↔ a.size = b.size ∧ c = ⟨a.size, a.bits ||| b.bits⟩ := by
  unfold orAssign
  split <;> simp_all [eq_comm]

theorem testBit_setBits (l : List Nat) (bits j : Nat) :
    (setBits bits l).testBit j = (bits.testBit j || decide (j ∈ l)) := by
  induction l generalizing bits with
  | nil => simp [setBits]
  | cons i is ih =>
    simp only [setBits, ih, Nat.testBit_or, Nat.testBit_two_pow, List.mem_cons]
    by_cases hij : i = j
    · subst hij; simp
    · have hji : ¬ j = i := fun h => hij h.symm
      simp [hij, hji]

theorem setAll_eq_ok {l : List Nat} {b c : BitVector} :
    b.setAll l = Except.ok c ↔ (∀ i ∈ l, i < b.size) ∧ c = ⟨b.size, setBits b.bits l⟩ := by
  induction l generalizing b with
  | nil => simp [setAll, setBits, eq_comm]
  | cons i is ih =>
    simp only [setAll, bind_eq_ok, set_eq_ok, List.mem_cons, forall_eq_or_imp, setBits]
    constructor
    · rintro ⟨b1, ⟨hi, rfl⟩, h⟩
      have := ih.mp h
      exact ⟨⟨hi, this.1⟩, this.2⟩
    · rintro ⟨⟨hi, his⟩, rfl⟩
      exact ⟨_, ⟨hi, rfl⟩, ih.mpr ⟨his, rfl⟩⟩

theorem setAll_of_lt {l : List Nat} {b : BitVector} (h : ∀ i ∈ l, i < b.size) :
    b.setAll l = Except.ok ⟨b.size, setBits b.bits l⟩ :=
  setAll_eq_ok.mpr ⟨h, rfl⟩

theorem mem_indices {b : BitVector} {i : Nat} :
    i ∈ b.indices ↔ i < b.size ∧ b.bits.testBit i = true := by
  simp [indices]

end BitVector

theorem mem_setInsert {x y : Nat} {l : List Nat} : y ∈ setInsert x l ↔ y = x ∨ y ∈ l := by
  induction l with
  | nil => simp [setInsert]
  | cons z zs ih =>
    unfold setInsert
    split
    · simp
    · split
      · rename_i h1 h2
        subst h2
        simp
      · simp only [List.mem_cons, ih]
        tauto

theorem mem_setInsertAll {xs l : List Nat} {y : Nat} : y ∈ setInsertAll xs l ↔ y ∈ xs ∨ y ∈ l := by
  unfold setInsertAll
  induction xs generalizing l with
  | nil => simp
  | cons x xs ih =>
    simp only [List.foldl_cons, ih, mem_setInsert, List.mem_cons]
    tauto

namespace Order

/-! ## Pointers and the heap -/

theorem deref_eq_ok {o : Order} {p : Ptr} {n : Node} :
    o.deref p = Except.ok n ↔ ∃ k, p = some k ∧ o.heap[k]? = some n := by
  cases p with
  | none => simp [deref]
  | some k =>
    simp only [deref]
    cases h : o.heap[k]? <;> simp [h]

theorem deref_some {o : Order} {k : Nat} {n : Node} (h : o.heap[k]? = some n) :
    o.deref (some k) = Except.ok n := deref_eq_ok.mpr ⟨k, rfl, h⟩

theorem store_eq_ok {o o1 : Order} {p : Ptr} {n : Node} :
    o.store p n = Except.ok o1 ↔
      ∃ k, p = some k ∧ k < o.heap.length ∧ o1 = { o with heap := o.heap.set k n } := by
  cases p with
  | none => simp [store]
  | some k =>
    simp only [store]
    split <;> simp_all [eq_comm]

theorem store_some {o : Order} {k : Nat} (n : Node) (h : k < o.heap.length) :
    o.store (some k) n = Except.ok { o with heap := o.heap.set k n } :=
  store_eq_ok.mpr ⟨k, rfl, h, rfl⟩

theorem nodeAt_eq_ok {o : Order} {s : Nat} {p : Ptr} :
    o.nodeAt s = Except.ok p ↔ o.nodes[s]? = some p := by
  simp only [nodeAt]
  cases h : o.nodes[s]? <;> simp

theorem getNode_eq_ok {o : Order} {s : Nat} {p : Ptr} :
    o.getNode s = Except.ok p ↔ s < o.numberOfStates ∧ o.nodes[s]? = some p := by
  simp only [getNode]
  split
  · simp [nodeAt_eq_ok, *]
  · simp [*]

theorem lt_length_of_getElem? {l : List Node} {k : Nat} {n : Node} (h : l[k]? = some n) :
    k < l.length := by
  by_contra hk
  rw [List.getElem?_eq_none (by omega)] at h
  exact absurd h (by simp)

/-- In an anchored order the node of a mapped state is allocated and has the state as a member. -/
theorem anchored_member {o : Order} (h : o.Anchored) {s k : Nat}
    (hs : o.nodes[s]? = some (some k)) : ∃ n, o.heap[k]? = some n ∧ s ∈ n.states := by
  have hlt : s < o.nodes.length := by
    by_contra hk
    rw [List.getElem?_eq_none (by omega)] at hs
    exact absurd hs (by simp)
  have := h s (List.mem_range.mpr hlt) k (by
    simp [List.getD_eq_getElem?_getD, hs])
  obtain ⟨n, hn, hmem⟩ := this
  exact ⟨n, hn, hmem⟩

theorem valid_node_size {o : Order} (h : o.Valid) {k : Nat} {n : Node} (hk : o.heap[k]? = some n) :
    n.statesAbove.size = o.numberOfStates :=
  (h.2.2.2.2 n (List.getElem?_mem hk)).1

theorem valid_state_lt {o : Order} (h : o.Valid) {k : Nat} {n : Node} (hk : o.heap[k]? = some n)
    {s : Nat} (hs : s ∈ n.states) : s < o.numberOfStates :=
  (h.2.2.2.2 n (List.getElem?_mem hk)).2 s hs

theorem valid_node_live {o : Order} (h : o.Valid) {s k : Nat} (hs : o.nodes[s]? = some (some k)) :
    k < o.heap.length :=
  h.2.1 (some k) (List.getElem?_mem hs) k rfl

end Order

namespace Order

/-! ## The fast comparison -/

theorem aboveFastLoop_of_lt {o : Order} {q : Nat} {n2 : Node} (hq : o.heap[q]? = some n2)
    (l : List Nat) (hl : ∀ s ∈ l, s < n2.statesAbove.size) :
    aboveFastLoop o (some q) l = Except.ok (l.any (fun s => n2.statesAbove.bits.testBit s)) := by
  induction l with
  | nil => simp [aboveFastLoop]
  | cons s rest ih =>
    have hs : s < n2.statesAbove.size := hl s (List.mem_cons_self _ _)
    have hrest : ∀ t ∈ rest, t < n2.statesAbove.size := fun t ht => hl t (List.mem_cons_of_mem _ ht)
    simp only [aboveFastLoop, deref_some hq, ok_bind, BitVector.get_of_lt hs, List.any_cons]
    cases hb : n2.statesAbove.bits.testBit s
    · simpa using ih hrest
    · simp

theorem aboveFastLoop_eq_ok {o : Order} {q : Nat} {n2 : Node} (hq : o.heap[q]? = some n2)
    {l : List Nat} {r : Bool} (h : aboveFastLoop o (some q) l = Except.ok r) :
    r = l.any (fun s => n2.statesAbove.bits.testBit s) := by
  induction l with
  | nil => simpa [aboveFastLoop, eq_comm] using h
  | cons s rest ih =>
    simp only [aboveFastLoop, deref_some hq, ok_bind, bind_eq_ok, BitVector.get_eq_ok] at h
    obtain ⟨found, ⟨_, rfl⟩, h⟩ := h
    cases hb : n2.statesAbove.bits.testBit s
    · simp only [hb, Bool.false_eq_true, if_false] at h
      simpa [hb] using ih h
    · simp only [hb, if_true, pure_eq_ok, Except.ok.injEq] at h
      simp [hb, ← h]

theorem aboveFast_of_valid {o : Order} (hv : o.Valid) {p q : Nat} {n1 n2 : Node}
    (hp : o.heap[p]? = some n1) (hq : o.heap[q]? = some n2) :
    o.aboveFast (some p) (some q) = Except.ok (o.aboveFastP p q) := by
  simp only [aboveFast, deref_some hp, ok_bind, aboveFastP, hp, hq]
  apply aboveFastLoop_of_lt hq
  intro s hs
  rw [valid_node_size hv hq]
  exact valid_state_lt hv hp hs

theorem aboveFast_eq_ok {o : Order} {p q : Nat} {n2 : Node} {r : Bool}
    (hq : o.heap[q]? = some n2) (h : o.aboveFast (some p) (some q) = Except.ok r) :
    r = o.aboveFastP p q := by
  simp only [aboveFast, bind_eq_ok, deref_eq_ok] at h
  obtain ⟨n1, ⟨k, hk, hp⟩, h⟩ := h
  cases hk
  simp only [aboveFastP, hp, hq]
  exact aboveFastLoop_eq_ok hq h

theorem compareFastNodes_of_valid {o : Order} (hv : o.Valid) {p q : Nat} {n1 n2 : Node}
    (hp : o.heap[p]? = some n1) (hq : o.heap[q]? = some n2) (hne : p ≠ q) :
    o.compareFastNodes (some p) (some q) UNKNOWN =
      Except.ok (if o.fastAboveP p q then ABOVE else if o.fastAboveP q p then BELOW else UNKNOWN) := by
  have hne2 : ¬ (some p : Ptr) = some q := by simpa using hne
  simp only [compareFastNodes, ne_eq, not_false_eq_true, and_self, if_true, hne2, if_false,
    true_or, aboveFast_of_valid hv hp hq, aboveFast_of_valid hv hq hp, fastAboveP,
    reduceCtorEq, fastWhen, decide_True]
  by_cases h1 : some p = o.top ∨ some q = o.bottom <;>
    by_cases h3 : some q = o.top ∨ some p = o.bottom <;>
    by_cases h5 : o.aboveFastP p q = true <;> by_cases h6 : o.aboveFastP q p = true <;>
    simp [h1, h3, h5, h6]

end Order

namespace Order

/-! ## Updating one node -/

theorem mem_set_heap {l : List Node} {k : Nat} {n m : Node} (h : m ∈ l.set k n) :
    m = n ∨ m ∈ l := by
  rcases List.mem_or_eq_of_mem_set h with h | h
  · exact Or.inr h
  · exact Or.inl h

theorem valid_set_heap {o : Order} (hv : o.Valid) (k : Nat) {n : Node}
    (hsize : n.statesAbove.size = o.numberOfStates) (hst : ∀ s ∈ n.states, s < o.numberOfStates) :
    Valid (o.setHeap k n) := by
  unfold setHeap
  obtain ⟨h1, h2, h3, h4, h5⟩ := hv
  refine ⟨h1, ?_, ?_, ?_, ?_⟩
  · simpa using h2
  · simpa using h3
  · simpa using h4
  · intro m hm
    rcases mem_set_heap hm with rfl | hm
    · exact ⟨hsize, hst⟩
    · exact h5 m hm

theorem anchored_set_heap {o : Order} (ha : o.Anchored) (k : Nat) {n0 n : Node}
    (hk : o.heap[k]? = some n0) (hst : ∀ s ∈ n0.states, s ∈ n.states) :
    Anchored (o.setHeap k n) := by
  unfold setHeap
  intro s hs p hp
  obtain ⟨m, hm, hmem⟩ := ha s hs p hp
  by_cases hpk : k = p
  · subst hpk
    refine ⟨n, ?_, ?_⟩
    · simp [List.getElem?_set, lt_length_of_getElem? hk]
    · have : m = n0 := by
        have h1 : o.heap[k]? = some m := hm
        rw [hk] at h1
        exact (Option.some.inj h1).symm
      subst this
      exact hst s hmem
  · exact ⟨m, by simpa [List.getElem?_set, hpk] using hm, hmem⟩

theorem store_some_eq {o : Order} {k : Nat} (n : Node) (h : k < o.heap.length) :
    o.store (some k) n = Except.ok (o.setHeap k n) :=
  store_some n h

theorem heap_setHeap_self {o : Order} {k : Nat} (n : Node) (h : k < o.heap.length) :
    (o.setHeap k n).heap[k]? = some n := by
  simp [setHeap, List.getElem?_set, h]

theorem heap_setHeap_ne {o : Order} {k j : Nat} (n : Node) (h : k ≠ j) :
    (o.setHeap k n).heap[j]? = o.heap[j]? := by
  simp [setHeap, List.getElem?_set, h]

@[simp] theorem length_heap_setHeap (o : Order) (k : Nat) (n : Node) :
    (o.setHeap k n).heap.length = o.heap.length := by
  simp [setHeap]

@[simp] theorem nodes_setHeap (o : Order) (k : Nat) (n : Node) : (o.setHeap k n).nodes = o.nodes := rfl

@[simp] theorem top_setHeap (o : Order) (k : Nat) (n : Node) : (o.setHeap k n).top = o.top := rfl

@[simp] theorem bottom_setHeap (o : Order) (k : Nat) (n : Node) :
    (o.setHeap k n).bottom = o.bottom := rfl

@[simp] theorem numberOfStates_setHeap (o : Order) (k : Nat) (n : Node) :
    (o.setHeap k n).numberOfStates = o.numberOfStates := rfl

theorem addRelationNodes_of_valid {o : Order} (hv : o.Valid) {a b : Nat} {na nb : Node}
    (ha : o.heap[a]? = some na) (hb : o.heap[b]? = some nb) :
    o.addRelationNodes (some a) (some b) =
      Except.ok (o.setHeap b (withAboveBits nb
        (BitVector.setBits (nb.statesAbove.bits ||| na.statesAbove.bits) na.states))) := by
  have hsa := valid_node_size hv ha
  have hsb := valid_node_size hv hb
  have hlb := lt_length_of_getElem? hb
  have hor : nb.statesAbove.orAssign na.statesAbove
      = Except.ok ⟨nb.statesAbove.size, nb.statesAbove.bits ||| na.statesAbove.bits⟩ :=
    BitVector.orAssign_eq_ok.mpr ⟨by rw [hsa, hsb], rfl⟩
  simp only [addRelationNodes, deref_some ha, deref_some hb, ok_bind, hor, store_some_eq _ hlb]
  by_cases hab : a = b
  · subst hab
    have : na = nb := by rw [ha] at hb; exact Option.some.inj hb
    subst this
    simp only [deref_some (heap_setHeap_self _ hlb), ok_bind]
    rw [BitVector.setAll_of_lt (by
      intro s hs
      show s < na.statesAbove.size
      rw [hsa]; exact valid_state_lt hv ha hs)]
    simp only [ok_bind]
    rw [store_some_eq _ (by simpa using hlb)]
    simp [setHeap, withAboveBits]
  · have hba : b ≠ a := fun h => hab h.symm
    have ha1 := (heap_setHeap_ne (o := o) (Node.mk nb.states
      ⟨nb.statesAbove.size, nb.statesAbove.bits ||| na.statesAbove.bits⟩) hba).trans ha
    simp only [deref_some ha1, deref_some (heap_setHeap_self _ hlb), ok_bind]
    rw [BitVector.setAll_of_lt (by
      intro s hs
      show s < nb.statesAbove.size
      rw [hsb]; exact valid_state_lt hv ha hs)]
    simp only [ok_bind]
    rw [store_some_eq _ (by simpa using hlb)]
    simp [setHeap, withAboveBits]

end Order

namespace Order

theorem compareNodes_of_fastAbove {o : Order} (hv : o.Valid) {p q : Nat} {n1 n2 : Node}
    (hp : o.heap[p]? = some n1) (hq : o.heap[q]? = some n2) (hne : p ≠ q)
    (h : o.fastAboveP p q = true) :
    o.compareNodes (some p) (some q) UNKNOWN = Except.ok (ABOVE, o) := by
  simp [compareNodes, compareFastNodes_of_valid hv hp hq hne, h]

theorem aboveFastP_of_mem {o : Order} {p q : Nat} {n1 n2 : Node}
    (hp : o.heap[p]? = some n1) (hq : o.heap[q]? = some n2) {s : Nat} (hs : s ∈ n1.states)
    (hbit : n2.statesAbove.bits.testBit s = true) : o.aboveFastP p q = true := by
  simp only [aboveFastP, hp, hq, List.any_eq_true]
  exact ⟨s, hs, hbit⟩

/-- C3 (amended): `addRelation(a, b)` followed by `addRelation(b, a)` on two mapped states in
different nodes records both relations and merges nothing: both calls return, the state-to-node
mapping is unchanged (the two states are still in different nodes), and `compare(a, b)` and
`compare(b, a)` both answer ABOVE without changing the order. -/
theorem addRelation_cycle_not_merged (o : Order) (a b pa pb : Nat) (m1 m2 : Bool)
    (hv : o.Valid) (hanch : o.Anchored)
    (ha : o.getNode a = Except.ok (some pa)) (hb : o.getNode b = Except.ok (some pb))
    (hne : pa ≠ pb) :
    ∃ o1 o2, o.addRelation a b m1 = Except.ok o1 ∧ o1.addRelation b a m2 = Except.ok o2 ∧
      o2.nodes = o.nodes ∧ o2.getNode a ≠ o2.getNode b ∧
      o2.compare a b UNKNOWN = Except.ok (ABOVE, o2) ∧
      o2.compare b a UNKNOWN = Except.ok (ABOVE, o2) := by
  obtain ⟨han, hna⟩ := getNode_eq_ok.mp ha
  obtain ⟨hbn, hnb⟩ := getNode_eq_ok.mp hb
  obtain ⟨na, hha, hma⟩ := anchored_member hanch hna
  obtain ⟨nb, hhb, hmb⟩ := anchored_member hanch hnb
  have hla := lt_length_of_getElem? hha
  have hlb := lt_length_of_getElem? hhb
  have hnab : pb ≠ pa := fun h => hne h.symm
  -- first call
  let nb1 := withAboveBits nb (BitVector.setBits (nb.statesAbove.bits ||| na.statesAbove.bits) na.states)
  let o1 := o.setHeap pb nb1
  have h1 : o.addRelation a b m1 = Except.ok o1 := by
    simp only [addRelation, ha, hb, ok_bind]
    exact addRelationNodes_of_valid hv hha hhb
  have hsb0 : nb.statesAbove.size = o.numberOfStates := valid_node_size hv hhb
  have hsb : nb1.statesAbove.size = o.numberOfStates := hsb0
  have hv1 : o1.Valid := valid_set_heap hv pb hsb (fun s hs => valid_state_lt hv hhb hs)
  have hhb1 : o1.heap[pb]? = some nb1 := heap_setHeap_self _ hlb
  have hha1 : o1.heap[pa]? = some na := (heap_setHeap_ne _ hnab).trans hha
  have ha1 : o1.getNode a = Except.ok (some pa) := getNode_eq_ok.mpr ⟨han, hna⟩
  have hb1 : o1.getNode b = Except.ok (some pb) := getNode_eq_ok.mpr ⟨hbn, hnb⟩
  -- second call
  let na2 := withAboveBits na (BitVector.setBits (na.statesAbove.bits ||| nb1.statesAbove.bits) nb1.states)
  let o2 := o1.setHeap pa na2
  have h2 : o1.addRelation b a m2 = Except.ok o2 := by
    simp only [addRelation, ha1, hb1, ok_bind]
    exact addRelationNodes_of_valid hv1 hhb1 hha1
  have hsa0 : na.statesAbove.size = o.numberOfStates := valid_node_size hv hha
  have hsa : na2.statesAbove.size = o.numberOfStates := hsa0
  have hv2 : o2.Valid := valid_set_heap hv1 pa hsa (fun s hs => valid_state_lt hv hha hs)
  have hha2 : o2.heap[pa]? = some na2 := heap_setHeap_self _ (by simpa [o1] using hla)
  have hhb2 : o2.heap[pb]? = some nb1 := (heap_setHeap_ne _ hne).trans hhb1
  have ha2 : o2.getNode a = Except.ok (some pa) := getNode_eq_ok.mpr ⟨han, hna⟩
  have hb2 : o2.getNode b = Except.ok (some pb) := getNode_eq_ok.mpr ⟨hbn, hnb⟩
  have hab : o2.fastAboveP pa pb = true := by
    have : o2.aboveFastP pa pb = true :=
      aboveFastP_of_mem hha2 hhb2 (s := a) hma (by
        simp [nb1, withAboveBits, BitVector.testBit_setBits, hma])
    simp [fastAboveP, this]
  have hba : o2.fastAboveP pb pa = true := by
    have : o2.aboveFastP pb pa = true :=
      aboveFastP_of_mem hhb2 hha2 (s := b) hmb (by
        simp [na2, nb1, withAboveBits, BitVector.testBit_setBits, hmb])
    simp [fastAboveP, this]
  refine ⟨o1, o2, h1, h2, rfl, ?_, ?_, ?_⟩
  · rw [ha2, hb2]
    simpa using hne
  · simp only [compare, ha2, hb2, ok_bind]
    exact compareNodes_of_fastAbove hv2 hha2 hhb2 hne hab
  · simp only [compare, ha2, hb2, ok_bind]
    exact compareNodes_of_fastAbove hv2 hhb2 hha2 hnab hba

end Order

/-- C3 (counterexample): in the sample order, after `addRelation(2, 3)` and `addRelation(3, 2)` the
states 2 and 3 are still in different nodes and `compare(2, 3)` answers ABOVE, not SAME. -/
theorem addRelation_cycle_not_merged_counterexample :
    (do
      let o ← Order.sampleCycle
      let p ← o.getNode 2
      let q ← o.getNode 3
      let (c, _) ← o.compare 2 3 UNKNOWN
      pure (decide (p = q), c)) = Except.ok (false, ABOVE) := by
  decide

/-- C3 (witness): the amended statement applied to the sample order. -/
theorem addRelation_cycle_not_merged_witness :
    ∃ o, Order.sampleOrder = Except.ok o ∧
      ∃ o1 o2, o.addRelation 2 3 false = Except.ok o1 ∧ o1.addRelation 3 2 false = Except.ok o2 ∧
        o2.nodes = o.nodes ∧ o2.getNode 2 ≠ o2.getNode 3 ∧
        o2.compare 2 3 UNKNOWN = Except.ok (ABOVE, o2) ∧
        o2.compare 3 2 UNKNOWN = Except.ok (ABOVE, o2) :=
  ⟨_, rfl, Order.addRelation_cycle_not_merged _ 2 3 2 3 false false (by decide) (by decide)
    (by decide) (by decide) (by decide)⟩

namespace Order

theorem compareNodes_same {o : Order} (p : Nat) (h : NodeComparison) :
    o.compareNodes (some p) (some p) h = Except.ok (SAME, o) := by
  simp [compareNodes, compareFastNodes]

theorem compareNodes_of_fastBelow {o : Order} (hv : o.Valid) {p q : Nat} {n1 n2 : Node}
    (hp : o.heap[p]? = some n1) (hq : o.heap[q]? = some n2) (hne : p ≠ q)
    (h1 : o.fastAboveP p q = false) (h2 : o.fastAboveP q p = true) :
    o.compareNodes (some p) (some q) UNKNOWN = Except.ok (BELOW, o) := by
  simp [compareNodes, compareFastNodes_of_valid hv hp hq hne, h1, h2]

theorem heap_of_valid_node {o : Order} (hv : o.Valid) {s k : Nat}
    (hs : o.nodes[s]? = some (some k)) : ∃ n, o.heap[k]? = some n := by
  have hlt := valid_node_live hv hs
  exact ⟨o.heap[k], List.getElem?_eq_getElem hlt⟩

/-- C4 (amended): in a well-formed order, for every mapped state `s`: a state `t` mapped to the
top node compares ABOVE or SAME to `s`; a state `b` mapped to the bottom node compares SAME to `s`
when `s` is in the bottom node, BELOW when no member of the bottom node is recorded in the
`statesAbove` of the node of `s`, and ABOVE when one is. -/
theorem sentinel_extremality (o : Order) (s ps : Nat) (hv : o.Valid)
    (hs : o.getNode s = Except.ok (some ps)) :
    (∀ t pt, o.top = some pt → o.getNode t = Except.ok (some pt) →
      (o.compare t s UNKNOWN = Except.ok (ABOVE, o) ∨ o.compare t s UNKNOWN = Except.ok (SAME, o))) ∧
    (∀ b pb, o.bottom = some pb → o.getNode b = Except.ok (some pb) → o.top ≠ o.bottom →
      (ps = pb → o.compare b s UNKNOWN = Except.ok (SAME, o)) ∧
      (ps ≠ pb → o.aboveFastP pb ps = false → o.compare b s UNKNOWN = Except.ok (BELOW, o)) ∧
      (ps ≠ pb → o.aboveFastP pb ps = true → o.compare b s UNKNOWN = Except.ok (ABOVE, o))) := by
  obtain ⟨_, hns⟩ := getNode_eq_ok.mp hs
  obtain ⟨ns, hhs⟩ := heap_of_valid_node hv hns
  constructor
  · intro t pt htop ht
    obtain ⟨_, hnt⟩ := getNode_eq_ok.mp ht
    obtain ⟨nt, hht⟩ := heap_of_valid_node hv hnt
    simp only [compare, ht, hs, ok_bind]
    by_cases hne : pt = ps
    · subst hne
      exact Or.inr (compareNodes_same _ _)
    · exact Or.inl (compareNodes_of_fastAbove hv hht hhs hne (by simp [fastAboveP, htop]))
  · intro b pb hbot hb htb
    obtain ⟨_, hnb⟩ := getNode_eq_ok.mp hb
    obtain ⟨nb, hhb⟩ := heap_of_valid_node hv hnb
    simp only [compare, hb, hs, ok_bind]
    have htop : ¬ some pb = o.top := fun h => htb (by rw [← h, hbot])
    refine ⟨?_, ?_, ?_⟩
    · intro h
      subst h
      exact compareNodes_same _ _
    · intro hne hno
      have hne2 : pb ≠ ps := fun h => hne h.symm
      have hsb : ¬ some ps = o.bottom := by
        rw [hbot]
        simpa using hne
      exact compareNodes_of_fastBelow hv hhb hhs hne2 (by simp [fastAboveP, htop, hsb, hno])
        (by simp [fastAboveP, hbot])
    · intro hne hyes
      have hne2 : pb ≠ ps := fun h => hne h.symm
      exact compareNodes_of_fastAbove hv hhb hhs hne2 (by simp [fastAboveP, hyes])

end Order

/-- C4 (counterexample): after `addRelation(1, 2)` on the sample order, whose bottom state is 1,
`compare(1, 2)` answers ABOVE although 1 is a bottom state and 2 a mapped state. -/
theorem sentinel_extremality_counterexample :
    (do
      let o ← Order.sampleBottomAbove
      let isBottom ← o.isBottomState 1
      let (c, _) ← o.compare 1 2 UNKNOWN
      pure (isBottom, o.contains 2, c)) = Except.ok (true, true, ABOVE) := by
  decide

/-- C4 (witness): the amended statement applied to state 2 of the sample order. -/
theorem sentinel_extremality_witness :
    ∃ o, Order.sampleOrder = Except.ok o ∧
    (∀ t pt, o.top = some pt → o.getNode t = Except.ok (some pt) →
      (o.compare t 2 UNKNOWN = Except.ok (ABOVE, o) ∨ o.compare t 2 UNKNOWN = Except.ok (SAME, o))) ∧
    (∀ b pb, o.bottom = some pb → o.getNode b = Except.ok (some pb) → o.top ≠ o.bottom →
      (2 = pb → o.compare b 2 UNKNOWN = Except.ok (SAME, o)) ∧
      (2 ≠ pb → o.aboveFastP pb 2 = false → o.compare b 2 UNKNOWN = Except.ok (BELOW, o)) ∧
      (2 ≠ pb → o.aboveFastP pb 2 = true → o.compare b 2 UNKNOWN = Except.ok (ABOVE, o))) :=
  ⟨_, rfl, Order.sentinel_extremality _ 2 2 (by decide) (by decide)⟩

namespace Order

/-! ## The effect of `above` and `compare` on the order -/

theorem above_eq_ok {o o1 : Order} {p q : Nat} {r : Bool}
    (h : o.above (some p) (some q) = Except.ok (r, o1)) :
    (r = false ∧ o1 = o) ∨
    (r = true ∧ ∃ n1 n2, o.heap[p]? = some n1 ∧ o.heap[q]? = some n2 ∧
      (∀ s ∈ n1.states, s < n2.statesAbove.size) ∧
      o1 = o.setHeap q (withAboveBits n2 (BitVector.setBits n2.statesAbove.bits n1.states))) := by
  simp only [above, bind_eq_ok] at h
  obtain ⟨fast, _, h⟩ := h
  cases fast
  · simp only [Bool.false_eq_true, if_false, bind_eq_ok] at h
    obtain ⟨isAbove, _, h⟩ := h
    cases isAbove
    · simp only [Bool.false_eq_true, if_false, pure_eq_ok, Except.ok.injEq, Prod.mk.injEq] at h
      exact Or.inl ⟨h.1.symm, h.2.symm⟩
    · simp only [if_true, bind_eq_ok, deref_eq_ok, BitVector.setAll_eq_ok, store_eq_ok,
        pure_eq_ok, Except.ok.injEq, Prod.mk.injEq] at h
      obtain ⟨n1, ⟨k1, hk1, hn1⟩, n2, ⟨k2, hk2, hn2⟩, sa, ⟨hlt, rfl⟩, o2, ⟨k3, hk3, _, rfl⟩, hr, ho⟩ := h
      cases hk1; cases hk2; cases hk3
      exact Or.inr ⟨hr.symm, n1, n2, hn1, hn2, hlt, ho.symm⟩
  · simp at h

end Order

namespace Order

theorem above_false_eq {o o1 : Order} {p q : Nat}
    (h : o.above (some p) (some q) = Except.ok (false, o1)) : o1 = o := by
  rcases above_eq_ok h with ⟨_, h⟩ | ⟨h, _⟩
  · exact h
  · exact absurd h (by simp)

theorem compareNodes_eq_ok {o o1 : Order} {p q : Nat} {c : NodeComparison}
    (h : o.compareNodes (some p) (some q) UNKNOWN = Except.ok (c, o1)) :
    (o.compareFastNodes (some p) (some q) UNKNOWN = Except.ok c ∧ c ≠ UNKNOWN ∧ o1 = o) ∨
    (o.compareFastNodes (some p) (some q) UNKNOWN = Except.ok UNKNOWN ∧
      ((c = ABOVE ∧ o.above (some p) (some q) = Except.ok (true, o1) ∧
          o1.above (some q) (some p) = Except.ok (false, o1)) ∨
       (c = BELOW ∧ o.above (some p) (some q) = Except.ok (false, o) ∧
          o.above (some q) (some p) = Except.ok (true, o1)) ∨
       (c = UNKNOWN ∧ o.above (some p) (some q) = Except.ok (false, o) ∧
          o.above (some q) (some p) = Except.ok (false, o) ∧ o1 = o))) := by
  simp only [compareNodes, ne_eq, reduceCtorEq, not_false_eq_true, and_self, if_true, true_or,
    bind_eq_ok, aboveWhen, decide_True] at h
  obtain ⟨comp, hfast, h⟩ := h
  by_cases hc : comp = UNKNOWN
  · subst hc
    simp only [not_true_eq_false, if_false, bind_eq_ok] at h
    obtain ⟨⟨isAbove, oa⟩, habove, h⟩ := h
    refine Or.inr ⟨hfast, ?_⟩
    cases isAbove
    · have hoa := above_false_eq habove
      subst hoa
      simp only [Bool.false_eq_true, if_false, bind_eq_ok] at h
      obtain ⟨⟨isBelow, ob⟩, hbelow, h⟩ := h
      cases isBelow
      · have hob := above_false_eq hbelow
        subst hob
        simp only [Bool.false_eq_true, if_false, pure_eq_ok, Except.ok.injEq, Prod.mk.injEq] at h
        obtain ⟨rfl, rfl⟩ := h
        exact Or.inr (Or.inr ⟨rfl, habove, hbelow, rfl⟩)
      · simp only [if_true, pure_eq_ok, Except.ok.injEq, Prod.mk.injEq] at h
        obtain ⟨rfl, rfl⟩ := h
        exact Or.inr (Or.inl ⟨rfl, habove, hbelow⟩)
    · simp only [if_true, bind_eq_ok] at h
      obtain ⟨⟨rev, orev⟩, hrev, h⟩ := h
      cases rev
      · have horev := above_false_eq hrev
        subst horev
        simp only [Bool.false_eq_true, if_false, pure_eq_ok, Except.ok.injEq, Prod.mk.injEq] at h
        obtain ⟨rfl, rfl⟩ := h
        exact Or.inl ⟨rfl, habove, hrev⟩
      · simp at h
  · simp only [hc, not_false_eq_true, if_true, pure_eq_ok, Except.ok.injEq, Prod.mk.injEq] at h
    obtain ⟨rfl, rfl⟩ := h
    exact Or.inl ⟨hfast, hc, rfl⟩

end Order

namespace Order

/-! ## Placing a new state -/

theorem getElem?_append_set_old {l : List Node} {k : Nat} {n m : Node} (hk : k < l.length) :
    ((l ++ [n]).set l.length m)[k]? = l[k]? := by
  have hne : l.length ≠ k := by omega
  rw [List.getElem?_set_ne hne, List.getElem?_append_left hk]

theorem getElem?_append_set_new {l : List Node} {n m : Node} :
    ((l ++ [n]).set l.length m)[l.length]? = some m := by
  simp [List.getElem?_set]

theorem set_append_set {l : List Node} {n m m2 : Node} :
    ((l ++ [n]).set l.length m).set l.length m2 = l ++ [m2] := by
  simp [List.set_append]

theorem set_append_new {l : List Node} {n m : Node} :
    (l ++ [n]).set l.length m = l ++ [m] := by
  simp [List.set_append]

theorem setInsert_nil (x : Nat) : setInsert x [] = [x] := rfl

theorem insertBelowAnchor_of_valid {o : Order} (hv : o.Valid) {state pa pr : Nat} {a r : Node}
    (hs : state < o.numberOfStates) (ha : o.heap[pa]? = some a) (hr : o.heap[pr]? = some r) :
    o.insertBelowAnchor state (some pa) (some pr) =
      Except.ok (o.placed state ⟨[state], ⟨a.statesAbove.size,
        BitVector.setBits a.statesAbove.bits a.states⟩⟩ pr
        (withAboveBits r (r.statesAbove.bits ||| 2 ^ state))) := by
  have hla := lt_length_of_getElem? ha
  have hlr := lt_length_of_getElem? hr
  have hsn : state < o.nodes.length := by rw [hv.1]; exact hs
  have hsize : r.statesAbove.size = o.numberOfStates := valid_node_size hv hr
  have hall : ∀ i ∈ a.states, i < a.statesAbove.size := fun i hi => by
    rw [valid_node_size hv ha]; exact valid_state_lt hv ha hi
  simp only [insertBelowAnchor, alloc, setNodeAt, List.length_append, List.length_singleton,
    hsn, if_true, ok_bind, deref, store, List.getElem?_concat_length, Nat.lt_add_one,
    List.length_set, getElem?_append_set_new, getElem?_append_set_old hla, ha, set_append_set,
    BitVector.setAll_of_lt hall]
  have hsr : state < r.statesAbove.size := by rw [hsize]; exact hs
  simp only [List.getElem?_append_left hla, ha, ok_bind, BitVector.setAll_of_lt hall,
    set_append_new, List.getElem?_append_left hlr, hr, BitVector.set_of_lt hsr,
    Nat.lt_succ_of_lt hlr, if_true, pure_eq_ok, setInsert_nil]
  rfl

end Order

namespace Order

@[simp] theorem heap_updateDoneBuilding (o : Order) : o.updateDoneBuilding.heap = o.heap := by
  unfold updateDoneBuilding; split <;> rfl

@[simp] theorem nodes_updateDoneBuilding (o : Order) : o.updateDoneBuilding.nodes = o.nodes := by
  unfold updateDoneBuilding; split <;> rfl

@[simp] theorem top_updateDoneBuilding (o : Order) : o.updateDoneBuilding.top = o.top := by
  unfold updateDoneBuilding; split <;> rfl

@[simp] theorem bottom_updateDoneBuilding (o : Order) : o.updateDoneBuilding.bottom = o.bottom := by
  unfold updateDoneBuilding; split <;> rfl

@[simp] theorem numberOfStates_updateDoneBuilding (o : Order) :
    o.updateDoneBuilding.numberOfStates = o.numberOfStates := by
  unfold updateDoneBuilding; split <;> rfl

@[simp] theorem numberOfAddedStates_updateDoneBuilding (o : Order) :
    o.updateDoneBuilding.numberOfAddedStates = o.numberOfAddedStates := by
  unfold updateDoneBuilding; split <;> rfl

@[simp] theorem heap_placed (o : Order) (state : Nat) (nw : Node) (pr : Nat) (r : Node) :
    (o.placed state nw pr r).heap = (o.heap ++ [nw]).set pr r := by
  simp [placed]

@[simp] theorem nodes_placed (o : Order) (state : Nat) (nw : Node) (pr : Nat) (r : Node) :
    (o.placed state nw pr r).nodes = o.nodes.set state (some o.heap.length) := by
  simp [placed]

@[simp] theorem top_placed (o : Order) (state : Nat) (nw : Node) (pr : Nat) (r : Node) :
    (o.placed state nw pr r).top = o.top := by
  simp [placed]

@[simp] theorem bottom_placed (o : Order) (state : Nat) (nw : Node) (pr : Nat) (r : Node) :
    (o.placed state nw pr r).bottom = o.bottom := by
  simp [placed]

@[simp] theorem numberOfStates_placed (o : Order) (state : Nat) (nw : Node) (pr : Nat) (r : Node) :
    (o.placed state nw pr r).numberOfStates = o.numberOfStates := by
  simp [placed]

@[simp] theorem numberOfAddedStates_placed (o : Order) (state : Nat) (nw : Node) (pr : Nat)
    (r : Node) : (o.placed state nw pr r).numberOfAddedStates = o.numberOfAddedStates + 1 := by
  simp [placed]

theorem heap_placed_new {o : Order} {state : Nat} {nw : Node} {pr : Nat} {r : Node}
    (hpr : pr < o.heap.length) : (o.placed state nw pr r).heap[o.heap.length]? = some nw := by
  have hne : pr ≠ o.heap.length := by omega
  simp [List.getElem?_set_ne hne]

theorem heap_placed_receiver {o : Order} {state : Nat} {nw : Node} {pr : Nat} {r : Node}
    (hpr : pr < o.heap.length) : (o.placed state nw pr r).heap[pr]? = some r := by
  rw [heap_placed, List.getElem?_set]
  simp [Nat.lt_succ_of_lt hpr]

theorem heap_placed_other {o : Order} {state : Nat} {nw : Node} {pr : Nat} {r : Node} {k : Nat}
    (hk : k < o.heap.length) (hne : pr ≠ k) :
    (o.placed state nw pr r).heap[k]? = o.heap[k]? := by
  simp [List.getElem?_set_ne hne, List.getElem?_append_left hk]

theorem getNode_placed_self {o : Order} {state : Nat} {nw : Node} {pr : Nat} {r : Node}
    (hv : o.Valid) (hs : state < o.numberOfStates) :
    (o.placed state nw pr r).getNode state = Except.ok (some o.heap.length) := by
  have hsn : state < o.nodes.length := by rw [hv.1]; exact hs
  exact getNode_eq_ok.mpr ⟨by simpa using hs, by simp [List.getElem?_set, hsn]⟩

theorem getNode_placed_other {o : Order} {state : Nat} {nw : Node} {pr : Nat} {r : Node}
    {t : Nat} {p : Ptr} (ht : o.getNode t = Except.ok p) (hne : state ≠ t) :
    (o.placed state nw pr r).getNode t = Except.ok p := by
  obtain ⟨h1, h2⟩ := getNode_eq_ok.mp ht
  exact getNode_eq_ok.mpr ⟨by simpa using h1, by simpa [List.getElem?_set_ne hne] using h2⟩

theorem valid_placed {o : Order} (hv : o.Valid) {state : Nat} {nw : Node} {pr : Nat} {r : Node}
    (hnw : nw.statesAbove.size = o.numberOfStates ∧ ∀ s ∈ nw.states, s < o.numberOfStates)
    (hr : r.statesAbove.size = o.numberOfStates ∧ ∀ s ∈ r.states, s < o.numberOfStates) :
    (o.placed state nw pr r).Valid := by
  obtain ⟨h1, h2, h3, h4, h5⟩ := hv
  refine ⟨by simpa using h1, ?_, ?_, ?_, ?_⟩
  · intro p hp k hk
    simp only [nodes_placed] at hp
    simp only [heap_placed, List.length_set, List.length_append, List.length_singleton]
    rcases List.mem_or_eq_of_mem_set hp with hp | hp
    · exact Nat.lt_succ_of_lt (h2 p hp k hk)
    · subst hp
      cases hk
      omega
  · intro k hk
    simp only [heap_placed, List.length_set, List.length_append, List.length_singleton]
    exact Nat.lt_succ_of_lt (h3 k (by simpa using hk))
  · intro k hk
    simp only [heap_placed, List.length_set, List.length_append, List.length_singleton]
    exact Nat.lt_succ_of_lt (h4 k (by simpa using hk))
  · intro m hm
    simp only [heap_placed, numberOfStates_placed] at hm ⊢
    rcases List.mem_or_eq_of_mem_set hm with hm | hm
    · rcases List.mem_append.mp hm with hm | hm
      · exact h5 m hm
      · simp only [List.mem_singleton] at hm
        subst hm
        exact hnw
    · subst hm
      exact hr

end Order

namespace Order

theorem compareNodes_above_effect {o o1 : Order} {p q : Nat}
    (h : o.compareNodes (some p) (some q) UNKNOWN = Except.ok (ABOVE, o1)) :
    o1 = o ∨ ∃ n1 n2, o.heap[p]? = some n1 ∧ o.heap[q]? = some n2 ∧
      (∀ s ∈ n1.states, s < n2.statesAbove.size) ∧
      o1 = o.setHeap q (withAboveBits n2 (BitVector.setBits n2.statesAbove.bits n1.states)) := by
  rcases compareNodes_eq_ok h with ⟨_, _, h⟩ | ⟨_, ⟨_, h, _⟩ | ⟨h, _⟩ | ⟨h, _⟩⟩
  · exact Or.inl h
  · rcases above_eq_ok h with ⟨h, _⟩ | ⟨_, n1, n2, h1, h2, h3, h4⟩
    · exact absurd h (by simp)
    · exact Or.inr ⟨n1, n2, h1, h2, h3, h4⟩
  · exact absurd h (by simp)
  · exact absurd h (by simp)

theorem counted_lt_of_unmapped {o : Order} (hv : o.Valid) (hc : o.Counted) {s : Nat}
    (hun : o.nodes[s]? = some none) : o.numberOfAddedStates < o.numberOfStates := by
  rw [hc, ← hv.1]
  apply lt_of_le_of_ne (List.countP_le_length _)
  intro h
  have := List.countP_eq_length.mp h none (List.getElem?_mem hun)
  simp at this

end Order

namespace Order

/-- C10: in a well-formed order, for an unmapped state `s` and two different allocated nodes `A`
and `B` for which `compare(A, B)` answers ABOVE, `addBetween(s, A, B)` returns and maps `s` to a
new node whose only member is `s` and whose `statesAbove` is `A.statesAbove` united with the
members of `A`; bit `s` is set in `B.statesAbove`; afterwards every member of `A` compares ABOVE to
`s` and `s` compares ABOVE to every member of `B`.  `addBelow(s, A)` creates the same new node. -/
theorem addBetween_inserts_below_anchor (o o1 : Order) (s pa pb kb : Nat) (A B : Node)
    (hv : o.Valid) (hc : o.Counted) (hs : s < o.numberOfStates) (hun : o.nodes[s]? = some none)
    (hA : o.heap[pa]? = some A) (hB : o.heap[pb]? = some B) (hne : pa ≠ pb)
    (hcmp : o.compareNodes (some pa) (some pb) UNKNOWN = Except.ok (ABOVE, o1))
    (hbot : o.bottom = some kb) :
    ∃ o2 nw B2, o.addBetweenNodes s (some pa) (some pb) = Except.ok o2 ∧
      o2.getNode s = Except.ok (some o.heap.length) ∧
      o2.heap[o.heap.length]? = some nw ∧ nw.states = [s] ∧
      nw.statesAbove.size = A.statesAbove.size ∧
      (∀ i, nw.statesAbove.bits.testBit i = (A.statesAbove.bits.testBit i || decide (i ∈ A.states))) ∧
      o2.heap[pb]? = some B2 ∧ B2.statesAbove.bits.testBit s = true ∧
      (∀ a, o.getNode a = Except.ok (some pa) → a ∈ A.states →
        o2.compare a s UNKNOWN = Except.ok (ABOVE, o2)) ∧
      (∀ b, o.getNode b = Except.ok (some pb) → b ∈ B.states →
        o2.compare s b UNKNOWN = Except.ok (ABOVE, o2)) ∧
      ∃ o3, o.addBelow s (some pa) = Except.ok o3 ∧
        o3.getNode s = Except.ok (some o.heap.length) ∧ o3.heap[o.heap.length]? = some nw := by
  have hlA := lt_length_of_getElem? hA
  have hlB := lt_length_of_getElem? hB
  have hnab : pb ≠ pa := fun h => hne h.symm
  have hcount := counted_lt_of_unmapped hv hc hun
  -- the order after the asserted comparison
  obtain ⟨B1, hB1, hBst, hBsize, hv1, hnodes1, hheap1, hlen1, hn1, hcnt1⟩ :
      ∃ B1, o1.heap[pb]? = some B1 ∧ B1.states = B.states ∧
        B1.statesAbove.size = B.statesAbove.size ∧ o1.Valid ∧ o1.nodes = o.nodes ∧
        o1.heap[pa]? = some A ∧ o1.heap.length = o.heap.length ∧
        o1.numberOfStates = o.numberOfStates ∧
        o1.numberOfAddedStates = o.numberOfAddedStates := by
    rcases compareNodes_above_effect hcmp with rfl | ⟨n1, n2, h1, h2, _, rfl⟩
    · exact ⟨B, hB, rfl, rfl, hv, rfl, hA, rfl, rfl, rfl⟩
    · rw [hB] at h2
      cases h2
      have hsz : (withAboveBits B (BitVector.setBits B.statesAbove.bits n1.states)).statesAbove.size
          = o.numberOfStates := (valid_node_size hv hB : B.statesAbove.size = _)
      exact ⟨_, heap_setHeap_self _ hlB, rfl, rfl,
        valid_set_heap hv pb hsz (fun t ht => valid_state_lt hv hB ht), rfl,
        (heap_setHeap_ne _ hnab).trans hA, by simp, rfl, rfl⟩
  have hs1 : s < o1.numberOfStates := by rw [hn1]; exact hs
  let nw : Node := ⟨[s], ⟨A.statesAbove.size, BitVector.setBits A.statesAbove.bits A.states⟩⟩
  let B2 := withAboveBits B1 (B1.statesAbove.bits ||| 2 ^ s)
  let o2 := o1.placed s nw pb B2
  have hsizeA : A.statesAbove.size = o.numberOfStates := valid_node_size hv hA
  have hsizeB : B.statesAbove.size = o.numberOfStates := valid_node_size hv hB
  have hnwok : nw.statesAbove.size = o1.numberOfStates ∧ ∀ t ∈ nw.states, t < o1.numberOfStates := by
    refine ⟨by rw [hn1]; exact hsizeA, ?_⟩
    intro t ht
    simp only [nw, List.mem_singleton] at ht
    subst ht
    exact hs1
  have hB2ok : B2.statesAbove.size = o1.numberOfStates ∧ ∀ t ∈ B2.states, t < o1.numberOfStates :=
    ⟨(valid_node_size hv1 hB1 : B1.statesAbove.size = _), fun t ht => valid_state_lt hv1 hB1 ht⟩
  have hv2 : o2.Valid := valid_placed hv1 hnwok hB2ok
  have hlB1 : pb < o1.heap.length := by rw [hlen1]; exact hlB
  have hlA1 : pa < o1.heap.length := by rw [hlen1]; exact hlA
  have hnew2 : o2.heap[o.heap.length]? = some nw := by
    rw [← hlen1]; exact heap_placed_new hlB1
  have hrec2 : o2.heap[pb]? = some B2 := heap_placed_receiver hlB1
  have hA2 : o2.heap[pa]? = some A := (heap_placed_other hlA1 hnab).trans hheap1
  have hget2 : o2.getNode s = Except.ok (some o.heap.length) := by
    rw [← hlen1]; exact getNode_placed_self hv1 hs1
  have hbitB2 : B2.statesAbove.bits.testBit s = true := by
    simp [B2, withAboveBits, Nat.testBit_two_pow]
  have hadd : o.addBetweenNodes s (some pa) (some pb) = Except.ok o2 := by
    have hne2 : ¬ (some pa : Ptr) = some pb := by simpa using hne
    have hun1 : o1.nodeAt s = Except.ok none := nodeAt_eq_ok.mpr (by rw [hnodes1]; exact hun)
    have hle : o1.numberOfAddedStates + 1 ≤ o1.numberOfStates := by
      rw [hcnt1, hn1]
      omega
    simp only [addBetweenNodes, hne2, if_false, reduceCtorEq, hcmp, ok_bind, ne_eq,
      not_true_eq_false, not_false_eq_true, and_self, hun1, if_true,
      insertBelowAnchor_of_valid hv1 hs1 hheap1 hB1]
    simp [hle, o2, nw, B2]
  refine ⟨o2, nw, B2, hadd, hget2, hnew2, rfl, rfl, ?_, hrec2, hbitB2, ?_, ?_, ?_⟩
  · intro i
    simp [nw, BitVector.testBit_setBits]
  · intro a ha hmem
    have hsa : s ≠ a := by
      rintro rfl
      rw [(getNode_eq_ok.mp ha).2] at hun
      simp at hun
    have ha1 : o1.getNode a = Except.ok (some pa) := by
      obtain ⟨h1, h2⟩ := getNode_eq_ok.mp ha
      exact getNode_eq_ok.mpr ⟨by rw [hn1]; exact h1, by rw [hnodes1]; exact h2⟩
    have ha2 : o2.getNode a = Except.ok (some pa) := getNode_placed_other ha1 hsa
    simp only [compare, ha2, hget2, ok_bind]
    refine compareNodes_of_fastAbove hv2 hA2 hnew2 (by omega) ?_
    have : o2.aboveFastP pa o.heap.length = true :=
      aboveFastP_of_mem hA2 hnew2 hmem (by simp [nw, BitVector.testBit_setBits, hmem])
    simp [fastAboveP, this]
  · intro b hb hmem
    have hsb : s ≠ b := by
      rintro rfl
      rw [(getNode_eq_ok.mp hb).2] at hun
      simp at hun
    have hb1 : o1.getNode b = Except.ok (some pb) := by
      obtain ⟨h1, h2⟩ := getNode_eq_ok.mp hb
      exact getNode_eq_ok.mpr ⟨by rw [hn1]; exact h1, by rw [hnodes1]; exact h2⟩
    have hb2 : o2.getNode b = Except.ok (some pb) := getNode_placed_other hb1 hsb
    simp only [compare, hb2, hget2, ok_bind]
    refine compareNodes_of_fastAbove hv2 hnew2 hrec2 (by omega) ?_
    have : o2.aboveFastP o.heap.length pb = true :=
      aboveFastP_of_mem hnew2 hrec2 (s := s) (by simp [nw]) hbitB2
    simp [fastAboveP, this]
  · -- `addBelow(s, A)`: the same new node, bit `s` goes to the bottom node
    have hlb : kb < o.heap.length := hv.2.2.2.1 kb (by rw [hbot]; rfl)
    let Bt := o.heap[kb]
    have hBt : o.heap[kb]? = some Bt := List.getElem?_eq_getElem hlb
    let o3 := o.placed s nw kb (withAboveBits Bt (Bt.statesAbove.bits ||| 2 ^ s))
    have hcont : o.contains s = false := by
      simp [contains, hun]
    have hle : o.numberOfAddedStates + 1 ≤ o.numberOfStates := by omega
    refine ⟨o3, ?_, getNode_placed_self hv hs, heap_placed_new hlb⟩
    simp only [addBelow, reduceCtorEq, if_false, hs, not_true_eq_false, hcont,
      Bool.false_eq_true, not_false_eq_true, if_true, hbot,
      insertBelowAnchor_of_valid hv hs hA hBt, ok_bind]
    simp [hle, o3, nw]

end Order


/-- C10 (witness): state 3 is inserted between the top node and the node of state 2 of the sample
base order. -/
theorem addBetween_inserts_below_anchor_witness :
    ∃ o A B, Order.sampleBase = Except.ok o ∧ o.heap[0]? = some A ∧ o.heap[2]? = some B ∧
    ∃ o2 nw B2, o.addBetweenNodes 3 (some 0) (some 2) = Except.ok o2 ∧
      o2.getNode 3 = Except.ok (some o.heap.length) ∧
      o2.heap[o.heap.length]? = some nw ∧ nw.states = [3] ∧
      nw.statesAbove.size = A.statesAbove.size ∧
      (∀ i, nw.statesAbove.bits.testBit i = (A.statesAbove.bits.testBit i || decide (i ∈ A.states))) ∧
      o2.heap[2]? = some B2 ∧ B2.statesAbove.bits.testBit 3 = true ∧
      (∀ a, o.getNode a = Except.ok (some 0) → a ∈ A.states →
        o2.compare a 3 UNKNOWN = Except.ok (ABOVE, o2)) ∧
      (∀ b, o.getNode b = Except.ok (some 2) → b ∈ B.states →
        o2.compare 3 b UNKNOWN = Except.ok (ABOVE, o2)) ∧
      ∃ o3, o.addBelow 3 (some 0) = Except.ok o3 ∧
        o3.getNode 3 = Except.ok (some o.heap.length) ∧ o3.heap[o.heap.length]? = some nw :=
  ⟨_, _, _, rfl, rfl, rfl,
    Order.addBetween_inserts_below_anchor _ _ 3 0 2 1 _ _ (by decide) (by decide) (by decide)
      (by decide) rfl rfl (by decide) rfl rfl⟩

namespace Order

theorem addAbove_of_valid {o : Order} (hv : o.Valid) {state pr : Nat} {r : Node} {topBits : Nat}
    (hs : state < o.numberOfStates) (hun : o.nodes[state]? = some none)
    (hr : o.heap[pr]? = some r)
    (htop : (o.top = none ∧ topBits = 0) ∨
      ∃ kt T, o.top = some kt ∧ o.heap[kt]? = some T ∧ topBits = BitVector.setBits 0 T.states) :
    o.addAbove state (some pr) =
      Except.ok (o.placed state ⟨[state], ⟨o.numberOfStates, topBits⟩⟩ pr
        (withAboveBits r (r.statesAbove.bits ||| 2 ^ state))) := by
  have hlr := lt_length_of_getElem? hr
  have hsn : state < o.nodes.length := by rw [hv.1]; exact hs
  have hsize : r.statesAbove.size = o.numberOfStates := valid_node_size hv hr
  have hsr : state < r.statesAbove.size := by rw [hsize]; exact hs
  have hun1 : o.nodeAt state = Except.ok none := nodeAt_eq_ok.mpr hun
  simp only [addAbove, reduceCtorEq, if_false, hs, not_true_eq_false, hun1, ok_bind, if_true,
    alloc, setNodeAt, hsn, deref, store, List.getElem?_concat_length, Nat.lt_add_one,
    List.length_append, List.length_singleton, List.length_set, getElem?_append_set_new,
    set_append_set, set_append_new, setInsert_nil, BitVector.zeros]
  rcases htop with ⟨ht, rfl⟩ | ⟨kt, T, ht, hT, rfl⟩
  · simp only [ht, ne_eq, not_true_eq_false, if_false, pure_eq_ok, ok_bind,
      List.getElem?_append_left hlr, hr, BitVector.set_of_lt hsr, Nat.lt_succ_of_lt hlr, if_true,
      List.length_append, List.length_singleton]
    simp [placed, withAboveBits, ht]
  · have hlT := lt_length_of_getElem? hT
    have hall : ∀ i ∈ T.states, i < o.numberOfStates := fun i hi => valid_state_lt hv hT hi
    have hsetAll : (BitVector.mk o.numberOfStates 0).setAll T.states
        = Except.ok ⟨o.numberOfStates, BitVector.setBits 0 T.states⟩ :=
      BitVector.setAll_of_lt hall
    simp only [ht, ne_eq, reduceCtorEq, not_false_eq_true, if_true, ok_bind,
      List.getElem?_append_left hlT, hT, List.getElem?_concat_length, hsetAll, Nat.lt_add_one,
      List.length_append, List.length_singleton, set_append_new, pure_eq_ok,
      List.getElem?_append_left hlr, hr, BitVector.set_of_lt hsr, Nat.lt_succ_of_lt hlr]
    simp [placed, withAboveBits, ht]

end Order

namespace Order

theorem heap_placed_states {o : Order} {state : Nat} {nw : Node} {pr : Nat} {r r0 : Node}
    (hr0 : o.heap[pr]? = some r0) (hst : r.states = r0.states) {k : Nat} {n : Node}
    (hk : o.heap[k]? = some n) :
    ∃ m, (o.placed state nw pr r).heap[k]? = some m ∧ m.states = n.states := by
  have hlk := lt_length_of_getElem? hk
  have hlr := lt_length_of_getElem? hr0
  by_cases h : pr = k
  · subst h
    rw [hr0] at hk
    cases hk
    exact ⟨r, heap_placed_receiver hlr, hst⟩
  · exact ⟨n, (heap_placed_other hlk h).trans hk, rfl⟩

/-- C9 (amended): in a well-formed order whose bottom node differs from its top node, `add(s)` for
an unmapped state `s` returns and maps `s` to a new node whose only member is `s`; afterwards
every mapped member `t` of the top node (if there is a top node) compares ABOVE to `s`, and `s`
compares ABOVE to every state `b` that is mapped to the bottom node. -/
theorem add_places_between (o : Order) (s kb : Nat) (hv : o.Valid) (hc : o.Counted)
    (hanch : o.Anchored) (hs : s < o.numberOfStates) (hun : o.nodes[s]? = some none)
    (hbot : o.bottom = some kb) (htb : o.top ≠ o.bottom) :
    ∃ o2 nw, o.add s = Except.ok o2 ∧ o2.getNode s = Except.ok (some o.heap.length) ∧
      o2.heap[o.heap.length]? = some nw ∧ nw.states = [s] ∧
      (∀ kt T t pt, o.top = some kt → o.heap[kt]? = some T → t ∈ T.states →
        o.getNode t = Except.ok (some pt) → o2.compare t s UNKNOWN = Except.ok (ABOVE, o2)) ∧
      (∀ b, o.getNode b = Except.ok (some kb) → o2.compare s b UNKNOWN = Except.ok (ABOVE, o2)) := by
  have hlb : kb < o.heap.length := hv.2.2.2.1 kb (by rw [hbot]; rfl)
  let Bt := o.heap[kb]
  have hBt : o.heap[kb]? = some Bt := List.getElem?_eq_getElem hlb
  have hun1 : o.nodeAt s = Except.ok none := nodeAt_eq_ok.mpr hun
  have hcount := counted_lt_of_unmapped hv hc hun
  let B2 := withAboveBits Bt (Bt.statesAbove.bits ||| 2 ^ s)
  have hB2ok : B2.statesAbove.size = o.numberOfStates ∧ ∀ t ∈ B2.states, t < o.numberOfStates :=
    ⟨(valid_node_size hv hBt : Bt.statesAbove.size = _), fun t ht => valid_state_lt hv hBt ht⟩
  -- the part shared by both cases, for a new node `nw` with member `s` only
  have key : ∀ nw : Node, nw.states = [s] → nw.statesAbove.size = o.numberOfStates →
      o.add s = Except.ok (o.placed s nw kb B2) →
      (∀ kt T t, o.top = some kt → o.heap[kt]? = some T → t ∈ T.states →
        nw.statesAbove.bits.testBit t = true) →
      ∃ o2 nw, o.add s = Except.ok o2 ∧ o2.getNode s = Except.ok (some o.heap.length) ∧
      o2.heap[o.heap.length]? = some nw ∧ nw.states = [s] ∧
      (∀ kt T t pt, o.top = some kt → o.heap[kt]? = some T → t ∈ T.states →
        o.getNode t = Except.ok (some pt) → o2.compare t s UNKNOWN = Except.ok (ABOVE, o2)) ∧
      (∀ b, o.getNode b = Except.ok (some kb) →
        o2.compare s b UNKNOWN = Except.ok (ABOVE, o2)) := by
    intro nw hnws hnwsize hadd hbits
    have hnwok : nw.statesAbove.size = o.numberOfStates ∧ ∀ t ∈ nw.states, t < o.numberOfStates := by
      refine ⟨hnwsize, ?_⟩
      intro t ht
      rw [hnws, List.mem_singleton] at ht
      subst ht
      exact hs
    have hv2 : (o.placed s nw kb B2).Valid := valid_placed hv hnwok hB2ok
    have hnew2 : (o.placed s nw kb B2).heap[o.heap.length]? = some nw := heap_placed_new hlb
    have hrec2 : (o.placed s nw kb B2).heap[kb]? = some B2 := heap_placed_receiver hlb
    have hget2 : (o.placed s nw kb B2).getNode s = Except.ok (some o.heap.length) :=
      getNode_placed_self hv hs
    refine ⟨_, nw, hadd, hget2, hnew2, hnws, ?_, ?_⟩
    · intro kt T t pt htop hT hmem ht
      have hst : s ≠ t := by
        rintro rfl
        rw [(getNode_eq_ok.mp ht).2] at hun
        simp at hun
      obtain ⟨Nt, hNt, hmemt⟩ := anchored_member hanch (getNode_eq_ok.mp ht).2
      have hplaced : ∃ m, (o.placed s nw kb B2).heap[pt]? = some m ∧ m.states = Nt.states :=
        heap_placed_states hBt (show B2.states = Bt.states from rfl) hNt
      obtain ⟨Mt, hMt, hMst⟩ := hplaced
      have hlt := lt_length_of_getElem? hNt
      simp only [compare, getNode_placed_other ht hst, hget2, ok_bind]
      refine compareNodes_of_fastAbove hv2 hMt hnew2 (by omega) ?_
      have : (o.placed s nw kb B2).aboveFastP pt o.heap.length = true :=
        aboveFastP_of_mem hMt hnew2 (s := t) (by rw [hMst]; exact hmemt) (hbits kt T t htop hT hmem)
      simp [fastAboveP, this]
    · intro b hb
      have hsb : s ≠ b := by
        rintro rfl
        rw [(getNode_eq_ok.mp hb).2] at hun
        simp at hun
      simp only [compare, getNode_placed_other hb hsb, hget2, ok_bind]
      exact compareNodes_of_fastAbove hv2 hnew2 hrec2 (by omega) (by simp [fastAboveP, hbot])
  have hcases : o.top = none ∨ ∃ kt, o.top = some kt := by
    cases o.top <;> simp
  rcases hcases with htop | ⟨kt, htop⟩
  · apply key ⟨[s], ⟨o.numberOfStates, 0⟩⟩ rfl rfl
    · simp only [add, hun1, ok_bind, ne_eq, not_true_eq_false, if_false, htop, if_true, hbot]
      exact addAbove_of_valid hv hs hun hBt (Or.inl ⟨htop, rfl⟩)
    · intro kt T t h
      rw [htop] at h
      exact absurd h (by simp)
  · have hlt : kt < o.heap.length := hv.2.2.1 kt (by rw [htop]; rfl)
    let T := o.heap[kt]
    have hT : o.heap[kt]? = some T := List.getElem?_eq_getElem hlt
    have hne : kt ≠ kb := by
      intro h
      apply htb
      rw [htop, hbot, h]
    have hcmp : o.compareNodes (some kt) (some kb) UNKNOWN = Except.ok (ABOVE, o) :=
      compareNodes_of_fastAbove hv hT hBt hne (by simp [fastAboveP, htop])
    apply key ⟨[s], ⟨T.statesAbove.size, BitVector.setBits T.statesAbove.bits T.states⟩⟩ rfl
      (valid_node_size hv hT : T.statesAbove.size = _)
    · have hne2 : ¬ (some kt : Ptr) = some kb := by simpa using hne
      have hle : o.numberOfAddedStates + 1 ≤ o.numberOfStates := by omega
      simp only [add, hun1, ok_bind, ne_eq, not_true_eq_false, if_false, htop, reduceCtorEq,
        hbot, addBetweenNodes, hne2, hcmp, not_false_eq_true, and_self, if_true,
        insertBelowAnchor_of_valid hv hs hT hBt]
      simp [hle, B2]
    · intro kt2 T2 t h hT2 hmem
      rw [htop] at h
      cases h
      rw [hT] at hT2
      cases hT2
      simp [BitVector.testBit_setBits, hmem]

end Order

/-- C9 (counterexample): in the sample base order, `merge(2, 1)` moves the bottom state 1 into the
node of state 2; after the following `add(3)`, state 1 is still reported as a bottom state but
`compare(3, 1)` answers UNKNOWN, not ABOVE. -/
theorem add_places_between_counterexample :
    (do
      let o ← Order.sampleBottomMerged
      let isBottom ← o.isBottomState 1
      let (c, _) ← o.compare 3 1 UNKNOWN
      pure (isBottom, c)) = Except.ok (true, UNKNOWN) := by
  decide

/-- C9 (witness): the amended statement applied to state 3 of the sample base order. -/
theorem add_places_between_witness :
    ∃ o, Order.sampleBase = Except.ok o ∧
    ∃ o2 nw, o.add 3 = Except.ok o2 ∧ o2.getNode 3 = Except.ok (some o.heap.length) ∧
      o2.heap[o.heap.length]? = some nw ∧ nw.states = [3] ∧
      (∀ kt T t pt, o.top = some kt → o.heap[kt]? = some T → t ∈ T.states →
        o.getNode t = Except.ok (some pt) → o2.compare t 3 UNKNOWN = Except.ok (ABOVE, o2)) ∧
      (∀ b, o.getNode b = Except.ok (some 1) → o2.compare 3 b UNKNOWN = Except.ok (ABOVE, o2)) :=
  ⟨_, rfl, Order.add_places_between _ 3 1 (by decide) (by decide) (by decide) (by decide) rfl rfl
    (by decide)⟩

namespace Order

/-! ## Monotonicity relations between orders -/

theorem nodeLe_refl (n : Node) : NodeLe n n := ⟨rfl, fun _ h => h, fun _ h => h⟩

theorem nodeLe_trans {a b c : Node} (h1 : NodeLe a b) (h2 : NodeLe b c) : NodeLe a c :=
  ⟨h2.1.trans h1.1, fun s hs => h2.2.1 s (h1.2.1 s hs), fun i hi => h2.2.2 i (h1.2.2 i hi)⟩

theorem sameFrame_refl (o : Order) : SameFrame o o := rfl

theorem sameFrame_trans {a b c : Order} (h1 : SameFrame a b) (h2 : SameFrame b c) :
    SameFrame a c := by
  unfold SameFrame at *
  rw [h2, h1]

theorem heapGrows_refl (o : Order) : HeapGrows o o :=
  ⟨rfl, fun _ n hn => ⟨n, hn, nodeLe_refl n⟩⟩

theorem heapGrows_trans {a b c : Order} (h1 : HeapGrows a b) (h2 : HeapGrows b c) :
    HeapGrows a c := by
  refine ⟨h2.1.trans h1.1, ?_⟩
  intro k n hn
  obtain ⟨n1, hn1, hle1⟩ := h1.2 k n hn
  obtain ⟨n2, hn2, hle2⟩ := h2.2 k n1 hn1
  exact ⟨n2, hn2, nodeLe_trans hle1 hle2⟩

theorem bitsGrow_refl (o : Order) : BitsGrow o o :=
  ⟨rfl, rfl, fun _ n hn => ⟨n, hn, rfl, nodeLe_refl n⟩⟩

theorem bitsGrow_trans {a b c : Order} (h1 : BitsGrow a b) (h2 : BitsGrow b c) :
    BitsGrow a c := by
  refine ⟨?_, h2.2.1.trans h1.2.1, ?_⟩
  · rw [h2.1, h1.1]
  · intro k n hn
    obtain ⟨n1, hn1, hs1, hle1⟩ := h1.2.2 k n hn
    obtain ⟨n2, hn2, hs2, hle2⟩ := h2.2.2 k n1 hn1
    exact ⟨n2, hn2, hs2.trans hs1, nodeLe_trans hle1 hle2⟩

theorem bitsGrow_nodes {o o1 : Order} (h : BitsGrow o o1) : o1.nodes = o.nodes := by
  rw [h.1]

theorem bitsGrow_numberOfStates {o o1 : Order} (h : BitsGrow o o1) :
    o1.numberOfStates = o.numberOfStates := by
  rw [h.1]

theorem bitsGrow_top {o o1 : Order} (h : BitsGrow o o1) : o1.top = o.top := by
  rw [h.1]

theorem bitsGrow_bottom {o o1 : Order} (h : BitsGrow o o1) : o1.bottom = o.bottom := by
  rw [h.1]

theorem bitsGrow_heapGrows {o o1 : Order} (h : BitsGrow o o1) : HeapGrows o o1 :=
  ⟨h.2.1, fun k n hn => by
    obtain ⟨n1, hn1, _, hle⟩ := h.2.2 k n hn
    exact ⟨n1, hn1, hle⟩⟩

theorem bitsGrow_sameFrame {o o1 : Order} (h : BitsGrow o o1) : SameFrame o o1 := by
  unfold SameFrame
  conv => lhs; rw [h.1]
  rw [bitsGrow_nodes h]

/-- Setting bits in one node. -/
theorem bitsGrow_setHeap {o : Order} {k : Nat} {n : Node} {bits : Nat} (hk : o.heap[k]? = some n)
    (hbits : ∀ i, n.statesAbove.bits.testBit i = true → bits.testBit i = true) :
    BitsGrow o (o.setHeap k (withAboveBits n bits)) := by
  refine ⟨rfl, by simp, ?_⟩
  intro j m hm
  by_cases hkj : k = j
  · subst hkj
    rw [hk] at hm
    cases hm
    exact ⟨_, heap_setHeap_self _ (lt_length_of_getElem? hk), rfl, rfl, fun _ h => h, hbits⟩
  · exact ⟨m, (heap_setHeap_ne _ hkj).trans hm, rfl, nodeLe_refl m⟩

theorem testBit_setBits_of_testBit {bits i : Nat} (l : List Nat) (h : bits.testBit i = true) :
    (BitVector.setBits bits l).testBit i = true := by
  simp [BitVector.testBit_setBits, h]

theorem above_bitsGrow {o o1 : Order} {p q : Ptr} {r : Bool}
    (h : o.above p q = Except.ok (r, o1)) : BitsGrow o o1 := by
  simp only [above, bind_eq_ok] at h
  obtain ⟨fast, _, h⟩ := h
  cases fast
  · simp only [Bool.false_eq_true, if_false, bind_eq_ok] at h
    obtain ⟨isAbove, _, h⟩ := h
    cases isAbove
    · simp only [Bool.false_eq_true, if_false, pure_eq_ok, Except.ok.injEq, Prod.mk.injEq] at h
      rw [← h.2]
      exact bitsGrow_refl o
    · simp only [if_true, bind_eq_ok, deref_eq_ok, BitVector.setAll_eq_ok, store_eq_ok,
        pure_eq_ok, Except.ok.injEq, Prod.mk.injEq] at h
      obtain ⟨n1, _, n2, ⟨k2, hk2, hn2⟩, sa, ⟨_, rfl⟩, o2, ⟨k3, hk3, _, rfl⟩, _, ho⟩ := h
      subst hk2
      cases hk3
      rw [← ho]
      exact bitsGrow_setHeap hn2 (fun i hi => testBit_setBits_of_testBit _ hi)
  · simp at h

theorem compareNodes_bitsGrow {o o1 : Order} {p q : Ptr} {hyp c : NodeComparison}
    (h : o.compareNodes p q hyp = Except.ok (c, o1)) : BitsGrow o o1 := by
  unfold compareNodes at h
  split at h
  · simp only [bind_eq_ok] at h
    obtain ⟨comp, _, h⟩ := h
    split at h
    · simp only [pure_eq_ok, Except.ok.injEq, Prod.mk.injEq] at h
      rw [← h.2]
      exact bitsGrow_refl o
    · simp only [bind_eq_ok] at h
      obtain ⟨⟨isAbove, oa⟩, ha, h⟩ := h
      have hoa : BitsGrow o oa := by
        unfold aboveWhen at ha
        split at ha
        · exact above_bitsGrow ha
        · simp only [Except.ok.injEq, Prod.mk.injEq] at ha
          rw [← ha.2]
          exact bitsGrow_refl o
      cases isAbove
      · simp only [Bool.false_eq_true, if_false, bind_eq_ok] at h
        obtain ⟨⟨isBelow, ob⟩, hb, h⟩ := h
        have hob : BitsGrow oa ob := by
          unfold aboveWhen at hb
          split at hb
          · exact above_bitsGrow hb
          · simp only [Except.ok.injEq, Prod.mk.injEq] at hb
            rw [← hb.2]
            exact bitsGrow_refl oa
        have : o1 = ob := by
          cases isBelow <;> simp at h <;> exact h.2.symm
        rw [this]
        exact bitsGrow_trans hoa hob
      · simp only [if_true, bind_eq_ok] at h
        obtain ⟨⟨rev, orev⟩, hrev, h⟩ := h
        have horev := above_bitsGrow hrev
        cases rev
        · simp only [Bool.false_eq_true, if_false, pure_eq_ok, Except.ok.injEq, Prod.mk.injEq] at h
          rw [← h.2]
          exact bitsGrow_trans hoa horev
        · simp at h
  · split at h
    · simp only [Except.ok.injEq, Prod.mk.injEq] at h
      rw [← h.2]
      exact bitsGrow_refl o
    · split at h <;>
      · simp only [Except.ok.injEq, Prod.mk.injEq] at h
        rw [← h.2]
        exact bitsGrow_refl o

theorem compare_bitsGrow {o o1 : Order} {i j : Nat} {hyp c : NodeComparison}
    (h : o.compare i j hyp = Except.ok (c, o1)) : BitsGrow o o1 := by
  simp only [compare, bind_eq_ok] at h
  obtain ⟨p, _, q, _, h⟩ := h
  exact compareNodes_bitsGrow h

end Order

namespace Order

theorem getD_nodes {o : Order} {s k : Nat} :
    k ∈ o.nodes.getD s none ↔ o.nodes[s]? = some (some k) := by
  rw [List.getD_eq_getElem?_getD]
  cases h : o.nodes[s]? with
  | none => simp [Option.mem_def]
  | some p => cases p <;> simp [Option.mem_def]

theorem anchored_iff {o : Order} :
    o.Anchored ↔ ∀ s k : Nat, o.nodes[s]? = some (some k) →
      ∃ n : Node, o.heap[k]? = some n ∧ s ∈ n.states := by
  constructor
  · intro h s k hs
    exact anchored_member h hs
  · intro h s _ k hk
    obtain ⟨n, hn, hmem⟩ := h s k (getD_nodes.mp hk)
    exact ⟨n, hn, hmem⟩

theorem exclusive_iff {o : Order} :
    o.Exclusive ↔ ∀ (k : Nat) (n : Node) (s : Nat), o.IsMapped k → o.heap[k]? = some n →
      s ∈ n.states →
      o.nodes[s]? = some (some k) := by
  constructor
  · intro h k n s hk hn hs
    exact h (some k) hk k rfl n hn s hs
  · intro h p hp k hk n hn s hs
    cases hk
    exact h k n s hp hn hs

theorem isMapped_iff {o : Order} {k : Nat} :
    o.IsMapped k ↔ ∃ s : Nat, o.nodes[s]? = some (some k) :=
  List.mem_iff_getElem?

theorem valid_of_bitsGrow {o o1 : Order} (hv : o.Valid) (h : BitsGrow o o1) : o1.Valid := by
  obtain ⟨h1, h2, h3, h4, h5⟩ := hv
  have hn := bitsGrow_nodes h
  have hlen := h.2.1
  refine ⟨by rw [hn, bitsGrow_numberOfStates h]; exact h1, ?_, ?_, ?_, ?_⟩
  · rw [hn, hlen]; exact h2
  · rw [bitsGrow_top h, hlen]; exact h3
  · rw [bitsGrow_bottom h, hlen]; exact h4
  · intro m hm
    obtain ⟨k, hk⟩ := List.getElem?_of_mem hm
    have hlt : k < o.heap.length := by rw [← hlen]; exact lt_length_of_getElem? hk
    obtain ⟨m1, hm1, hst, hle⟩ := h.2.2 k o.heap[k] (List.getElem?_eq_getElem hlt)
    rw [hk] at hm1
    cases hm1
    have := h5 o.heap[k] (List.getElem_mem hlt)
    rw [bitsGrow_numberOfStates h]
    exact ⟨hle.1.trans this.1, fun s hs => this.2 s (by rw [← hst]; exact hs)⟩

theorem anchored_of_bitsGrow {o o1 : Order} (ha : o.Anchored) (h : BitsGrow o o1) :
    o1.Anchored := by
  rw [anchored_iff] at ha ⊢
  intro s k hs
  rw [bitsGrow_nodes h] at hs
  obtain ⟨n, hn, hmem⟩ := ha s k hs
  obtain ⟨n1, hn1, hst, _⟩ := h.2.2 k n hn
  exact ⟨n1, hn1, by rw [hst]; exact hmem⟩

theorem heap_of_bitsGrow_inv {o o1 : Order} (h : BitsGrow o o1) {k : Nat} {n1 : Node}
    (hk : o1.heap[k]? = some n1) :
    ∃ n, o.heap[k]? = some n ∧ n1.states = n.states ∧ NodeLe n n1 := by
  have hlt : k < o.heap.length := by rw [← h.2.1]; exact lt_length_of_getElem? hk
  obtain ⟨m1, hm1, hst, hle⟩ := h.2.2 k o.heap[k] (List.getElem?_eq_getElem hlt)
  rw [hk] at hm1
  cases hm1
  exact ⟨_, List.getElem?_eq_getElem hlt, hst, hle⟩

theorem exclusive_of_bitsGrow {o o1 : Order} (he : o.Exclusive) (h : BitsGrow o o1) :
    o1.Exclusive := by
  rw [exclusive_iff] at he ⊢
  intro k n1 s hk hn1 hs
  obtain ⟨n, hn, hst, _⟩ := heap_of_bitsGrow_inv h hn1
  rw [bitsGrow_nodes h]
  refine he k n s ?_ hn (by rw [← hst]; exact hs)
  unfold IsMapped at hk ⊢
  rw [← bitsGrow_nodes h]
  exact hk

theorem partition_of_bitsGrow {o o1 : Order} (hp : o.Partition) (h : BitsGrow o o1) :
    o1.Partition :=
  ⟨anchored_of_bitsGrow hp.1 h, exclusive_of_bitsGrow hp.2 h⟩

theorem coarsens_of_bitsGrow {o o1 : Order} (h : BitsGrow o o1) : Coarsens o o1 := by
  have hn := bitsGrow_nodes h
  refine ⟨by rw [hn], ?_, ?_, ?_⟩
  · intro x hx
    rw [hn]; exact hx
  · intro x p hx
    refine ⟨p, by rw [hn]; exact hx, ?_⟩
    intro n hn
    obtain ⟨n1, hn1, _, hle⟩ := h.2.2 p n hn
    exact ⟨n1, hn1, hle⟩
  · intro x y p hx hy
    rw [hn, hx, hy]

theorem extends_of_bitsGrow {o o1 : Order} (h : BitsGrow o o1) : Extends o o1 :=
  ⟨bitsGrow_sameFrame h, bitsGrow_heapGrows h, coarsens_of_bitsGrow h⟩

theorem extends_refl (o : Order) : Extends o o := extends_of_bitsGrow (bitsGrow_refl o)

theorem coarsens_trans {a b c : Order} (h1 : Coarsens a b) (h2 : Coarsens b c) :
    Coarsens a c := by
  refine ⟨h2.1.trans h1.1, ?_, ?_, ?_⟩
  · intro x hx
    exact h2.2.1 x (h1.2.1 x hx)
  · intro x p hx
    obtain ⟨p1, hp1, hle1⟩ := h1.2.2.1 x p hx
    obtain ⟨p2, hp2, hle2⟩ := h2.2.2.1 x p1 hp1
    refine ⟨p2, hp2, ?_⟩
    intro n hn
    obtain ⟨n1, hn1, hl1⟩ := hle1 n hn
    obtain ⟨n2, hn2, hl2⟩ := hle2 n1 hn1
    exact ⟨n2, hn2, nodeLe_trans hl1 hl2⟩
  · intro x y p hx hy
    obtain ⟨p1, hp1, _⟩ := h1.2.2.1 x p hx
    have hy1 : b.nodes[y]? = some (some p1) := by
      rw [← h1.2.2.2 x y p hx hy]; exact hp1
    exact h2.2.2.2 x y p1 hp1 hy1

theorem extends_trans {a b c : Order} (h1 : Extends a b) (h2 : Extends b c) : Extends a c :=
  ⟨sameFrame_trans h1.1 h2.1, heapGrows_trans h1.2.1 h2.2.1, coarsens_trans h1.2.2 h2.2.2⟩

end Order

namespace Order

/-! ## The loops of `mergeNodes` -/

theorem setNodeAt_eq_ok {o o1 : Order} {s : Nat} {p : Ptr} :
    o.setNodeAt s p = Except.ok o1 ↔
      s < o.nodes.length ∧ o1 = { o with nodes := o.nodes.set s p } := by
  unfold setNodeAt
  split <;> simp_all [eq_comm]

theorem remap_eq_ok {l : List Nat} {o o1 : Order} {p : Ptr} (h : o.remap p l = Except.ok o1) :
    o1 = { o with nodes := o1.nodes } ∧ o1.nodes.length = o.nodes.length ∧
      (∀ x ∈ l, x < o.nodes.length ∧ o1.nodes[x]? = some p) ∧
      (∀ x, x ∉ l → o1.nodes[x]? = o.nodes[x]?) := by
  induction l generalizing o with
  | nil =>
    simp only [remap, Except.ok.injEq] at h
    subst h
    simp
  | cons i is ih =>
    simp only [remap, bind_eq_ok, setNodeAt_eq_ok] at h
    obtain ⟨o2, ⟨hi, rfl⟩, h⟩ := h
    obtain ⟨h1, h2, h3, h4⟩ := ih h
    simp only [List.length_set] at h2 h3
    refine ⟨by rw [h1], h2, ?_, ?_⟩
    · intro x hx
      by_cases hxi : x ∈ is
      · exact h3 x hxi
      · have hx' : x = i := by
          rcases List.mem_cons.mp hx with h | h
          · exact h
          · exact absurd h hxi
        subst hx'
        refine ⟨hi, ?_⟩
        rw [h4 x hxi]
        simp [List.getElem?_set, hi]
    · intro x hx
      have hxi : x ≠ i := fun h => hx (by simp [h])
      have hxis : x ∉ is := fun h => hx (List.mem_cons_of_mem _ h)
      rw [h4 x hxis]
      simp [List.getElem?_set_ne (Ne.symm hxi)]

theorem propagateNode_eq_ok {l : List Nat} {o o1 : Order} {k1 k : Nat} {node2 : Ptr}
    (h : o.propagateNode (some k1) node2 (some k) l = Except.ok o1) :
    (o1 = o ∧ ∀ n, o.heap[k]? = some n → ∀ s2 ∈ l, n.statesAbove.bits.testBit s2 = false) ∨
    (∃ n n1, o.heap[k]? = some n ∧ o.heap[k1]? = some n1 ∧
      (∃ s2 ∈ l, n.statesAbove.bits.testBit s2 = true) ∧
      o1 = o.setHeap k (withAboveBits n (BitVector.setBits n.statesAbove.bits n1.states))) := by
  induction l with
  | nil =>
    simp only [propagateNode, Except.ok.injEq] at h
    exact Or.inl ⟨h.symm, fun _ _ _ hs => absurd hs (by simp)⟩
  | cons s2 rest ih =>
    simp only [propagateNode, bind_eq_ok, deref_eq_ok, BitVector.get_eq_ok] at h
    obtain ⟨n, ⟨k', hk', hn⟩, hit, ⟨_, rfl⟩, h⟩ := h
    cases hk'
    cases hb : n.statesAbove.bits.testBit s2
    · simp only [hb, Bool.false_eq_true, if_false] at h
      rcases ih h with ⟨h1, h2⟩ | ⟨n', n1, hn', hn1, ⟨s, hs, hbit⟩, h3⟩
      · refine Or.inl ⟨h1, ?_⟩
        intro m hm s hs
        rw [hn] at hm
        cases hm
        rcases List.mem_cons.mp hs with rfl | hs
        · exact hb
        · exact h2 n hn s hs
      · exact Or.inr ⟨n', n1, hn', hn1, ⟨s, List.mem_cons_of_mem _ hs, hbit⟩, h3⟩
    · simp only [hb, if_true, bind_eq_ok, deref_eq_ok, BitVector.setAll_eq_ok, store_eq_ok] at h
      obtain ⟨n1, ⟨k1', hk1', hn1⟩, sa, ⟨_, rfl⟩, k2', hk2', _, rfl⟩ := h
      cases hk1'
      cases hk2'
      exact Or.inr ⟨n, n1, hn, hn1, ⟨s2, List.mem_cons_self _ _, hb⟩, rfl⟩

theorem propagateNode_bitsGrow {l : List Nat} {o o1 : Order} {k1 k : Nat} {node2 : Ptr}
    (h : o.propagateNode (some k1) node2 (some k) l = Except.ok o1) : BitsGrow o o1 := by
  rcases propagateNode_eq_ok h with ⟨rfl, _⟩ | ⟨n, n1, hn, _, _, rfl⟩
  · exact bitsGrow_refl _
  · exact bitsGrow_setHeap hn (fun i hi => testBit_setBits_of_testBit _ hi)

theorem propagate_eq_ok {ptrs : List Ptr} {o o1 : Order} {k1 k2 : Nat} {l1 l2 : List Nat}
    (h : o.propagate (some k1) (some k2) ptrs = Except.ok o1)
    (h1 : ∀ n, o.heap[k1]? = some n → n.states = l1)
    (h2 : ∀ n, o.heap[k2]? = some n → n.states = l2) :
    BitsGrow o o1 ∧
    ∀ k, some k ∈ ptrs → ∀ n, o.heap[k]? = some n →
      (∃ s2 ∈ l2, n.statesAbove.bits.testBit s2 = true) →
      ∃ n1, o1.heap[k]? = some n1 ∧ ∀ s ∈ l1, n1.statesAbove.bits.testBit s = true := by
  induction ptrs generalizing o with
  | nil =>
    simp only [propagate, Except.ok.injEq] at h
    subst h
    exact ⟨bitsGrow_refl _, fun k hk => absurd hk (by simp)⟩
  | cons node rest ih =>
    simp only [propagate, bind_eq_ok] at h
    obtain ⟨oa, hstep, h⟩ := h
    -- the step for `node`
    unfold propagateEntry at hstep
    have hgrow : BitsGrow o oa := by
      split at hstep
      · simp only [bind_eq_ok] at hstep
        obtain ⟨n2, _, hstep⟩ := hstep
        cases node with
        | none => simp at *
        | some k => exact propagateNode_bitsGrow hstep
      · simp only [pure_eq_ok, Except.ok.injEq] at hstep
        rw [← hstep]
        exact bitsGrow_refl _
    have h1a : ∀ n, oa.heap[k1]? = some n → n.states = l1 := by
      intro n hn
      obtain ⟨m, hm, hst, _⟩ := heap_of_bitsGrow_inv hgrow hn
      rw [hst]; exact h1 m hm
    have h2a : ∀ n, oa.heap[k2]? = some n → n.states = l2 := by
      intro n hn
      obtain ⟨m, hm, hst, _⟩ := heap_of_bitsGrow_inv hgrow hn
      rw [hst]; exact h2 m hm
    obtain ⟨hrest, hprop⟩ := ih h h1a h2a
    refine ⟨bitsGrow_trans hgrow hrest, ?_⟩
    intro k hk n hn hhit
    obtain ⟨na, hna, _, hle⟩ := hgrow.2.2 k n hn
    rcases List.mem_cons.mp hk with hk | hk
    · -- `k` is the node of this step
      subst hk
      simp only [ne_eq, reduceCtorEq, not_false_eq_true, if_true, bind_eq_ok, deref_eq_ok] at hstep
      obtain ⟨n2, ⟨k2', hk2', hn2⟩, hstep⟩ := hstep
      cases hk2'
      have hl2 := h2 n2 hn2
      rcases propagateNode_eq_ok hstep with ⟨_, hno⟩ | ⟨n', n1, hn', hn1, _, rfl⟩
      · obtain ⟨s2, hs2, hbit⟩ := hhit
        have := hno n hn s2 (by rw [hl2]; exact hs2)
        rw [hbit] at this
        exact absurd this (by simp)
      · rw [hn] at hn'
        cases hn'
        have hl1 := h1 n1 hn1
        have hself := heap_setHeap_self (o := o)
          (withAboveBits n (BitVector.setBits n.statesAbove.bits n1.states))
          (lt_length_of_getElem? hn)
        obtain ⟨nf, hnf, _, hlef⟩ := hrest.2.2 k _ hself
        refine ⟨nf, hnf, ?_⟩
        intro s hs
        apply hlef.2.2
        simp [withAboveBits, BitVector.testBit_setBits, hl1, hs]
    · obtain ⟨s2, hs2, hbit⟩ := hhit
      exact hprop k hk na hna ⟨s2, hs2, hle.2.2 s2 hbit⟩

end Order

namespace Order

theorem setHeap_setHeap (o : Order) (k : Nat) (n m : Node) :
    (o.setHeap k n).setHeap k m = o.setHeap k m := by
  simp [setHeap]

/-- What the first part of `mergeNodes` does to the heap and the node table. -/
theorem mergeTransfer_eq_ok {o o1 : Order} {k1 k2 : Nat}
    (h : o.mergeTransfer (some k1) (some k2) = Except.ok o1) :
    ∃ n1 n2 m1, o.heap[k1]? = some n1 ∧ o.heap[k2]? = some n2 ∧ o1.heap[k1]? = some m1 ∧
      SameFrame o o1 ∧ o1.heap.length = o.heap.length ∧ o1.nodes.length = o.nodes.length ∧
      (∀ x ∈ n2.states, x < o.nodes.length ∧ o1.nodes[x]? = some (some k1)) ∧
      (∀ x, x ∉ n2.states → o1.nodes[x]? = o.nodes[x]?) ∧
      (∀ s, s ∈ m1.states ↔ s ∈ n1.states ∨ s ∈ n2.states) ∧
      m1.statesAbove.size = n1.statesAbove.size ∧ n1.statesAbove.size = n2.statesAbove.size ∧
      (∀ i, n1.statesAbove.bits.testBit i = true ∨ n2.statesAbove.bits.testBit i = true →
        m1.statesAbove.bits.testBit i = true) ∧
      (∀ k, k ≠ k1 → ∀ n, o.heap[k]? = some n →
        ∃ n', o1.heap[k]? = some n' ∧ n'.states = n.states ∧ NodeLe n n') ∧
      (∀ k, some k ∈ o1.nodes → ∀ n, o.heap[k]? = some n →
        (∃ s2 ∈ n2.states, n.statesAbove.bits.testBit s2 = true) →
        ∃ n', o1.heap[k]? = some n' ∧ ∀ s ∈ m1.states, n'.statesAbove.bits.testBit s = true) ∧
      (some k1 ∈ o1.nodes → (∃ s2 ∈ n2.states, n2.statesAbove.bits.testBit s2 = true) →
        ∀ s ∈ m1.states, m1.statesAbove.bits.testBit s = true) := by
  simp only [mergeTransfer, bind_eq_ok, deref_eq_ok, BitVector.orAssign_eq_ok, store_eq_ok] at h
  obtain ⟨n1, ⟨_, hk, hn1⟩, n2, ⟨_, hk', hn2⟩, sa, ⟨hsize, rfl⟩, oa, ⟨_, hk'', hl1, rfl⟩,
    n1a, ⟨_, hka, hn1a⟩, n2a, ⟨_, hkb, hn2a⟩, ob, ⟨_, hkc, _, rfl⟩, n2b, ⟨_, hkd, hn2b⟩,
    oc, hremap, hprop⟩ := h
  cases hk; cases hk'; cases hk''; cases hka; cases hkb; cases hkc; cases hkd
  -- the node stored at `k1` by the first two statements
  have hn1a' : n1a = ⟨n1.states, ⟨n1.statesAbove.size, n1.statesAbove.bits ||| n2.statesAbove.bits⟩⟩ := by
    have := heap_setHeap_self (o := o)
      ⟨n1.states, ⟨n1.statesAbove.size, n1.statesAbove.bits ||| n2.statesAbove.bits⟩⟩ hl1
    simp only [setHeap] at this
    rw [this] at hn1a
    exact (Option.some.inj hn1a).symm
  subst hn1a'
  have hn2a_states : ∀ s, s ∈ n2a.states ↔ s ∈ n2.states := by
    intro s
    by_cases hkk : k1 = k2
    · subst hkk
      have := heap_setHeap_self (o := o)
        ⟨n1.states, ⟨n1.statesAbove.size, n1.statesAbove.bits ||| n2.statesAbove.bits⟩⟩ hl1
      simp only [setHeap] at this
      rw [this] at hn2a
      cases hn2a
      rw [hn1] at hn2
      cases hn2
      rfl
    · have := heap_setHeap_ne (o := o)
        ⟨n1.states, ⟨n1.statesAbove.size, n1.statesAbove.bits ||| n2.statesAbove.bits⟩⟩ hkk
      simp only [setHeap] at this
      rw [this, hn2] at hn2a
      cases hn2a
      rfl
  -- the order before the node table is changed
  let m0 : Node := ⟨setInsertAll n2a.states n1.states,
    ⟨n1.statesAbove.size, n1.statesAbove.bits ||| n2.statesAbove.bits⟩⟩
  replace hn2b : (o.setHeap k1 m0).heap[k2]? = some n2b := by
    simpa [setHeap, m0] using hn2b
  replace hremap : (o.setHeap k1 m0).remap (some k1) n2b.states = Except.ok oc := by
    simpa [setHeap, m0] using hremap
  have hm0_states : ∀ s, s ∈ m0.states ↔ s ∈ n1.states ∨ s ∈ n2.states := by
    intro s
    simp only [m0, mem_setInsertAll, hn2a_states]
    tauto
  have hn2b_states : ∀ s, s ∈ n2b.states ↔ s ∈ n2.states := by
    intro s
    by_cases hkk : k1 = k2
    · subst hkk
      rw [heap_setHeap_self _ hl1] at hn2b
      have hb : n2b = m0 := (Option.some.inj hn2b).symm
      rw [hn1] at hn2
      cases hn2
      rw [hb, hm0_states]
      tauto
    · rw [heap_setHeap_ne _ hkk, hn2] at hn2b
      cases hn2b
      rfl
  obtain ⟨hr1, hr2, hr3, hr4⟩ := remap_eq_ok hremap
  have hoc_heap : oc.heap = (o.setHeap k1 m0).heap := by rw [hr1]
  have hoc1 : ∀ n, oc.heap[k1]? = some n → n.states = m0.states := by
    intro n hn
    rw [hoc_heap, heap_setHeap_self _ hl1] at hn
    cases hn
    rfl
  have hoc2 : ∀ n, oc.heap[k2]? = some n → n.states = n2b.states := by
    intro n hn
    rw [hoc_heap, hn2b] at hn
    cases hn
    rfl
  obtain ⟨hgrow, hhit⟩ := propagate_eq_ok hprop hoc1 hoc2
  have hoc_k1 : oc.heap[k1]? = some m0 := by rw [hoc_heap]; exact heap_setHeap_self _ hl1
  obtain ⟨m1, hm1, hm1s, hm1le⟩ := hgrow.2.2 k1 m0 hoc_k1
  have hnodes1 : o1.nodes = oc.nodes := bitsGrow_nodes hgrow
  refine ⟨n1, n2, m1, hn1, hn2, hm1, ?_, ?_, ?_, ?_, ?_, ?_, ?_, hsize, ?_, ?_, ?_, ?_⟩
  · -- frame
    unfold SameFrame
    conv => lhs; rw [hgrow.1, hr1]
    simp [setHeap, hnodes1]
  · rw [hgrow.2.1, hoc_heap]; simp
  · rw [hnodes1, hr2]; simp
  · intro x hx
    have := hr3 x ((hn2b_states x).mpr hx)
    rw [hnodes1]
    simpa using this
  · intro x hx
    rw [hnodes1, hr4 x (fun h => hx ((hn2b_states x).mp h))]
    simp
  · intro s
    rw [hm1s]
    exact hm0_states s
  · exact hm1le.1
  · intro i hi
    apply hm1le.2.2
    simp only [m0, Nat.testBit_or, Bool.or_eq_true]
    exact hi
  · intro k hk n hn
    have hock : oc.heap[k]? = some n := by
      rw [hoc_heap, heap_setHeap_ne _ (Ne.symm hk)]; exact hn
    obtain ⟨n', hn', hst, hle⟩ := hgrow.2.2 k n hock
    exact ⟨n', hn', hst, hle⟩
  · intro k hk n hn ⟨s2, hs2, hbit⟩
    rw [hnodes1] at hk
    by_cases hkk : k = k1
    · subst hkk
      rw [hn1] at hn
      cases hn
      obtain ⟨n', hn', hall⟩ := hhit k hk m0 hoc_k1
        ⟨s2, (hn2b_states s2).mpr hs2, by simp [m0, Nat.testBit_or, hbit]⟩
      rw [hm1] at hn'
      cases hn'
      exact ⟨m1, hm1, fun s hs => hall s (by rw [← hm1s]; exact hs)⟩
    · have hock : oc.heap[k]? = some n := by
        rw [hoc_heap, heap_setHeap_ne _ (Ne.symm hkk)]; exact hn
      obtain ⟨n', hn', hall⟩ := hhit k hk n hock ⟨s2, (hn2b_states s2).mpr hs2, hbit⟩
      exact ⟨n', hn', fun s hs => hall s (by rw [← hm1s]; exact hs)⟩
  · intro hk ⟨s2, hs2, hbit⟩
    rw [hnodes1] at hk
    obtain ⟨n', hn', hall⟩ := hhit k1 hk m0 hoc_k1
      ⟨s2, (hn2b_states s2).mpr hs2, by simp [m0, Nat.testBit_or, hbit]⟩
    rw [hm1] at hn'
    cases hn'
    exact fun s hs => hall s (by rw [← hm1s]; exact hs)

theorem mergeTransfer_extends {o o1 : Order} {k1 k2 : Nat} (hp : o.Partition)
    (hm1 : o.IsMapped k1) (hm2 : o.IsMapped k2)
    (h : o.mergeTransfer (some k1) (some k2) = Except.ok o1) :
    o1.Partition ∧ Extends o o1 := by
  obtain ⟨n1, n2, m1, hn1, hn2, hk1, hframe, hlen, hnlen, hin, hout, hst, hsz, hsz2, hbits,
    hother, _, _⟩ := mergeTransfer_eq_ok h
  have hanch := anchored_iff.mp hp.1
  have hexcl := exclusive_iff.mp hp.2
  -- members of `node2` are exactly the states mapped to it
  have hmem2 : ∀ x, x ∈ n2.states → o.nodes[x]? = some (some k2) :=
    fun x hx => hexcl k2 n2 x hm2 hn2 hx
  have hmapped2 : ∀ x, o.nodes[x]? = some (some k2) → x ∈ n2.states := by
    intro x hx
    obtain ⟨n, hn, hmem⟩ := hanch x k2 hx
    rw [hn2] at hn
    cases hn
    exact hmem
  have hgrows : HeapGrows o o1 := by
    refine ⟨hlen, ?_⟩
    intro k n hn
    by_cases hk : k = k1
    · subst hk
      rw [hn1] at hn
      cases hn
      exact ⟨m1, hk1, hsz, fun s hs => (hst s).mpr (Or.inl hs), fun i hi => hbits i (Or.inl hi)⟩
    · obtain ⟨n', hn', _, hle⟩ := hother k hk n hn
      exact ⟨n', hn', hle⟩
  have hcoarse : Coarsens o o1 := by
    refine ⟨hnlen, ?_, ?_, ?_⟩
    · intro x hx
      have hx2 : x ∉ n2.states := by
        intro hmem
        rw [hmem2 x hmem] at hx
        simp at hx
      rw [hout x hx2]
      exact hx
    · intro x p hx
      by_cases hx2 : x ∈ n2.states
      · have hpk : p = k2 := by
          have := hmem2 x hx2
          rw [hx] at this
          simpa using this
        subst hpk
        refine ⟨k1, (hin x hx2).2, ?_⟩
        intro n hn
        rw [hn2] at hn
        cases hn
        exact ⟨m1, hk1, hsz.trans hsz2, fun s hs => (hst s).mpr (Or.inr hs),
          fun i hi => hbits i (Or.inr hi)⟩
      · refine ⟨p, by rw [hout x hx2]; exact hx, ?_⟩
        intro n hn
        exact hgrows.2 p n hn
    · intro x y p hx hy
      by_cases hx2 : x ∈ n2.states
      · have hpk : p = k2 := by
          have := hmem2 x hx2
          rw [hx] at this
          simpa using this
        subst hpk
        rw [(hin x hx2).2, (hin y (hmapped2 y hy)).2]
      · have hy2 : y ∉ n2.states := by
          intro hmem
          have := hmem2 y hmem
          rw [hy] at this
          have hpk : p = k2 := by simpa using this
          subst hpk
          exact hx2 (hmapped2 x hx)
        rw [hout x hx2, hout y hy2, hx, hy]
  refine ⟨⟨?_, ?_⟩, hframe, hgrows, hcoarse⟩
  · rw [anchored_iff]
    intro x p1 hx
    by_cases hx2 : x ∈ n2.states
    · rw [(hin x hx2).2] at hx
      cases hx
      exact ⟨m1, hk1, (hst x).mpr (Or.inr hx2)⟩
    · rw [hout x hx2] at hx
      obtain ⟨n, hn, hmem⟩ := hanch x p1 hx
      obtain ⟨n', hn', hle⟩ := hgrows.2 p1 n hn
      exact ⟨n', hn', hle.2.1 x hmem⟩
  · rw [exclusive_iff]
    intro k n' s hk hn' hs
    by_cases hkk : k = k1
    · subst hkk
      rw [hk1] at hn'
      cases hn'
      by_cases hs2 : s ∈ n2.states
      · exact (hin s hs2).2
      · rw [hout s hs2]
        rcases (hst s).mp hs with hs1 | hs1
        · exact hexcl k n1 s hm1 hn1 hs1
        · exact absurd hs1 hs2
    · obtain ⟨x, hx⟩ := isMapped_iff.mp hk
      have hx2 : x ∉ n2.states := by
        intro hmem
        rw [(hin x hmem).2] at hx
        exact hkk (by simpa using hx.symm)
      rw [hout x hx2] at hx
      have hko : o.IsMapped k := isMapped_iff.mpr ⟨x, hx⟩
      have hk2 : k ≠ k2 := by
        rintro rfl
        exact hx2 (hmapped2 x hx)
      have hlt : k < o.heap.length := by rw [← hlen]; exact lt_length_of_getElem? hn'
      obtain ⟨n'', hn'', hst', _⟩ := hother k hkk o.heap[k] (List.getElem?_eq_getElem hlt)
      rw [hn'] at hn''
      cases hn''
      have hso : o.nodes[s]? = some (some k) :=
        hexcl k o.heap[k] s hko (List.getElem?_eq_getElem hlt) (by rw [← hst']; exact hs)
      have hs2 : s ∉ n2.states := by
        intro hmem
        rw [hmem2 s hmem] at hso
        exact hk2 (by simpa using hso.symm)
      rw [hout s hs2]
      exact hso

theorem rescan_induct {mergeStates : Order → Nat → Nat → Except Fault Order}
    {inv : Order → Prop} {rel : Order → Order → Prop}
    (hrefl : ∀ o, rel o o) (htrans : ∀ a b c, rel a b → rel b c → rel a c)
    (hcmp : ∀ o o1, inv o → BitsGrow o o1 → inv o1 ∧ rel o o1)
    (hmerge : ∀ o i j o1, inv o → mergeStates o i j = Except.ok o1 → inv o1 ∧ rel o o1)
    (l : List (Nat × Nat)) :
    ∀ o o1, inv o → rescan mergeStates o l = Except.ok o1 → inv o1 ∧ rel o o1 := by
  induction l with
  | nil =>
    intro o o1 hi h
    simp only [rescan, Except.ok.injEq] at h
    subst h
    exact ⟨hi, hrefl _⟩
  | cons ij rest ih =>
    intro o o1 hi h
    obtain ⟨i, j⟩ := ij
    simp only [rescan, rescanStep, bind_eq_ok] at h
    obtain ⟨oc, ⟨⟨c1, oa⟩, hc1, ⟨c2, ob⟩, hc2, hstep⟩, hrest⟩ := h
    obtain ⟨hia, hra⟩ := hcmp o oa hi (compare_bitsGrow hc1)
    obtain ⟨hib, hrb⟩ := hcmp oa ob hia (compare_bitsGrow hc2)
    have hoc : inv oc ∧ rel ob oc := by
      split at hstep
      · exact hmerge ob i j oc hib hstep
      · simp only [pure_eq_ok, Except.ok.injEq] at hstep
        subst hstep
        exact ⟨hib, hrefl _⟩
    obtain ⟨hi1, hr1⟩ := ih oc o1 hoc.1 hrest
    exact ⟨hi1, htrans _ _ _ (htrans _ _ _ (htrans _ _ _ hra hrb) hoc.2) hr1⟩

theorem mergeTransfer_ptrs {o o1 : Order} {p q : Ptr}
    (h : o.mergeTransfer p q = Except.ok o1) : ∃ k1 k2, p = some k1 ∧ q = some k2 := by
  simp only [mergeTransfer, bind_eq_ok, deref_eq_ok] at h
  obtain ⟨_, ⟨k1, hk1, _⟩, _, ⟨k2, hk2, _⟩, _⟩ := h
  exact ⟨k1, k2, hk1, hk2⟩

theorem isMapped_of_getNode {o : Order} {i k : Nat} (h : o.getNode i = Except.ok (some k)) :
    o.IsMapped k :=
  List.getElem?_mem (getNode_eq_ok.mp h).2

theorem mergeNodesFuel_ptrs {fuel : Nat} {o o1 : Order} {p q : Ptr}
    (h : mergeNodesFuel fuel o p q = Except.ok o1) : ∃ k1 k2, p = some k1 ∧ q = some k2 := by
  cases fuel with
  | zero => simp [mergeNodesFuel] at h
  | succ f =>
    simp only [mergeNodesFuel, bind_eq_ok] at h
    obtain ⟨_, htr, _⟩ := h
    exact mergeTransfer_ptrs htr

/-- The re-scan keeps the partition invariant and extends the order, if the nested merges do. -/
theorem rescan_extends_of (fuel : Nat)
    (ih : ∀ (o o1 : Order) (k1 k2 : Nat), o.Partition → o.IsMapped k1 → o.IsMapped k2 →
      mergeNodesFuel fuel o (some k1) (some k2) = Except.ok o1 → o1.Partition ∧ Extends o o1)
    (l : List (Nat × Nat)) (o o1 : Order) (hp : o.Partition)
    (h : rescan
      (fun (a : Order) (i j : Nat) => do
        let p ← a.getNode i
        let q ← a.getNode j
        mergeNodesFuel fuel a p q) o l = Except.ok o1) :
    o1.Partition ∧ Extends o o1 := by
  refine @rescan_induct _ Partition Extends extends_refl (fun _ _ _ => extends_trans)
    (fun o o1 hi hg => ⟨partition_of_bitsGrow hi hg, extends_of_bitsGrow hg⟩) ?_ l o o1 hp h
  intro a i j a1 hi hcall
  simp only [bind_eq_ok] at hcall
  obtain ⟨p, hp1, q, hq1, hcall⟩ := hcall
  obtain ⟨ka, kb, rfl, rfl⟩ := mergeNodesFuel_ptrs hcall
  exact ih a a1 ka kb hi (isMapped_of_getNode hp1) (isMapped_of_getNode hq1) hcall

/-- A merge keeps the partition invariant and only coarsens and extends the order. -/
theorem mergeNodesFuel_extends (fuel : Nat) :
    ∀ (o o1 : Order) (k1 k2 : Nat), o.Partition → o.IsMapped k1 → o.IsMapped k2 →
      mergeNodesFuel fuel o (some k1) (some k2) = Except.ok o1 → o1.Partition ∧ Extends o o1 := by
  induction fuel with
  | zero =>
    intro o o1 k1 k2 _ _ _ h
    simp [mergeNodesFuel] at h
  | succ fuel ih =>
    intro o o1 k1 k2 hp hm1 hm2 h
    simp only [mergeNodesFuel, bind_eq_ok] at h
    obtain ⟨oa, htr, hscan⟩ := h
    obtain ⟨hpa, hea⟩ := mergeTransfer_extends hp hm1 hm2 htr
    have := rescan_extends_of fuel ih _ oa o1 hpa hscan
    exact ⟨this.1, extends_trans hea this.2⟩

/-- The re-scan of a merge keeps the partition invariant and extends the order. -/
theorem rescan_extends (fuel : Nat) (l : List (Nat × Nat)) (o o1 : Order) (hp : o.Partition)
    (h : rescan
      (fun (a : Order) (i j : Nat) => do
        let p ← a.getNode i
        let q ← a.getNode j
        mergeNodesFuel fuel a p q) o l = Except.ok o1) :
    o1.Partition ∧ Extends o o1 :=
  rescan_extends_of fuel (mergeNodesFuel_extends fuel) l o o1 hp h

end Order

namespace Order

theorem sameFrame_numberOfStates {o o1 : Order} (h : SameFrame o o1) :
    o1.numberOfStates = o.numberOfStates := by
  unfold SameFrame at h
  rw [h]

theorem getNode_of_nodes {o : Order} (hv : o.nodes.length = o.numberOfStates) {x : Nat} {p : Ptr}
    (h : o.nodes[x]? = some p) : o.getNode x = Except.ok p := by
  refine getNode_eq_ok.mpr ⟨?_, h⟩
  rw [← hv]
  by_contra hlt
  rw [List.getElem?_eq_none (by omega)] at h
  exact absurd h (by simp)

theorem mergeNodesFuel_succ (fuel : Nat) (o : Order) (p q : Ptr) :
    mergeNodesFuel (fuel + 1) o p q =
      (o.mergeTransfer p q >>= fun o1 =>
        rescan
          (fun (a : Order) (i j : Nat) => do
            let p ← a.getNode i
            let q ← a.getNode j
            mergeNodesFuel fuel a p q)
          o1 (scanPairs o1.numberOfStates)) := rfl

theorem merge_eq_ok {o o1 : Order} {s1 s2 k1 k2 : Nat}
    (h1 : o.getNode s1 = Except.ok (some k1)) (h2 : o.getNode s2 = Except.ok (some k2))
    (hm : o.merge s1 s2 = Except.ok o1) :
    ∃ oa, o.mergeTransfer (some k1) (some k2) = Except.ok oa ∧
      rescan
        (fun (a : Order) (i j : Nat) => do
          let p ← a.getNode i
          let q ← a.getNode j
          mergeNodesFuel (o.numberOfStates + 1) a p q)
        oa (scanPairs oa.numberOfStates) = Except.ok o1 := by
  simp only [merge, h1, h2, ok_bind, mergeNodes] at hm
  rw [mergeNodesFuel_succ] at hm
  exact bind_eq_ok.mp hm

/-- C7 (amended): after `merge(s1, s2)` on an order that satisfies the partition invariant, every
former member of either node is mapped to the node of `s1` and is a member of it (so the member
set contains the union of both member sets, and `compare(s1, s2)` answers SAME); the
`statesAbove` of that node contains the former `statesAbove` of the node of `s2`; and the node of
every state whose node had a member of the node of `s2` in its `statesAbove` now has every former
member of the node of `s1` in its `statesAbove`. -/
theorem merge_postcondition (o o1 : Order) (s1 s2 k1 k2 : Nat) (n1 n2 : Node)
    (hv : o.Valid) (hp : o.Partition)
    (h1 : o.getNode s1 = Except.ok (some k1)) (h2 : o.getNode s2 = Except.ok (some k2))
    (hn1 : o.heap[k1]? = some n1) (hn2 : o.heap[k2]? = some n2)
    (hm : o.merge s1 s2 = Except.ok o1) :
    ∃ k m, o1.getNode s1 = Except.ok (some k) ∧ o1.heap[k]? = some m ∧
      (∀ x, x ∈ n1.states ∨ x ∈ n2.states → o1.getNode x = Except.ok (some k) ∧ x ∈ m.states) ∧
      o1.compare s1 s2 UNKNOWN = Except.ok (SAME, o1) ∧
      (∀ i, n2.statesAbove.bits.testBit i = true → m.statesAbove.bits.testBit i = true) ∧
      (∀ x kx nx, o.getNode x = Except.ok (some kx) → o.heap[kx]? = some nx →
        (∃ s ∈ n2.states, nx.statesAbove.bits.testBit s = true) →
        ∃ kx1 nx1, o1.getNode x = Except.ok (some kx1) ∧ o1.heap[kx1]? = some nx1 ∧
          ∀ s ∈ n1.states, nx1.statesAbove.bits.testBit s = true) := by
  have hk1 := (getNode_eq_ok.mp h1).2
  have hk2 := (getNode_eq_ok.mp h2).2
  have hmap1 : o.IsMapped k1 := isMapped_of_getNode h1
  have hmap2 : o.IsMapped k2 := isMapped_of_getNode h2
  have hanch := anchored_iff.mp hp.1
  have hexcl := exclusive_iff.mp hp.2
  obtain ⟨oa, htr, hscan⟩ := merge_eq_ok h1 h2 hm
  obtain ⟨n1', n2', m1, hn1', hn2', hm1, hframe, _, hnlen, hin, hout, hst, _, _, hbits, _,
    hhit, hself⟩ := mergeTransfer_eq_ok htr
  rw [hn1] at hn1'
  rw [hn2] at hn2'
  cases hn1'
  cases hn2'
  obtain ⟨hpa, _⟩ := mergeTransfer_extends hp hmap1 hmap2 htr
  obtain ⟨hp1, hfr1, _, hlen1, _, hmapped, hsame⟩ := rescan_extends _ _ oa o1 hpa hscan
  have hnum : o1.nodes.length = o1.numberOfStates := by
    rw [hlen1, hnlen, sameFrame_numberOfStates hfr1, sameFrame_numberOfStates hframe]
    exact hv.1
  -- after the transfer both member sets are mapped to `k1`
  have hunion : ∀ x, x ∈ n1.states ∨ x ∈ n2.states → oa.nodes[x]? = some (some k1) := by
    intro x hx
    by_cases hx2 : x ∈ n2.states
    · exact (hin x hx2).2
    · rw [hout x hx2]
      rcases hx with hx | hx
      · exact hexcl k1 n1 x hmap1 hn1 hx
      · exact absurd hx hx2
  have hs1mem : s1 ∈ n1.states := by
    obtain ⟨n, hn, hmem⟩ := hanch s1 k1 hk1
    rw [hn1] at hn
    cases hn
    exact hmem
  have hs2mem : s2 ∈ n2.states := by
    obtain ⟨n, hn, hmem⟩ := hanch s2 k2 hk2
    rw [hn2] at hn
    cases hn
    exact hmem
  have hs1a := hunion s1 (Or.inl hs1mem)
  obtain ⟨k, hk, hle⟩ := hmapped s1 k1 hs1a
  obtain ⟨m, hm, hmle⟩ := hle m1 hm1
  have hall : ∀ x, x ∈ n1.states ∨ x ∈ n2.states → o1.getNode x = Except.ok (some k) := by
    intro x hx
    apply getNode_of_nodes hnum
    rw [← hsame s1 x k1 hs1a (hunion x hx)]
    exact hk
  refine ⟨k, m, getNode_of_nodes hnum hk, hm, ?_, ?_, ?_, ?_⟩
  · intro x hx
    exact ⟨hall x hx, hmle.2.1 x ((hst x).mpr hx)⟩
  · simp only [compare, hall s1 (Or.inl hs1mem), hall s2 (Or.inr hs2mem), ok_bind]
    exact compareNodes_same _ _
  · intro i hi
    exact hmle.2.2 i (hbits i (Or.inr hi))
  · intro x kx nx hx hnx hhitx
    have hxo := (getNode_eq_ok.mp hx).2
    by_cases hx2 : x ∈ n2.states
    · -- `x` was a member of the node of `s2`
      have hkx : kx = k2 := by
        have := hexcl k2 n2 x hmap2 hn2 hx2
        rw [hxo] at this
        simpa using this
      subst hkx
      rw [hn2] at hnx
      cases hnx
      have hxa := (hin x hx2).2
      have hbitsm1 := hself (List.getElem?_mem hxa) hhitx
      obtain ⟨kx1, hkx1, hlex⟩ := hmapped x k1 hxa
      obtain ⟨nx1, hnx1, hnle⟩ := hlex m1 hm1
      exact ⟨kx1, nx1, getNode_of_nodes hnum hkx1, hnx1,
        fun s hs => hnle.2.2 s (hbitsm1 s ((hst s).mpr (Or.inl hs)))⟩
    · have hxa : oa.nodes[x]? = some (some kx) := by rw [hout x hx2]; exact hxo
      obtain ⟨na, hna, hbitsa⟩ := hhit kx (List.getElem?_mem hxa) nx hnx hhitx
      obtain ⟨kx1, hkx1, hlex⟩ := hmapped x kx hxa
      obtain ⟨nx1, hnx1, hnle⟩ := hlex na hna
      exact ⟨kx1, nx1, getNode_of_nodes hnum hkx1, hnx1,
        fun s hs => hnle.2.2 s (hbitsa s ((hst s).mpr (Or.inl hs)))⟩

end Order

/-- C7 (counterexample): in the sample chain, where 2 is above 4 and 4 above 3, `merge(2, 3)` puts
the states 2 and 3 into one node, which the re-scan then merges with the node of 4: the member
set of the node of state 2 is `[2, 3, 4]`, not the union `[2, 3]` of the two merged nodes. -/
theorem merge_postcondition_counterexample :
    (do
      let o ← Order.sampleChain
      let o1 ← o.merge 2 3
      let p ← o1.getNode 2
      let n ← o1.deref p
      pure n.states) = Except.ok [2, 3, 4] := by
  decide

/-- C7 (witness): the amended statement applied to `merge(2, 3)` on the sample chain. -/
theorem merge_postcondition_witness :
    ∃ o o1 n1 n2, Order.sampleChain = Except.ok o ∧ o.merge 2 3 = Except.ok o1 ∧
      o.heap[2]? = some n1 ∧ o.heap[3]? = some n2 ∧
    ∃ k m, o1.getNode 2 = Except.ok (some k) ∧ o1.heap[k]? = some m ∧
      (∀ x, x ∈ n1.states ∨ x ∈ n2.states → o1.getNode x = Except.ok (some k) ∧ x ∈ m.states) ∧
      o1.compare 2 3 UNKNOWN = Except.ok (SAME, o1) ∧
      (∀ i, n2.statesAbove.bits.testBit i = true → m.statesAbove.bits.testBit i = true) ∧
      (∀ x kx nx, o.getNode x = Except.ok (some kx) → o.heap[kx]? = some nx →
        (∃ s ∈ n2.states, nx.statesAbove.bits.testBit s = true) →
        ∃ kx1 nx1, o1.getNode x = Except.ok (some kx1) ∧ o1.heap[kx1]? = some nx1 ∧
          ∀ s ∈ n1.states, nx1.statesAbove.bits.testBit s = true) :=
  ⟨_, _, _, _, rfl, rfl, rfl, rfl,
    Order.merge_postcondition _ _ 2 3 2 3 _ _ (by decide) (by decide) rfl rfl rfl rfl rfl⟩

namespace Order

theorem mergeTransfer_same_node {o oa : Order} {k : Nat} (hp : o.Partition) (hm : o.IsMapped k)
    (h : o.mergeTransfer (some k) (some k) = Except.ok oa) :
    oa.nodes = o.nodes ∧
    ∀ (j : Nat) (n : Node), o.heap[j]? = some n →
      ∃ n1, oa.heap[j]? = some n1 ∧ (∀ s, s ∈ n1.states ↔ s ∈ n.states) ∧ NodeLe n n1 := by
  obtain ⟨n1, n2, m1, hn1, hn2, hk1, _, _, hnlen, hin, hout, hst, hsz, _, hbits, hother, _, _⟩ :=
    mergeTransfer_eq_ok h
  rw [hn1] at hn2
  cases hn2
  have hexcl := exclusive_iff.mp hp.2
  constructor
  · apply List.ext_getElem?
    intro x
    by_cases hx : x ∈ n1.states
    · rw [(hin x hx).2, hexcl k n1 x hm hn1 hx]
    · exact hout x hx
  · intro j n hn
    by_cases hj : j = k
    · subst hj
      rw [hn1] at hn
      cases hn
      refine ⟨m1, hk1, ?_, hsz, fun s hs => (hst s).mpr (Or.inl hs), fun i hi => hbits i (Or.inl hi)⟩
      intro s
      rw [hst]
      tauto
    · obtain ⟨n', hn', hst', hle⟩ := hother j hj n hn
      exact ⟨n', hn', fun s => by rw [hst'], hle⟩

/-- C8 (amended): `merge(s1, s2)` for two states of the same node of an order that satisfies the
partition invariant changes no work queue, no counter and no completion bit, never unmaps a
state, never separates two states of one node and never removes a member or a bit; its transfer
step leaves the state-to-node mapping and every member set as it was.  Bits of `statesAbove`
sets may be added. -/
theorem merge_same_node (o o1 : Order) (s1 s2 k : Nat) (hp : o.Partition)
    (h1 : o.getNode s1 = Except.ok (some k)) (h2 : o.getNode s2 = Except.ok (some k))
    (hm : o.merge s1 s2 = Except.ok o1) :
    (o1.statesToHandle = o.statesToHandle ∧ o1.specialStatesToHandle = o.specialStatesToHandle ∧
      o1.statesSorted = o.statesSorted ∧ o1.numberOfAddedStates = o.numberOfAddedStates ∧
      o1.sufficientForState = o.sufficientForState ∧ o1.doneForState = o.doneForState) ∧
    HeapGrows o o1 ∧ Coarsens o o1 ∧
    ∃ oa, o.mergeTransfer (some k) (some k) = Except.ok oa ∧ oa.nodes = o.nodes ∧
      ∀ (j : Nat) (n : Node), o.heap[j]? = some n →
        ∃ n1, oa.heap[j]? = some n1 ∧ (∀ s, s ∈ n1.states ↔ s ∈ n.states) ∧ NodeLe n n1 := by
  have hmap : o.IsMapped k := isMapped_of_getNode h1
  obtain ⟨oa, htr, _⟩ := merge_eq_ok h1 h2 hm
  have hext : Extends o o1 := by
    simp only [merge, h1, h2, ok_bind, mergeNodes] at hm
    exact (mergeNodesFuel_extends _ o o1 k k hp hmap hmap hm).2
  obtain ⟨hframe, hgrows, hcoarse⟩ := hext
  refine ⟨?_, hgrows, hcoarse, oa, htr, mergeTransfer_same_node hp hmap htr⟩
  unfold SameFrame at hframe
  rw [hframe]
  exact ⟨rfl, rfl, rfl, rfl, rfl, rfl⟩

end Order

/-- C8 (counterexample): in the sample order where 2 and 3 share a node, `merge(2, 3)` changes the
`statesAbove` of the bottom node from `{0, 2}` (bits 5) to `{0, 2, 3}` (bits 13). -/
theorem merge_same_node_counterexample :
    (do
      let o ← Order.sampleShared
      let p ← o.getNode 2
      let q ← o.getNode 3
      let b ← o.deref o.bottom
      let o1 ← o.merge 2 3
      let b1 ← o1.deref o1.bottom
      pure (decide (p = q), b.statesAbove.bits, b1.statesAbove.bits)) = Except.ok (true, 5, 13) := by
  decide

/-- C8 (witness): the amended statement applied to `merge(2, 3)` on that order. -/
theorem merge_same_node_witness :
    ∃ o o1, Order.sampleShared = Except.ok o ∧ o.merge 2 3 = Except.ok o1 ∧
    (o1.statesToHandle = o.statesToHandle ∧ o1.specialStatesToHandle = o.specialStatesToHandle ∧
      o1.statesSorted = o.statesSorted ∧ o1.numberOfAddedStates = o.numberOfAddedStates ∧
      o1.sufficientForState = o.sufficientForState ∧ o1.doneForState = o.doneForState) ∧
    Order.HeapGrows o o1 ∧ Order.Coarsens o o1 ∧
    ∃ oa, o.mergeTransfer (some 2) (some 2) = Except.ok oa ∧ oa.nodes = o.nodes ∧
      ∀ (j : Nat) (n : Node), o.heap[j]? = some n →
        ∃ n1, oa.heap[j]? = some n1 ∧ (∀ s, s ∈ n1.states ↔ s ∈ n.states) ∧ Order.NodeLe n n1 :=
  ⟨_, _, rfl, rfl, Order.merge_same_node _ _ 2 3 2 (by decide) rfl rfl rfl⟩

namespace Order

theorem detached_of_bitsGrow {o o1 : Order} {k : Nat} {l : List Nat} (hd : o.Detached k l)
    (h : BitsGrow o o1) : o1.Detached k l := by
  obtain ⟨hnot, n, hn, hl⟩ := hd
  obtain ⟨n1, hn1, hst, _⟩ := h.2.2 k n hn
  exact ⟨by rw [bitsGrow_nodes h]; exact hnot, n1, hn1, hst.trans hl⟩

theorem mergeTransfer_detached {o oa : Order} {k1 k2 k : Nat} {l : List Nat}
    (hd : o.Detached k l) (hne : k1 ≠ k)
    (h : o.mergeTransfer (some k1) (some k2) = Except.ok oa) : oa.Detached k l := by
  obtain ⟨hnot, n, hn, hl⟩ := hd
  obtain ⟨n1, n2, m1, _, _, _, _, _, _, hin, hout, _, _, _, _, hother, _, _⟩ :=
    mergeTransfer_eq_ok h
  obtain ⟨n', hn', hst, _⟩ := hother k (Ne.symm hne) n hn
  refine ⟨?_, n', hn', hst.trans hl⟩
  intro hmem
  obtain ⟨x, hx⟩ := List.getElem?_of_mem hmem
  by_cases hx2 : x ∈ n2.states
  · rw [(hin x hx2).2] at hx
    exact hne (by simpa using hx)
  · rw [hout x hx2] at hx
    exact hnot (List.getElem?_mem hx)

/-- A node that no state is mapped to is left alone by a merge of other nodes. -/
theorem mergeNodesFuel_detached (k : Nat) (l : List Nat) (fuel : Nat) :
    ∀ (o o1 : Order) (k1 k2 : Nat), o.Detached k l → k1 ≠ k →
      mergeNodesFuel fuel o (some k1) (some k2) = Except.ok o1 → o1.Detached k l := by
  induction fuel with
  | zero =>
    intro o o1 k1 k2 _ _ h
    simp [mergeNodesFuel] at h
  | succ fuel ih =>
    intro o o1 k1 k2 hd hne h
    rw [mergeNodesFuel_succ] at h
    obtain ⟨oa, htr, hscan⟩ := bind_eq_ok.mp h
    have hda := mergeTransfer_detached hd hne htr
    refine (@rescan_induct _ (fun a => a.Detached k l) (fun _ _ => True) (fun _ => trivial)
      (fun _ _ _ _ _ => trivial) (fun a a1 hi hg => ⟨detached_of_bitsGrow hi hg, trivial⟩) ?_
      _ oa o1 hda hscan).1
    intro a i j a1 hi hcall
    simp only [bind_eq_ok] at hcall
    obtain ⟨p, hp1, q, hq1, hcall⟩ := hcall
    obtain ⟨ka, kb, rfl, rfl⟩ := mergeNodesFuel_ptrs hcall
    refine ⟨ih a a1 ka kb hi ?_ hcall, trivial⟩
    rintro rfl
    exact hi.1 (isMapped_of_getNode hp1)

theorem rescan_detached (k : Nat) (l : List Nat) (fuel : Nat) (ps : List (Nat × Nat))
    (oa o1 : Order) (hd : oa.Detached k l)
    (h : rescan
      (fun (a : Order) (i j : Nat) => do
        let p ← a.getNode i
        let q ← a.getNode j
        mergeNodesFuel fuel a p q) oa ps = Except.ok o1) : o1.Detached k l := by
  refine (@rescan_induct _ (fun a => a.Detached k l) (fun _ _ => True) (fun _ => trivial)
    (fun _ _ _ _ _ => trivial) (fun a a1 hi hg => ⟨detached_of_bitsGrow hi hg, trivial⟩) ?_
    ps oa o1 hd h).1
  intro a i j a1 hi hcall
  simp only [bind_eq_ok] at hcall
  obtain ⟨p, hp1, q, hq1, hcall⟩ := hcall
  obtain ⟨ka, kb, rfl, rfl⟩ := mergeNodesFuel_ptrs hcall
  refine ⟨mergeNodesFuel_detached k l fuel a a1 ka kb hi ?_ hcall, trivial⟩
  rintro rfl
  exact hi.1 (isMapped_of_getNode hp1)

end Order

namespace Order

/-- C5 (amended): let `t` be mapped to node `kt` (for instance the top or the bottom node).
For an unmapped state `u`, `addToNode(u, getNode(t))` returns, keeps `t` in its node, leaves
`getTop()` and `getBottom()` as they were and makes `u` a member of that node (so `isTopState(u)`,
resp. `isBottomState(u)`, holds when it is the sentinel).  For a state `s` mapped to a different
node, `merge(s, t)` and `addToNode(s, getNode(t))` leave `getTop()` and `getBottom()` as they
were but map every state away from the node of `t`: afterwards no state is mapped to that node,
and `s` is not a member of it (so `isTopState(s)`, resp. `isBottomState(s)`, is false when it was
the sentinel). -/
theorem sentinel_under_merge (o : Order) (t kt : Nat) (T : Node) (hv : o.Valid)
    (hc : o.Counted) (hp : o.Partition) (ht : o.getNode t = Except.ok (some kt))
    (hT : o.heap[kt]? = some T) :
    (∀ u, u < o.numberOfStates → o.nodes[u]? = some none →
      ∃ o1, o.addToNode u (some kt) = Except.ok o1 ∧ o1.getNode t = Except.ok (some kt) ∧
        o1.getNode u = Except.ok (some kt) ∧ o1.getTop = o.getTop ∧ o1.getBottom = o.getBottom ∧
        (o.top = some kt → o1.isTopState u = Except.ok true) ∧
        (o.bottom = some kt → o1.isBottomState u = Except.ok true)) ∧
    (∀ s ks o1, o.getNode s = Except.ok (some ks) → ks ≠ kt →
      (o.merge s t = Except.ok o1 ∨ o.addToNode s (some kt) = Except.ok o1) →
      o1.getTop = o.getTop ∧ o1.getBottom = o.getBottom ∧
        (∀ x, o1.getNode x ≠ Except.ok (some kt)) ∧
        (o.top = some kt → o1.isTopState s = Except.ok false) ∧
        (o.bottom = some kt → o1.isBottomState s = Except.ok false)) := by
  have hkt := (getNode_eq_ok.mp ht).2
  have hlt := lt_length_of_getElem? hT
  constructor
  · intro u hu hun
    have hun1 : o.nodeAt u = Except.ok none := nodeAt_eq_ok.mpr hun
    have hul : u < o.nodes.length := by rw [hv.1]; exact hu
    have hcount := counted_lt_of_unmapped hv hc hun
    have hle : o.numberOfAddedStates + 1 ≤ o.numberOfStates := by omega
    have htu : u ≠ t := by
      rintro rfl
      rw [hkt] at hun
      simp at hun
    let T1 : Node := { T with states := setInsert u T.states }
    let o1 : Order := updateDoneBuilding
      { o.setHeap kt T1 with
        nodes := o.nodes.set u (some kt)
        numberOfAddedStates := o.numberOfAddedStates + 1 }
    have hadd : o.addToNode u (some kt) = Except.ok o1 := by
      simp only [addToNode, hun1, ok_bind, if_true, deref_some hT, store_some_eq _ hlt, setNodeAt,
        nodes_setHeap, hul]
      simp [o1, T1, hle, setHeap]
    have hheap1 : o1.heap[kt]? = some T1 := by
      simp [o1, setHeap, List.getElem?_set, hlt]
    refine ⟨o1, hadd, ?_, ?_, ?_, ?_, ?_, ?_⟩
    · exact getNode_eq_ok.mpr ⟨by simpa [o1] using (getNode_eq_ok.mp ht).1,
        by simpa [o1, List.getElem?_set_ne htu] using hkt⟩
    · exact getNode_eq_ok.mpr ⟨by simpa [o1] using hu, by simp [o1, List.getElem?_set, hul]⟩
    · simp [o1, getTop]
    · simp [o1, getBottom]
    · intro htop
      have htop1 : o1.top = some kt := by simpa [o1] using htop
      simp [isTopState, htop1, deref_some hheap1, T1, mem_setInsert]
    · intro hbot
      have hbot1 : o1.bottom = some kt := by simpa [o1] using hbot
      simp [isBottomState, hbot1, deref_some hheap1, T1, mem_setInsert]
  · intro s ks o1 hs hne hcall
    have hks := (getNode_eq_ok.mp hs).2
    have hmaps : o.IsMapped ks := isMapped_of_getNode hs
    have hmapt : o.IsMapped kt := isMapped_of_getNode ht
    -- both calls are the same call of `mergeNodes`
    have hm : o.merge s t = Except.ok o1 := by
      rcases hcall with h | h
      · exact h
      · simp only [addToNode, nodeAt_eq_ok.mpr hks, ok_bind, reduceCtorEq, if_false] at h
        simpa only [merge, hs, ht, ok_bind] using h
    obtain ⟨oa, htr, hscan⟩ := merge_eq_ok hs ht hm
    have hext : Extends o o1 := by
      simp only [merge, hs, ht, ok_bind, mergeNodes] at hm
      exact (mergeNodesFuel_extends _ o o1 ks kt hp hmaps hmapt hm).2
    have hframe := hext.1
    unfold SameFrame at hframe
    have hanch := anchored_iff.mp hp.1
    have hexcl := exclusive_iff.mp hp.2
    -- after the transfer nothing is mapped to `kt` any more
    obtain ⟨n1, n2, m1, _, hn2, _, _, _, _, hin, hout, _, _, _, _, hother, _, _⟩ :=
      mergeTransfer_eq_ok htr
    rw [hT] at hn2
    cases hn2
    have hda : oa.Detached kt T.states := by
      obtain ⟨n', hn', hst, _⟩ := hother kt (Ne.symm hne) T hT
      refine ⟨?_, n', hn', hst⟩
      intro hmem
      obtain ⟨x, hx⟩ := List.getElem?_of_mem hmem
      by_cases hx2 : x ∈ T.states
      · rw [(hin x hx2).2] at hx
        exact hne (by simpa using hx)
      · rw [hout x hx2] at hx
        obtain ⟨n, hn, hmemx⟩ := hanch x kt hx
        rw [hT] at hn
        cases hn
        exact hx2 hmemx
    obtain ⟨hnot, n, hn, hst⟩ := rescan_detached kt T.states _ _ oa o1 hda hscan
    have hsT : s ∉ T.states := by
      intro hmem
      have := hexcl kt T s hmapt hT hmem
      rw [hks] at this
      exact hne (by simpa using this)
    refine ⟨by rw [hframe]; rfl, by rw [hframe]; rfl, ?_, ?_, ?_⟩
    · intro x hx
      exact hnot (List.getElem?_mem (getNode_eq_ok.mp hx).2)
    · intro htop
      have htop1 : o1.top = some kt := by rw [hframe]; exact htop
      simp [isTopState, htop1, deref_some hn, hst, hsT]
    · intro hbot
      have hbot1 : o1.bottom = some kt := by rw [hframe]; exact hbot
      simp [isBottomState, hbot1, deref_some hn, hst, hsT]

end Order

/-- C5 (counterexample): in the sample base order state 0 is the top state; after `merge(2, 0)`
state 0 is mapped to the node of state 2, which is not the node `getTop()` returns, and state 2
is not reported as a top state. -/
theorem sentinel_under_merge_counterexample :
    (do
      let o ← Order.sampleBase
      let wasTop ← o.isTopState 0
      let o1 ← o.merge 2 0
      let p ← o1.getNode 0
      let isTop ← o1.isTopState 2
      pure (wasTop, decide (p = o1.getTop), isTop)) = Except.ok (true, false, false) := by
  decide

/-- C5 (witness): the amended statement applied to the top state 0 of the sample base order. -/
theorem sentinel_under_merge_witness :
    ∃ o T, Order.sampleBase = Except.ok o ∧ o.heap[0]? = some T ∧
    (∀ u, u < o.numberOfStates → o.nodes[u]? = some none →
      ∃ o1, o.addToNode u (some 0) = Except.ok o1 ∧ o1.getNode 0 = Except.ok (some 0) ∧
        o1.getNode u = Except.ok (some 0) ∧ o1.getTop = o.getTop ∧ o1.getBottom = o.getBottom ∧
        (o.top = some 0 → o1.isTopState u = Except.ok true) ∧
        (o.bottom = some 0 → o1.isBottomState u = Except.ok true)) ∧
    (∀ s ks o1, o.getNode s = Except.ok (some ks) → ks ≠ 0 →
      (o.merge s 0 = Except.ok o1 ∨ o.addToNode s (some 0) = Except.ok o1) →
      o1.getTop = o.getTop ∧ o1.getBottom = o.getBottom ∧
        (∀ x, o1.getNode x ≠ Except.ok (some 0)) ∧
        (o.top = some 0 → o1.isTopState s = Except.ok false) ∧
        (o.bottom = some 0 → o1.isBottomState s = Except.ok false)) :=
  ⟨_, _, rfl, rfl,
    Order.sentinel_under_merge _ 0 0 _ (by decide) (by decide) (by decide) rfl rfl⟩

namespace Order

/-! ## Antisymmetry after a merge -/

theorem aboveFastLoop_none {o : Order} {q : Nat} (hq : o.heap[q]? = none) {l : List Nat}
    {r : Bool} (h : aboveFastLoop o (some q) l = Except.ok r) : r = false ∧ l = [] := by
  cases l with
  | nil =>
    simp only [aboveFastLoop, Except.ok.injEq] at h
    exact ⟨h.symm, rfl⟩
  | cons s rest =>
    simp [aboveFastLoop, deref, hq] at h

theorem aboveFast_eq_aboveFastP {o : Order} {p q : Nat} {r : Bool}
    (h : o.aboveFast (some p) (some q) = Except.ok r) : r = o.aboveFastP p q := by
  cases hq : o.heap[q]? with
  | some n2 => exact aboveFast_eq_ok hq h
  | none =>
    simp only [aboveFast, bind_eq_ok, deref_eq_ok] at h
    obtain ⟨n1, ⟨k, hk, hp⟩, h⟩ := h
    cases hk
    simp [aboveFastP, hp, hq, (aboveFastLoop_none hq h).1]

theorem compareFastNodes_eq_ok {o : Order} {p q : Nat} {c : NodeComparison} (hne : p ≠ q)
    (h : o.compareFastNodes (some p) (some q) UNKNOWN = Except.ok c) :
    c = if o.fastAboveP p q then ABOVE else if o.fastAboveP q p then BELOW else UNKNOWN := by
  have hne2 : ¬ (some p : Ptr) = some q := by simpa using hne
  simp only [compareFastNodes, ne_eq, reduceCtorEq, not_false_eq_true, and_self, if_true, hne2,
    if_false, true_or, decide_True, fastWhen, bind_eq_ok] at h
  obtain ⟨isAbove, h1, h⟩ := h
  have hA : isAbove = o.fastAboveP p q := by
    unfold fastAboveP
    by_cases hs : some p = o.top ∨ some q = o.bottom
    · simp only [hs, decide_True, if_true, Except.ok.injEq] at h1
      rcases hs with hs | hs <;> simp [hs, ← h1]
    · simp only [hs, decide_False, Bool.false_eq_true, if_false] at h1
      have := aboveFast_eq_aboveFastP h1
      simp only [not_or] at hs
      simp [hs.1, hs.2, this]
  cases hAb : isAbove
  · rw [hAb] at h hA
    simp only [Bool.false_eq_true, if_false, bind_eq_ok] at h
    obtain ⟨isBelow, h2, h⟩ := h
    have hB : isBelow = o.fastAboveP q p := by
      unfold fastAboveP
      by_cases hs : some q = o.top ∨ some p = o.bottom
      · simp only [hs, decide_True, if_true, Except.ok.injEq] at h2
        rcases hs with hs | hs <;> simp [hs, ← h2]
      · simp only [hs, decide_False, Bool.false_eq_true, if_false] at h2
        have := aboveFast_eq_aboveFastP h2
        simp only [not_or] at hs
        simp [hs.1, hs.2, this]
    rw [← hA, ← hB]
    cases isBelow <;> simpa [eq_comm] using h
  · rw [hAb] at h hA
    rw [← hA]
    simpa [eq_comm] using h

end Order

namespace Order

theorem compareNodes_effect {o o1 : Order} {p q : Nat} {c : NodeComparison}
    (h : o.compareNodes (some p) (some q) UNKNOWN = Except.ok (c, o1)) :
    o1 = o ∨ ∃ x y nx ny, ((x = p ∧ y = q) ∨ (x = q ∧ y = p)) ∧ x ≠ y ∧
      o.heap[x]? = some nx ∧ o.heap[y]? = some ny ∧
      o.fastAboveP x y = false ∧ o.fastAboveP y x = false ∧
      o1 = o.setHeap y (withAboveBits ny (BitVector.setBits ny.statesAbove.bits nx.states)) := by
  rcases compareNodes_eq_ok h with ⟨_, _, h⟩ | ⟨hfast, hslow⟩
  · exact Or.inl h
  · have hne : p ≠ q := by
      rintro rfl
      simp [compareFastNodes] at hfast
    have hF := compareFastNodes_eq_ok hne hfast
    have hpq : o.fastAboveP p q = false := by
      cases hv : o.fastAboveP p q
      · rfl
      · simp [hv] at hF
    have hqp : o.fastAboveP q p = false := by
      cases hv : o.fastAboveP q p
      · rfl
      · simp [hpq, hv] at hF
    rcases hslow with ⟨_, ha, _⟩ | ⟨_, _, hb⟩ | ⟨_, _, _, h⟩
    · rcases above_eq_ok ha with ⟨h, _⟩ | ⟨_, n1, n2, h1, h2, _, h4⟩
      · exact absurd h (by simp)
      · exact Or.inr ⟨p, q, n1, n2, Or.inl ⟨rfl, rfl⟩, hne, h1, h2, hpq, hqp, h4⟩
    · rcases above_eq_ok hb with ⟨h, _⟩ | ⟨_, n1, n2, h1, h2, _, h4⟩
      · exact absurd h (by simp)
      · exact Or.inr ⟨q, p, n1, n2, Or.inr ⟨rfl, rfl⟩, Ne.symm hne, h1, h2, hqp, hpq, h4⟩
    · exact Or.inl h

theorem aboveFastP_eq_any {o : Order} {a b : Nat} {na nb : Node} (ha : o.heap[a]? = some na)
    (hb : o.heap[b]? = some nb) :
    o.aboveFastP a b = na.states.any (fun s => nb.statesAbove.bits.testBit s) := by
  simp [aboveFastP, ha, hb]

theorem aboveFastP_true {o : Order} {a b : Nat} (h : o.aboveFastP a b = true) :
    ∃ na nb s, o.heap[a]? = some na ∧ o.heap[b]? = some nb ∧ s ∈ na.states ∧
      nb.statesAbove.bits.testBit s = true := by
  unfold aboveFastP at h
  split at h
  · rename_i n1 n2 h1 h2
    obtain ⟨s, hs, hbit⟩ := List.any_eq_true.mp h
    exact ⟨n1, n2, s, h1, h2, hs, hbit⟩
  · simp at h

/-- A write-back into node `y` does not change the fast test towards any other node. -/
theorem fastAboveP_writeBack_ne {o : Order} {y a b : Nat} {ny : Node} {bits : Nat}
    (hy : o.heap[y]? = some ny) (hb : b ≠ y) :
    (o.setHeap y (withAboveBits ny bits)).fastAboveP a b = o.fastAboveP a b := by
  have hly := lt_length_of_getElem? hy
  have hbh : (o.setHeap y (withAboveBits ny bits)).heap[b]? = o.heap[b]? :=
    heap_setHeap_ne _ (Ne.symm hb)
  unfold fastAboveP aboveFastP
  simp only [top_setHeap, bottom_setHeap, hbh]
  by_cases hay : a = y
  · subst hay
    rw [heap_setHeap_self _ hly, hy]
    cases o.heap[b]? <;> rfl
  · rw [heap_setHeap_ne _ (Ne.symm hay)]

/-- After the write-back of `x` above `y`, a mapped node passes the fast test towards `y` only
if it did before or if it is `x`. -/
theorem fastAboveP_writeBack_eq {o : Order} (he : o.Exclusive) {x y a : Nat} {nx ny : Node}
    (hx : o.heap[x]? = some nx) (hy : o.heap[y]? = some ny) (hmx : o.IsMapped x)
    (hma : o.IsMapped a)
    (h : (o.setHeap y (withAboveBits ny
      (BitVector.setBits ny.statesAbove.bits nx.states))).fastAboveP a y = true) :
    o.fastAboveP a y = true ∨ a = x := by
  have hexcl := exclusive_iff.mp he
  have hly := lt_length_of_getElem? hy
  unfold fastAboveP at h ⊢
  simp only [top_setHeap, bottom_setHeap, Bool.or_eq_true] at h ⊢
  rcases h with (h | h) | h
  · exact Or.inl (Or.inl (Or.inl h))
  · exact Or.inl (Or.inl (Or.inr h))
  · obtain ⟨na, nb, s, hna, hnb, hs, hbit⟩ := aboveFastP_true h
    rw [heap_setHeap_self _ hly] at hnb
    cases hnb
    -- the members of `a` are those it had before
    obtain ⟨na0, hna0, hst⟩ : ∃ na0, o.heap[a]? = some na0 ∧ na.states = na0.states := by
      by_cases hay : a = y
      · subst hay
        rw [heap_setHeap_self _ hly] at hna
        cases hna
        exact ⟨ny, hy, rfl⟩
      · rw [heap_setHeap_ne _ (Ne.symm hay)] at hna
        exact ⟨na, hna, rfl⟩
    rw [hst] at hs
    simp only [withAboveBits, BitVector.testBit_setBits, Bool.or_eq_true,
      decide_eq_true_eq] at hbit
    rcases hbit with hbit | hmem
    · exact Or.inl (Or.inr (aboveFastP_of_mem hna0 hy hs hbit))
    · right
      have h1 := hexcl a na0 s hma hna0 hs
      have h2 := hexcl x nx s hmx hx hmem
      rw [h1] at h2
      simpa using h2

theorem not_mutual_writeBack {o : Order} (he : o.Exclusive) {x y p q : Nat} {nx ny : Node}
    (hx : o.heap[x]? = some nx) (hy : o.heap[y]? = some ny) (hmx : o.IsMapped x)
    (h1 : o.fastAboveP x y = false) (h2 : o.fastAboveP y x = false)
    (hp : o.IsMapped p) (hq : o.IsMapped q) (hne : p ≠ q) (hnm : ¬ o.Mutual p q) :
    ¬ (o.setHeap y (withAboveBits ny
      (BitVector.setBits ny.statesAbove.bits nx.states))).Mutual p q := by
  rintro ⟨hpq, hqp⟩
  by_cases hqy : q = y
  · subst hqy
    have hpy : p ≠ q := hne
    · rw [fastAboveP_writeBack_ne hy hpy] at hqp
      rcases fastAboveP_writeBack_eq he hx hy hmx hp hpq with h | h
      · exact hnm ⟨h, hqp⟩
      · subst h
        rw [h2] at hqp
        exact absurd hqp (by simp)
  · rw [fastAboveP_writeBack_ne hy hqy] at hpq
    by_cases hpy : p = y
    · subst hpy
      rcases fastAboveP_writeBack_eq he hx hy hmx hq hqp with h | h
      · exact hnm ⟨hpq, h⟩
      · subst h
        rw [h2] at hpq
        exact absurd hpq (by simp)
    · rw [fastAboveP_writeBack_ne hy hpy] at hqp
      exact hnm ⟨hpq, hqp⟩

end Order

namespace Order

theorem compareNodes_none {o o1 : Order} {p q : Ptr} {hyp c : NodeComparison}
    (hpq : ¬ (p ≠ none ∧ q ≠ none)) (h : o.compareNodes p q hyp = Except.ok (c, o1)) :
    o1 = o := by
  unfold compareNodes at h
  rw [if_neg hpq] at h
  split at h
  · simp only [Except.ok.injEq, Prod.mk.injEq] at h
    exact h.2.symm
  · split at h <;>
    · simp only [Except.ok.injEq, Prod.mk.injEq] at h
      exact h.2.symm

theorem mutual_symm {o : Order} {p q : Nat} (h : o.Mutual p q) : o.Mutual q p := ⟨h.2, h.1⟩

theorem noMutualAt_symm {o : Order} {i j : Nat} (h : o.NoMutualAt i j) : o.NoMutualAt j i :=
  fun p q hp hq hne hm => h q p hq hp (Ne.symm hne) (mutual_symm hm)

/-- The write-back of a comparison never makes two mapped nodes mutually above each other. -/
theorem compare_noMutualAt {o o1 : Order} {i j : Nat} {c : NodeComparison} (he : o.Exclusive)
    (h : o.compare i j UNKNOWN = Except.ok (c, o1)) {a b : Nat} (hab : o.NoMutualAt a b) :
    o1.NoMutualAt a b := by
  have hnodes := bitsGrow_nodes (compare_bitsGrow h)
  simp only [compare, bind_eq_ok] at h
  obtain ⟨pi, hpi, pj, hpj, h⟩ := h
  intro p q hp hq hne
  rw [hnodes] at hp hq
  have hold := hab p q hp hq hne
  cases pi with
  | none =>
    rw [compareNodes_none (by simp) h]
    exact hold
  | some ki =>
    cases pj with
    | none =>
      rw [compareNodes_none (by simp) h]
      exact hold
    | some kj =>
      rcases compareNodes_effect h with rfl | ⟨x, y, nx, ny, hxy, _, hx, hy, h1, h2, rfl⟩
      · exact hold
      · have hmx : o.IsMapped x := by
          rcases hxy with ⟨rfl, _⟩ | ⟨rfl, _⟩
          · exact isMapped_of_getNode hpi
          · exact isMapped_of_getNode hpj
        exact not_mutual_writeBack he hx hy hmx h1 h2 (List.getElem?_mem hp)
          (List.getElem?_mem hq) hne hold

/-- A pair that the re-scan finds consistent is not mutually above each other. -/
theorem consistent_noMutualAt {o oa ob : Order} {i j : Nat} {c1 c2 : NodeComparison}
    (h1 : o.compare i j UNKNOWN = Except.ok (c1, oa))
    (h2 : oa.compare j i UNKNOWN = Except.ok (c2, ob)) (hc : consistent c1 c2 = true) :
    o.NoMutualAt i j := by
  intro p q hp hq hne hm
  have hi : i < o.numberOfStates := by
    simp only [compare, bind_eq_ok] at h1
    obtain ⟨_, hpi, _⟩ := h1
    exact (getNode_eq_ok.mp hpi).1
  have hj : j < o.numberOfStates := by
    simp only [compare, bind_eq_ok] at h1
    obtain ⟨_, _, _, hpj, _⟩ := h1
    exact (getNode_eq_ok.mp hpj).1
  have hgi : o.getNode i = Except.ok (some p) := getNode_eq_ok.mpr ⟨hi, hp⟩
  have hgj : o.getNode j = Except.ok (some q) := getNode_eq_ok.mpr ⟨hj, hq⟩
  simp only [compare, hgi, hgj, ok_bind] at h1
  -- the first comparison answers ABOVE by the fast test
  have hfirst : c1 = ABOVE ∧ oa = o := by
    rcases compareNodes_eq_ok h1 with ⟨hf, _, ho⟩ | ⟨hf, _⟩
    · have := compareFastNodes_eq_ok hne hf
      simp only [hm.1, if_true] at this
      exact ⟨this, ho⟩
    · have := compareFastNodes_eq_ok hne hf
      simp [hm.1] at this
  obtain ⟨rfl, rfl⟩ := hfirst
  simp only [compare, hgi, hgj, ok_bind] at h2
  have hsecond : c2 = ABOVE := by
    rcases compareNodes_eq_ok h2 with ⟨hf, _, _⟩ | ⟨hf, _⟩
    · have := compareFastNodes_eq_ok (Ne.symm hne) hf
      simpa only [hm.2, if_true] using this
    · have := compareFastNodes_eq_ok (Ne.symm hne) hf
      simp [hm.2] at this
  subst hsecond
  simp [consistent] at hc

theorem rescan_noMutual {mergeStates : Order → Nat → Nat → Except Fault Order}
    {inv : Order → Prop} (hexcl : ∀ a, inv a → a.Exclusive)
    (hgrow : ∀ a a1, inv a → BitsGrow a a1 → inv a1)
    (hmerge : ∀ a i j a1, inv a → mergeStates a i j = Except.ok a1 → inv a1 ∧ a1.NoMutual)
    (l : List (Nat × Nat)) :
    ∀ (done : List (Nat × Nat)) (o o1 : Order), inv o →
      (∀ ij ∈ done, o.NoMutualAt ij.1 ij.2) → rescan mergeStates o l = Except.ok o1 →
      inv o1 ∧ ∀ ij ∈ done ++ l, o1.NoMutualAt ij.1 ij.2 := by
  induction l with
  | nil =>
    intro done o o1 hp hdone h
    simp only [rescan, Except.ok.injEq] at h
    subst h
    exact ⟨hp, by simpa using hdone⟩
  | cons ij rest ih =>
    intro done o o1 hp hdone h
    obtain ⟨i, j⟩ := ij
    simp only [rescan, rescanStep, bind_eq_ok] at h
    obtain ⟨oc, ⟨⟨c1, oa⟩, hc1, ⟨c2, ob⟩, hc2, hstep⟩, hrest⟩ := h
    have hpa := hgrow o oa hp (compare_bitsGrow hc1)
    have hpb := hgrow oa ob hpa (compare_bitsGrow hc2)
    have hkeep : ∀ a b, o.NoMutualAt a b → ob.NoMutualAt a b := fun a b hab =>
      compare_noMutualAt (hexcl oa hpa) hc2 (compare_noMutualAt (hexcl o hp) hc1 hab)
    have hoc : inv oc ∧ ∀ ab ∈ done ++ [(i, j)], oc.NoMutualAt ab.1 ab.2 := by
      split at hstep
      · obtain ⟨hpc, hall⟩ := hmerge ob i j oc hpb hstep
        exact ⟨hpc, fun ab _ => hall ab.1 ab.2⟩
      · rename_i hcons
        simp only [pure_eq_ok, Except.ok.injEq] at hstep
        subst hstep
        refine ⟨hpb, ?_⟩
        intro ab hab
        rcases List.mem_append.mp hab with hab | hab
        · exact hkeep _ _ (hdone ab hab)
        · simp only [List.mem_singleton] at hab
          subst hab
          have hcons' : consistent c1 c2 = true := by simpa using hcons
          exact hkeep _ _ (consistent_noMutualAt hc1 hc2 hcons')
    have := ih (done ++ [(i, j)]) oc o1 hoc.1 hoc.2 hrest
    simpa using this

theorem mem_scanPairs {n i j : Nat} : (i, j) ∈ scanPairs n ↔ i < j ∧ j < n := by
  simp only [scanPairs, List.mem_flatMap, List.mem_range, List.mem_map, List.mem_filter,
    decide_eq_true_eq, Prod.mk.injEq]
  constructor
  · rintro ⟨a, _, b, ⟨hb, hab⟩, rfl, rfl⟩
    exact ⟨hab, hb⟩
  · rintro ⟨hij, hj⟩
    exact ⟨i, by omega, j, ⟨hj, hij⟩, rfl, rfl⟩

theorem extends_lenOk {o o1 : Order} (h : Extends o o1)
    (hl : o.nodes.length = o.numberOfStates) : o1.nodes.length = o1.numberOfStates := by
  rw [h.2.2.1, sameFrame_numberOfStates h.1]
  exact hl

theorem noMutual_of_pairs {o : Order} (hl : o.nodes.length = o.numberOfStates)
    (h : ∀ ij ∈ scanPairs o.numberOfStates, o.NoMutualAt ij.1 ij.2) : o.NoMutual := by
  intro i j p q hp hq hne
  have hi : i < o.numberOfStates := by
    rw [← hl]
    by_contra hlt
    rw [List.getElem?_eq_none (by omega)] at hp
    exact absurd hp (by simp)
  have hj : j < o.numberOfStates := by
    rw [← hl]
    by_contra hlt
    rw [List.getElem?_eq_none (by omega)] at hq
    exact absurd hq (by simp)
  have hij : i ≠ j := by
    rintro rfl
    rw [hp] at hq
    exact hne (by simpa using hq)
  rcases Nat.lt_or_gt_of_ne hij with hlt | hgt
  · exact h (i, j) (mem_scanPairs.mpr ⟨hlt, hj⟩) p q hp hq hne
  · exact noMutualAt_symm (h (j, i) (mem_scanPairs.mpr ⟨hgt, hi⟩)) p q hp hq hne

theorem lenOk_of_bitsGrow {o o1 : Order} (h : BitsGrow o o1)
    (hl : o.nodes.length = o.numberOfStates) : o1.nodes.length = o1.numberOfStates := by
  rw [bitsGrow_nodes h, bitsGrow_numberOfStates h]
  exact hl

/-- After a merge no two different mapped nodes are recorded above each other. -/
theorem mergeNodesFuel_noMutual (fuel : Nat) :
    ∀ (o o1 : Order) (k1 k2 : Nat), o.Partition → o.nodes.length = o.numberOfStates →
      o.IsMapped k1 → o.IsMapped k2 →
      mergeNodesFuel fuel o (some k1) (some k2) = Except.ok o1 → o1.NoMutual := by
  induction fuel with
  | zero =>
    intro o o1 k1 k2 _ _ _ _ h
    simp [mergeNodesFuel] at h
  | succ fuel ih =>
    intro o o1 k1 k2 hp hl hm1 hm2 h
    have hext := (mergeNodesFuel_extends _ o o1 k1 k2 hp hm1 hm2 h).2
    rw [mergeNodesFuel_succ] at h
    obtain ⟨oa, htr, hscan⟩ := bind_eq_ok.mp h
    obtain ⟨hpa, hea⟩ := mergeTransfer_extends hp hm1 hm2 htr
    have hla := extends_lenOk hea hl
    have hl1 := extends_lenOk hext hl
    have hres := @rescan_noMutual _ (fun a => a.Partition ∧ a.nodes.length = a.numberOfStates)
      (fun a ha => ha.1.2)
      (fun a a1 ha hg => ⟨partition_of_bitsGrow ha.1 hg, lenOk_of_bitsGrow hg ha.2⟩)
      (by
        intro a i j a1 hinv hcall
        simp only [bind_eq_ok] at hcall
        obtain ⟨p, hp1, q, hq1, hcall⟩ := hcall
        obtain ⟨ka, kb, rfl, rfl⟩ := mergeNodesFuel_ptrs hcall
        have hma := isMapped_of_getNode hp1
        have hmb := isMapped_of_getNode hq1
        obtain ⟨hpart, hex⟩ := mergeNodesFuel_extends _ a a1 ka kb hinv.1 hma hmb hcall
        exact ⟨⟨hpart, extends_lenOk hex hinv.2⟩, ih a a1 ka kb hinv.1 hinv.2 hma hmb hcall⟩)
      (scanPairs oa.numberOfStates) [] oa o1 ⟨hpa, hla⟩ (by simp) hscan
    have hn : o1.numberOfStates = oa.numberOfStates := by
      rw [sameFrame_numberOfStates hext.1, sameFrame_numberOfStates hea.1]
    apply noMutual_of_pairs hl1
    rw [hn]
    simpa using hres.2

end Order

namespace Order

theorem compareFastNodes_cases {o : Order} {p q : Nat} {c : NodeComparison} (hne : p ≠ q)
    (h : o.compareFastNodes (some p) (some q) UNKNOWN = Except.ok c) :
    (c = ABOVE ∧ o.fastAboveP p q = true) ∨
    (c = BELOW ∧ o.fastAboveP p q = false ∧ o.fastAboveP q p = true) ∨
    (c = UNKNOWN ∧ o.fastAboveP p q = false ∧ o.fastAboveP q p = false) := by
  have := compareFastNodes_eq_ok hne h
  cases h1 : o.fastAboveP p q <;> cases h2 : o.fastAboveP q p <;> simp [h1, h2] at this <;>
    simp [this]

/-- C1 (amended): in the order that a `merge` returns (its re-scan has completed), started on an
order that satisfies the partition invariant, for all mapped states `a` and `b`: if
`compare(a, b)` answers ABOVE, then the following `compare(b, a)` does not answer ABOVE. -/
theorem antisymmetry_after_merge (o o1 : Order) (s1 s2 k1 k2 : Nat) (hv : o.Valid)
    (hp : o.Partition) (h1 : o.getNode s1 = Except.ok (some k1))
    (h2 : o.getNode s2 = Except.ok (some k2)) (hm : o.merge s1 s2 = Except.ok o1) :
    ∀ (a b pa pb : Nat) (oa ob : Order) (c2 : NodeComparison),
      o1.getNode a = Except.ok (some pa) → o1.getNode b = Except.ok (some pb) →
      o1.compare a b UNKNOWN = Except.ok (ABOVE, oa) →
      oa.compare b a UNKNOWN = Except.ok (c2, ob) → c2 ≠ ABOVE := by
  have hno : o1.NoMutual := by
    simp only [merge, h1, h2, ok_bind, mergeNodes] at hm
    exact mergeNodesFuel_noMutual _ o o1 k1 k2 hp hv.1 (isMapped_of_getNode h1)
      (isMapped_of_getNode h2) hm
  intro a b pa pb oa ob c2 ha hb hab hba
  have hgrow := compare_bitsGrow hab
  have ha' : oa.getNode a = Except.ok (some pa) := by
    obtain ⟨h, h'⟩ := getNode_eq_ok.mp ha
    exact getNode_eq_ok.mpr ⟨by rw [bitsGrow_numberOfStates hgrow]; exact h,
      by rw [bitsGrow_nodes hgrow]; exact h'⟩
  have hb' : oa.getNode b = Except.ok (some pb) := by
    obtain ⟨h, h'⟩ := getNode_eq_ok.mp hb
    exact getNode_eq_ok.mpr ⟨by rw [bitsGrow_numberOfStates hgrow]; exact h,
      by rw [bitsGrow_nodes hgrow]; exact h'⟩
  simp only [compare, ha, hb, ok_bind] at hab
  simp only [compare, ha', hb', ok_bind] at hba
  have hne : pa ≠ pb := by
    rintro rfl
    rw [compareNodes_same] at hab
    simp at hab
  have hne' : pb ≠ pa := Ne.symm hne
  rcases compareNodes_eq_ok hab with ⟨hf, _, hoa⟩ | ⟨hf, hslow⟩
  · -- ABOVE by the fast test
    subst hoa
    have hF : oa.fastAboveP pa pb = true := by
      rcases compareFastNodes_cases hne hf with ⟨_, h⟩ | ⟨h, _⟩ | ⟨h, _⟩
      · exact h
      · exact absurd h (by simp)
      · exact absurd h (by simp)
    rcases compareNodes_eq_ok hba with ⟨hf2, _, _⟩ | ⟨hf2, _⟩
    · rcases compareFastNodes_cases hne' hf2 with ⟨_, hG⟩ | ⟨h, _⟩ | ⟨h, _⟩
      · exact absurd ⟨hF, hG⟩
          (hno a b pa pb (getNode_eq_ok.mp ha).2 (getNode_eq_ok.mp hb).2 hne)
      · rw [h]; simp
      · rw [h]; simp
    · rcases compareFastNodes_cases hne' hf2 with ⟨h, _⟩ | ⟨h, _⟩ | ⟨_, _, h⟩
      · exact absurd h (by simp)
      · exact absurd h (by simp)
      · rw [hF] at h
        exact absurd h (by simp)
  · -- ABOVE by the search, written back into the node of `b`
    have hqp : o1.fastAboveP pb pa = false := by
      rcases compareFastNodes_cases hne hf with ⟨h, _⟩ | ⟨h, _⟩ | ⟨_, _, h⟩
      · exact absurd h (by simp)
      · exact absurd h (by simp)
      · exact h
    rcases hslow with ⟨_, habove, hrev⟩ | ⟨h, _⟩ | ⟨h, _⟩
    · rcases above_eq_ok habove with ⟨h, _⟩ | ⟨_, n1, n2, _, hn2, _, hoa⟩
      · exact absurd h (by simp)
      · have hqp' : oa.fastAboveP pb pa = false := by
          rw [hoa, fastAboveP_writeBack_ne hn2 hne]
          exact hqp
        rcases compareNodes_eq_ok hba with ⟨hf2, _, _⟩ | ⟨_, hs2⟩
        · rcases compareFastNodes_cases hne' hf2 with ⟨_, h⟩ | ⟨h, _⟩ | ⟨h, _⟩
          · rw [hqp'] at h
            exact absurd h (by simp)
          · rw [h]; simp
          · rw [h]; simp
        · rcases hs2 with ⟨_, habove2, _⟩ | ⟨h, _⟩ | ⟨h, _⟩
          · rw [hrev] at habove2
            simp at habove2
          · rw [h]; simp
          · rw [h]; simp
    · exact absurd h (by simp)
    · exact absurd h (by simp)

end Order

/-- C1 (counterexample): the sample order after a merge whose re-scan has completed, followed by
`addRelation(2, 3)` and `addRelation(3, 2)`: `compare(2, 3)` answers ABOVE and the following
`compare(3, 2)` answers ABOVE as well. -/
theorem antisymmetry_after_merge_counterexample :
    (do
      let o ← Order.sampleCycleAfterMerge
      let (c1, o1) ← o.compare 2 3 UNKNOWN
      let (c2, _) ← o1.compare 3 2 UNKNOWN
      pure (o.contains 2, o.contains 3, c1, c2)) = Except.ok (true, true, ABOVE, ABOVE) := by
  decide

/-- C1 (witness): the amended statement applied to `merge(2, 3)` on the sample chain. -/
theorem antisymmetry_after_merge_witness :
    (Order.returned Order.sampleChain).merge 2 3 =
      Except.ok (Order.returned ((Order.returned Order.sampleChain).merge 2 3)) ∧
    ∀ (a b pa pb : Nat) (oa ob : Order) (c2 : NodeComparison),
      (Order.returned ((Order.returned Order.sampleChain).merge 2 3)).getNode a
        = Except.ok (some pa) →
      (Order.returned ((Order.returned Order.sampleChain).merge 2 3)).getNode b
        = Except.ok (some pb) →
      (Order.returned ((Order.returned Order.sampleChain).merge 2 3)).compare a b UNKNOWN
        = Except.ok (ABOVE, oa) →
      oa.compare b a UNKNOWN = Except.ok (c2, ob) → c2 ≠ ABOVE :=
  ⟨by decide,
    Order.antisymmetry_after_merge (Order.returned Order.sampleChain) _ 2 3 2 3 (by decide)
      (by decide) (by decide) (by decide) (by decide)⟩

/-! ## The breadth-first search of `Order::above` -/

namespace Order

theorem unseen_set {b : BitVector} {j : Nat} (hj : j < b.size) (hb : b.bits.testBit j = false) :
    unseen ⟨b.size, b.bits ||| 2 ^ j⟩ + 1 = unseen b := by
  unfold unseen
  simp only
  have hnd : ((List.range b.size).filter (fun i => !b.bits.testBit i)).Nodup :=
    (List.nodup_range b.size).filter _
  have hmem : j ∈ (List.range b.size).filter (fun i => !b.bits.testBit i) := by
    simp [List.mem_filter, hj, hb]
  have heq : (List.range b.size).filter (fun i => !(b.bits ||| 2 ^ j).testBit i)
      = ((List.range b.size).filter (fun i => !b.bits.testBit i)).erase j := by
    rw [hnd.erase_eq_filter, List.filter_filter]
    apply List.filter_congr
    intro i _
    simp only [Nat.testBit_or, Nat.testBit_two_pow]
    by_cases hij : j = i
    · subst hij; simp
    · have hji : ¬ i = j := fun h => hij h.symm
      simp [hij, hji]
  rw [heq, List.length_erase_of_mem hmem]
  have : 0 < ((List.range b.size).filter (fun i => !b.bits.testBit i)).length :=
    List.length_pos_of_mem hmem
  omega

theorem indices_length_add_unseen (b : BitVector) :
    b.indices.length + unseen b = b.size := by
  unfold unseen BitVector.indices
  have h := List.length_eq_countP_add_countP (fun i => b.bits.testBit i) (List.range b.size)
  simp only [List.length_range, List.countP_eq_length_filter] at h
  have h2 : (List.range b.size).filter (fun a => decide ¬ b.bits.testBit a = true)
      = (List.range b.size).filter (fun i => !b.bits.testBit i) := by
    apply List.filter_congr
    intro i _
    simp
  rw [h2] at h
  omega

theorem aboveEnqueue_spec (l : List Nat) :
    ∀ (queue : List Nat) (seen : BitVector), (∀ j ∈ l, j < seen.size) →
      ∃ fresh seen1, aboveEnqueue queue seen l = Except.ok (queue ++ fresh, seen1) ∧
        seen1.size = seen.size ∧
        (∀ j, seen1.bits.testBit j = (seen.bits.testBit j || decide (j ∈ fresh))) ∧
        (∀ j ∈ fresh, j ∈ l) ∧
        (∀ j ∈ l, seen1.bits.testBit j = true) ∧
        fresh.length + unseen seen1 = unseen seen := by
  induction l with
  | nil =>
    intro queue seen _
    exact ⟨[], seen, by simp [aboveEnqueue], rfl, by simp, by simp, by simp, by simp⟩
  | cons i is ih =>
    intro queue seen hl
    have hi : i < seen.size := hl i (List.mem_cons_self _ _)
    have his : ∀ j ∈ is, j < seen.size := fun j hj => hl j (List.mem_cons_of_mem _ hj)
    by_cases hb : seen.bits.testBit i = true
    · obtain ⟨fresh, seen1, h1, h2, h3, h4, h5, h6⟩ := ih queue seen his
      refine ⟨fresh, seen1, ?_, h2, h3, ?_, ?_, h6⟩
      · simp [aboveEnqueue, BitVector.get_of_lt hi, hb, h1]
      · intro j hj
        exact List.mem_cons_of_mem _ (h4 j hj)
      · intro j hj
        rcases List.mem_cons.mp hj with rfl | hj
        · rw [h3, hb]; rfl
        · exact h5 j hj
    · have hb0 : seen.bits.testBit i = false := by simpa using hb
      obtain ⟨fresh, seen1, h1, h2, h3, h4, h5, h6⟩ :=
        ih (queue ++ [i]) ⟨seen.size, seen.bits ||| 2 ^ i⟩ his
      refine ⟨i :: fresh, seen1, ?_, h2, ?_, ?_, ?_, ?_⟩
      · simp [aboveEnqueue, BitVector.get_of_lt hi, hb0, BitVector.set_of_lt hi, h1]
      · intro j
        rw [h3]
        simp only [Nat.testBit_or, Nat.testBit_two_pow, List.mem_cons]
        by_cases hij : i = j
        · subst hij; simp
        · have hji : ¬ j = i := fun h => hij h.symm
          simp [hij, hji]
      · intro j hj
        rcases List.mem_cons.mp hj with rfl | hj
        · exact List.mem_cons_self _ _
        · exact List.mem_cons_of_mem _ (h4 j hj)
      · intro j hj
        rcases List.mem_cons.mp hj with rfl | hj
        · rw [h3]; simp
        · exact h5 j hj
      · have := unseen_set hi hb0
        simp only [List.length_cons]
        omega

theorem nodeOfState_eq_some {o : Order} {x : Nat} {n : Node} :
    o.nodeOfState x = some n ↔ ∃ k, o.nodes[x]? = some (some k) ∧ o.heap[k]? = some n := by
  unfold nodeOfState
  split
  · rename_i p hp
    simp [hp]
  · rename_i hne
    constructor
    · intro h; cases h
    · rintro ⟨k, hk, _⟩
      exact absurd hk (hne k)

theorem bitsMapped_node {o : Order} (hv : o.Valid) (hbm : o.BitsMapped) {n : Node}
    (hn : n ∈ o.heap) {i : Nat} (hi : i ∈ n.statesAbove.indices) :
    i < o.numberOfStates ∧ ∃ k nx, o.nodes[i]? = some (some k) ∧ o.heap[k]? = some nx := by
  have h1 := hbm n hn i hi
  have hsz := (hv.2.2.2.2 n hn).1
  have hlt : i < o.numberOfStates := by
    rw [← hsz]; exact (BitVector.mem_indices.mp hi).1
  refine ⟨hlt, ?_⟩
  have hlen : i < o.nodes.length := by rw [hv.1]; exact hlt
  rw [List.getD_eq_getElem?_getD, List.getElem?_eq_getElem hlen] at h1
  simp only [Option.getD_some] at h1
  obtain ⟨k, hk⟩ := Option.isSome_iff_exists.mp h1
  have hik : o.nodes[i]? = some (some k) := by
    rw [List.getElem?_eq_getElem hlen, hk]
  obtain ⟨nx, hnx⟩ := heap_of_valid_node hv hik
  exact ⟨k, nx, hik, hnx⟩

theorem reachAbove_mapped {o : Order} (hv : o.Valid) (hbm : o.BitsMapped) {start : BitVector}
    (hstart : ∀ i ∈ start.indices,
      i < o.numberOfStates ∧ ∃ k nx, o.nodes[i]? = some (some k) ∧ o.heap[k]? = some nx)
    {x : Nat} (hx : ReachAbove o start x) :
    x < o.numberOfStates ∧ ∃ k nx, o.nodes[x]? = some (some k) ∧ o.heap[k]? = some nx := by
  cases hx with
  | base h => exact hstart x h
  | step _ hn hs =>
    obtain ⟨k, _, hk⟩ := nodeOfState_eq_some.mp hn
    exact bitsMapped_node hv hbm (List.getElem?_mem hk) hs

theorem aboveLoop_spec {o : Order} (hv : o.Valid) (hbm : o.BitsMapped) {p1 : Nat} {n1 : Node}
    (hp1 : o.heap[p1]? = some n1) {start : BitVector}
    (hstart : ∀ i ∈ start.indices,
      i < o.numberOfStates ∧ ∃ k nx, o.nodes[i]? = some (some k) ∧ o.heap[k]? = some nx) :
    ∀ (fuel : Nat) (queue : List Nat) (seen : BitVector),
      seen.size = o.numberOfStates →
      (∀ x ∈ queue, ReachAbove o start x) →
      (∀ x, x < o.numberOfStates → seen.bits.testBit x = true →
        x ∈ queue ∨ (¬ Hit o n1 x ∧ ∀ nx, o.nodeOfState x = some nx →
          ∀ y ∈ nx.statesAbove.indices, seen.bits.testBit y = true)) →
      (∀ x ∈ start.indices, seen.bits.testBit x = true) →
      queue.length + unseen seen < fuel →
      ∃ r, aboveLoop o (some p1) fuel queue seen = Except.ok r ∧
        (r = true ↔ ∃ x, ReachAbove o start x ∧ Hit o n1 x) := by
  intro fuel
  induction fuel with
  | zero => intro queue seen _ _ _ _ hm; omega
  | succ fuel ih =>
    intro queue seen hsz hS hA hB hM
    cases queue with
    | nil =>
      refine ⟨false, by simp [aboveLoop], ?_⟩
      simp only [Bool.false_eq_true, false_iff, not_exists, not_and]
      have hclosed : ∀ x, ReachAbove o start x →
          x < o.numberOfStates ∧ seen.bits.testBit x = true := by
        intro x hx
        induction hx with
        | base h => exact ⟨(hstart _ h).1, hB _ h⟩
        | step hx0 hn hs ih0 =>
          rcases hA _ ih0.1 ih0.2 with hq | ⟨_, hd⟩
          · simp at hq
          · have hs2 := hd _ hn _ hs
            obtain ⟨k, _, hk⟩ := nodeOfState_eq_some.mp hn
            exact ⟨(bitsMapped_node hv hbm (List.getElem?_mem hk) hs).1, hs2⟩
      intro x hx
      obtain ⟨hlt, hseen⟩ := hclosed x hx
      rcases hA x hlt hseen with hq | ⟨hnh, _⟩
      · simp at hq
      · exact hnh
    | cons x rest =>
      have hRx : ReachAbove o start x := hS x (List.mem_cons_self _ _)
      obtain ⟨hxlt, k, nx, hxk, hk⟩ := reachAbove_mapped hv hbm hstart hRx
      have hnos : o.nodeOfState x = some nx := nodeOfState_eq_some.mpr ⟨k, hxk, hk⟩
      have hget : o.getNode x = Except.ok (some k) := getNode_eq_ok.mpr ⟨hxlt, hxk⟩
      have hfast := aboveFast_of_valid hv hp1 hk
      by_cases hf : o.aboveFastP p1 k = true
      · refine ⟨true, by simp [aboveLoop, hget, hfast, hf], ?_⟩
        simp only [true_iff]
        refine ⟨x, hRx, nx, hnos, ?_⟩
        obtain ⟨na, nb, s, ha, hb, hs, hbit⟩ := aboveFastP_true hf
        rw [hp1] at ha; rw [hk] at hb
        cases ha; cases hb
        exact ⟨s, hs, hbit⟩
      · have hf0 : o.aboveFastP p1 k = false := by simpa using hf
        have hnx_size : nx.statesAbove.size = o.numberOfStates := valid_node_size hv hk
        have hl : ∀ j ∈ nx.statesAbove.indices, j < seen.size := by
          intro j hj
          rw [hsz, ← hnx_size]
          exact (BitVector.mem_indices.mp hj).1
        obtain ⟨fresh, seen1, he, hsz1, hbits, hfr, hall, hcount⟩ :=
          aboveEnqueue_spec nx.statesAbove.indices rest seen hl
        have hnohit : ¬ Hit o n1 x := by
          rintro ⟨nx2, hnx2, s, hs, hbit⟩
          rw [hnos] at hnx2
          cases hnx2
          have := aboveFastP_of_mem hp1 hk hs hbit
          rw [hf0] at this
          cases this
        have hmono : ∀ y, seen.bits.testBit y = true → seen1.bits.testBit y = true := by
          intro y hy
          rw [hbits, hy]; rfl
        obtain ⟨r, hr, hiff⟩ := ih (rest ++ fresh) seen1 (hsz1.trans hsz)
          (by
            intro y hy
            rcases List.mem_append.mp hy with hy | hy
            · exact hS y (List.mem_cons_of_mem _ hy)
            · exact ReachAbove.step hRx hnos (hfr y hy))
          (by
            intro y hylt hy
            rw [hbits] at hy
            by_cases hys : seen.bits.testBit y = true
            · rcases hA y hylt hys with hq | ⟨hnh, hd⟩
              · rcases List.mem_cons.mp hq with rfl | hq
                · right
                  refine ⟨hnohit, ?_⟩
                  intro nx3 hnx3 z hz
                  rw [hnos] at hnx3
                  cases hnx3
                  exact hall z hz
                · left
                  exact List.mem_append_left _ hq
              · right
                exact ⟨hnh, fun nx3 hnx3 z hz => hmono z (hd nx3 hnx3 z hz)⟩
            · left
              have hys0 : seen.bits.testBit y = false := by simpa using hys
              rw [hys0] at hy
              simp only [Bool.false_or, decide_eq_true_eq] at hy
              exact List.mem_append_right _ hy)
          (fun y hy => hmono y (hB y hy))
          (by
            simp only [List.length_append, List.length_cons] at hM ⊢
            omega)
        refine ⟨r, ?_, hiff⟩
        simp [aboveLoop, hget, hfast, hf0, deref_some hk, he, hr]

theorem aboveSearch_spec {o : Order} (hv : o.Valid) (hbm : o.BitsMapped) (hen : o.SearchEnabled)
    {p q : Nat} {n1 n2 : Node} (hp : o.heap[p]? = some n1) (hq : o.heap[q]? = some n2) :
    ∃ r, o.aboveSearch (some p) (some q) = Except.ok r ∧ (r = true ↔ o.Chain p q) := by
  have hstart : ∀ i ∈ n2.statesAbove.indices,
      i < o.numberOfStates ∧ ∃ k nx, o.nodes[i]? = some (some k) ∧ o.heap[k]? = some nx :=
    fun i hi => bitsMapped_node hv hbm (List.getElem?_mem hq) hi
  have hsz : n2.statesAbove.size = o.numberOfStates := valid_node_size hv hq
  obtain ⟨r, hr, hiff⟩ := aboveLoop_spec hv hbm hp hstart (o.numberOfStates + 1)
    n2.statesAbove.indices n2.statesAbove hsz
    (fun x hx => ReachAbove.base hx)
    (fun x hxlt hx => Or.inl (BitVector.mem_indices.mpr ⟨by rw [hsz]; exact hxlt, hx⟩))
    (fun x hx => (BitVector.mem_indices.mp hx).2)
    (by
      have := indices_length_add_unseen n2.statesAbove
      omega)
  refine ⟨r, ?_, ?_⟩
  · unfold aboveSearch
    unfold SearchEnabled at hen
    rw [if_pos hen]
    simp [deref_some hq, hr]
  · rw [hiff]
    unfold Chain Hit
    constructor
    · rintro ⟨x, hR, nx, hnx, s, hs, hbit⟩
      exact ⟨n1, n2, x, nx, hp, hq, hR, hnx, s, hs, hbit⟩
    · rintro ⟨m1, m2, x, nx, hm1, hm2, hR, hnx, s, hs, hbit⟩
      rw [hp] at hm1; rw [hq] at hm2
      cases hm1; cases hm2
      exact ⟨x, hR, nx, hnx, s, hs, hbit⟩

theorem aboveSearch_disabled {o : Order} (hen : ¬ o.SearchEnabled) (p q : Ptr) :
    o.aboveSearch p q = Except.ok false := by
  unfold aboveSearch
  unfold SearchEnabled at hen
  rw [if_neg hen]
  rfl

theorem above_spec {o : Order} (hv : o.Valid) (hbm : o.BitsMapped) (hen : o.SearchEnabled)
    {p q : Nat} {n1 n2 : Node} (hp : o.heap[p]? = some n1) (hq : o.heap[q]? = some n2)
    (hfast : o.aboveFastP p q = false) :
    ∃ r o1, o.above (some p) (some q) = Except.ok (r, o1) ∧ (r = true ↔ o.Chain p q) := by
  obtain ⟨r, hr, hiff⟩ := aboveSearch_spec hv hbm hen hp hq
  have hf := aboveFast_of_valid hv hp hq
  cases r with
  | false =>
    refine ⟨false, o, ?_, hiff⟩
    simp [above, hf, hfast, hr]
  | true =>
    have hsz : n2.statesAbove.size = o.numberOfStates := valid_node_size hv hq
    have hall : ∀ s ∈ n1.states, s < n2.statesAbove.size := by
      intro s hs
      rw [hsz]
      exact valid_state_lt hv hp hs
    have hlen : q < o.heap.length := (List.getElem?_eq_some_iff.mp hq).1
    refine ⟨true,
      o.setHeap q (withAboveBits n2 (BitVector.setBits n2.statesAbove.bits n1.states)), ?_, hiff⟩
    simp [above, hf, hfast, hr, deref_some hp, deref_some hq, BitVector.setAll_of_lt hall,
      store_some _ hlen, setHeap, withAboveBits]

theorem above_disabled {o : Order} (hv : o.Valid) (hen : ¬ o.SearchEnabled)
    {p q : Nat} {n1 n2 : Node} (hp : o.heap[p]? = some n1) (hq : o.heap[q]? = some n2)
    (hfast : o.aboveFastP p q = false) :
    o.above (some p) (some q) = Except.ok (false, o) := by
  have hf := aboveFast_of_valid hv hp hq
  simp [above, hf, hfast, aboveSearch_disabled hen]

end Order

/-! ## Exact comparison and chains -/

namespace Order

theorem chain_trans {o : Order} (hv : o.Valid) (hex : o.Exclusive) {pa pb pc : Nat}
    (hmb : o.IsMapped pb) (h1 : o.Chain pa pb) (h2 : o.Chain pb pc) : o.Chain pa pc := by
  obtain ⟨na, nb, x, nx, hpa, hpb, hRx, hnx, s, hs, hbit⟩ := h1
  obtain ⟨nb2, nc, y, ny, hpb2, hpc, hRy, hny, t, ht, hbit2⟩ := h2
  rw [hpb] at hpb2
  cases hpb2
  have htb : o.nodes[t]? = some (some pb) := exclusive_iff.mp hex pb nb t hmb hpb ht
  have hnt : o.nodeOfState t = some nb := nodeOfState_eq_some.mpr ⟨pb, htb, hpb⟩
  obtain ⟨ky, _, hky⟩ := nodeOfState_eq_some.mp hny
  have htlt : t < ny.statesAbove.size := by
    rw [valid_node_size hv hky]
    exact valid_state_lt hv hpb ht
  have hRt : ReachAbove o nc.statesAbove t :=
    ReachAbove.step hRy hny (BitVector.mem_indices.mpr ⟨htlt, hbit2⟩)
  have hlift : ∀ z, ReachAbove o nb.statesAbove z → ReachAbove o nc.statesAbove z := by
    intro z hz
    induction hz with
    | base h => exact ReachAbove.step hRt hnt h
    | step _ hn hs ih => exact ReachAbove.step ih hn hs
  exact ⟨na, nc, x, nx, hpa, hpc, hlift x hRx, hnx, s, hs, hbit⟩

theorem bitsMapped_writeBack {o : Order} (hbm : o.BitsMapped) (hex : o.Exclusive) {p q : Nat}
    {n1 n2 : Node} (hp : o.heap[p]? = some n1) (hq : o.heap[q]? = some n2) (hmp : o.IsMapped p) :
    BitsMapped
      (o.setHeap q (withAboveBits n2 (BitVector.setBits n2.statesAbove.bits n1.states))) := by
  intro n hn i hi
  simp only [nodes_setHeap]
  have hn2 : n ∈ o.heap.set q
      (withAboveBits n2 (BitVector.setBits n2.statesAbove.bits n1.states)) := hn
  rcases List.mem_or_eq_of_mem_set hn2 with h | rfl
  · exact hbm n h i hi
  · obtain ⟨hlt, hbit⟩ := BitVector.mem_indices.mp hi
    simp only [withAboveBits, BitVector.testBit_setBits, Bool.or_eq_true,
      decide_eq_true_eq] at hlt hbit
    rcases hbit with hbit | hmem
    · exact hbm n2 (List.getElem?_mem hq) i (BitVector.mem_indices.mpr ⟨hlt, hbit⟩)
    · have := exclusive_iff.mp hex p n1 i hmp hp hmem
      have hlen : i < o.nodes.length := (List.getElem?_eq_some_iff.mp this).1
      rw [List.getD_eq_getElem?_getD, this]
      rfl

theorem fastAboveP_false {o : Order} {p q : Nat} (h : o.fastAboveP p q = false) :
    o.aboveFastP p q = false := by
  unfold fastAboveP at h
  simp only [Bool.or_eq_false_iff] at h
  exact h.2

theorem compareFast_unknown {o : Order} {a b pa pb : Nat}
    (ha : o.getNode a = Except.ok (some pa)) (hb : o.getNode b = Except.ok (some pb))
    (hne : pa ≠ pb) (h : o.compareFast a b UNKNOWN = Except.ok UNKNOWN) :
    o.compareFastNodes (some pa) (some pb) UNKNOWN = Except.ok UNKNOWN ∧
      o.aboveFastP pa pb = false ∧ o.aboveFastP pb pa = false := by
  simp only [compareFast, ha, hb, ok_bind] at h
  refine ⟨h, ?_⟩
  rcases compareFastNodes_cases hne h with ⟨h1, _⟩ | ⟨h1, _⟩ | ⟨_, h1, h2⟩
  · cases h1
  · cases h1
  · exact ⟨fastAboveP_false h1, fastAboveP_false h2⟩

theorem compare_chain_iff {o : Order} {a b pa pb : Nat} (hv : o.Valid) (hex : o.Exclusive)
    (hbm : o.BitsMapped) (hen : o.SearchEnabled) (ha : o.getNode a = Except.ok (some pa))
    (hb : o.getNode b = Except.ok (some pb)) (hne : pa ≠ pb)
    (hfast : o.compareFast a b UNKNOWN = Except.ok UNKNOWN) :
    o.Chain pa pb ↔ ((∃ o1, o.compare a b UNKNOWN = Except.ok (ABOVE, o1)) ∨
      o.compare a b UNKNOWN = Except.error Fault.assertion) := by
  obtain ⟨hcf, hfa, hfb⟩ := compareFast_unknown ha hb hne hfast
  obtain ⟨na, hna⟩ := heap_of_valid_node hv (getNode_eq_ok.mp ha).2
  obtain ⟨nb, hnb⟩ := heap_of_valid_node hv (getNode_eq_ok.mp hb).2
  obtain ⟨r, o1, h1, hiff⟩ := above_spec hv hbm hen hna hnb hfa
  have hcmp : o.compare a b UNKNOWN = o.compareNodes (some pa) (some pb) UNKNOWN := by
    simp only [compare, ha, hb, ok_bind]
  rw [hcmp, ← hiff]
  cases r with
  | true =>
    simp only [true_iff]
    have hgrow := above_bitsGrow h1
    have hv1 : o1.Valid := valid_of_bitsGrow hv hgrow
    rcases above_eq_ok h1 with ⟨hr, _⟩ | ⟨_, m1, m2, hm1, hm2, _, ho1⟩
    · cases hr
    · rw [hna] at hm1; rw [hnb] at hm2
      cases hm1; cases hm2
      have hbm1 : o1.BitsMapped := by
        rw [ho1]
        exact bitsMapped_writeBack hbm hex hna hnb (isMapped_of_getNode ha)
      have hen1 : o1.SearchEnabled := by
        rw [ho1]
        exact hen
      have hlen : pb < o.heap.length := (List.getElem?_eq_some_iff.mp hnb).1
      have hnb1 : o1.heap[pb]? = some
          (withAboveBits nb (BitVector.setBits nb.statesAbove.bits na.states)) := by
        rw [ho1]
        exact heap_setHeap_self _ hlen
      have hna1 : o1.heap[pa]? = some na := by
        rw [ho1, heap_setHeap_ne _ (Ne.symm hne)]
        exact hna
      have hfb1 : o1.aboveFastP pb pa = false := by
        rw [aboveFastP_eq_any hnb1 hna1]
        rw [aboveFastP_eq_any hnb hna] at hfb
        exact hfb
      obtain ⟨r2, o2, h2, _⟩ := above_spec hv1 hbm1 hen1 hnb1 hna1 hfb1
      cases r2 with
      | true =>
        right
        simp [compareNodes, hcf, aboveWhen, h1, h2]
      | false =>
        left
        exact ⟨o2, by simp [compareNodes, hcf, aboveWhen, h1, h2]⟩
  | false =>
    have ho1 : o1 = o := above_false_eq h1
    subst ho1
    obtain ⟨r3, o3, h3, _⟩ := above_spec hv hbm hen hnb hna hfb
    simp only [Bool.false_eq_true, false_iff, not_or, not_exists]
    cases r3 <;> simp [compareNodes, hcf, aboveWhen, h1, h3]

/-- C2 (amended): in a well-formed order in which the search of `Order::above` is enabled, for
mapped states `a` and `b` in distinct nodes with `compareFast(a, b) == UNKNOWN`: a chain from the
node of `b` up to the node of `a` exists if and only if `compare(a, b)` returns ABOVE or stops at
its assertion `!above(node2, node1)`.  Moreover, for a mapped state `c` in a third node with
`compareFast(b, c)` and `compareFast(a, c)` UNKNOWN: if `compare(a, b)` and `compare(b, c)`
return ABOVE on this order, then `compare(a, c)` returns ABOVE or stops at that assertion. -/
theorem compare_follows_chains (o : Order) (a b pa pb : Nat) (hv : o.Valid) (hp : o.Partition)
    (hbm : o.BitsMapped) (hen : o.SearchEnabled) (ha : o.getNode a = Except.ok (some pa))
    (hb : o.getNode b = Except.ok (some pb)) (hne : pa ≠ pb)
    (hfast : o.compareFast a b UNKNOWN = Except.ok UNKNOWN) :
    (o.Chain pa pb ↔ ((∃ o1, o.compare a b UNKNOWN = Except.ok (ABOVE, o1)) ∨
      o.compare a b UNKNOWN = Except.error Fault.assertion)) ∧
    ∀ c pc : Nat, o.getNode c = Except.ok (some pc) → pb ≠ pc → pa ≠ pc →
      o.compareFast b c UNKNOWN = Except.ok UNKNOWN →
      o.compareFast a c UNKNOWN = Except.ok UNKNOWN →
      (∃ o1, o.compare a b UNKNOWN = Except.ok (ABOVE, o1)) →
      (∃ o2, o.compare b c UNKNOWN = Except.ok (ABOVE, o2)) →
      ((∃ o3, o.compare a c UNKNOWN = Except.ok (ABOVE, o3)) ∨
        o.compare a c UNKNOWN = Except.error Fault.assertion) := by
  refine ⟨compare_chain_iff hv hp.2 hbm hen ha hb hne hfast, ?_⟩
  intro c pc hc hbc hac hfbc hfac hab hbcA
  have h1 : o.Chain pa pb := (compare_chain_iff hv hp.2 hbm hen ha hb hne hfast).mpr (Or.inl hab)
  have h2 : o.Chain pb pc := (compare_chain_iff hv hp.2 hbm hen hb hc hbc hfbc).mpr (Or.inl hbcA)
  exact (compare_chain_iff hv hp.2 hbm hen ha hc hac hfac).mp
    (chain_trans hv hp.2 (isMapped_of_getNode hb) h1 h2)

end Order

/-- C2 (counterexample): in the sample order in which all states are trivial and building is
done, state 3 is in the `statesAbove` of state 4 and state 2 in that of the node of state 3, and
`compareFast(2, 4)` is UNKNOWN; `compare(2, 3)` and `compare(3, 4)` answer ABOVE, yet
`compare(2, 4)` answers UNKNOWN. -/
theorem compare_follows_chains_counterexample :
    (do
      let o ← Order.sampleDone
      let n3 ← o.deref (← o.getNode 3)
      let n4 ← o.deref (← o.getNode 4)
      let fast ← o.compareFast 2 4 UNKNOWN
      let (c1, _) ← o.compare 2 3 UNKNOWN
      let (c2, _) ← o.compare 3 4 UNKNOWN
      let (c3, _) ← o.compare 2 4 UNKNOWN
      pure (o.contains 2 && o.contains 4 && n4.statesAbove.bits.testBit 3 &&
        n3.statesAbove.bits.testBit 2, fast, c1, c2, c3))
      = Except.ok (true, UNKNOWN, ABOVE, ABOVE, UNKNOWN) := by
  decide

/-- C2 (witness): the amended statement applied to the states 2 and 4 of the sample ladder, in
which `compare(2, 4)`, `compare(4, 6)` and `compare(2, 6)` are all decided by the search. -/
theorem compare_follows_chains_witness :
    ((Order.returned Order.sampleLadder).compareFast 2 4 UNKNOWN = Except.ok UNKNOWN ∧
      (Order.returned Order.sampleLadder).compareFast 4 6 UNKNOWN = Except.ok UNKNOWN ∧
      (Order.returned Order.sampleLadder).compareFast 2 6 UNKNOWN = Except.ok UNKNOWN ∧
      ((Order.returned Order.sampleLadder).compare 2 4 UNKNOWN).map Prod.fst = Except.ok ABOVE ∧
      ((Order.returned Order.sampleLadder).compare 4 6 UNKNOWN).map Prod.fst = Except.ok ABOVE ∧
      ((Order.returned Order.sampleLadder).compare 2 6 UNKNOWN).map Prod.fst = Except.ok ABOVE) ∧
    ((Order.returned Order.sampleLadder).Chain 2 4 ↔
      ((∃ o1, (Order.returned Order.sampleLadder).compare 2 4 UNKNOWN = Except.ok (ABOVE, o1)) ∨
        (Order.returned Order.sampleLadder).compare 2 4 UNKNOWN
          = Except.error Fault.assertion)) ∧
    ∀ c pc : Nat, (Order.returned Order.sampleLadder).getNode c = Except.ok (some pc) →
      4 ≠ pc → 2 ≠ pc →
      (Order.returned Order.sampleLadder).compareFast 4 c UNKNOWN = Except.ok UNKNOWN →
      (Order.returned Order.sampleLadder).compareFast 2 c UNKNOWN = Except.ok UNKNOWN →
      (∃ o1, (Order.returned Order.sampleLadder).compare 2 4 UNKNOWN = Except.ok (ABOVE, o1)) →
      (∃ o2, (Order.returned Order.sampleLadder).compare 4 c UNKNOWN = Except.ok (ABOVE, o2)) →
      ((∃ o3, (Order.returned Order.sampleLadder).compare 2 c UNKNOWN = Except.ok (ABOVE, o3)) ∨
        (Order.returned Order.sampleLadder).compare 2 c UNKNOWN
          = Except.error Fault.assertion) :=
  ⟨by decide,
    Order.compare_follows_chains (Order.returned Order.sampleLadder) 2 4 2 4 (by decide)
      (by decide) (by decide) (by decide) (by decide) (by decide) (by decide) (by decide)⟩

/-! ## Copying an order -/

/-- C6 (failing input): the order built by `Order(0, 1, 4, ...)`, `add(2)`, `merge(2, 0)` and
`addToNode(3, getTop())` contains state 3, and `compare(3, 3)` and `compareFast(3, 3)` answer SAME
on it.  Its copy does not contain state 3: the node of state 3 is skipped because its first
member, state 0, was copied with the node of state 2.  On the copy both comparisons answer
UNKNOWN, and `top` still holds the value it had before `copy` ran, whatever that value is.
The copy of the order after `merge(2, 0)` alone has its `top` unassigned as well. -/
theorem copy_compare_diverges :
    Order.sampleTopReused = Except.ok (Order.returned Order.sampleTopReused) ∧
    (Order.returned Order.sampleTopReused).contains 3 = true ∧
    ((Order.returned Order.sampleTopReused).compare 3 3 UNKNOWN).map Prod.fst
      = Except.ok SAME ∧
    (Order.returned Order.sampleTopReused).compareFast 3 3 UNKNOWN = Except.ok SAME ∧
    (∀ uninitTop uninitBottom : Ptr,
      (do
        let c ← (Order.returned Order.sampleTopReused).copy uninitTop uninitBottom
        let (r, _) ← c.compare 3 3 UNKNOWN
        let f ← c.compareFast 3 3 UNKNOWN
        pure (c.contains 3, r, f, c.top))
        = Except.ok (false, UNKNOWN, UNKNOWN, uninitTop)) ∧
    (Order.returned Order.sampleBase).merge 2 0
      = Except.ok (Order.returned ((Order.returned Order.sampleBase).merge 2 0)) ∧
    ∀ uninitTop uninitBottom : Ptr,
      ((Order.returned ((Order.returned Order.sampleBase).merge 2 0)).copy uninitTop
        uninitBottom).map (fun c => c.top) = Except.ok uninitTop := by
  refine ⟨by decide, by decide, by decide, by decide, ?_, by decide, ?_⟩
  · intro t b
    cases t <;> rfl
  · intro t b
    cases t <;> rfl

/-! ## Recording a relation, and the two tiers of comparison -/

namespace Order

/-- C11: for mapped states `a` and `b` of a valid order, `addRelation(a, b)` returns the order in
which only the heap cell of the node of `b` is replaced: its members are unchanged and its
`statesAbove` is the previous value united with the `statesAbove` of the node of `a` and with the
members of the node of `a`.  All other nodes, the state-to-node mapping, the counters, the
sufficiency and done bits and the queues are those of the original order. -/
theorem addRelation_direct_union (o : Order) (a b pa pb : Nat) (allowMerge : Bool)
    (hv : o.Valid) (ha : o.nodes[a]? = some (some pa)) (hb : o.nodes[b]? = some (some pb)) :
    ∃ (na nb : Node) (bits : Nat), o.heap[pa]? = some na ∧ o.heap[pb]? = some nb ∧
      o.addRelation a b allowMerge
        = Except.ok (o.setHeap pb ⟨nb.states, ⟨nb.statesAbove.size, bits⟩⟩) ∧
      ∀ j, bits.testBit j = (nb.statesAbove.bits.testBit j || na.statesAbove.bits.testBit j ||
        decide (j ∈ na.states)) := by
  obtain ⟨na, hna⟩ := heap_of_valid_node hv ha
  obtain ⟨nb, hnb⟩ := heap_of_valid_node hv hb
  refine ⟨na, nb, BitVector.setBits (nb.statesAbove.bits ||| na.statesAbove.bits) na.states,
    hna, hnb, ?_, ?_⟩
  · have h1 := getNode_of_nodes hv.1 ha
    have h2 := getNode_of_nodes hv.1 hb
    simp only [addRelation, h1, h2, ok_bind, addRelationNodes_of_valid hv hna hnb]
    rfl
  · intro j
    rw [BitVector.testBit_setBits, Nat.testBit_or]

theorem compare_of_compareFast {o : Order} {a b : Nat} {r : NodeComparison}
    (h : o.compareFast a b UNKNOWN = Except.ok r) (hr : r ≠ UNKNOWN) :
    o.compare a b UNKNOWN = Except.ok (r, o) := by
  simp only [compareFast, bind_eq_ok] at h
  obtain ⟨p, hp, q, hq, h⟩ := h
  simp only [compare, hp, hq, ok_bind]
  by_cases hnn : p ≠ none ∧ q ≠ none
  · unfold compareNodes
    rw [if_pos hnn, h]
    simp [hr]
  · unfold compareNodes
    unfold compareFastNodes at h
    rw [if_neg hnn] at h ⊢
    by_cases hA : (o.top ≠ none ∧ p = o.top) ∨ q = o.bottom
    · rw [if_pos hA] at h ⊢
      simp only [Except.ok.injEq] at h
      rw [h]
    · rw [if_neg hA] at h ⊢
      by_cases hB : (o.top ≠ none ∧ p = o.top) ∨ p = o.bottom
      · rw [if_pos hB] at h
        simp only [Except.ok.injEq] at h
        have hpb : p = o.bottom := by
          rcases hB with hB | hB
          · exact absurd (Or.inl hB) hA
          · exact hB
        rw [if_pos (Or.inr hpb), h]
      · rw [if_neg hB] at h
        simp only [Except.ok.injEq] at h
        exact absurd h.symm hr

/-- C12: whenever `compareFast(a, b)` with hypothesis UNKNOWN returns a result other than
UNKNOWN, `compare(a, b)` returns the same result and leaves the order as it is; the states may be
mapped or not. -/
theorem compare_agrees_with_compareFast (o : Order) (a b : Nat) (r : NodeComparison)
    (h : o.compareFast a b UNKNOWN = Except.ok r) (hr : r ≠ UNKNOWN) :
    o.compare a b UNKNOWN = Except.ok (r, o) :=
  compare_of_compareFast h hr

end Order

/-- C11 (witness): `addRelation(2, 3)` on the sample order. -/
theorem addRelation_direct_union_witness :
    ∃ (na nb : Node) (bits : Nat), (Order.returned Order.sampleOrder).heap[2]? = some na ∧
      (Order.returned Order.sampleOrder).heap[3]? = some nb ∧
      (Order.returned Order.sampleOrder).addRelation 2 3 false
        = Except.ok ((Order.returned Order.sampleOrder).setHeap 3
            ⟨nb.states, ⟨nb.statesAbove.size, bits⟩⟩) ∧
      ∀ j, bits.testBit j = (nb.statesAbove.bits.testBit j || na.statesAbove.bits.testBit j ||
        decide (j ∈ na.states)) :=
  Order.addRelation_direct_union (Order.returned Order.sampleOrder) 2 3 2 3 false (by decide)
    (by decide) (by decide)

/-- C12 (witness): on the sample order `compareFast(0, 2)` is ABOVE, and so is `compare(0, 2)`. -/
theorem compare_agrees_with_compareFast_witness :
    (Order.returned Order.sampleOrder).compareFast 0 2 UNKNOWN = Except.ok ABOVE ∧
    (Order.returned Order.sampleOrder).compare 0 2 UNKNOWN
      = Except.ok (ABOVE, Order.returned Order.sampleOrder) :=
  ⟨by decide,
    Order.compare_agrees_with_compareFast (Order.returned Order.sampleOrder) 0 2 ABOVE
      (by decide) (by decide)⟩

/-! ## Write-back of the relations found by the search -/

namespace Order

theorem aboveFastLoop_congr {o c : Order} {q qc : Ptr} (h : o.deref q = c.deref qc)
    (l : List Nat) : aboveFastLoop o q l = aboveFastLoop c qc l := by
  induction l with
  | nil => rfl
  | cons s rest ih => simp only [aboveFastLoop, h, ih]

theorem aboveFast_congr {o c : Order} {p pc q qc : Ptr} (hp : o.deref p = c.deref pc)
    (hq : o.deref q = c.deref qc) : o.aboveFast p q = c.aboveFast pc qc := by
  unfold aboveFast
  rw [hp]
  cases c.deref pc with
  | error e => rfl
  | ok n => exact aboveFastLoop_congr hq _

theorem aboveFast_true_nonempty {o : Order} {p q : Ptr}
    (h : o.aboveFast p q = Except.ok true) : ∃ n1, o.deref p = Except.ok n1 ∧ n1.states ≠ [] := by
  simp only [aboveFast, bind_eq_ok] at h
  obtain ⟨n1, hn1, h⟩ := h
  refine ⟨n1, hn1, ?_⟩
  intro hnil
  rw [hnil] at h
  simp [aboveFastLoop] at h

theorem aboveLoop_true {o : Order} {node1 : Ptr} (fuel : Nat) :
    ∀ (queue : List Nat) (seen : BitVector),
      aboveLoop o node1 fuel queue seen = Except.ok true →
      ∃ node, o.aboveFast node1 node = Except.ok true := by
  induction fuel with
  | zero => intro queue seen h; simp [aboveLoop] at h
  | succ fuel ih =>
    intro queue seen h
    cases queue with
    | nil => simp [aboveLoop] at h
    | cons x rest =>
      simp only [aboveLoop, bind_eq_ok] at h
      obtain ⟨node, _, found, hf, h⟩ := h
      cases found with
      | true => exact ⟨node, hf⟩
      | false =>
        simp only [Bool.false_eq_true, if_false, bind_eq_ok] at h
        obtain ⟨_, _, ⟨q1, s1⟩, _, h⟩ := h
        exact ih q1 s1 h

theorem above_true_nonempty {o o1 : Order} {p q : Ptr}
    (h : o.above p q = Except.ok (true, o1)) :
    ∃ n1, o.deref p = Except.ok n1 ∧ n1.states ≠ [] := by
  simp only [above, bind_eq_ok] at h
  obtain ⟨fast, _, h⟩ := h
  cases fast with
  | true => simp at h
  | false =>
    simp only [Bool.false_eq_true, if_false, bind_eq_ok] at h
    obtain ⟨isAbove, hs, h⟩ := h
    cases isAbove with
    | false => simp at h
    | true =>
      unfold aboveSearch at hs
      split at hs
      · simp only [bind_eq_ok] at hs
        obtain ⟨n2, _, hs⟩ := hs
        obtain ⟨node, hnode⟩ := aboveLoop_true _ _ _ hs
        exact aboveFast_true_nonempty hnode
      · simp at hs

theorem aboveFast_writeBack {o : Order} {p q : Nat} {n1 n2 : Node} (hp : o.heap[p]? = some n1)
    (hq : o.heap[q]? = some n2) (hne : p ≠ q) (hnon : n1.states ≠ [])
    (hlt : ∀ s ∈ n1.states, s < n2.statesAbove.size) :
    (o.setHeap q (withAboveBits n2
      (BitVector.setBits n2.statesAbove.bits n1.states))).aboveFast (some p) (some q)
      = Except.ok true := by
  have hlen : q < o.heap.length := (List.getElem?_eq_some_iff.mp hq).1
  have hp1 : (o.setHeap q (withAboveBits n2
      (BitVector.setBits n2.statesAbove.bits n1.states))).heap[p]? = some n1 := by
    rw [heap_setHeap_ne _ (Ne.symm hne)]; exact hp
  have hq1 := heap_setHeap_self (o := o)
    (withAboveBits n2 (BitVector.setBits n2.statesAbove.bits n1.states)) hlen
  unfold aboveFast
  rw [deref_some hp1]
  simp only [ok_bind]
  rw [aboveFastLoop_of_lt hq1 n1.states (by simpa [withAboveBits] using hlt)]
  congr 1
  obtain ⟨s, hs⟩ := List.exists_mem_of_ne_nil _ hnon
  rw [List.any_eq_true]
  exact ⟨s, hs, by simp [withAboveBits, BitVector.testBit_setBits, hs]⟩

theorem aboveFast_writeBack_other {o : Order} {p q : Nat} {n1 : Node} (n : Node)
    (hp : o.heap[p]? = some n1) (hst : n.states = n1.states) (hne : p ≠ q) :
    (o.setHeap p n).aboveFast (some p) (some q) = o.aboveFast (some p) (some q) := by
  have hlen : p < o.heap.length := (List.getElem?_eq_some_iff.mp hp).1
  unfold aboveFast
  rw [deref_some (heap_setHeap_self (o := o) n hlen), deref_some hp]
  simp only [ok_bind, hst]
  apply aboveFastLoop_congr
  simp only [deref, heap_setHeap_ne _ hne]

theorem compareFastNodes_unknown {o : Order} {p q : Nat}
    (h : o.compareFastNodes (some p) (some q) UNKNOWN = Except.ok UNKNOWN) :
    p ≠ q ∧ ¬ (some p = o.top ∨ some q = o.bottom) ∧
      o.aboveFast (some p) (some q) = Except.ok false ∧
      ¬ (some q = o.top ∨ some p = o.bottom) ∧
      o.aboveFast (some q) (some p) = Except.ok false := by
  unfold compareFastNodes fastWhen at h
  simp only [ne_eq, reduceCtorEq, not_false_eq_true, and_self, if_true, Option.some.injEq,
    or_true, true_or, decide_True] at h
  by_cases hpq : p = q
  · simp [hpq] at h
  · simp only [hpq, if_false] at h
    refine ⟨hpq, ?_⟩
    by_cases hs1 : some p = o.top ∨ some q = o.bottom
    · simp [hs1] at h
    · simp only [hs1, decide_False, Bool.false_eq_true, if_false, bind_eq_ok] at h
      obtain ⟨f1, hf1, h⟩ := h
      cases f1 with
      | true => simp at h
      | false =>
        simp only [Bool.false_eq_true, if_false] at h
        by_cases hs2 : some q = o.top ∨ some p = o.bottom
        · simp [hs2] at h
        · simp only [hs2, decide_False, Bool.false_eq_true, if_false, bind_eq_ok] at h
          obtain ⟨f2, hf2, h⟩ := h
          cases f2 with
          | true => simp at h
          | false => exact ⟨hs1, hf1, hs2, hf2⟩

theorem compareFastNodes_of_aboveFast {o : Order} {p q : Nat} (hne : p ≠ q)
    (h : o.aboveFast (some p) (some q) = Except.ok true) :
    o.compareFastNodes (some p) (some q) UNKNOWN = Except.ok ABOVE := by
  unfold compareFastNodes fastWhen
  by_cases hs1 : some p = o.top ∨ some q = o.bottom <;> simp [hne, hs1, h]

theorem compareFast_after_compare {o o1 : Order} {a b pa pb : Nat} {r : NodeComparison}
    (ha : o.getNode a = Except.ok (some pa)) (hb : o.getNode b = Except.ok (some pb))
    (h : o.compare a b UNKNOWN = Except.ok (r, o1)) (hr : r ≠ UNKNOWN) :
    o1.compareFast a b UNKNOWN = Except.ok r := by
  have hgrow := compare_bitsGrow h
  have ha1 : o1.getNode a = Except.ok (some pa) := by
    obtain ⟨h1, h2⟩ := getNode_eq_ok.mp ha
    exact getNode_eq_ok.mpr ⟨by rw [bitsGrow_numberOfStates hgrow]; exact h1,
      by rw [bitsGrow_nodes hgrow]; exact h2⟩
  have hb1 : o1.getNode b = Except.ok (some pb) := by
    obtain ⟨h1, h2⟩ := getNode_eq_ok.mp hb
    exact getNode_eq_ok.mpr ⟨by rw [bitsGrow_numberOfStates hgrow]; exact h1,
      by rw [bitsGrow_nodes hgrow]; exact h2⟩
  simp only [compare, ha, hb, ok_bind] at h
  simp only [compareFast, ha1, hb1, ok_bind]
  rcases compareNodes_eq_ok h with ⟨hf, _, ho1⟩ | ⟨hf, hslow⟩
  · rw [ho1]; exact hf
  · obtain ⟨hne, hs1, hf1, hs2, hf2⟩ := compareFastNodes_unknown hf
    rcases hslow with ⟨hc, habove, _⟩ | ⟨hc, _, hbelow⟩ | ⟨hc, _⟩
    · -- ABOVE found by the search
      subst hc
      obtain ⟨m1, hm1, hnon⟩ := above_true_nonempty habove
      rcases above_eq_ok habove with ⟨hfalse, _⟩ | ⟨_, n1, n2, hn1, hn2, hlt, ho1⟩
      · cases hfalse
      · rw [deref_some hn1] at hm1
        cases hm1
        rw [ho1]
        exact compareFastNodes_of_aboveFast hne (aboveFast_writeBack hn1 hn2 hne hnon hlt)
    · -- BELOW found by the search
      subst hc
      obtain ⟨m2, hm2, hnon⟩ := above_true_nonempty hbelow
      rcases above_eq_ok hbelow with ⟨hfalse, _⟩ | ⟨_, n2, n1, hn2, hn1, hlt, ho1⟩
      · cases hfalse
      · rw [deref_some hn2] at hm2
        cases hm2
        have hA : o1.aboveFast (some pa) (some pb) = Except.ok false := by
          rw [ho1, aboveFast_writeBack_other
            (withAboveBits n1 (BitVector.setBits n1.statesAbove.bits m2.states)) hn1 rfl hne]
          exact hf1
        have hB : o1.aboveFast (some pb) (some pa) = Except.ok true := by
          rw [ho1]
          exact aboveFast_writeBack hn2 hn1 (Ne.symm hne) hnon hlt
        have ht : o1.top = o.top := by rw [ho1]; rfl
        have hbt : o1.bottom = o.bottom := by rw [ho1]; rfl
        unfold compareFastNodes fastWhen
        simp [hne, ht, hbt, hs1, hs2, hA, hB]
    · exact absurd hc hr

/-- C13: if `compare(a, b)` on mapped states returns a result other than UNKNOWN, then
`compareFast(a, b)` on the order that `compare` leaves behind returns the same result. -/
theorem compare_result_cached (o o1 : Order) (a b pa pb : Nat) (r : NodeComparison)
    (ha : o.getNode a = Except.ok (some pa)) (hb : o.getNode b = Except.ok (some pb))
    (h : o.compare a b UNKNOWN = Except.ok (r, o1)) (hr : r ≠ UNKNOWN) :
    o1.compareFast a b UNKNOWN = Except.ok r :=
  compareFast_after_compare ha hb h hr

end Order

/-- C13 (witness): on the sample ladder `compare(2, 4)` finds ABOVE by the search, and
`compareFast(2, 4)` on the order it leaves behind answers ABOVE. -/
theorem compare_result_cached_witness :
    (Order.returned Order.sampleLadder).compareFast 2 4 UNKNOWN = Except.ok UNKNOWN ∧
    (Order.returned Order.sampleLadder).compare 2 4 UNKNOWN
      = Except.ok (ABOVE, Order.returned
          (((Order.returned Order.sampleLadder).compare 2 4 UNKNOWN).map Prod.snd)) ∧
    (Order.returned (((Order.returned Order.sampleLadder).compare 2 4 UNKNOWN).map
      Prod.snd)).compareFast 2 4 UNKNOWN = Except.ok ABOVE :=
  ⟨by decide, by decide,
    Order.compare_result_cached (Order.returned Order.sampleLadder) _ 2 4 2 4 ABOVE (by decide)
      (by decide) (by decide) (by decide)⟩

/-! ## Calls on states that are mapped already, and comparisons with unmapped states -/

namespace Order

/-- C18: `add(s)` for a state `s` that is mapped to a node stops at its assertion; no
order is produced. -/
theorem add_mapped_fails (o : Order) (s k : Nat) (h : o.nodes[s]? = some (some k)) :
    o.add s = Except.error Fault.assertion := by
  simp [add, nodeAt, h]

theorem contains_of_mapped {o : Order} (hv : o.Valid) {s k : Nat}
    (h : o.nodes[s]? = some (some k)) : o.contains s = true := by
  have hlt : s < o.numberOfStates := by
    rw [← hv.1]; exact (List.getElem?_eq_some_iff.mp h).1
  simp [contains, hlt, h]

/-- C19 (amended): for a state `s` mapped to node `N` of a valid order and an allocated node
`n`: `addAbove(s, n)` returns the order in which `N` is recorded above `n`, and `addBelow(s, n)`
the order in which `n` is recorded above `N`, each by the union that `addRelationNodes` makes;
`addBetween(s, n, b)` for a node `b` different from `n` with `compare(n, b) == ABOVE` returns
the order after `addRelationNodes(n, N)` and `addRelationNodes(N, b)`.  None of them fails, and
the state-to-node mapping and the counter are unchanged. -/
theorem add_variants_on_mapped_state (o : Order) (s ps pn : Nat) (ns nn : Node) (hv : o.Valid)
    (hs : o.nodes[s]? = some (some ps)) (hns : o.heap[ps]? = some ns)
    (hnn : o.heap[pn]? = some nn) (hcount : o.numberOfAddedStates ≤ o.numberOfStates) :
    o.addAbove s (some pn) = Except.ok (o.setHeap pn (withAboveBits nn
      (BitVector.setBits (nn.statesAbove.bits ||| ns.statesAbove.bits) ns.states))) ∧
    o.addBelow s (some pn) = Except.ok (o.setHeap ps (withAboveBits ns
      (BitVector.setBits (ns.statesAbove.bits ||| nn.statesAbove.bits) nn.states))) ∧
    ∀ (pb : Nat) (nb : Node) (o1 : Order), pn ≠ pb → o.heap[pb]? = some nb →
      o.compareNodes (some pn) (some pb) UNKNOWN = Except.ok (ABOVE, o1) →
      ∃ o2 o3, o1.addRelationNodes (some pn) (some ps) = Except.ok o2 ∧
        o2.addRelationNodes (some ps) (some pb) = Except.ok o3 ∧
        o.addBetweenNodes s (some pn) (some pb) = Except.ok o3 ∧
        o3.nodes = o.nodes ∧ o3.numberOfAddedStates = o.numberOfAddedStates := by
  have hlt : s < o.numberOfStates := by
    rw [← hv.1]; exact (List.getElem?_eq_some_iff.mp hs).1
  have hget := getNode_of_nodes hv.1 hs
  refine ⟨?_, ?_, ?_⟩
  · simp [addAbove, hlt, nodeAt, hs, hget, addRelationNodes_of_valid hv hns hnn]
  · simp [addBelow, hlt, contains_of_mapped hv hs, hget, addRelationNodes_of_valid hv hnn hns,
      setHeap, hcount]
  · intro pb nb o1 hne hnb hc
    have hgrow := compareNodes_bitsGrow hc
    have hv1 : o1.Valid := valid_of_bitsGrow hv hgrow
    have hs1 : o1.nodes[s]? = some (some ps) := by rw [bitsGrow_nodes hgrow]; exact hs
    obtain ⟨na1, hna1, _, _⟩ := hgrow.2.2 pn nn hnn
    obtain ⟨ns1, hns1, _, _⟩ := hgrow.2.2 ps ns hns
    obtain ⟨nb1, hnb1, _, _⟩ := hgrow.2.2 pb nb hnb
    have h2 := addRelationNodes_of_valid hv1 hna1 hns1
    have hgrow2 : BitsGrow o1 (o1.setHeap ps (withAboveBits ns1
        (BitVector.setBits (ns1.statesAbove.bits ||| na1.statesAbove.bits) na1.states))) :=
      bitsGrow_setHeap hns1 (by
        intro i hi
        rw [BitVector.testBit_setBits, Nat.testBit_or, hi]
        rfl)
    have hv2 := valid_of_bitsGrow hv1 hgrow2
    obtain ⟨ns2, hns2, _, _⟩ := hgrow2.2.2 ps ns1 hns1
    obtain ⟨nb2, hnb2, _, _⟩ := hgrow2.2.2 pb nb1 hnb1
    have h3 := addRelationNodes_of_valid hv2 hns2 hnb2
    refine ⟨_, _, h2, h3, ?_, ?_, ?_⟩
    · have hs2 : (o1.setHeap ps (withAboveBits ns1
          (BitVector.setBits (ns1.statesAbove.bits ||| na1.statesAbove.bits)
            na1.states))).nodes[s]? = some (some ps) := hs1
      simp [addBetweenNodes, hne, hc, nodeAt, hs1, h2, hs2, h3]
    · simp only [nodes_setHeap]
      exact bitsGrow_nodes hgrow
    · have := hgrow.1
      rw [this]
      rfl

end Order

/-- C18 (witness): `add(2)` on the sample order, in which state 2 is mapped. -/
theorem add_mapped_fails_witness :
    (Order.returned Order.sampleOrder).contains 2 = true ∧
    (Order.returned Order.sampleOrder).add 2 = Except.error Fault.assertion :=
  ⟨by decide, Order.add_mapped_fails (Order.returned Order.sampleOrder) 2 2 (by decide)⟩

/-- C19 (counterexample): on the sample order, in which the states 2 and 3 are mapped,
`addAbove(2, getNode(3))`, `addBelow(2, getNode(3))` and `addBetween(3, getNode(2), getNode(1))`
return an order that differs from the original. -/
theorem add_variants_on_mapped_state_counterexample :
    (do
      let o ← Order.sampleOrder
      let o1 ← o.addAbove 2 (← o.getNode 3)
      let o2 ← o.addBelow 2 (← o.getNode 3)
      let o3 ← o.addBetweenNodes 3 (← o.getNode 2) (← o.getNode 1)
      pure (o.contains 2 && o.contains 3, decide (o1 = o), decide (o2 = o), decide (o3 = o)))
      = Except.ok (true, false, false, false) := by
  decide

/-- C19 (witness): the amended statement for state 2 and the node of state 3 of the sample
order; `compare(getNode(3), getBottom())` is ABOVE there. -/
theorem add_variants_on_mapped_state_witness :
    ((Order.returned Order.sampleOrder).nodes[2]? = some (some 2) ∧
      (Order.returned Order.sampleOrder).compareNodes (some 3) (some 1) UNKNOWN
        = Except.ok (ABOVE, Order.returned Order.sampleOrder)) ∧
    ((Order.returned Order.sampleOrder).addAbove 2 (some 3)
        = Except.ok ((Order.returned Order.sampleOrder).setHeap 3
          (Order.withAboveBits ⟨[3], ⟨4, 1⟩⟩ (BitVector.setBits (1 ||| 1) [2]))) ∧
      (Order.returned Order.sampleOrder).addBelow 2 (some 3)
        = Except.ok ((Order.returned Order.sampleOrder).setHeap 2
          (Order.withAboveBits ⟨[2], ⟨4, 1⟩⟩ (BitVector.setBits (1 ||| 1) [3]))) ∧
      ∀ (pb : Nat) (nb : Node) (o1 : Order), 3 ≠ pb →
        (Order.returned Order.sampleOrder).heap[pb]? = some nb →
        (Order.returned Order.sampleOrder).compareNodes (some 3) (some pb) UNKNOWN
          = Except.ok (ABOVE, o1) →
        ∃ o2 o3, o1.addRelationNodes (some 3) (some 2) = Except.ok o2 ∧
          o2.addRelationNodes (some 2) (some pb) = Except.ok o3 ∧
          (Order.returned Order.sampleOrder).addBetweenNodes 2 (some 3) (some pb)
            = Except.ok o3 ∧
          o3.nodes = (Order.returned Order.sampleOrder).nodes ∧
          o3.numberOfAddedStates = (Order.returned Order.sampleOrder).numberOfAddedStates) :=
  ⟨by decide,
    Order.add_variants_on_mapped_state (Order.returned Order.sampleOrder) 2 2 3 ⟨[2], ⟨4, 1⟩⟩
      ⟨[3], ⟨4, 1⟩⟩ (by decide) (by decide) (by decide) (by decide) (by decide)⟩

namespace Order

/-- C20 (amended): for a state `s < numberOfStates` that has no node, in an order whose `bottom`
is not null, and for every state `x < numberOfStates` with node pointer `q` (null if `x` has no
node either): `compare(s, x)` and `compare(x, s)` return a result and leave the order as it
is.  `compare(s, x)` is ABOVE if `q` is the bottom node, else BELOW if `q` is the top node, else
UNKNOWN; `compare(x, s)` is ABOVE if `q` is the top node, else BELOW if `q` is the bottom node,
else UNKNOWN. -/
theorem compare_unmapped (o : Order) (s x : Nat) (q : Ptr) (hyp : NodeComparison)
    (hs : o.getNode s = Except.ok none) (hx : o.getNode x = Except.ok q)
    (hbot : o.bottom ≠ none) :
    o.compare s x hyp = Except.ok
      (if q = o.bottom then ABOVE else if q ≠ none ∧ q = o.top then BELOW else UNKNOWN, o) ∧
    o.compare x s hyp = Except.ok
      (if q ≠ none ∧ q = o.top then ABOVE else if q = o.bottom then BELOW else UNKNOWN, o) := by
  have hb : ¬ (none = o.bottom) := fun h => hbot h.symm
  have hq : (o.top ≠ none ∧ q = o.top) ↔ (q ≠ none ∧ q = o.top) := by
    constructor
    · rintro ⟨h1, h2⟩; exact ⟨h2 ▸ h1, h2⟩
    · rintro ⟨h1, h2⟩; exact ⟨h2 ▸ h1, h2⟩
  have hn : ¬ (o.top ≠ none ∧ none = o.top) := fun h => h.1 h.2.symm
  constructor
  · simp only [compare, hs, hx, ok_bind, compareNodes]
    rw [if_neg (by simp)]
    simp only [hn, false_or, hb, or_false, hq]
    split <;> [rfl; (split <;> rfl)]
  · simp only [compare, hs, hx, ok_bind, compareNodes]
    rw [if_neg (by simp)]
    simp only [hn, false_or, hb, or_false, hq]
    split <;> [rfl; (split <;> rfl)]

end Order

/-- C20 (counterexample): in the sample base order state 3 has no node; `compare(3, 0)` returns
BELOW, `compare(0, 3)` ABOVE, `compare(3, 1)` ABOVE, `compare(1, 3)` BELOW and `compare(3, 2)`
UNKNOWN. -/
theorem compare_unmapped_counterexample :
    (do
      let o ← Order.sampleBase
      let (c1, _) ← o.compare 3 0 UNKNOWN
      let (c2, _) ← o.compare 0 3 UNKNOWN
      let (c3, _) ← o.compare 3 1 UNKNOWN
      let (c4, _) ← o.compare 1 3 UNKNOWN
      let (c5, _) ← o.compare 3 2 UNKNOWN
      pure (o.contains 3, [c1, c2, c3, c4, c5]))
      = Except.ok (false, [BELOW, ABOVE, ABOVE, BELOW, UNKNOWN]) := by
  decide

/-- C20 (witness): the amended statement for the unmapped state 3 and the top state 0 of the
sample base order. -/
theorem compare_unmapped_witness :
    (Order.returned Order.sampleBase).compare 3 0 UNKNOWN
      = Except.ok (BELOW, Order.returned Order.sampleBase) ∧
    (Order.returned Order.sampleBase).compare 0 3 UNKNOWN
      = Except.ok (ABOVE, Order.returned Order.sampleBase) :=
  Order.compare_unmapped (Order.returned Order.sampleBase) 3 0 (some 0) UNKNOWN (by decide)
    (by decide) (by decide)

/-! ## Monotone growth -/

namespace Order

theorem grows_refl (o : Order) : Grows o o := ⟨rfl, Nat.le_refl _, fun _ k h => ⟨k, h⟩⟩

theorem grows_trans {a b c : Order} (h1 : Grows a b) (h2 : Grows b c) : Grows a c := by
  refine ⟨h2.1.trans h1.1, Nat.le_trans h1.2.1 h2.2.1, ?_⟩
  intro s k hs
  obtain ⟨k1, hk1⟩ := h1.2.2 s k hs
  exact h2.2.2 s k1 hk1

theorem grows_of_bitsGrow {o o1 : Order} (h : BitsGrow o o1) : Grows o o1 := by
  refine ⟨bitsGrow_numberOfStates h, ?_, ?_⟩
  · rw [h.1]
  · intro s k hs
    exact ⟨k, by rw [bitsGrow_nodes h]; exact hs⟩

theorem store_grows {o o1 : Order} {p : Ptr} {n : Node} (h : o.store p n = Except.ok o1) :
    Grows o o1 := by
  obtain ⟨k, _, _, rfl⟩ := store_eq_ok.mp h
  exact ⟨rfl, Nat.le_refl _, fun _ k h => ⟨k, h⟩⟩

theorem setNodeAt_grows {o o1 : Order} {s k : Nat} (h : o.setNodeAt s (some k) = Except.ok o1) :
    Grows o o1 := by
  obtain ⟨_, rfl⟩ := setNodeAt_eq_ok.mp h
  refine ⟨rfl, Nat.le_refl _, ?_⟩
  intro x kx hx
  simp only [List.getElem?_set]
  by_cases hsx : s = x
  · subst hsx
    have hlen := (List.getElem?_eq_some_iff.mp hx).1
    exact ⟨k, by simp [hlen]⟩
  · exact ⟨kx, by simp [hsx, hx]⟩

theorem updateDoneBuilding_grows (o : Order) : Grows o o.updateDoneBuilding :=
  ⟨by simp, by simp, fun _ k h => ⟨k, by simpa using h⟩⟩

theorem addRelationNodes_grows {o o1 : Order} {a b : Ptr}
    (h : o.addRelationNodes a b = Except.ok o1) : Grows o o1 := by
  simp only [addRelationNodes, bind_eq_ok] at h
  obtain ⟨_, _, _, _, _, _, o2, h2, _, _, _, _, _, _, h3⟩ := h
  exact grows_trans (store_grows h2) (store_grows h3)

theorem addAbove_grows {o o1 : Order} {state : Nat} {node : Ptr}
    (h : o.addAbove state node = Except.ok o1) : Grows o o1 := by
  unfold addAbove at h
  by_cases h1 : node = none
  · rw [if_pos h1] at h; cases h
  rw [if_neg h1] at h
  by_cases h2 : ¬ state < o.numberOfStates
  · rw [if_pos h2] at h; cases h
  rw [if_neg h2] at h
  simp only [bind_eq_ok] at h
  obtain ⟨cur, _, h⟩ := h
  by_cases h3 : cur = none
  · rw [if_pos h3] at h
    simp only [alloc, bind_eq_ok] at h
    obtain ⟨o2, h2, _, _, o3, h3, _, _, o4, h4, h⟩ := h
    have g1 : Grows o { o with heap := o.heap ++ [⟨[], BitVector.zeros 0⟩] } :=
      ⟨rfl, Nat.le_refl _, fun _ k h => ⟨k, h⟩⟩
    have g4 := grows_trans g1 (grows_trans (setNodeAt_grows h2) (grows_trans (store_grows h3)
      (store_grows h4)))
    have gtail : ∀ (o5 o6 : Order) (nd : Node), Grows o4 o5 → o5.store node nd = Except.ok o6 →
        Grows o
          ({ o6 with numberOfAddedStates := o6.numberOfAddedStates + 1,
                     onlyInitialOrder := false } : Order).updateDoneBuilding := by
      intro o5 o6 nd g5 h6
      have g7 : Grows o6
          { o6 with numberOfAddedStates := o6.numberOfAddedStates + 1,
                    onlyInitialOrder := false } :=
        ⟨rfl, Nat.le_succ _, fun _ k h => ⟨k, h⟩⟩
      exact grows_trans g4 (grows_trans g5 (grows_trans (store_grows h6)
        (grows_trans g7 (updateDoneBuilding_grows _))))
    by_cases h5 : o4.top ≠ none
    · rw [if_pos h5] at h
      simp only [bind_eq_ok] at h
      obtain ⟨_, _, _, _, _, _, o5, h5, _, _, _, _, o6, h6, h⟩ := h
      simp only [pure_eq_ok, Except.ok.injEq] at h
      subst h
      exact gtail o5 o6 _ (store_grows h5) h6
    · rw [if_neg h5] at h
      simp only [bind_eq_ok, pure_eq_ok, Except.ok.injEq] at h
      obtain ⟨_, rfl, _, _, _, _, o6, h6, h⟩ := h
      subst h
      exact gtail _ o6 _ (grows_refl _) h6
  · rw [if_neg h3] at h
    simp only [bind_eq_ok] at h
    obtain ⟨_, _, h⟩ := h
    exact addRelationNodes_grows h

theorem insertBelowAnchor_grows {o o1 : Order} {state : Nat} {anchor receiver : Ptr}
    (h : o.insertBelowAnchor state anchor receiver = Except.ok o1) : Grows o o1 := by
  simp only [insertBelowAnchor, alloc, bind_eq_ok] at h
  obtain ⟨o2, h2, _, _, o3, h3, _, _, _, _, o4, h4, _, _, _, _, _, _, o5, h5, _, _, _, _,
    o6, h6, h⟩ := h
  simp only [pure_eq_ok, Except.ok.injEq] at h
  subst h
  have g1 : Grows o { o with heap := o.heap ++ [⟨[], BitVector.zeros 0⟩] } :=
    ⟨rfl, Nat.le_refl _, fun _ k h => ⟨k, h⟩⟩
  have g7 : Grows o6
      { o6 with numberOfAddedStates := o6.numberOfAddedStates + 1, onlyInitialOrder := false } :=
    ⟨rfl, Nat.le_succ _, fun _ k h => ⟨k, h⟩⟩
  exact grows_trans g1 (grows_trans (setNodeAt_grows h2) (grows_trans (store_grows h3)
    (grows_trans (store_grows h4) (grows_trans (store_grows h5) (grows_trans (store_grows h6)
      (grows_trans g7 (updateDoneBuilding_grows _)))))))

theorem addBelow_grows {o o1 : Order} {state : Nat} {node : Ptr}
    (h : o.addBelow state node = Except.ok o1) : Grows o o1 := by
  unfold addBelow at h
  by_cases h1 : node = none
  · rw [if_pos h1] at h; cases h
  rw [if_neg h1] at h
  by_cases h2 : ¬ state < o.numberOfStates
  · rw [if_pos h2] at h; cases h
  rw [if_neg h2] at h
  have gtail : ∀ o2, Grows o o2 →
      (if ¬ (o2.numberOfAddedStates ≤ o2.numberOfStates) then Except.error Fault.assertion
        else (pure o2 : Except Fault Order)) = Except.ok o1 → Grows o o1 := by
    intro o2 g2 h
    split at h
    · cases h
    · simp only [pure_eq_ok, Except.ok.injEq] at h
      subst h
      exact g2
  by_cases h3 : ¬ o.contains state = true
  · rw [if_pos h3] at h
    simp only [bind_eq_ok] at h
    obtain ⟨o2, h2, h⟩ := h
    exact gtail o2 (insertBelowAnchor_grows h2) h
  · rw [if_neg h3] at h
    simp only [bind_eq_ok] at h
    obtain ⟨_, _, o2, h2, h⟩ := h
    exact gtail o2 (addRelationNodes_grows h2) h

theorem addBetweenNodes_grows {o o1 : Order} {state : Nat} {above below : Ptr}
    (h : o.addBetweenNodes state above below = Except.ok o1) : Grows o o1 := by
  unfold addBetweenNodes at h
  split at h
  · cases h
  split at h
  · exact addAbove_grows h
  simp only [bind_eq_ok] at h
  obtain ⟨⟨c, oc⟩, hc, h⟩ := h
  have gc := grows_of_bitsGrow (compareNodes_bitsGrow hc)
  split at h
  · cases h
  split at h
  · cases h
  simp only [bind_eq_ok] at h
  obtain ⟨cur, _, h⟩ := h
  split at h
  · simp only [bind_eq_ok] at h
    obtain ⟨o2, h2, h⟩ := h
    split at h
    · cases h
    simp only [pure_eq_ok, Except.ok.injEq] at h
    subst h
    exact grows_trans gc (insertBelowAnchor_grows h2)
  · simp only [bind_eq_ok] at h
    obtain ⟨o2, h2, _, _, h⟩ := h
    exact grows_trans gc (grows_trans (addRelationNodes_grows h2) (addRelationNodes_grows h))

theorem addBetween_grows {o o1 : Order} {state above below : Nat}
    (h : o.addBetween state above below = Except.ok o1) : Grows o o1 := by
  simp only [addBetween, bind_eq_ok] at h
  obtain ⟨_, _, _, _, h⟩ := h
  split at h
  · cases h
  simp only [bind_eq_ok] at h
  obtain ⟨_, _, _, _, h⟩ := h
  split at h
  · cases h
  simp only [bind_eq_ok] at h
  obtain ⟨_, _, _, _, h⟩ := h
  exact addBetweenNodes_grows h

theorem add_grows {o o1 : Order} {state : Nat} (h : o.add state = Except.ok o1) :
    Grows o o1 := by
  simp only [add, bind_eq_ok] at h
  obtain ⟨_, _, h⟩ := h
  split at h
  · cases h
  split at h
  · exact addAbove_grows h
  · exact addBetweenNodes_grows h

theorem mergeTransfer_grows {o o1 : Order} {k1 k2 : Nat}
    (h : o.mergeTransfer (some k1) (some k2) = Except.ok o1) : Grows o o1 := by
  obtain ⟨n1, n2, m1, _, _, _, hframe, _, _, hin, hout, _⟩ := mergeTransfer_eq_ok h
  refine ⟨sameFrame_numberOfStates hframe, ?_, ?_⟩
  · rw [hframe]
  · intro s k hs
    by_cases hmem : s ∈ n2.states
    · exact ⟨k1, (hin s hmem).2⟩
    · exact ⟨k, by rw [hout s hmem]; exact hs⟩

theorem mergeNodesFuel_grows (fuel : Nat) :
    ∀ (o o1 : Order) (p q : Ptr), mergeNodesFuel fuel o p q = Except.ok o1 → Grows o o1 := by
  induction fuel with
  | zero => intro o o1 p q h; simp [mergeNodesFuel] at h
  | succ fuel ih =>
    intro o o1 p q h
    obtain ⟨k1, k2, rfl, rfl⟩ := mergeNodesFuel_ptrs h
    rw [mergeNodesFuel_succ] at h
    simp only [bind_eq_ok] at h
    obtain ⟨oa, ha, h⟩ := h
    have g1 := mergeTransfer_grows ha
    have g2 := (@rescan_induct _ (fun _ => True) Grows grows_refl
      (fun _ _ _ h1 h2 => grows_trans h1 h2)
      (fun _ _ _ hg => ⟨trivial, grows_of_bitsGrow hg⟩)
      (fun a i j a1 _ hm => by
        simp only [bind_eq_ok] at hm
        obtain ⟨p, _, q, _, hm⟩ := hm
        exact ⟨trivial, ih a a1 p q hm⟩)
      (scanPairs oa.numberOfStates) oa o1 trivial h).2
    exact grows_trans g1 g2

theorem merge_grows {o o1 : Order} {state1 state2 : Nat}
    (h : o.merge state1 state2 = Except.ok o1) : Grows o o1 := by
  simp only [merge, bind_eq_ok, mergeNodes] at h
  obtain ⟨p, _, q, _, h⟩ := h
  exact mergeNodesFuel_grows _ _ _ _ _ h

theorem addToNode_grows {o o1 : Order} {state : Nat} {node : Ptr}
    (h : o.addToNode state node = Except.ok o1) : Grows o o1 := by
  simp only [addToNode, bind_eq_ok] at h
  obtain ⟨cur, _, h⟩ := h
  split at h
  · simp only [bind_eq_ok] at h
    obtain ⟨n, hn, o2, h2, o3, h3, h⟩ := h
    split at h
    · cases h
    simp only [pure_eq_ok, Except.ok.injEq] at h
    subst h
    obtain ⟨k, hk, _⟩ := deref_eq_ok.mp hn
    subst hk
    have g3 : Grows o3 { o3 with numberOfAddedStates := o3.numberOfAddedStates + 1 } :=
      ⟨rfl, Nat.le_succ _, fun _ k h => ⟨k, h⟩⟩
    exact grows_trans (store_grows h2) (grows_trans (setNodeAt_grows h3)
      (grows_trans g3 (updateDoneBuilding_grows _)))
  · exact mergeNodesFuel_grows _ _ _ _ _ h

theorem addRelation_grows {o o1 : Order} {above below : Nat} (m : Bool)
    (h : o.addRelation above below m = Except.ok o1) : Grows o o1 := by
  simp only [addRelation, bind_eq_ok] at h
  obtain ⟨_, _, _, _, h⟩ := h
  exact addRelationNodes_grows h

theorem run_grows {o o1 : Order} {c : Call} (h : o.run c = Except.ok o1) : Grows o o1 := by
  cases c with
  | add s => exact add_grows h
  | addAbove s n => exact addAbove_grows h
  | addBelow s n => exact addBelow_grows h
  | addBetweenNodes s a b => exact addBetweenNodes_grows h
  | addBetween s a b => exact addBetween_grows h
  | addToNode s n => exact addToNode_grows h
  | addRelation a b m => exact addRelation_grows m h
  | merge a b => exact merge_grows h

theorem runAll_grows (calls : List Call) :
    ∀ (o o1 : Order), o.runAll calls = Except.ok o1 → Grows o o1 := by
  induction calls with
  | nil =>
    intro o o1 h
    simp only [runAll, Except.ok.injEq] at h
    subst h
    exact grows_refl _
  | cons c cs ih =>
    intro o o1 h
    simp only [runAll, bind_eq_ok] at h
    obtain ⟨o2, h2, h⟩ := h
    exact grows_trans (run_grows h2) (ih o2 o1 h)

/-- C17: for every sequence of add, addAbove, addBelow, addBetween, addToNode, addRelation and
merge calls that runs on an order `o` and ends in the order `o1`: `getNumberOfAddedStates()` of
`o1` is at least that of `o`, and every state that `o` contains is contained in `o1`. -/
theorem monotone_growth (o o1 : Order) (calls : List Call)
    (h : o.runAll calls = Except.ok o1) :
    o.getNumberOfAddedStates ≤ o1.getNumberOfAddedStates ∧
      ∀ s, o.contains s = true → o1.contains s = true := by
  obtain ⟨hn, hc, hm⟩ := runAll_grows calls o o1 h
  refine ⟨hc, ?_⟩
  intro s hs
  unfold contains at hs ⊢
  simp only [Bool.and_eq_true, decide_eq_true_eq] at hs ⊢
  obtain ⟨hlt, hs⟩ := hs
  refine ⟨by rw [hn]; exact hlt, ?_⟩
  split at hs
  · rename_i k hk
    obtain ⟨k1, hk1⟩ := hm s k hk
    rw [hk1]
  · cases hs

end Order

/-- C17 (witness): a sequence of calls of every kind on the order of the second constructor;
the counter grows from 2 to 6 and the states 0 and 1 stay in the order. -/
theorem monotone_growth_witness :
    (Order.returned (Order.ofStates 0 1 6 [] [] true false)).getNumberOfAddedStates = 2 ∧
    (Order.returned ((Order.returned (Order.ofStates 0 1 6 [] [] true false)).runAll
      [.add 2, .addAbove 3 (some 1), .addBelow 4 (some 0), .addBetween 5 0 1,
        .addBetweenNodes 2 (some 0) (some 1), .addRelation 2 3 false, .merge 2 3,
        .addToNode 4 (some 5)])).getNumberOfAddedStates = 6 ∧
    ((Order.returned (Order.ofStates 0 1 6 [] [] true false)).getNumberOfAddedStates ≤
      (Order.returned ((Order.returned (Order.ofStates 0 1 6 [] [] true false)).runAll
        [.add 2, .addAbove 3 (some 1), .addBelow 4 (some 0), .addBetween 5 0 1,
          .addBetweenNodes 2 (some 0) (some 1), .addRelation 2 3 false, .merge 2 3,
          .addToNode 4 (some 5)])).getNumberOfAddedStates ∧
      ∀ s, (Order.returned (Order.ofStates 0 1 6 [] [] true false)).contains s = true →
        (Order.returned ((Order.returned (Order.ofStates 0 1 6 [] [] true false)).runAll
          [.add 2, .addAbove 3 (some 1), .addBelow 4 (some 0), .addBetween 5 0 1,
            .addBetweenNodes 2 (some 0) (some 1), .addRelation 2 3 false, .merge 2 3,
            .addToNode 4 (some 5)])).contains s = true) :=
  ⟨by decide, by decide,
    Order.monotone_growth _ _
      [.add 2, .addAbove 3 (some 1), .addBelow 4 (some 0), .addBetween 5 0 1,
        .addBetweenNodes 2 (some 0) (some 1), .addRelation 2 3 false, .merge 2 3,
        .addToNode 4 (some 5)] (by decide)⟩

/-! ## Stability of the fast comparison, and the sort methods -/

namespace Order

theorem aboveFastLoop_mono {o o2 : Order} (hg : BitsGrow o o2) {q : Ptr} (l : List Nat)
    (h : aboveFastLoop o q l = Except.ok true) : aboveFastLoop o2 q l = Except.ok true := by
  induction l with
  | nil => simp [aboveFastLoop] at h
  | cons s rest ih =>
    simp only [aboveFastLoop, bind_eq_ok, deref_eq_ok, BitVector.get_eq_ok] at h
    obtain ⟨n2, ⟨k, rfl, hk⟩, found, ⟨hlt, rfl⟩, h⟩ := h
    obtain ⟨m2, hm2, _, hsz, _, hbits⟩ := hg.2.2 k n2 hk
    have hlt2 : s < m2.statesAbove.size := by rw [hsz]; exact hlt
    simp only [aboveFastLoop, deref_some hm2, ok_bind, BitVector.get_of_lt hlt2]
    by_cases hb : n2.statesAbove.bits.testBit s = true
    · simp [hbits s hb]
    · simp only [hb, Bool.false_eq_true, if_false] at h
      by_cases hb2 : m2.statesAbove.bits.testBit s = true
      · simp [hb2]
      · simp only [hb2, Bool.false_eq_true, if_false]
        exact ih h

theorem aboveFast_mono {o o2 : Order} (hg : BitsGrow o o2) {p q : Ptr}
    (h : o.aboveFast p q = Except.ok true) : o2.aboveFast p q = Except.ok true := by
  simp only [aboveFast, bind_eq_ok, deref_eq_ok] at h
  obtain ⟨n1, ⟨k, rfl, hk⟩, h⟩ := h
  obtain ⟨m1, hm1, hst, _⟩ := hg.2.2 k n1 hk
  simp only [aboveFast, deref_some hm1, ok_bind, hst]
  exact aboveFastLoop_mono hg _ h

theorem getNode_bitsGrow {o o2 : Order} (hg : BitsGrow o o2) (s : Nat) :
    o2.getNode s = o.getNode s := by
  simp only [getNode, nodeAt, bitsGrow_numberOfStates hg, bitsGrow_nodes hg]

theorem compareFastNodes_above_iff {o : Order} {p q : Nat} (hne : p ≠ q) :
    o.compareFastNodes (some p) (some q) UNKNOWN = Except.ok ABOVE ↔
      ((some p = o.top ∨ some q = o.bottom) ∨ o.aboveFast (some p) (some q) = Except.ok true) := by
  unfold compareFastNodes fastWhen
  by_cases hs : some p = o.top ∨ some q = o.bottom
  · simp [hne, hs]
  · simp only [ne_eq, reduceCtorEq, not_false_eq_true, and_self, if_true, Option.some.injEq, hne,
      if_false, true_or, decide_True, hs, decide_False, Bool.false_eq_true, or_true, false_or]
    constructor
    · intro h
      simp only [bind_eq_ok] at h
      obtain ⟨f, hf, h⟩ := h
      cases f with
      | true => exact hf
      | false =>
        simp only [Bool.false_eq_true, if_false, bind_eq_ok] at h
        obtain ⟨g, _, h⟩ := h
        cases g <;> simp at h
    · intro h
      simp [h]

theorem fastGeq_mono {o o2 : Order} (hg : BitsGrow o o2) {x y : Nat} (h : FastGeq o x y) :
    FastGeq o2 x y := by
  unfold FastGeq at h ⊢
  unfold compareFast at h ⊢
  rw [getNode_bitsGrow hg, getNode_bitsGrow hg]
  cases hx : o.getNode x with
  | error e => simp [hx] at h
  | ok p =>
    cases hy : o.getNode y with
    | error e => simp [hx, hy] at h
    | ok q =>
      simp only [hx, hy, ok_bind] at h ⊢
      cases p with
      | none =>
        have e : o2.compareFastNodes none q UNKNOWN = o.compareFastNodes none q UNKNOWN := by
          simp [compareFastNodes, bitsGrow_top hg, bitsGrow_bottom hg]
        rw [e]; exact h
      | some p =>
        cases q with
        | none =>
          have e : o2.compareFastNodes (some p) none UNKNOWN
              = o.compareFastNodes (some p) none UNKNOWN := by
            simp [compareFastNodes, bitsGrow_top hg, bitsGrow_bottom hg]
          rw [e]; exact h
        | some q =>
          by_cases hpq : p = q
          · subst hpq
            right
            simp [compareFastNodes]
          · rcases h with h | h
            · left
              rw [compareFastNodes_above_iff hpq] at h ⊢
              rw [bitsGrow_top hg, bitsGrow_bottom hg]
              rcases h with h | h
              · exact Or.inl h
              · exact Or.inr (aboveFast_mono hg h)
            · have := compareFastNodes_eq_ok hpq h
              split at this
              · cases this
              · split at this <;> cases this

theorem compareNodes_null {o : Order} {p q : Ptr} (hyp : NodeComparison)
    (h : ¬ (p ≠ none ∧ q ≠ none)) :
    o.compareNodes p q hyp = Except.ok
      (if (o.top ≠ none ∧ p = o.top) ∨ q = o.bottom then ABOVE
        else if (o.top ≠ none ∧ q = o.top) ∨ p = o.bottom then BELOW else UNKNOWN, o) := by
  unfold compareNodes
  rw [if_neg h]
  split
  · rfl
  · split <;> rfl

theorem compareFastNodes_null {o : Order} {p q : Ptr} (hyp : NodeComparison)
    (h : ¬ (p ≠ none ∧ q ≠ none)) :
    o.compareFastNodes p q hyp = Except.ok
      (if (o.top ≠ none ∧ p = o.top) ∨ q = o.bottom then ABOVE
        else if (o.top ≠ none ∧ p = o.top) ∨ p = o.bottom then BELOW else UNKNOWN) := by
  unfold compareFastNodes
  rw [if_neg h]
  split
  · rfl
  · split <;> rfl

theorem fastGeq_after_compare {o o1 : Order} {x y : Nat} {c : NodeComparison}
    (h : o.compare x y UNKNOWN = Except.ok (c, o1)) (hc : c = ABOVE ∨ c = SAME) :
    FastGeq o1 x y := by
  have hcu : c ≠ UNKNOWN := by rcases hc with rfl | rfl <;> simp
  have hg := compare_bitsGrow h
  have h0 := h
  simp only [compare, bind_eq_ok] at h
  obtain ⟨p, hp, q, hq, h⟩ := h
  by_cases hnn : p ≠ none ∧ q ≠ none
  · obtain ⟨pa, rfl⟩ := Option.ne_none_iff_exists'.mp hnn.1
    obtain ⟨pb, rfl⟩ := Option.ne_none_iff_exists'.mp hnn.2
    have := compareFast_after_compare hp hq h0 hcu
    rcases hc with rfl | rfl
    · exact Or.inl this
    · exact Or.inr this
  · rw [compareNodes_null _ hnn] at h
    simp only [Except.ok.injEq, Prod.mk.injEq] at h
    obtain ⟨hc1, rfl⟩ := h
    have : o.compareFast x y UNKNOWN = Except.ok c := by
      simp only [compareFast, hp, hq, ok_bind, compareFastNodes_null _ hnn]
      split at hc1
      · rename_i hA
        rw [← hc1, if_pos hA]
      · split at hc1
        · rw [← hc1] at hc
          rcases hc with hc | hc <;> cases hc
        · rw [← hc1] at hc
          rcases hc with hc | hc <;> cases hc
    rcases hc with rfl | rfl
    · exact Or.inl this
    · exact Or.inr this

theorem compareFastNodes_converse {o : Order} {p q : Nat}
    (h : o.compareFastNodes (some p) (some q) UNKNOWN = Except.ok BELOW) :
    o.compareFastNodes (some q) (some p) UNKNOWN = Except.ok ABOVE := by
  by_cases hpq : p = q
  · subst hpq
    simp [compareFastNodes] at h
  · have hqp : q ≠ p := fun e => hpq e.symm
    rw [compareFastNodes_above_iff hqp]
    unfold compareFastNodes fastWhen at h
    simp only [ne_eq, reduceCtorEq, not_false_eq_true, and_self, if_true, Option.some.injEq, hpq,
      if_false, true_or, decide_True, or_true, bind_eq_ok] at h
    obtain ⟨f, _, h⟩ := h
    cases f with
    | true => simp at h
    | false =>
      simp only [Bool.false_eq_true, if_false, bind_eq_ok] at h
      obtain ⟨g, hg, h⟩ := h
      cases g with
      | false => simp at h
      | true =>
        by_cases hs : some q = o.top ∨ some p = o.bottom
        · exact Or.inl hs
        · simp only [hs, decide_False, Bool.false_eq_true, if_false] at hg
          exact Or.inr hg

theorem fastGeq_after_below {o o1 : Order} {x z : Nat}
    (h : o.compare x z UNKNOWN = Except.ok (BELOW, o1)) : FastGeq o1 z x := by
  have hg := compare_bitsGrow h
  have h0 := h
  simp only [compare, bind_eq_ok] at h
  obtain ⟨p, hp, q, hq, h⟩ := h
  have hp1 : o1.getNode x = Except.ok p := by rw [getNode_bitsGrow hg]; exact hp
  have hq1 : o1.getNode z = Except.ok q := by rw [getNode_bitsGrow hg]; exact hq
  left
  by_cases hnn : p ≠ none ∧ q ≠ none
  · obtain ⟨pa, rfl⟩ := Option.ne_none_iff_exists'.mp hnn.1
    obtain ⟨pb, rfl⟩ := Option.ne_none_iff_exists'.mp hnn.2
    have := compareFast_after_compare hp hq h0 (by simp)
    simp only [compareFast, hp1, hq1, ok_bind] at this ⊢
    exact compareFastNodes_converse this
  · rw [compareNodes_null _ hnn] at h
    simp only [Except.ok.injEq, Prod.mk.injEq] at h
    obtain ⟨hc1, rfl⟩ := h
    have hnn2 : ¬ (q ≠ none ∧ p ≠ none) := fun e => hnn ⟨e.2, e.1⟩
    simp only [compareFast, hp, hq, ok_bind, compareFastNodes_null _ hnn2]
    split at hc1
    · cases hc1
    · split at hc1
      · rename_i hB
        rw [if_pos hB]
      · cases hc1

theorem descends_of_fastGeq {o : Order} {x y : Nat} (h : FastGeq o x y) : Descends o x y := by
  rcases h with h | h
  · exact Or.inl (compare_of_compareFast h (by simp))
  · exact Or.inr (compare_of_compareFast h (by simp))

theorem compare_unknown_symm {o o1 : Order} {x y : Nat}
    (h : o.compare x y UNKNOWN = Except.ok (UNKNOWN, o1)) :
    o1 = o ∧ o.compare y x UNKNOWN = Except.ok (UNKNOWN, o) := by
  simp only [compare, bind_eq_ok] at h
  obtain ⟨p, hp, q, hq, h⟩ := h
  simp only [compare, hp, hq, ok_bind]
  by_cases hnn : p ≠ none ∧ q ≠ none
  · obtain ⟨pa, rfl⟩ := Option.ne_none_iff_exists'.mp hnn.1
    obtain ⟨pb, rfl⟩ := Option.ne_none_iff_exists'.mp hnn.2
    rcases compareNodes_eq_ok h with ⟨_, hc, _⟩ | ⟨hf, ⟨hc, _⟩ | ⟨hc, _⟩ | ⟨_, h1, h2, ho⟩⟩
    · exact absurd rfl hc
    · cases hc
    · cases hc
    · refine ⟨ho, ?_⟩
      obtain ⟨hne, hs1, hf1, hs2, hf2⟩ := compareFastNodes_unknown hf
      have hfq : o.compareFastNodes (some pb) (some pa) UNKNOWN = Except.ok UNKNOWN := by
        unfold compareFastNodes fastWhen
        simp [Ne.symm hne, hs1, hs2, hf1, hf2]
      simp [compareNodes, hfq, aboveWhen, h1, h2]
  · rw [compareNodes_null _ hnn] at h
    simp only [Except.ok.injEq, Prod.mk.injEq] at h
    obtain ⟨hc1, rfl⟩ := h
    have hnn2 : ¬ (q ≠ none ∧ p ≠ none) := fun e => hnn ⟨e.2, e.1⟩
    refine ⟨rfl, ?_⟩
    rw [compareNodes_null _ hnn2]
    split at hc1
    · cases hc1
    · rename_i hA
      split at hc1
      · cases hc1
      · rename_i hB
        rw [if_neg hB, if_neg hA]

end Order

namespace Order

theorem compare_lt {o o1 : Order} {a b : Nat} {hyp c : NodeComparison}
    (h : o.compare a b hyp = Except.ok (c, o1)) :
    a < o.numberOfStates ∧ b < o.numberOfStates := by
  simp only [compare, bind_eq_ok] at h
  obtain ⟨p, hp, q, hq, _⟩ := h
  exact ⟨(getNode_eq_ok.mp hp).1, (getNode_eq_ok.mp hq).1⟩

theorem placeState_perm (hyp : NodeComparison) (state : Nat) :
    ∀ (rest : List Nat) (o : Order) (front r : List Nat) (o1 : Order),
      placeState hyp state o front rest = Except.ok (Placement.placed r, o1) →
      r.Perm (state :: (front ++ rest)) := by
  intro rest
  induction rest with
  | nil =>
    intro o front r o1 h
    simp only [placeState, Except.ok.injEq, Prod.mk.injEq, Placement.placed.injEq] at h
    rw [← h.1, List.append_nil]
    exact List.perm_append_singleton state front
  | cons y rest ih =>
    intro o front r o1 h
    simp only [placeState, bind_eq_ok] at h
    obtain ⟨⟨c, oc⟩, _, h⟩ := h
    simp only at h
    split at h
    · simp only [pure_eq_ok, Except.ok.injEq, Prod.mk.injEq, Placement.placed.injEq] at h
      rw [← h.1]
      exact List.perm_middle
    · split at h
      · simp at h
      · have := ih oc (front ++ [y]) r o1 h
        simpa using this

theorem placeState_spec (state : Nat) :
    ∀ (rest : List Nat) (o : Order) (front : List Nat) (pl : Placement) (o1 : Order),
      List.Chain' (FastGeq o) (front ++ rest) → (∀ z ∈ front.getLast?, FastGeq o z state) →
      placeState UNKNOWN state o front rest = Except.ok (pl, o1) →
      BitsGrow o o1 ∧
      (∀ r, pl = Placement.placed r → List.Chain' (FastGeq o1) r) ∧
      (∀ y, pl = Placement.unknown y →
        y ∈ rest ∧ o1.compare state y UNKNOWN = Except.ok (UNKNOWN, o1)) := by
  intro rest
  induction rest with
  | nil =>
    intro o front pl o1 hch hlast h
    simp only [placeState, Except.ok.injEq, Prod.mk.injEq] at h
    obtain ⟨rfl, rfl⟩ := h
    refine ⟨bitsGrow_refl _, ?_, ?_⟩
    · intro r hr
      cases hr
      rw [List.append_nil] at hch
      rw [List.chain'_append]
      refine ⟨hch, List.chain'_singleton _, ?_⟩
      intro z hz w hw
      simp only [List.head?_cons, Option.mem_def, Option.some.injEq] at hw
      subst hw
      exact hlast z hz
    · intro y hy
      cases hy
  | cons y rest ih =>
    intro o front pl o1 hch hlast h
    simp only [placeState, bind_eq_ok] at h
    obtain ⟨⟨c, oc⟩, hcmp, h⟩ := h
    simp only at h
    have hg := compare_bitsGrow hcmp
    have hmono : ∀ a b, FastGeq o a b → FastGeq oc a b := fun a b hab => fastGeq_mono hg hab
    by_cases hc : c = ABOVE ∨ c = SAME
    · rw [if_pos hc] at h
      simp only [pure_eq_ok, Except.ok.injEq, Prod.mk.injEq] at h
      obtain ⟨rfl, rfl⟩ := h
      refine ⟨hg, ?_, ?_⟩
      · intro r hr
        cases hr
        have hch1 := hch.imp hmono
        rw [List.chain'_append] at hch1 ⊢
        refine ⟨hch1.1, ?_, ?_⟩
        · exact List.chain'_cons.mpr ⟨fastGeq_after_compare hcmp hc, hch1.2.1⟩
        · intro z hz w hw
          simp only [List.head?_cons, Option.mem_def, Option.some.injEq] at hw
          subst hw
          exact hmono _ _ (hlast z hz)
      · intro w hw
        cases hw
    · rw [if_neg hc] at h
      by_cases hu : c = UNKNOWN
      · rw [if_pos hu] at h
        simp only [pure_eq_ok, Except.ok.injEq, Prod.mk.injEq] at h
        obtain ⟨rfl, rfl⟩ := h
        subst hu
        obtain ⟨ho, _⟩ := compare_unknown_symm hcmp
        subst ho
        refine ⟨hg, ?_, ?_⟩
        · intro r hr
          cases hr
        · intro w hw
          cases hw
          exact ⟨List.mem_cons_self _ _, hcmp⟩
      · rw [if_neg hu] at h
        have hb : c = BELOW := by
          cases c <;> simp_all
        subst hb
        have hch1 : List.Chain' (FastGeq oc) ((front ++ [y]) ++ rest) := by
          rw [List.append_assoc]
          exact hch.imp hmono
        have hlast1 : ∀ z ∈ (front ++ [y]).getLast?, FastGeq oc z state := by
          intro z hz
          rw [List.getLast?_concat] at hz
          simp only [Option.mem_def, Option.some.injEq] at hz
          subst hz
          exact fastGeq_after_below hcmp
        obtain ⟨hg2, h1, h2⟩ := ih oc (front ++ [y]) pl o1 hch1 hlast1 h
        refine ⟨bitsGrow_trans hg hg2, h1, ?_⟩
        intro w hw
        obtain ⟨hm, hcw⟩ := h2 w hw
        exact ⟨List.mem_cons_of_mem _ hm, hcw⟩

theorem sortPairLoop_spec (total : Nat) :
    ∀ (states : List Nat) (o : Order) (result done : List Nat) (s1 s2 : Nat) (R : List Nat)
      (o1 : Order),
      List.Chain' (FastGeq o) result → result.Perm done →
      sortPairLoop UNKNOWN total o result states = Except.ok (((s1, s2), R), o1) →
      BitsGrow o o1 ∧ List.Chain' (FastGeq o1) R ∧
      ((s1 = o.numberOfStates ∧ s2 = o.numberOfStates ∧ R.Perm (done ++ states)) ∨
       (∃ pre post, states = pre ++ s2 :: post ∧ R.Perm (done ++ pre) ∧ s1 ∈ R ∧
          s2 < o.numberOfStates ∧ o1.compare s2 s1 UNKNOWN = Except.ok (UNKNOWN, o1))) := by
  intro states
  induction states with
  | nil =>
    intro o result done s1 s2 R o1 hch hperm h
    unfold sortPairLoop at h
    split at h
    · simp only [Except.ok.injEq, Prod.mk.injEq] at h
      obtain ⟨⟨⟨rfl, rfl⟩, rfl⟩, rfl⟩ := h
      exact ⟨bitsGrow_refl _, hch, Or.inl ⟨rfl, rfl, by simpa using hperm⟩⟩
    · cases h
  | cons state rest ih =>
    intro o result done s1 s2 R o1 hch hperm h
    unfold sortPairLoop at h
    by_cases hlen : result.length = 0
    · rw [if_pos hlen] at h
      have hnil : result = [] := List.length_eq_zero.mp hlen
      subst hnil
      have hd : done = [] := by simpa using hperm
      subst hd
      obtain ⟨hg, hR, hcase⟩ := ih o ([] ++ [state]) ([] ++ [state]) s1 s2 R o1
        (List.chain'_singleton _) (List.Perm.refl _) h
      refine ⟨hg, hR, ?_⟩
      rcases hcase with ⟨e1, e2, hp⟩ | ⟨pre, post, e, hp, hm, hlt, hc⟩
      · exact Or.inl ⟨e1, e2, by simpa using hp⟩
      · exact Or.inr ⟨state :: pre, post, by simp [e], by simpa using hp, hm, hlt, hc⟩
    · rw [if_neg hlen] at h
      simp only [bind_eq_ok] at h
      obtain ⟨⟨pl, oa⟩, hpl, h⟩ := h
      simp only at h
      obtain ⟨hg, hplaced, hunknown⟩ := placeState_spec state result o [] pl oa
        (by simpa using hch) (by simp) hpl
      cases pl with
      | placed r =>
        simp only at h
        have hperm1 : r.Perm (done ++ [state]) := by
          have := placeState_perm UNKNOWN state result o [] r oa hpl
          simp only [List.nil_append] at this
          exact this.trans ((List.Perm.cons state hperm).trans
            (List.perm_append_singleton state done).symm)
        obtain ⟨hg2, hR, hcase⟩ := ih oa r (done ++ [state]) s1 s2 R o1 (hplaced r rfl) hperm1 h
        refine ⟨bitsGrow_trans hg hg2, hR, ?_⟩
        rw [bitsGrow_numberOfStates hg] at hcase
        rcases hcase with ⟨e1, e2, hp⟩ | ⟨pre, post, e, hp, hm, hlt, hc⟩
        · exact Or.inl ⟨e1, e2, by simpa using hp⟩
        · exact Or.inr ⟨state :: pre, post, by simp [e], by simpa using hp, hm, hlt, hc⟩
      | unknown y =>
        simp only [pure_eq_ok, Except.ok.injEq, Prod.mk.injEq] at h
        obtain ⟨⟨⟨rfl, rfl⟩, rfl⟩, rfl⟩ := h
        obtain ⟨hy, hc⟩ := hunknown _ rfl
        refine ⟨hg, hch.imp (fun a b hab => fastGeq_mono hg hab), Or.inr ⟨[], rest, rfl,
          by simpa using hperm, hy, ?_, hc⟩⟩
        rw [← bitsGrow_numberOfStates hg]
        exact (compare_lt hc).1

end Order

namespace Order

theorem compare_total {o : Order} (hv : o.Valid) (hbm : o.BitsMapped) (hex : o.Exclusive)
    {a b : Nat} (ha : a < o.numberOfStates) (hb : b < o.numberOfStates) :
    o.compare a b UNKNOWN = Except.error Fault.assertion ∨
      ∃ c o1, o.compare a b UNKNOWN = Except.ok (c, o1) ∧ o1.BitsMapped := by
  have hla : a < o.nodes.length := by rw [hv.1]; exact ha
  have hlb : b < o.nodes.length := by rw [hv.1]; exact hb
  have hga := getNode_of_nodes hv.1 (List.getElem?_eq_getElem hla)
  have hgb := getNode_of_nodes hv.1 (List.getElem?_eq_getElem hlb)
  simp only [compare, hga, hgb, ok_bind]
  by_cases hnn : o.nodes[a] ≠ none ∧ o.nodes[b] ≠ none
  · obtain ⟨pa, hpa⟩ := Option.ne_none_iff_exists'.mp hnn.1
    obtain ⟨pb, hpb⟩ := Option.ne_none_iff_exists'.mp hnn.2
    rw [hpa, hpb]
    rw [hpa] at hga
    rw [hpb] at hgb
    have hma : o.nodes[a]? = some (some pa) := (getNode_eq_ok.mp hga).2
    have hmb : o.nodes[b]? = some (some pb) := (getNode_eq_ok.mp hgb).2
    by_cases hne : pa = pb
    · subst hne
      exact Or.inr ⟨SAME, o, compareNodes_same _ _, hbm⟩
    obtain ⟨na, hna⟩ := heap_of_valid_node hv hma
    obtain ⟨nb, hnb⟩ := heap_of_valid_node hv hmb
    by_cases h1 : o.fastAboveP pa pb = true
    · exact Or.inr ⟨ABOVE, o, compareNodes_of_fastAbove hv hna hnb hne h1, hbm⟩
    have h1f : o.fastAboveP pa pb = false := by simpa using h1
    by_cases h2 : o.fastAboveP pb pa = true
    · exact Or.inr ⟨BELOW, o, compareNodes_of_fastBelow hv hna hnb hne h1f h2, hbm⟩
    have h2f : o.fastAboveP pb pa = false := by simpa using h2
    have hcf : o.compareFastNodes (some pa) (some pb) UNKNOWN = Except.ok UNKNOWN := by
      rw [compareFastNodes_of_valid hv hna hnb hne, h1f, h2f]
      rfl
    have hfa := fastAboveP_false h1f
    have hfb := fastAboveP_false h2f
    by_cases hen : o.SearchEnabled
    · obtain ⟨r, o1, hab, _⟩ := above_spec hv hbm hen hna hnb hfa
      cases r with
      | true =>
        have hgrow := above_bitsGrow hab
        have hv1 : o1.Valid := valid_of_bitsGrow hv hgrow
        rcases above_eq_ok hab with ⟨hr, _⟩ | ⟨_, m1, m2, hm1, hm2, _, ho1⟩
        · cases hr
        · rw [hna] at hm1; rw [hnb] at hm2
          cases hm1; cases hm2
          have hbm1 : o1.BitsMapped := by
            rw [ho1]
            exact bitsMapped_writeBack hbm hex hna hnb (isMapped_of_getNode hga)
          have hen1 : o1.SearchEnabled := by
            rw [ho1]
            exact hen
          have hlen : pb < o.heap.length := (List.getElem?_eq_some_iff.mp hnb).1
          have hnb1 : o1.heap[pb]? = some
              (withAboveBits nb (BitVector.setBits nb.statesAbove.bits na.states)) := by
            rw [ho1]
            exact heap_setHeap_self _ hlen
          have hna1 : o1.heap[pa]? = some na := by
            rw [ho1, heap_setHeap_ne _ (Ne.symm hne)]
            exact hna
          have hfb1 : o1.aboveFastP pb pa = false := by
            rw [aboveFastP_eq_any hnb1 hna1]
            rw [aboveFastP_eq_any hnb hna] at hfb
            exact hfb
          obtain ⟨r2, o2, hba, _⟩ := above_spec hv1 hbm1 hen1 hnb1 hna1 hfb1
          cases r2 with
          | true =>
            left
            simp [compareNodes, hcf, aboveWhen, hab, hba]
          | false =>
            have ho2 : o2 = o1 := above_false_eq hba
            subst ho2
            exact Or.inr ⟨ABOVE, o2, by simp [compareNodes, hcf, aboveWhen, hab, hba], hbm1⟩
      | false =>
        have ho1 : o1 = o := above_false_eq hab
        subst ho1
        obtain ⟨r3, o3, hba, _⟩ := above_spec hv hbm hen hnb hna hfb
        cases r3 with
        | true =>
          rcases above_eq_ok hba with ⟨hr, _⟩ | ⟨_, m2, m1, hm2, hm1, _, ho3⟩
          · cases hr
          · rw [hna] at hm1; rw [hnb] at hm2
            cases hm1; cases hm2
            have hbm3 : o3.BitsMapped := by
              rw [ho3]
              exact bitsMapped_writeBack hbm hex hnb hna (isMapped_of_getNode hgb)
            exact Or.inr ⟨BELOW, o3, by simp [compareNodes, hcf, aboveWhen, hab, hba], hbm3⟩
        | false =>
          have ho3 : o3 = o1 := above_false_eq hba
          subst ho3
          exact Or.inr ⟨UNKNOWN, o3, by simp [compareNodes, hcf, aboveWhen, hab, hba], hbm⟩
    · have hab := above_disabled hv hen hna hnb hfa
      have hba := above_disabled hv hen hnb hna hfb
      exact Or.inr ⟨UNKNOWN, o, by simp [compareNodes, hcf, aboveWhen, hab, hba], hbm⟩
  · exact Or.inr ⟨_, o, compareNodes_null _ hnn, hbm⟩

/-- The invariants under which a comparison returns or stops at an assertion. -/
theorem compare_total_inv {o : Order} (hv : o.Valid) (hbm : o.BitsMapped) (hex : o.Exclusive)
    {a b : Nat} (ha : a < o.numberOfStates) (hb : b < o.numberOfStates) :
    o.compare a b UNKNOWN = Except.error Fault.assertion ∨
      ∃ c o1, o.compare a b UNKNOWN = Except.ok (c, o1) ∧ o1.Valid ∧ o1.BitsMapped ∧
        o1.Exclusive ∧ o1.numberOfStates = o.numberOfStates := by
  rcases compare_total hv hbm hex ha hb with h | ⟨c, o1, h, hbm1⟩
  · exact Or.inl h
  · have hg := compare_bitsGrow h
    exact Or.inr ⟨c, o1, h, valid_of_bitsGrow hv hg, hbm1, exclusive_of_bitsGrow hex hg,
      bitsGrow_numberOfStates hg⟩

theorem placeState_total (state : Nat) :
    ∀ (rest : List Nat) (o : Order) (front : List Nat), o.Valid → o.BitsMapped → o.Exclusive →
      state < o.numberOfStates → (∀ y ∈ rest, y < o.numberOfStates) →
      placeState UNKNOWN state o front rest = Except.error Fault.assertion ∨
        ∃ pl o1, placeState UNKNOWN state o front rest = Except.ok (pl, o1) ∧ o1.Valid ∧
          o1.BitsMapped ∧ o1.Exclusive ∧ o1.numberOfStates = o.numberOfStates := by
  intro rest
  induction rest with
  | nil =>
    intro o front hv hbm hex _ _
    exact Or.inr ⟨_, o, rfl, hv, hbm, hex, rfl⟩
  | cons y rest ih =>
    intro o front hv hbm hex hs hrest
    have hy := hrest y (List.mem_cons_self _ _)
    rcases compare_total_inv hv hbm hex hs hy with h | ⟨c, oc, h, hv1, hbm1, hex1, hn1⟩
    · left
      simp [placeState, h]
    · simp only [placeState, h, ok_bind]
      by_cases hc : c = ABOVE ∨ c = SAME
      · rw [if_pos hc]
        exact Or.inr ⟨_, oc, rfl, hv1, hbm1, hex1, hn1⟩
      · rw [if_neg hc]
        by_cases hu : c = UNKNOWN
        · rw [if_pos hu]
          exact Or.inr ⟨_, oc, rfl, hv1, hbm1, hex1, hn1⟩
        · rw [if_neg hu]
          rcases ih oc (front ++ [y]) hv1 hbm1 hex1 (by rw [hn1]; exact hs)
            (fun z hz => by rw [hn1]; exact hrest z (List.mem_cons_of_mem _ hz))
            with h2 | ⟨pl, o1, h2, hv2, hbm2, hex2, hn2⟩
          · exact Or.inl h2
          · exact Or.inr ⟨pl, o1, h2, hv2, hbm2, hex2, hn2.trans hn1⟩

theorem sortPairLoop_total (total : Nat) :
    ∀ (states : List Nat) (o : Order) (result : List Nat), o.Valid → o.BitsMapped →
      o.Exclusive → (∀ s ∈ states, s < o.numberOfStates) →
      (∀ s ∈ result, s < o.numberOfStates) → result.length + states.length = total →
      sortPairLoop UNKNOWN total o result states = Except.error Fault.assertion ∨
        ∃ r, sortPairLoop UNKNOWN total o result states = Except.ok r := by
  intro states
  induction states with
  | nil =>
    intro o result _ _ _ _ _ hlen
    right
    simp only [List.length_nil, Nat.add_zero] at hlen
    exact ⟨(((o.numberOfStates, o.numberOfStates), result), o), by simp [sortPairLoop, hlen]⟩
  | cons state rest ih =>
    intro o result hv hbm hex hst hres hlen
    have hs := hst state (List.mem_cons_self _ _)
    have hrest : ∀ s ∈ rest, s < o.numberOfStates :=
      fun s h => hst s (List.mem_cons_of_mem _ h)
    unfold sortPairLoop
    by_cases hl : result.length = 0
    · rw [if_pos hl]
      refine ih o (result ++ [state]) hv hbm hex hrest ?_ ?_
      · intro s h
        rcases List.mem_append.mp h with h | h
        · exact hres s h
        · rw [List.mem_singleton.mp h]; exact hs
      · simp only [List.length_append, List.length_cons, List.length_nil] at hlen ⊢
        omega
    · rw [if_neg hl]
      rcases placeState_total state result o [] hv hbm hex hs hres
        with h | ⟨pl, o1, h, hv1, hbm1, hex1, hn1⟩
      · left
        simp [h]
      · simp only [h, ok_bind]
        cases pl with
        | placed r =>
          have hperm := placeState_perm UNKNOWN state result o [] r o1 h
          simp only [List.nil_append] at hperm
          refine ih o1 r hv1 hbm1 hex1 (by rw [hn1]; exact hrest) ?_ ?_
          · intro s hsr
            rw [hn1]
            rcases List.mem_cons.mp (hperm.mem_iff.mp hsr) with e | e
            · rw [e]; exact hs
            · exact hres s e
          · rw [hperm.length_eq]
            simp only [List.length_cons] at hlen ⊢
            omega
        | unknown y => exact Or.inr ⟨_, rfl⟩

theorem sortLoop_eq (total : Nat) :
    ∀ (states : List Nat) (o : Order) (result : List Nat),
      result.length + states.length = total →
      sortLoop UNKNOWN o result states
        = (sortPairLoop UNKNOWN total o result states).map (fun r => (r.1.2, r.2)) := by
  intro states
  induction states with
  | nil =>
    intro o result hlen
    simp only [List.length_nil, Nat.add_zero] at hlen
    simp [sortLoop, sortPairLoop, hlen, Except.map]
  | cons state rest ih =>
    intro o result hlen
    unfold sortLoop sortPairLoop
    by_cases hl : result.length = 0
    · rw [if_pos hl, if_pos hl]
      apply ih
      simp only [List.length_append, List.length_cons, List.length_nil] at hlen ⊢
      omega
    · rw [if_neg hl, if_neg hl]
      cases h : placeState UNKNOWN state o [] result with
      | error e => rfl
      | ok x =>
        obtain ⟨pl, o1⟩ := x
        simp only [ok_bind]
        cases pl with
        | placed r =>
          have hperm := placeState_perm UNKNOWN state result o [] r o1 h
          simp only [List.nil_append] at hperm
          apply ih
          rw [hperm.length_eq]
          simp only [List.length_cons] at hlen ⊢
          omega
        | unknown y => rfl

end Order

namespace Order

theorem sortStatesUnorderedPair_spec {o o1 : Order} {L R : List Nat} {s1 s2 : Nat}
    (h : o.sortStatesUnorderedPair UNKNOWN L = Except.ok (((s1, s2), R), o1)) :
    o1.numberOfStates = o.numberOfStates ∧ List.Chain' (Descends o1) R ∧
    ((s1 = o.numberOfStates ∧ s2 = o.numberOfStates ∧ R.Perm L) ∨
     (∃ pre post, L = pre ++ s2 :: post ∧ R.Perm pre ∧ s1 ∈ R ∧ s2 < o.numberOfStates ∧
        o1.compare s1 s2 UNKNOWN = Except.ok (UNKNOWN, o1) ∧
        o1.compare s2 s1 UNKNOWN = Except.ok (UNKNOWN, o1))) := by
  unfold sortStatesUnorderedPair at h
  obtain ⟨hg, hR, hcase⟩ := sortPairLoop_spec L.length L o [] [] s1 s2 R o1 List.chain'_nil
    (List.Perm.refl _) h
  refine ⟨bitsGrow_numberOfStates hg, hR.imp (fun a b hab => descends_of_fastGeq hab), ?_⟩
  rcases hcase with ⟨e1, e2, hp⟩ | ⟨pre, post, e, hp, hm, hlt, hc⟩
  · exact Or.inl ⟨e1, e2, by simpa using hp⟩
  · exact Or.inr ⟨pre, post, e, by simpa using hp, hm, hlt, (compare_unknown_symm hc).2, hc⟩

theorem sortStates_eq {o : Order} {L : List Nat} (hne : L ≠ []) :
    o.sortStates UNKNOWN L =
      (do
        let (result, o1) ← (o.sortStatesUnorderedPair UNKNOWN L).map (fun r => (r.1.2, r.2))
        let filled := result ++ List.replicate (L.length - result.length) o1.numberOfStates
        if filled.length = L.length then pure (filled, o1) else Except.error Fault.assertion) := by
  have hpos : L.length > 0 := List.length_pos.mpr hne
  unfold sortStates sortStatesUnorderedPair
  rw [if_neg (not_not.mpr hpos), sortLoop_eq L.length L o [] (by simp)]

theorem sortStates_of_pair {o o1 : Order} {L R : List Nat} {p : Nat × Nat} (hne : L ≠ [])
    (h : o.sortStatesUnorderedPair UNKNOWN L = Except.ok ((p, R), o1)) :
    o.sortStates UNKNOWN L
      = Except.ok (R ++ List.replicate (L.length - R.length) o.numberOfStates, o1) := by
  obtain ⟨s1, s2⟩ := p
  obtain ⟨hn, _, hcase⟩ := sortStatesUnorderedPair_spec h
  have hle : R.length ≤ L.length := by
    rcases hcase with ⟨_, _, hp⟩ | ⟨pre, post, e, hp, _⟩
    · rw [hp.length_eq]
    · rw [hp.length_eq, e]
      simp
  rw [sortStates_eq hne, h]
  simp only [Except.map, ok_bind, List.length_append, List.length_replicate, hn]
  rw [if_pos (by omega)]
  rfl

/-- C14: for a non-empty list `L` of states below `numberOfStates`: if
`sortStatesUnorderedPair(L)` returns the pair `(numberOfStates, numberOfStates)`, the returned
list is a permutation of `L` in which `compare` of each element with the element that follows it
answers ABOVE or SAME.  If `sortStates(L)` returns, its list has the length of `L`, and the last
element is `numberOfStates` exactly when `sortStatesUnorderedPair(L)` returns an unresolved
pair.  On a well-formed order `sortStates(L)` returns, unless `compare` stops at its assertion. -/
theorem sort_result (o : Order) (L : List Nat) (hne : L ≠ [])
    (hL : ∀ s ∈ L, s < o.numberOfStates) :
    (∀ R o1, o.sortStatesUnorderedPair UNKNOWN L
        = Except.ok (((o.numberOfStates, o.numberOfStates), R), o1) →
      R.Perm L ∧ List.Chain' (Descends o1) R) ∧
    (∀ R1 o1, o.sortStates UNKNOWN L = Except.ok (R1, o1) →
      R1.length = L.length ∧
      (R1.getLast? = some o.numberOfStates ↔
        ∃ s1 s2 R, o.sortStatesUnorderedPair UNKNOWN L = Except.ok (((s1, s2), R), o1) ∧
          (s1, s2) ≠ (o.numberOfStates, o.numberOfStates))) ∧
    (o.Valid → o.BitsMapped → o.Exclusive →
      o.sortStates UNKNOWN L = Except.error Fault.assertion ∨
        ∃ R1 o1, o.sortStates UNKNOWN L = Except.ok (R1, o1)) := by
  refine ⟨?_, ?_, ?_⟩
  · intro R o1 h
    obtain ⟨_, hR, hcase⟩ := sortStatesUnorderedPair_spec h
    refine ⟨?_, hR⟩
    rcases hcase with ⟨_, _, hp⟩ | ⟨_, _, _, _, _, hlt, _⟩
    · exact hp
    · exact absurd hlt (Nat.lt_irrefl _)
  · intro R1 o1 h
    cases hpair : o.sortStatesUnorderedPair UNKNOWN L with
    | error e =>
      rw [sortStates_eq hne, hpair] at h
      simp [Except.map] at h
    | ok x =>
      obtain ⟨⟨⟨s1, s2⟩, R⟩, o2⟩ := x
      rw [sortStates_of_pair hne hpair] at h
      simp only [Except.ok.injEq, Prod.mk.injEq] at h
      obtain ⟨hR1, rfl⟩ := h
      obtain ⟨_, _, hcase⟩ := sortStatesUnorderedPair_spec hpair
      rcases hcase with ⟨e1, e2, hp⟩ | ⟨pre, post, e, hp, _, hlt, _⟩
      · subst e1 e2
        have hlen : R.length = L.length := hp.length_eq
        rw [hlen, Nat.sub_self, List.replicate_zero, List.append_nil] at hR1
        subst hR1
        refine ⟨hlen, ?_⟩
        constructor
        · intro hlast
          have hmem : o.numberOfStates ∈ R := List.mem_of_getLast?_eq_some hlast
          exact absurd (hL _ (hp.mem_iff.mp hmem)) (Nat.lt_irrefl _)
        · rintro ⟨t1, t2, R2, h2, hne2⟩
          simp only [Except.ok.injEq, Prod.mk.injEq] at h2
          exact absurd (Prod.ext h2.1.1.1.symm h2.1.1.2.symm) hne2
      · have hlen : R.length = pre.length := hp.length_eq
        have hLlen : L.length = pre.length + (post.length + 1) := by
          rw [e]; simp
        have hk : L.length - R.length = post.length + 1 := by omega
        rw [hk, List.replicate_succ'] at hR1
        subst hR1
        refine ⟨by simp; omega, ?_⟩
        constructor
        · intro _
          refine ⟨s1, s2, R, rfl, ?_⟩
          intro heq
          simp only [Prod.mk.injEq] at heq
          omega
        · intro _
          rw [← List.append_assoc, List.getLast?_concat]
  · intro hv hbm hex
    rcases sortPairLoop_total L.length L o [] hv hbm hex hL (by simp) (by simp)
      with h | ⟨⟨⟨p, R⟩, o1⟩, h⟩
    · left
      rw [sortStates_eq hne]
      unfold sortStatesUnorderedPair
      rw [h]
      rfl
    · exact Or.inr ⟨_, _, sortStates_of_pair hne h⟩

/-- C15: if `sortStatesUnorderedPair(L)` returns a pair `(s1, s2)` other than
`(numberOfStates, numberOfStates)`, then `L` splits at `s2` into the states before it and those
after it, the returned list is a permutation of the states before `s2` in which `compare` of each
element with the element that follows it answers ABOVE or SAME, `s1` is in the returned list,
and on the order left behind `compare(s1, s2)` and `compare(s2, s1)` both answer UNKNOWN. -/
theorem unresolved_pair (o o1 : Order) (L R : List Nat) (s1 s2 : Nat)
    (h : o.sortStatesUnorderedPair UNKNOWN L = Except.ok (((s1, s2), R), o1))
    (hne : (s1, s2) ≠ (o.numberOfStates, o.numberOfStates)) :
    ∃ pre post, L = pre ++ s2 :: post ∧ R.Perm pre ∧ List.Chain' (Descends o1) R ∧ s1 ∈ R ∧
      o1.compare s1 s2 UNKNOWN = Except.ok (UNKNOWN, o1) ∧
      o1.compare s2 s1 UNKNOWN = Except.ok (UNKNOWN, o1) := by
  obtain ⟨_, hR, hcase⟩ := sortStatesUnorderedPair_spec h
  rcases hcase with ⟨e1, e2, _⟩ | ⟨pre, post, e, hp, hm, _, hc1, hc2⟩
  · exact absurd (Prod.ext e1 e2) hne
  · exact ⟨pre, post, e, hp, hR, hm, hc1, hc2⟩

end Order

/-- C14 (witness): sorting all seven states of the sample ladder. -/
theorem sort_result_witness :
    ((Order.returned Order.sampleLadder).sortStatesUnorderedPair UNKNOWN
        [4, 2, 6, 0, 1, 3, 5]).map Prod.fst = Except.ok ((7, 7), [0, 2, 3, 4, 5, 6, 1]) ∧
    ((Order.returned Order.sampleLadder).sortStates UNKNOWN [4, 2, 6, 0, 1, 3, 5]).map Prod.fst
      = Except.ok [0, 2, 3, 4, 5, 6, 1] ∧
    ((Order.returned Order.sampleOrder).sortStates UNKNOWN [1, 2, 3, 0]).map Prod.fst
      = Except.ok [2, 1, 4, 4] ∧
    ((∀ R o1, (Order.returned Order.sampleLadder).sortStatesUnorderedPair UNKNOWN
        [4, 2, 6, 0, 1, 3, 5] = Except.ok
          ((((Order.returned Order.sampleLadder).numberOfStates,
            (Order.returned Order.sampleLadder).numberOfStates), R), o1) →
      R.Perm [4, 2, 6, 0, 1, 3, 5] ∧ List.Chain' (Order.Descends o1) R) ∧
    (∀ R1 o1, (Order.returned Order.sampleLadder).sortStates UNKNOWN [4, 2, 6, 0, 1, 3, 5]
        = Except.ok (R1, o1) →
      R1.length = [4, 2, 6, 0, 1, 3, 5].length ∧
      (R1.getLast? = some (Order.returned Order.sampleLadder).numberOfStates ↔
        ∃ s1 s2 R, (Order.returned Order.sampleLadder).sortStatesUnorderedPair UNKNOWN
            [4, 2, 6, 0, 1, 3, 5] = Except.ok (((s1, s2), R), o1) ∧
          (s1, s2) ≠ ((Order.returned Order.sampleLadder).numberOfStates,
            (Order.returned Order.sampleLadder).numberOfStates))) ∧
    ((Order.returned Order.sampleLadder).Valid → (Order.returned Order.sampleLadder).BitsMapped →
      (Order.returned Order.sampleLadder).Exclusive →
      (Order.returned Order.sampleLadder).sortStates UNKNOWN [4, 2, 6, 0, 1, 3, 5]
          = Except.error Fault.assertion ∨
        ∃ R1 o1, (Order.returned Order.sampleLadder).sortStates UNKNOWN [4, 2, 6, 0, 1, 3, 5]
          = Except.ok (R1, o1))) :=
  ⟨by decide, by decide, by decide,
    Order.sort_result (Order.returned Order.sampleLadder) [4, 2, 6, 0, 1, 3, 5] (by decide)
      (by decide)⟩

/-- C15 (witness): on the sample order `sortStatesUnorderedPair([1, 2, 3, 0])` returns the pair
`(2, 3)` and the list `[2, 1]`. -/
theorem unresolved_pair_witness :
    (Order.returned Order.sampleOrder).sortStatesUnorderedPair UNKNOWN [1, 2, 3, 0]
      = Except.ok (((2, 3), [2, 1]), Order.returned Order.sampleOrder) ∧
    ∃ pre post, [1, 2, 3, 0] = pre ++ 3 :: post ∧ [2, 1].Perm pre ∧
      List.Chain' (Order.Descends (Order.returned Order.sampleOrder)) [2, 1] ∧ 2 ∈ [2, 1] ∧
      (Order.returned Order.sampleOrder).compare 2 3 UNKNOWN
        = Except.ok (UNKNOWN, Order.returned Order.sampleOrder) ∧
      (Order.returned Order.sampleOrder).compare 3 2 UNKNOWN
        = Except.ok (UNKNOWN, Order.returned Order.sampleOrder) :=
  ⟨by decide,
    Order.unresolved_pair (Order.returned Order.sampleOrder) (Order.returned Order.sampleOrder)
      [1, 2, 3, 0] [2, 1] 2 3 (by decide) (by decide)⟩

/-! ## The partition invariant -/

namespace Order

theorem memberLists_getElem? (o : Order) (k : Nat) :
    o.memberLists[k]? = (o.heap[k]?).map (fun n => n.states) := by
  simp [memberLists]

theorem memberLists_eq_some {o : Order} {k : Nat} {l : List Nat} :
    o.memberLists[k]? = some l ↔ ∃ n, o.heap[k]? = some n ∧ n.states = l := by
  rw [memberLists_getElem?]
  simp

theorem anchored_iff_lists {o : Order} :
    o.Anchored ↔ ∀ s k : Nat, o.nodes[s]? = some (some k) →
      ∃ l, o.memberLists[k]? = some l ∧ s ∈ l := by
  rw [anchored_iff]
  constructor
  · intro h s k hs
    obtain ⟨n, hn, hm⟩ := h s k hs
    exact ⟨n.states, memberLists_eq_some.mpr ⟨n, hn, rfl⟩, hm⟩
  · intro h s k hs
    obtain ⟨l, hl, hm⟩ := h s k hs
    obtain ⟨n, hn, rfl⟩ := memberLists_eq_some.mp hl
    exact ⟨n, hn, hm⟩

theorem exclusive_iff_lists {o : Order} :
    o.Exclusive ↔ ∀ (k : Nat) (l : List Nat) (s : Nat), o.IsMapped k →
      o.memberLists[k]? = some l → s ∈ l → o.nodes[s]? = some (some k) := by
  rw [exclusive_iff]
  constructor
  · intro h k l s hk hl hs
    obtain ⟨n, hn, rfl⟩ := memberLists_eq_some.mp hl
    exact h k n s hk hn hs
  · intro h k n s hk hn hs
    exact h k n.states s hk (memberLists_eq_some.mpr ⟨n, hn, rfl⟩) hs

theorem sameShape_refl (o : Order) : SameShape o o := ⟨rfl, rfl⟩

theorem sameShape_trans {a b c : Order} (h1 : SameShape a b) (h2 : SameShape b c) :
    SameShape a c := ⟨h2.1.trans h1.1, h2.2.trans h1.2⟩

theorem partition_of_sameShape {o o1 : Order} (hp : o.Partition) (h : SameShape o o1) :
    o1.Partition := by
  obtain ⟨ha, he⟩ := hp
  constructor
  · rw [anchored_iff_lists] at ha ⊢
    intro s k hs
    rw [h.1] at hs
    rw [h.2]
    exact ha s k hs
  · rw [exclusive_iff_lists] at he ⊢
    intro k l s hk hl hs
    unfold IsMapped at hk
    rw [h.1] at hk ⊢
    rw [h.2] at hl
    exact he k l s hk hl hs

theorem store_shape {o o1 : Order} {k : Nat} {n : Node}
    (h : o.store (some k) n = Except.ok o1) :
    o1.nodes = o.nodes ∧ o1.memberLists = o.memberLists.set k n.states ∧
      o1.heap.length = o.heap.length ∧ o1.top = o.top ∧ o1.bottom = o.bottom ∧
      o1.numberOfStates = o.numberOfStates := by
  obtain ⟨k1, hk, _, rfl⟩ := store_eq_ok.mp h
  cases hk
  simp [memberLists, List.map_set]

theorem store_sameShape {o o1 : Order} {p : Ptr} {n m : Node} (hd : o.deref p = Except.ok n)
    (h : o.store p m = Except.ok o1) (hm : m.states = n.states) : SameShape o o1 := by
  obtain ⟨k, rfl, hk⟩ := deref_eq_ok.mp hd
  obtain ⟨h1, h2, _⟩ := store_shape h
  refine ⟨h1, ?_⟩
  rw [h2, hm]
  apply List.ext_getElem?
  intro i
  rw [List.getElem?_set]
  split
  · rename_i hki
    subst hki
    split
    · exact (memberLists_eq_some.mpr ⟨n, hk, rfl⟩).symm
    · rename_i hlt
      rw [List.getElem?_eq_none (by omega)]
  · rfl

theorem sameShape_of_bitsGrow {o o1 : Order} (h : BitsGrow o o1) : SameShape o o1 := by
  refine ⟨bitsGrow_nodes h, ?_⟩
  apply List.ext_getElem?
  intro i
  rw [memberLists_getElem?, memberLists_getElem?]
  cases hi : o.heap[i]? with
  | none =>
    have : o1.heap[i]? = none := by
      rw [List.getElem?_eq_none_iff] at hi ⊢
      rw [h.2.1]
      exact hi
    rw [this]
  | some n =>
    obtain ⟨n1, hn1, hst, _⟩ := h.2.2 i n hi
    rw [hn1]
    simp [hst]

theorem addRelationNodes_sameShape {o o1 : Order} {a b : Ptr}
    (h : o.addRelationNodes a b = Except.ok o1) : SameShape o o1 := by
  simp only [addRelationNodes, bind_eq_ok] at h
  obtain ⟨_, _, nb, hb, _, _, o2, h2, _, _, nb1, hb1, _, _, h3⟩ := h
  exact sameShape_trans (store_sameShape hb h2 rfl) (store_sameShape hb1 h3 rfl)

end Order

namespace Order

theorem memberLists_length (o : Order) : o.memberLists.length = o.heap.length := by
  simp [memberLists]

theorem mapped_lt_of_anchored {o : Order} (ha : o.Anchored) {k : Nat} (hk : o.IsMapped k) :
    k < o.heap.length := by
  obtain ⟨s, hs⟩ := isMapped_iff.mp hk
  obtain ⟨n, hn, _⟩ := anchored_iff.mp ha s k hs
  exact (List.getElem?_eq_some_iff.mp hn).1

theorem partition_place {o o1 : Order} {state : Nat} (hp : o.Partition)
    (hun : o.nodes[state]? = some none)
    (hnodes : o1.nodes = o.nodes.set state (some o.heap.length))
    (hlists : o1.memberLists = o.memberLists ++ [[state]]) : o1.Partition := by
  obtain ⟨ha, he⟩ := hp
  have hlt : state < o.nodes.length := (List.getElem?_eq_some_iff.mp hun).1
  have hml := memberLists_length o
  constructor
  · rw [anchored_iff_lists] at ha ⊢
    intro s k hs
    rw [hnodes, List.getElem?_set] at hs
    rw [hlists]
    by_cases hss : state = s
    · subst hss
      simp only [if_true, hlt] at hs
      cases hs
      exact ⟨[state], by rw [← hml]; simp, List.mem_singleton.mpr rfl⟩
    · rw [if_neg hss] at hs
      obtain ⟨l, hl, hm⟩ := ha s k hs
      have hk : k < o.memberLists.length := (List.getElem?_eq_some_iff.mp hl).1
      exact ⟨l, by rw [List.getElem?_append_left hk]; exact hl, hm⟩
  · have hmlt : ∀ k, o.IsMapped k → k < o.heap.length :=
      fun k hk => mapped_lt_of_anchored ha hk
    rw [exclusive_iff_lists] at he ⊢
    intro k l s hk hl hs
    unfold IsMapped at hk
    rw [hnodes] at hk ⊢
    rw [hlists] at hl
    rcases List.mem_or_eq_of_mem_set hk with hk | hk
    · have hklt := hmlt k hk
      rw [List.getElem?_append_left (by rw [hml]; exact hklt)] at hl
      have hsk := he k l s hk hl hs
      have hne : state ≠ s := by
        rintro rfl
        rw [hun] at hsk
        cases hsk
      rw [List.getElem?_set, if_neg hne]
      exact hsk
    · cases hk
      rw [← hml] at hl
      simp only [List.getElem?_concat_length, Option.some.injEq] at hl
      subst hl
      rw [List.mem_singleton.mp hs, List.getElem?_set]
      simp [hlt]

theorem partition_join {o o1 : Order} {state k : Nat} {old : List Nat} (hp : o.Partition)
    (hun : o.nodes[state]? = some none) (hk : o.IsMapped k)
    (hold : o.memberLists[k]? = some old)
    (hnodes : o1.nodes = o.nodes.set state (some k))
    (hlists : o1.memberLists = o.memberLists.set k (setInsert state old)) : o1.Partition := by
  obtain ⟨ha, he⟩ := hp
  have hlt : state < o.nodes.length := (List.getElem?_eq_some_iff.mp hun).1
  have hklt : k < o.memberLists.length := (List.getElem?_eq_some_iff.mp hold).1
  constructor
  · rw [anchored_iff_lists] at ha ⊢
    intro s k1 hs
    rw [hnodes, List.getElem?_set] at hs
    rw [hlists, List.getElem?_set]
    by_cases hss : state = s
    · subst hss
      simp only [if_true, hlt] at hs
      cases hs
      exact ⟨setInsert state old, by simp [hklt], mem_setInsert.mpr (Or.inl rfl)⟩
    · rw [if_neg hss] at hs
      obtain ⟨l, hl, hm⟩ := ha s k1 hs
      by_cases hkk : k = k1
      · subst hkk
        rw [hold] at hl
        cases hl
        exact ⟨setInsert state old, by simp [hklt], mem_setInsert.mpr (Or.inr hm)⟩
      · exact ⟨l, by rw [if_neg hkk]; exact hl, hm⟩
  · rw [exclusive_iff_lists] at he ⊢
    intro k1 l s hk1 hl hs
    unfold IsMapped at hk1
    rw [hnodes] at hk1 ⊢
    rw [hlists, List.getElem?_set] at hl
    have hk1o : o.IsMapped k1 := by
      rcases List.mem_or_eq_of_mem_set hk1 with h | h
      · exact h
      · cases h; exact hk
    by_cases hkk : k = k1
    · subst hkk
      simp only [if_true, hklt, Option.some.injEq] at hl
      subst hl
      rw [List.getElem?_set]
      rcases mem_setInsert.mp hs with rfl | hs
      · simp [hlt]
      · have hsk := he k old s hk hold hs
        have hne : state ≠ s := by
          rintro rfl
          rw [hun] at hsk
          cases hsk
        rw [if_neg hne]
        exact hsk
    · rw [if_neg hkk] at hl
      have hsk := he k1 l s hk1o hl hs
      have hne : state ≠ s := by
        rintro rfl
        rw [hun] at hsk
        cases hsk
      rw [List.getElem?_set, if_neg hne]
      exact hsk

theorem placeNew_shape {o o2 o3 : Order} {state : Nat} {z : BitVector} {n : Node}
    (h2 : ({ o with heap := o.heap ++ [⟨[], z⟩] } : Order).setNodeAt state (some o.heap.length)
      = Except.ok o2)
    (hn : o2.deref (some o.heap.length) = Except.ok n)
    (h3 : o2.store (some o.heap.length) { n with states := setInsert state n.states }
      = Except.ok o3) :
    o3.nodes = o.nodes.set state (some o.heap.length) ∧
      o3.memberLists = o.memberLists ++ [[state]] := by
  obtain ⟨_, rfl⟩ := setNodeAt_eq_ok.mp h2
  obtain ⟨k, hk, hnk⟩ := deref_eq_ok.mp hn
  cases hk
  simp only [List.getElem?_concat_length, Option.some.injEq] at hnk
  subst hnk
  obtain ⟨h1, h2, _⟩ := store_shape h3
  refine ⟨h1, ?_⟩
  rw [h2]
  simp only [memberLists, List.map_append, List.map_cons, List.map_nil, setInsert]
  rw [← List.length_map o.heap (fun n => n.states)]
  simp [List.set_append]

end Order

namespace Order

theorem sameShape_finish (o : Order) (k : Nat) (b : Bool) :
    SameShape o
      ({ o with numberOfAddedStates := k, onlyInitialOrder := b } : Order).updateDoneBuilding :=
  ⟨by simp, by simp [memberLists]⟩

theorem sameShape_counter (o : Order) (k : Nat) :
    SameShape o ({ o with numberOfAddedStates := k } : Order).updateDoneBuilding :=
  ⟨by simp, by simp [memberLists]⟩

theorem partition_place_then {o o3 o1 : Order} {state : Nat} (hp : o.Partition)
    (hun : o.nodes[state]? = some none)
    (h3 : o3.nodes = o.nodes.set state (some o.heap.length) ∧
      o3.memberLists = o.memberLists ++ [[state]])
    (hs : SameShape o3 o1) : o1.Partition ∧ o1.nodes.length = o.nodes.length := by
  refine ⟨partition_place hp hun (hs.1.trans h3.1) (hs.2.trans h3.2), ?_⟩
  rw [hs.1, h3.1, List.length_set]

theorem nodeAt_none {o : Order} {state : Nat} {cur : Ptr} (h : o.nodeAt state = Except.ok cur)
    (hc : cur = none) : o.nodes[state]? = some none := by
  rw [nodeAt_eq_ok] at h
  rw [h, hc]

theorem addRelationNodes_partition {o o1 : Order} {a b : Ptr} (hp : o.Partition)
    (h : o.addRelationNodes a b = Except.ok o1) :
    o1.Partition ∧ o1.nodes.length = o.nodes.length := by
  have hs := addRelationNodes_sameShape h
  exact ⟨partition_of_sameShape hp hs, by rw [hs.1]⟩

theorem addAbove_partition {o o1 : Order} {state : Nat} {node : Ptr} (hp : o.Partition)
    (h : o.addAbove state node = Except.ok o1) :
    o1.Partition ∧ o1.nodes.length = o.nodes.length := by
  unfold addAbove at h
  by_cases h1 : node = none
  · rw [if_pos h1] at h; cases h
  rw [if_neg h1] at h
  by_cases h2 : ¬ state < o.numberOfStates
  · rw [if_pos h2] at h; cases h
  rw [if_neg h2] at h
  simp only [bind_eq_ok] at h
  obtain ⟨cur, hcur, h⟩ := h
  by_cases h3 : cur = none
  · rw [if_pos h3] at h
    have hun := nodeAt_none hcur h3
    simp only [alloc, bind_eq_ok] at h
    obtain ⟨o2, h2, n, hn, o3, h3, n3, hn3, o4, h4, h⟩ := h
    have s3 := placeNew_shape h2 hn h3
    have s4 := store_sameShape hn3 h4 rfl
    by_cases h5 : o4.top ≠ none
    · rw [if_pos h5] at h
      simp only [bind_eq_ok] at h
      obtain ⟨_, _, n4, hn4, _, _, o5, h5, nd, hnd, _, _, o6, h6, h⟩ := h
      simp only [pure_eq_ok, Except.ok.injEq] at h
      subst h
      exact partition_place_then hp hun s3 (sameShape_trans s4 (sameShape_trans
        (store_sameShape hn4 h5 rfl) (sameShape_trans (store_sameShape hnd h6 rfl)
          (sameShape_finish _ _ _))))
    · rw [if_neg h5] at h
      simp only [bind_eq_ok, pure_eq_ok, Except.ok.injEq] at h
      obtain ⟨_, rfl, nd, hnd, _, _, o6, h6, h⟩ := h
      subst h
      exact partition_place_then hp hun s3 (sameShape_trans s4
        (sameShape_trans (store_sameShape hnd h6 rfl) (sameShape_finish _ _ _)))
  · rw [if_neg h3] at h
    simp only [bind_eq_ok] at h
    obtain ⟨_, _, h⟩ := h
    exact addRelationNodes_partition hp h

theorem insertBelowAnchor_partition {o o1 : Order} {state : Nat} {anchor receiver : Ptr}
    (hp : o.Partition) (hun : o.nodes[state]? = some none)
    (h : o.insertBelowAnchor state anchor receiver = Except.ok o1) :
    o1.Partition ∧ o1.nodes.length = o.nodes.length := by
  simp only [insertBelowAnchor, alloc, bind_eq_ok] at h
  obtain ⟨o2, h2, n, hn, o3, h3, _, _, n3, hn3, o4, h4, _, _, n4, hn4, _, _, o5, h5, r, hr, _, _,
    o6, h6, h⟩ := h
  simp only [pure_eq_ok, Except.ok.injEq] at h
  subst h
  exact partition_place_then hp hun (placeNew_shape h2 hn h3)
    (sameShape_trans (store_sameShape hn3 h4 rfl) (sameShape_trans (store_sameShape hn4 h5 rfl)
      (sameShape_trans (store_sameShape hr h6 rfl) (sameShape_finish _ _ _))))

theorem not_contains {o : Order} {state : Nat} (hlt : state < o.numberOfStates)
    (hlen : o.nodes.length = o.numberOfStates) (h : ¬ o.contains state = true) :
    o.nodes[state]? = some none := by
  have hl : state < o.nodes.length := by rw [hlen]; exact hlt
  unfold contains at h
  rw [List.getElem?_eq_getElem hl] at h ⊢
  cases hs : o.nodes[state] with
  | none => rfl
  | some k => simp [hlt, hs] at h

theorem addBelow_partition {o o1 : Order} {state : Nat} {node : Ptr} (hp : o.Partition)
    (hlen : o.nodes.length = o.numberOfStates) (h : o.addBelow state node = Except.ok o1) :
    o1.Partition ∧ o1.nodes.length = o.nodes.length := by
  unfold addBelow at h
  by_cases h1 : node = none
  · rw [if_pos h1] at h; cases h
  rw [if_neg h1] at h
  by_cases h2 : ¬ state < o.numberOfStates
  · rw [if_pos h2] at h; cases h
  rw [if_neg h2] at h
  have gtail : ∀ o2, (o2.Partition ∧ o2.nodes.length = o.nodes.length) →
      (if ¬ (o2.numberOfAddedStates ≤ o2.numberOfStates) then Except.error Fault.assertion
        else (pure o2 : Except Fault Order)) = Except.ok o1 →
      o1.Partition ∧ o1.nodes.length = o.nodes.length := by
    intro o2 g2 h
    split at h
    · cases h
    · simp only [pure_eq_ok, Except.ok.injEq] at h
      subst h
      exact g2
  by_cases h3 : ¬ o.contains state = true
  · rw [if_pos h3] at h
    simp only [bind_eq_ok] at h
    obtain ⟨o2, h2a, h⟩ := h
    exact gtail o2 (insertBelowAnchor_partition hp
      (not_contains (not_not.mp h2) hlen h3) h2a) h
  · rw [if_neg h3] at h
    simp only [bind_eq_ok] at h
    obtain ⟨_, _, o2, h2a, h⟩ := h
    exact gtail o2 (addRelationNodes_partition hp h2a) h

theorem addBetweenNodes_partition {o o1 : Order} {state : Nat} {above below : Ptr}
    (hp : o.Partition) (h : o.addBetweenNodes state above below = Except.ok o1) :
    o1.Partition ∧ o1.nodes.length = o.nodes.length := by
  unfold addBetweenNodes at h
  by_cases h1 : above = below
  · rw [if_pos h1] at h; cases h
  rw [if_neg h1] at h
  by_cases h2 : above = none
  · rw [if_pos h2] at h
    exact addAbove_partition hp h
  rw [if_neg h2] at h
  simp only [bind_eq_ok] at h
  obtain ⟨⟨c, oc⟩, hc, h⟩ := h
  have hg := compareNodes_bitsGrow hc
  have hpc := partition_of_bitsGrow hp hg
  have hnc : oc.nodes = o.nodes := bitsGrow_nodes hg
  simp only at h
  by_cases h3 : c ≠ ABOVE
  · rw [if_pos h3] at h; cases h
  rw [if_neg h3] at h
  by_cases h4 : ¬ (above ≠ none ∧ below ≠ none)
  · rw [if_pos h4] at h; cases h
  rw [if_neg h4] at h
  simp only [bind_eq_ok] at h
  obtain ⟨cur, hcur, h⟩ := h
  by_cases h5 : cur = none
  · rw [if_pos h5] at h
    simp only [bind_eq_ok] at h
    obtain ⟨o2, h2a, h⟩ := h
    split at h
    · cases h
    simp only [pure_eq_ok, Except.ok.injEq] at h
    subst h
    have := insertBelowAnchor_partition hpc (nodeAt_none hcur h5) h2a
    exact ⟨this.1, by rw [this.2, hnc]⟩
  · rw [if_neg h5] at h
    simp only [bind_eq_ok] at h
    obtain ⟨o2, h2a, _, _, h⟩ := h
    have a1 := addRelationNodes_partition hpc h2a
    have a2 := addRelationNodes_partition a1.1 h
    exact ⟨a2.1, by rw [a2.2, a1.2, hnc]⟩

theorem addBetween_partition {o o1 : Order} {state above below : Nat} (hp : o.Partition)
    (h : o.addBetween state above below = Except.ok o1) :
    o1.Partition ∧ o1.nodes.length = o.nodes.length := by
  simp only [addBetween, bind_eq_ok] at h
  obtain ⟨_, _, _, _, h⟩ := h
  split at h
  · cases h
  simp only [bind_eq_ok] at h
  obtain ⟨_, _, _, _, h⟩ := h
  split at h
  · cases h
  simp only [bind_eq_ok] at h
  obtain ⟨_, _, _, _, h⟩ := h
  exact addBetweenNodes_partition hp h

theorem add_partition {o o1 : Order} {state : Nat} (hp : o.Partition)
    (h : o.add state = Except.ok o1) : o1.Partition ∧ o1.nodes.length = o.nodes.length := by
  simp only [add, bind_eq_ok] at h
  obtain ⟨_, _, h⟩ := h
  split at h
  · cases h
  split at h
  · exact addAbove_partition hp h
  · exact addBetweenNodes_partition hp h

theorem mergeNodes_partition {o o1 : Order} {k1 k2 : Nat} (hp : o.Partition)
    (h1 : o.IsMapped k1) (h2 : o.IsMapped k2)
    (h : o.mergeNodes (some k1) (some k2) = Except.ok o1) :
    o1.Partition ∧ o1.nodes.length = o.nodes.length := by
  obtain ⟨hp1, _, _, hc⟩ := mergeNodesFuel_extends _ o o1 k1 k2 hp h1 h2 h
  exact ⟨hp1, hc.1⟩

theorem merge_partition {o o1 : Order} {s1 s2 : Nat} (hp : o.Partition)
    (h : o.merge s1 s2 = Except.ok o1) : o1.Partition ∧ o1.nodes.length = o.nodes.length := by
  simp only [merge, bind_eq_ok] at h
  obtain ⟨p, hp1, q, hq1, h⟩ := h
  obtain ⟨k1, k2, rfl, rfl⟩ := mergeNodesFuel_ptrs h
  exact mergeNodes_partition hp (isMapped_of_getNode hp1) (isMapped_of_getNode hq1) h

theorem addToNode_partition {o o1 : Order} {state k : Nat} (hp : o.Partition)
    (hk : o.IsMapped k) (h : o.addToNode state (some k) = Except.ok o1) :
    o1.Partition ∧ o1.nodes.length = o.nodes.length := by
  simp only [addToNode, bind_eq_ok] at h
  obtain ⟨cur, hcur, h⟩ := h
  by_cases hc : cur = none
  · rw [if_pos hc] at h
    simp only [bind_eq_ok] at h
    obtain ⟨n, hn, o2, h2, o3, h3, h⟩ := h
    split at h
    · cases h
    simp only [pure_eq_ok, Except.ok.injEq] at h
    subst h
    obtain ⟨k0, hk0, hnk⟩ := deref_eq_ok.mp hn
    cases hk0
    obtain ⟨e1, e2, _⟩ := store_shape h2
    obtain ⟨_, rfl⟩ := setNodeAt_eq_ok.mp h3
    have hs := sameShape_counter { o2 with nodes := o2.nodes.set state (some k) }
      ({ o2 with nodes := o2.nodes.set state (some k) } : Order).numberOfAddedStates.succ
    refine ⟨partition_join hp (nodeAt_none hcur hc) hk
      (memberLists_eq_some.mpr ⟨n, hnk, rfl⟩) ?_ ?_, ?_⟩
    · rw [hs.1]
      simp only
      rw [e1]
    · rw [hs.2]
      exact e2
    · rw [hs.1]
      simp only [List.length_set]
      rw [e1]
  · rw [if_neg hc] at h
    obtain ⟨k0, rfl⟩ := Option.ne_none_iff_exists'.mp hc
    exact mergeNodes_partition hp (List.getElem?_mem (nodeAt_eq_ok.mp hcur)) hk h

theorem addRelation_partition {o o1 : Order} {above below : Nat} (m : Bool) (hp : o.Partition)
    (h : o.addRelation above below m = Except.ok o1) :
    o1.Partition ∧ o1.nodes.length = o.nodes.length := by
  simp only [addRelation, bind_eq_ok] at h
  obtain ⟨_, _, _, _, h⟩ := h
  exact addRelationNodes_partition hp h

theorem run_partition {o o1 : Order} {c : Call} (hp : o.Partition)
    (hlen : o.nodes.length = o.numberOfStates) (ha : o.Admissible c)
    (h : o.run c = Except.ok o1) :
    o1.Partition ∧ o1.nodes.length = o1.numberOfStates := by
  have hn := (run_grows h).1
  have key : o1.Partition ∧ o1.nodes.length = o.nodes.length := by
    cases c with
    | add s => exact add_partition hp h
    | addAbove s n => exact addAbove_partition hp h
    | addBelow s n => exact addBelow_partition hp hlen h
    | addBetweenNodes s a b => exact addBetweenNodes_partition hp h
    | addBetween s a b => exact addBetween_partition hp h
    | addToNode s n =>
      obtain ⟨k, rfl, hk⟩ := ha
      exact addToNode_partition hp hk h
    | addRelation a b m => exact addRelation_partition m hp h
    | merge a b => exact merge_partition hp h
  exact ⟨key.1, by rw [key.2, hlen, hn]⟩

end Order

namespace Order

theorem partition_of_copyInv {c : Order} {seen : BitVector} (h : CopyInv c seen) :
    c.Partition := by
  constructor
  · rw [anchored_iff_lists]
    intro s k hs
    exact (h.1 s k hs).2
  · rw [exclusive_iff_lists]
    intro k l s _ hl hs
    exact h.2 k l s hl hs

theorem copyInv_of_sameShape {c c1 : Order} {seen : BitVector} (h : CopyInv c seen)
    (hs : SameShape c c1) : CopyInv c1 seen := by
  constructor
  · intro i p hi
    rw [hs.1] at hi
    rw [hs.2]
    exact h.1 i p hi
  · intro p l j hl hj
    rw [hs.2] at hl
    rw [hs.1]
    exact h.2 p l j hl hj

theorem copyInv_step {c x : Order} {seen : BitVector} {i p : Nat} {old : List Nat}
    (hinv : CopyInv c seen) (hbit : ¬ seen.bits.testBit i = true) (hlt : i < c.nodes.length)
    (hold : c.memberLists[p]? = some old) (hN : x.nodes = c.nodes.set i (some p))
    (hM : x.memberLists = c.memberLists.set p (setInsert i old)) :
    CopyInv x ⟨seen.size, seen.bits ||| 2 ^ i⟩ := by
  have hplt : p < c.memberLists.length := (List.getElem?_eq_some_iff.mp hold).1
  have hun : ∀ q, c.nodes[i]? ≠ some (some q) := by
    intro q hq
    exact hbit (hinv.1 i q hq).1
  constructor
  · intro j q hj
    rw [hN, List.getElem?_set] at hj
    rw [hM, List.getElem?_set]
    simp only [Nat.testBit_or, Nat.testBit_two_pow]
    by_cases hij : i = j
    · subst hij
      simp only [if_true, hlt, Option.some.injEq] at hj
      subst hj
      exact ⟨by simp, setInsert i old, by simp [hplt], mem_setInsert.mpr (Or.inl rfl)⟩
    · rw [if_neg hij] at hj
      obtain ⟨hb1, l, hl, hm⟩ := hinv.1 j q hj
      refine ⟨by simp [hb1], ?_⟩
      by_cases hpq : p = q
      · subst hpq
        rw [hold] at hl
        cases hl
        exact ⟨setInsert i old, by simp [hplt], mem_setInsert.mpr (Or.inr hm)⟩
      · exact ⟨l, by rw [if_neg hpq]; exact hl, hm⟩
  · intro q l j hl hj
    rw [hM, List.getElem?_set] at hl
    rw [hN, List.getElem?_set]
    by_cases hpq : p = q
    · subst hpq
      simp only [if_true, hplt, Option.some.injEq] at hl
      subst hl
      by_cases hij : i = j
      · subst hij
        simp [hlt]
      · rw [if_neg hij]
        rcases mem_setInsert.mp hj with rfl | hj
        · exact absurd rfl hij
        · exact hinv.2 p old j hold hj
    · rw [if_neg hpq] at hl
      have hjq := hinv.2 q l j hl hj
      have hij : i ≠ j := by
        rintro rfl
        exact hun q hjq
      rw [if_neg hij]
      exact hjq

theorem copyStates_inv (l : List Nat) :
    ∀ (c : Order) (p : Nat) (seen : BitVector) (c1 : Order) (seen1 : BitVector),
      CopyInv c seen → copyStates c (some p) seen l = Except.ok (c1, seen1) →
      CopyInv c1 seen1 ∧ c1.nodes.length = c.nodes.length ∧
        c1.numberOfStates = c.numberOfStates := by
  induction l with
  | nil =>
    intro c p seen c1 seen1 hinv h
    simp only [copyStates, Except.ok.injEq, Prod.mk.injEq] at h
    obtain ⟨rfl, rfl⟩ := h
    exact ⟨hinv, rfl, rfl⟩
  | cons i rest ih =>
    intro c p seen c1 seen1 hinv h
    simp only [copyStates, bind_eq_ok, BitVector.get_eq_ok] at h
    obtain ⟨sb, ⟨_, rfl⟩, h⟩ := h
    split at h
    · cases h
    rename_i hbit
    simp only [bind_eq_ok, BitVector.set_eq_ok] at h
    obtain ⟨n, hn, ca, ha, sa, ⟨_, rfl⟩, cb, hb, h⟩ := h
    obtain ⟨k, hk, hnk⟩ := deref_eq_ok.mp hn
    cases hk
    obtain ⟨e1, e2, _, _, _, en⟩ := store_shape ha
    obtain ⟨hlt, rfl⟩ := setNodeAt_eq_ok.mp hb
    have hold : c.memberLists[p]? = some n.states := memberLists_eq_some.mpr ⟨n, hnk, rfl⟩
    rw [e1] at hlt
    have hinv1 : CopyInv { ca with nodes := ca.nodes.set i (some p) }
        ⟨seen.size, seen.bits ||| 2 ^ i⟩ :=
      copyInv_step hinv hbit hlt hold (by show ca.nodes.set i (some p) = _; rw [e1]) e2
    obtain ⟨r1, r2, r3⟩ := ih _ p _ c1 seen1 hinv1 h
    refine ⟨r1, ?_, ?_⟩
    · rw [r2]
      simp only [List.length_set]
      rw [e1]
    · rw [r3]
      exact en

theorem copyNodes_inv (o : Order) (l : List Nat) :
    ∀ (c : Order) (seen : BitVector) (c1 : Order) (seen1 : BitVector),
      CopyInv c seen → copyNodes o c seen l = Except.ok (c1, seen1) →
      CopyInv c1 seen1 ∧ c1.nodes.length = c.nodes.length ∧
        c1.numberOfStates = c.numberOfStates := by
  induction l with
  | nil =>
    intro c seen c1 seen1 hinv h
    simp only [copyNodes, Except.ok.injEq, Prod.mk.injEq] at h
    obtain ⟨rfl, rfl⟩ := h
    exact ⟨hinv, rfl, rfl⟩
  | cons state rest ih =>
    intro c seen c1 seen1 hinv h
    simp only [copyNodes, bind_eq_ok] at h
    obtain ⟨oldNode, _, h⟩ := h
    by_cases hold : oldNode ≠ none
    · rw [if_pos hold] at h
      simp only [bind_eq_ok] at h
      obtain ⟨old, _, h⟩ := h
      split at h
      · cases h
      rename_i first _
      simp only [bind_eq_ok] at h
      obtain ⟨sb, _, h⟩ := h
      by_cases hsb : ¬ sb = true
      · rw [if_pos hsb] at h
        simp only [alloc, bind_eq_ok] at h
        obtain ⟨n, hn, c3, h3, ⟨c4, seen4⟩, h4, h⟩ := h
        simp only at h
        have hml : c.memberLists.length = c.heap.length := memberLists_length c
        have hinv1 : CopyInv { c with heap := c.heap ++ [⟨[], BitVector.zeros 0⟩] } seen := by
          constructor
          · intro i p hi
            obtain ⟨hb, l, hl, hm⟩ := hinv.1 i p hi
            have hp : p < c.memberLists.length := (List.getElem?_eq_some_iff.mp hl).1
            refine ⟨hb, l, ?_, hm⟩
            simp only [memberLists, List.map_append] at hl hp ⊢
            rw [List.getElem?_append_left hp]
            exact hl
          · intro p l j hl hj
            simp only [memberLists, List.map_append, List.map_cons, List.map_nil] at hl
            by_cases hp : p < (c.heap.map (fun n => n.states)).length
            · rw [List.getElem?_append_left hp] at hl
              exact hinv.2 p l j hl hj
            · have hp2 : p = (c.heap.map (fun n => n.states)).length ∨
                  (c.heap.map (fun n => n.states)).length < p := by omega
              rcases hp2 with hp2 | hp2
              · rw [hp2, List.getElem?_concat_length] at hl
                cases hl
                cases hj
              · rw [List.getElem?_eq_none (by simp; simp at hp2; omega)] at hl
                cases hl
        have hs2 : ∀ c2 : Order, c2.deref (some c.heap.length) = Except.ok n →
            c2.store (some c.heap.length) { n with statesAbove := old.statesAbove }
              = Except.ok c3 →
            c2.nodes = c.nodes → c2.heap = c.heap ++ [⟨[], BitVector.zeros 0⟩] →
            c2.numberOfStates = c.numberOfStates →
            CopyInv c1 seen1 ∧ c1.nodes.length = c.nodes.length ∧
              c1.numberOfStates = c.numberOfStates := by
          intro c2 hn2 h32 e1 e2 e3
          have hinv2 : CopyInv c2 seen :=
            copyInv_of_sameShape hinv1 ⟨e1, by simp [memberLists, e2]⟩
          have hs3 := store_sameShape hn2 h32 rfl
          have hinv3 := copyInv_of_sameShape hinv2 hs3
          obtain ⟨r1, r2, r3⟩ := copyStates_inv old.states c3 c.heap.length seen c4 seen4 hinv3 h4
          obtain ⟨q1, q2, q3⟩ := ih c4 seen4 c1 seen1 r1 h
          refine ⟨q1, ?_, ?_⟩
          · rw [q2, r2, hs3.1, e1]
          · rw [q3, r3, (store_shape h32).2.2.2.2.2, e3]
        by_cases ht : oldNode = o.top
        · rw [if_pos ht] at hn h3
          exact hs2 _ hn h3 rfl rfl rfl
        · rw [if_neg ht] at hn h3
          by_cases hb : oldNode = o.bottom
          · rw [if_pos hb] at hn h3
            exact hs2 _ hn h3 rfl rfl rfl
          · rw [if_neg hb] at hn h3
            exact hs2 _ hn h3 rfl rfl rfl
      · rw [if_neg hsb] at h
        exact ih c seen c1 seen1 hinv h
    · rw [if_neg hold] at h
      simp only [bind_eq_ok] at h
      obtain ⟨p, _, h⟩ := h
      split at h
      · cases h
      · exact ih c seen c1 seen1 hinv h

theorem copy_partition {o c : Order} {uninitTop uninitBottom : Ptr}
    (h : o.copy uninitTop uninitBottom = Except.ok c) :
    c.Partition ∧ c.nodes.length = c.numberOfStates := by
  simp only [copy, bind_eq_ok] at h
  obtain ⟨⟨c2, seen2⟩, h2, h⟩ := h
  simp only [pure_eq_ok, Except.ok.injEq] at h
  subst h
  have hinv0 : ∀ c1 : Order, c1.heap = [] → c1.nodes = List.replicate o.numberOfStates none →
      CopyInv c1 (BitVector.zeros o.numberOfStates) := by
    intro c1 e1 e2
    constructor
    · intro i p hi
      rw [e2] at hi
      have := List.getElem?_mem hi
      rw [List.mem_replicate] at this
      exact absurd this.2 (by simp)
    · intro p l j hl
      simp [memberLists, e1] at hl
  have key : ∀ c1 : Order,
      copyNodes o c1 (BitVector.zeros o.numberOfStates) (List.range o.numberOfStates)
        = Except.ok (c2, seen2) →
      c1.heap = [] → c1.nodes = List.replicate o.numberOfStates none →
      c1.numberOfStates = o.numberOfStates →
      c2.Partition ∧ c2.nodes.length = c2.numberOfStates := by
    intro c1 hc e1 e2 e3
    obtain ⟨r1, r2, r3⟩ := copyNodes_inv o _ c1 _ c2 seen2 (hinv0 c1 e1 e2) hc
    exact ⟨partition_of_copyInv r1, by rw [r2, r3, e2, e3, List.length_replicate]⟩
  by_cases ht : o.top = none
  · rw [if_pos ht] at h2
    exact key _ h2 rfl rfl rfl
  · rw [if_neg ht] at h2
    exact key _ h2 rfl rfl rfl

end Order

namespace BitVector

theorem setBits_append (l1 l2 : List Nat) (bits : Nat) :
    setBits bits (l1 ++ l2) = setBits (setBits bits l1) l2 := by
  induction l1 generalizing bits with
  | nil => rfl
  | cons i is ih => exact ih (bits ||| 2 ^ i)

theorem nodup_indices (b : BitVector) : b.indices.Nodup :=
  List.Nodup.filter _ (List.nodup_range b.size)

theorem disjoint_of_count {n : Nat} {T B : List Nat}
    (hcount : (BitVector.mk n (setBits 0 (T ++ B))).getNumberOfSetBits = T.length + B.length) :
    ∀ x ∈ T, x ∉ B := by
  intro x hxT hxB
  have hsub : (BitVector.mk n (setBits 0 (T ++ B))).indices ⊆ T ++ B.erase x := by
    intro j hj
    have hj2 := (mem_indices.mp hj).2
    simp only [testBit_setBits, Nat.zero_testBit, Bool.false_or, decide_eq_true_eq,
      List.mem_append] at hj2
    rw [List.mem_append]
    rcases hj2 with h | h
    · exact Or.inl h
    · by_cases hjx : j = x
      · subst hjx; exact Or.inl hxT
      · exact Or.inr ((List.mem_erase_of_ne hjx).mpr h)
  have hle := (List.subperm_of_subset (nodup_indices _) hsub).length_le
  rw [List.length_append, List.length_erase_of_mem hxB] at hle
  have hpos : 0 < B.length := List.length_pos_of_mem hxB
  unfold getNumberOfSetBits at hcount
  omega

end BitVector

namespace Order

theorem init_eq_ok {n : Nat} {d : List (List Nat)} {opt db : Bool} {o : Order}
    (h : init n d opt db = Except.ok o) :
    o.heap = [⟨[], BitVector.zeros n⟩, ⟨[], BitVector.zeros n⟩] ∧
      o.nodes = List.replicate n none ∧ o.top = some 0 ∧ o.bottom = some 1 ∧
      o.numberOfStates = n ∧ o.sufficientForState = BitVector.zeros n := by
  unfold init at h
  by_cases hd : d.length = 0
  · rw [if_pos hd] at h
    simp only [bind_eq_ok, pure_eq_ok, Except.ok.injEq] at h
    obtain ⟨tr, _, rfl⟩ := h
    exact ⟨rfl, rfl, rfl, rfl, rfl, rfl⟩
  · rw [if_neg hd] at h
    simp only [bind_eq_ok, pure_eq_ok, Except.ok.injEq] at h
    obtain ⟨tr, _, rfl⟩ := h
    exact ⟨rfl, rfl, rfl, rfl, rfl, rfl⟩

theorem copyInv_init {c : Order} {n : Nat} {seen : BitVector}
    (hh : c.heap = [⟨[], BitVector.zeros n⟩, ⟨[], BitVector.zeros n⟩])
    (hn : c.nodes = List.replicate n none) : CopyInv c seen := by
  constructor
  · intro i p hi
    rw [hn] at hi
    have := List.getElem?_mem hi
    rw [List.mem_replicate] at this
    exact absurd this.2 (by simp)
  · intro p l j hl hj
    obtain ⟨m, hm, rfl⟩ := memberLists_eq_some.mp hl
    rw [hh] at hm
    have hmem := List.getElem?_mem hm
    simp only [List.mem_cons, List.mem_singleton, or_self, List.not_mem_nil, or_false] at hmem
    subst hmem
    cases hj

/-- One state placed into a sentinel node. -/
theorem join_step {o o2 o3 : Order} {k i : Nat} {n : Node} (seen : BitVector)
    (hn : o.deref (some k) = Except.ok n)
    (h2 : o.store (some k) { n with states := setInsert i n.states } = Except.ok o2)
    (h3 : o2.setNodeAt i (some k) = Except.ok o3) :
    o3.top = o.top ∧ o3.bottom = o.bottom ∧ o3.numberOfStates = o.numberOfStates ∧
      o3.nodes.length = o.nodes.length ∧ o3.sufficientForState = o.sufficientForState ∧
      (¬ seen.bits.testBit i = true → CopyInv o seen →
        CopyInv o3 ⟨seen.size, seen.bits ||| 2 ^ i⟩) := by
  obtain ⟨k0, hk0, hnk⟩ := deref_eq_ok.mp hn
  cases hk0
  obtain ⟨k1, hk1, _, rfl⟩ := store_eq_ok.mp h2
  cases hk1
  obtain ⟨hlt, rfl⟩ := setNodeAt_eq_ok.mp h3
  refine ⟨rfl, rfl, rfl, by simp, rfl, ?_⟩
  intro hbit hinv
  exact copyInv_step hinv hbit hlt (memberLists_eq_some.mpr ⟨n, hnk, rfl⟩) rfl
    (by simp [memberLists, List.map_set])

end Order

namespace Order

theorem placeSentinelState_step {o o1 : Order} {p : Ptr} {i : Nat}
    (h : o.placeSentinelState p i = Except.ok o1) :
    i < o.sufficientForState.size ∧
      o1.sufficientForState
        = ⟨o.sufficientForState.size, o.sufficientForState.bits ||| 2 ^ i⟩ ∧
      o1.top = o.top ∧ o1.bottom = o.bottom ∧ o1.numberOfStates = o.numberOfStates ∧
      o1.nodes.length = o.nodes.length ∧
      (¬ o.sufficientForState.bits.testBit i = true → CopyInv o o.sufficientForState →
        CopyInv o1 o1.sufficientForState) := by
  unfold placeSentinelState at h
  simp only [bind_eq_ok] at h
  obtain ⟨suff, hs, done, _, n, hn, o2, h2, h3⟩ := h
  obtain ⟨hlt, rfl⟩ := BitVector.set_eq_ok.mp hs
  obtain ⟨k, rfl, _⟩ := deref_eq_ok.mp hn
  obtain ⟨e1, e2, e3, e4, e5, hstep⟩ :=
    join_step o.sufficientForState hn h2 h3
  refine ⟨hlt, e5, e1, e2, e3, e4, ?_⟩
  intro hbit hinv
  rw [e5]
  exact hstep hbit hinv

theorem placeTop_step {o o2 o3 o4 : Order} {i : Nat} {suff done sa : BitVector} {b t : Node}
    (hs : o.sufficientForState.set i = Except.ok suff)
    (hb : ({ o with sufficientForState := suff, doneForState := done } : Order).deref o.bottom
      = Except.ok b)
    (h2 : ({ o with sufficientForState := suff, doneForState := done } : Order).store o.bottom
      { b with statesAbove := sa } = Except.ok o2)
    (ht : o2.deref o2.top = Except.ok t)
    (h3 : o2.store o2.top { t with states := setInsert i t.states } = Except.ok o3)
    (h4 : o3.setNodeAt i o3.top = Except.ok o4) :
    i < o.sufficientForState.size ∧
      o4.sufficientForState
        = ⟨o.sufficientForState.size, o.sufficientForState.bits ||| 2 ^ i⟩ ∧
      o4.top = o.top ∧ o4.bottom = o.bottom ∧ o4.numberOfStates = o.numberOfStates ∧
      o4.nodes.length = o.nodes.length ∧
      (¬ o.sufficientForState.bits.testBit i = true → CopyInv o o.sufficientForState →
        CopyInv o4 o4.sufficientForState) := by
  obtain ⟨hlt, rfl⟩ := BitVector.set_eq_ok.mp hs
  have hshape := store_sameShape hb h2 rfl
  obtain ⟨kb1, _, _, e2⟩ := store_eq_ok.mp h2
  have f1 : o2.top = o.top := by rw [e2]
  have f2 : o2.bottom = o.bottom := by rw [e2]
  have f3 : o2.numberOfStates = o.numberOfStates := by rw [e2]
  have f4 : o2.sufficientForState
      = ⟨o.sufficientForState.size, o.sufficientForState.bits ||| 2 ^ i⟩ := by rw [e2]
  obtain ⟨kt, hkt, _⟩ := deref_eq_ok.mp ht
  have htop3 : o3.top = o2.top := by
    obtain ⟨k1, _, _, e3⟩ := store_eq_ok.mp h3
    rw [e3]
  rw [htop3] at h4
  rw [hkt] at ht h3 h4
  obtain ⟨e1, e2, e3, e4, e5, hstep⟩ :=
    join_step o.sufficientForState ht h3 h4
  refine ⟨hlt, e5.trans f4, e1.trans f1, e2.trans f2, e3.trans f3, ?_, ?_⟩
  · rw [e4, hshape.1]
  · intro hbit hinv
    rw [e5, f4]
    exact hstep hbit (copyInv_of_sameShape hinv hshape)

theorem testBit_step {bits i j : Nat} (hij : i ≠ j) (h : ¬ bits.testBit j = true) :
    ¬ (bits ||| 2 ^ i).testBit j = true := by
  simp only [Nat.testBit_or, Nat.testBit_two_pow, Bool.or_eq_true, decide_eq_true_eq]
  rintro (h1 | h1)
  · exact h h1
  · exact hij h1

theorem placeTopStates_spec (L : List Nat) :
    ∀ o o1 : Order, placeTopStates o L = Except.ok o1 →
      o1.sufficientForState
        = ⟨o.sufficientForState.size, BitVector.setBits o.sufficientForState.bits L⟩ ∧
      o1.top = o.top ∧ o1.bottom = o.bottom ∧ o1.numberOfStates = o.numberOfStates ∧
      o1.nodes.length = o.nodes.length ∧
      (L.Nodup → (∀ i ∈ L, ¬ o.sufficientForState.bits.testBit i = true) →
        CopyInv o o.sufficientForState → CopyInv o1 o1.sufficientForState) := by
  induction L with
  | nil =>
    intro o o1 h
    simp only [placeTopStates, Except.ok.injEq] at h
    subst h
    exact ⟨rfl, rfl, rfl, rfl, rfl, fun _ _ hinv => hinv⟩
  | cons i rest ih =>
    intro o o1 h
    simp only [placeTopStates, bind_eq_ok] at h
    obtain ⟨suff, hs, done, _, b, hb, sa, _, o2, h2, t, ht, o3, h3, o4, h4, h⟩ := h
    obtain ⟨_, e1, e2, e3, e4, e5, hstep⟩ := placeTop_step hs hb h2 ht h3 h4
    obtain ⟨r1, r2, r3, r4, r5, hrest⟩ := ih _ _ h
    refine ⟨?_, r2.trans e2, r3.trans e3, r4.trans e4, r5.trans e5, ?_⟩
    · rw [r1]
      show _ = BitVector.mk _ (BitVector.setBits (o.sufficientForState.bits ||| 2 ^ i) rest)
      show BitVector.mk o4.sufficientForState.size
        (BitVector.setBits o4.sufficientForState.bits rest) = _
      rw [e1]
    · intro hnd hbits hinv
      have hnd2 := List.nodup_cons.mp hnd
      apply hrest hnd2.2
      · intro j hj
        show ¬ o4.sufficientForState.bits.testBit j = true
        rw [e1]
        exact testBit_step (fun e => hnd2.1 (e ▸ hj)) (hbits j (List.mem_cons_of_mem _ hj))
      · exact hstep (hbits i (List.mem_cons_self _ _)) hinv

theorem placeBottomStates_spec (L : List Nat) :
    ∀ o o1 : Order, placeBottomStates o L = Except.ok o1 →
      o1.sufficientForState
        = ⟨o.sufficientForState.size, BitVector.setBits o.sufficientForState.bits L⟩ ∧
      o1.top = o.top ∧ o1.bottom = o.bottom ∧ o1.numberOfStates = o.numberOfStates ∧
      o1.nodes.length = o.nodes.length ∧
      (L.Nodup → (∀ i ∈ L, ¬ o.sufficientForState.bits.testBit i = true) →
        CopyInv o o.sufficientForState → CopyInv o1 o1.sufficientForState) := by
  induction L with
  | nil =>
    intro o o1 h
    simp only [placeBottomStates, Except.ok.injEq] at h
    subst h
    exact ⟨rfl, rfl, rfl, rfl, rfl, fun _ _ hinv => hinv⟩
  | cons i rest ih =>
    intro o o1 h
    simp only [placeBottomStates, bind_eq_ok] at h
    obtain ⟨o4, h4, h⟩ := h
    obtain ⟨_, e1, e2, e3, e4, e5, hstep⟩ := placeSentinelState_step h4
    obtain ⟨r1, r2, r3, r4, r5, hrest⟩ := ih _ _ h
    refine ⟨?_, r2.trans e2, r3.trans e3, r4.trans e4, r5.trans e5, ?_⟩
    · rw [r1]
      show _ = BitVector.mk _ (BitVector.setBits (o.sufficientForState.bits ||| 2 ^ i) rest)
      show BitVector.mk o4.sufficientForState.size
        (BitVector.setBits o4.sufficientForState.bits rest) = _
      rw [e1]
    · intro hnd hbits hinv
      have hnd2 := List.nodup_cons.mp hnd
      apply hrest hnd2.2
      · intro j hj
        show ¬ o4.sufficientForState.bits.testBit j = true
        rw [e1]
        exact testBit_step (fun e => hnd2.1 (e ▸ hj)) (hbits j (List.mem_cons_of_mem _ hj))
      · exact hstep (hbits i (List.mem_cons_self _ _)) hinv

end Order

namespace Order

theorem sameShape_updateDoneBuilding (o : Order) : SameShape o o.updateDoneBuilding :=
  ⟨by simp, by simp [memberLists]⟩

theorem ofStates_partition {topState bottomState numberOfStates : Nat}
    {decomposition : List (List Nat)} {statesSorted : List Nat} {isOptimistic doneBuilding : Bool}
    {o : Order}
    (h : ofStates topState bottomState numberOfStates decomposition statesSorted isOptimistic
      doneBuilding = Except.ok o) :
    o.Partition ∧ o.nodes.length = o.numberOfStates := by
  unfold ofStates at h
  simp only [bind_eq_ok] at h
  obtain ⟨o0, h0, suff, hs, done, _, bn, hb, sa, _, o3, h3, tn, ht, o4, h4, o5, h5, o6, h6, h⟩ := h
  obtain ⟨i1, i2, _, _, i5, i6⟩ := init_eq_ok h0
  obtain ⟨_, e1, _, _, e3, e4, hstep⟩ :=
    placeTop_step (o := { o0 with onlyInitialOrder := true }) hs hb h3 ht h4 h5
  obtain ⟨_, r1, _, _, r3, r4, hstep2⟩ := placeSentinelState_step h6
  split at h
  · cases h
  split at h
  · cases h
  rename_i _ hcount
  simp only [pure_eq_ok, Except.ok.injEq] at h
  subst h
  have hsuff6 : o6.sufficientForState
      = ⟨numberOfStates, BitVector.setBits 0 ([topState] ++ [bottomState])⟩ := by
    rw [r1, e1]
    show BitVector.mk o0.sufficientForState.size
      ((o0.sufficientForState.bits ||| 2 ^ topState) ||| 2 ^ bottomState) = _
    rw [i6]
    rfl
  have hcount2 : o6.sufficientForState.getNumberOfSetBits = 2 := not_not.mp hcount
  rw [hsuff6] at hcount2
  have hdis := BitVector.disjoint_of_count hcount2 topState (List.mem_singleton.mpr rfl)
  have hne : topState ≠ bottomState := fun e => hdis (List.mem_singleton.mpr e)
  have hinv0 : CopyInv ({ o0 with onlyInitialOrder := true } : Order) o0.sufficientForState :=
    copyInv_init i1 i2
  have hinv5 : CopyInv o5 o5.sufficientForState := by
    apply hstep _ hinv0
    show ¬ o0.sufficientForState.bits.testBit topState = true
    rw [i6]
    simp [BitVector.zeros]
  have hinv6 : CopyInv o6 o6.sufficientForState := by
    apply hstep2 _ hinv5
    rw [e1]
    show ¬ (o0.sufficientForState.bits ||| 2 ^ topState).testBit bottomState = true
    apply testBit_step hne
    rw [i6]
    simp [BitVector.zeros]
  constructor
  · refine partition_of_sameShape (partition_of_copyInv hinv6) ?_
    exact sameShape_trans
      (sameShape_updateDoneBuilding
        ({ o6 with numberOfAddedStates := 2, statesSorted := statesSorted } : Order)) ⟨rfl, rfl⟩
  · have hlen : o6.nodes.length = o6.numberOfStates := by
      rw [r4, e4, r3, e3]
      show o0.nodes.length = o0.numberOfStates
      rw [i2, i5, List.length_replicate]
    have h1 := (sameShape_updateDoneBuilding
      ({ o6 with numberOfAddedStates := 2, statesSorted := statesSorted } : Order)).1
    show (Order.updateDoneBuilding _).nodes.length = (Order.updateDoneBuilding _).numberOfStates
    rw [h1]
    simpa using hlen

end Order

namespace Order

theorem ofBitVectors_partition {topStates bottomStates : BitVector} {numberOfStates : Nat}
    {decomposition : List (List Nat)} {statesSorted : List Nat} {isOptimistic doneBuilding : Bool}
    {o : Order}
    (h : ofBitVectors topStates bottomStates numberOfStates decomposition statesSorted
      isOptimistic doneBuilding = Except.ok o) :
    o.Partition ∧ o.nodes.length = o.numberOfStates := by
  unfold ofBitVectors at h
  split at h
  · cases h
  have key : ∃ o2 o4 : Order,
      o2.sufficientForState = ⟨numberOfStates, BitVector.setBits 0 topStates.indices⟩ ∧
      o2.nodes.length = o2.numberOfStates ∧
      (CopyInv o2 o2.sufficientForState) ∧
      placeBottomStates { o2 with statesSorted := statesSorted } bottomStates.indices
        = Except.ok o4 ∧
      o4.sufficientForState.getNumberOfSetBits
        = topStates.getNumberOfSetBits + bottomStates.getNumberOfSetBits ∧
      o = { o4.updateDoneBuilding with changed := true } := by
    by_cases hempty : ¬ topStates.empty = true
    · simp only [bind_eq_ok] at h
      obtain ⟨o0, h0, h⟩ := h
      rw [if_pos hempty] at h
      simp only [bind_eq_ok] at h
      obtain ⟨o2, h2, o4, h4, h⟩ := h
      split at h
      · cases h
      split at h
      · cases h
      rename_i _ hcount
      simp only [pure_eq_ok, Except.ok.injEq] at h
      obtain ⟨i1, i2, _, _, i5, i6⟩ := init_eq_ok h0
      obtain ⟨r1, _, _, r4, r5, hinv⟩ := placeTopStates_spec _ _ _ h2
      refine ⟨o2, o4, ?_, ?_, ?_, h4, not_not.mp hcount, h.symm⟩
      · rw [r1]
        show BitVector.mk o0.sufficientForState.size
          (BitVector.setBits o0.sufficientForState.bits topStates.indices) = _
        rw [i6]
        rfl
      · rw [r5, r4]
        show o0.nodes.length = o0.numberOfStates
        rw [i2, i5, List.length_replicate]
      · apply hinv (BitVector.nodup_indices _)
        · intro i _
          show ¬ o0.sufficientForState.bits.testBit i = true
          rw [i6]
          simp [BitVector.zeros]
        · exact copyInv_init (c := { o0 with numberOfAddedStates := 0, onlyInitialOrder := true })
            i1 i2
    · simp only [bind_eq_ok] at h
      obtain ⟨o0, h0, h⟩ := h
      rw [if_neg hempty] at h
      simp only [bind_eq_ok, pure_eq_ok, Except.ok.injEq] at h
      obtain ⟨o2, h2, o4, h4, h⟩ := h
      subst h2
      split at h
      · cases h
      split at h
      · cases h
      rename_i _ hcount
      simp only [pure_eq_ok, Except.ok.injEq] at h
      obtain ⟨i1, i2, _, _, i5, i6⟩ := init_eq_ok h0
      have hnil : topStates.indices = [] := by
        have := not_not.mp hempty
        unfold BitVector.empty at this
        exact List.isEmpty_iff.mp this
      refine ⟨_, o4, ?_, ?_, ?_, h4, not_not.mp hcount, h.symm⟩
      · show o0.sufficientForState = _
        rw [i6, hnil]
        rfl
      · show o0.nodes.length = o0.numberOfStates
        rw [i2, i5, List.length_replicate]
      · exact copyInv_init
          (c := { o0 with numberOfAddedStates := 0, onlyInitialOrder := true, top := none })
          i1 i2
  obtain ⟨o2, o4, hsuff2, hlen2, hinv2, h4, hcount, rfl⟩ := key
  obtain ⟨r1, _, _, r4, r5, hinv⟩ := placeBottomStates_spec _ _ _ h4
  have hsuff4 : o4.sufficientForState
      = ⟨numberOfStates, BitVector.setBits 0 (topStates.indices ++ bottomStates.indices)⟩ := by
    rw [r1, BitVector.setBits_append]
    show BitVector.mk o2.sufficientForState.size
      (BitVector.setBits o2.sufficientForState.bits bottomStates.indices) = _
    rw [hsuff2]
  rw [hsuff4] at hcount
  have hdis := BitVector.disjoint_of_count hcount
  have hinv4 : CopyInv o4 o4.sufficientForState := by
    apply hinv (BitVector.nodup_indices _)
    · intro i hi
      show ¬ o2.sufficientForState.bits.testBit i = true
      rw [hsuff2]
      simp only [BitVector.testBit_setBits, Nat.zero_testBit, Bool.false_or, decide_eq_true_eq]
      exact fun hT => hdis i hT hi
    · exact hinv2
  constructor
  · exact partition_of_sameShape (partition_of_copyInv hinv4)
      (sameShape_trans (sameShape_updateDoneBuilding o4) ⟨rfl, rfl⟩)
  · show (Order.updateDoneBuilding o4).nodes.length = (Order.updateDoneBuilding o4).numberOfStates
    rw [(sameShape_updateDoneBuilding o4).1, numberOfStates_updateDoneBuilding, r5, r4]
    exact hlen2

end Order

namespace Order

theorem reachable_partition {o : Order} (h : Reachable o) :
    o.Partition ∧ o.nodes.length = o.numberOfStates := by
  induction h with
  | ofBitVectors h => exact ofBitVectors_partition h
  | ofStates h => exact ofStates_partition h
  | call _ ha h ih => exact run_partition ih.1 ih.2 ha h
  | copy _ h _ => exact copy_partition h

theorem mapped_allocated {o : Order} (ha : o.Anchored) {k : Nat} (hk : o.IsMapped k) :
    ∃ n, o.heap[k]? = some n := by
  obtain ⟨s, hs⟩ := List.mem_iff_getElem?.mp hk
  obtain ⟨l, hl, _⟩ := anchored_iff_lists.mp ha s k hs
  obtain ⟨n, hn, _⟩ := memberLists_eq_some.mp hl
  exact ⟨n, hn⟩

theorem partition_spec {o : Order} (hp : o.Partition) (hlen : o.nodes.length = o.numberOfStates) :
    (∀ k : Nat, o.IsMapped k → ∃ n, o.heap[k]? = some n) ∧
    (∀ (s k : Nat) (n : Node), o.IsMapped k → o.heap[k]? = some n →
      (o.getNode s = Except.ok (some k) ↔ s ∈ n.states)) ∧
    (∀ (s k1 k2 : Nat) (n1 n2 : Node), o.IsMapped k1 → o.IsMapped k2 →
      o.heap[k1]? = some n1 → o.heap[k2]? = some n2 → s ∈ n1.states → s ∈ n2.states →
      k1 = k2) := by
  have ha := anchored_iff.mp hp.1
  have he := exclusive_iff.mp hp.2
  refine ⟨fun k hk => mapped_allocated hp.1 hk, ?_, ?_⟩
  · intro s k n hk hn
    constructor
    · intro hg
      obtain ⟨n1, hn1, hm⟩ := ha s k (getNode_eq_ok.mp hg).2
      rw [hn] at hn1
      cases hn1
      exact hm
    · intro hm
      exact getNode_of_nodes hlen (he k n s hk hn hm)
  · intro s k1 k2 n1 n2 hk1 hk2 hn1 hn2 hm1 hm2
    have h1 := he k1 n1 s hk1 hn1 hm1
    have h2 := he k2 n2 s hk2 hn2 hm2
    rw [h1] at h2
    simpa using h2

/-- C16 (amended): in every order that arises from a constructor by `add`, `addAbove`,
`addBelow`, `addBetween` (both overloads), `addRelation`, `merge`, `copy` and by `addToNode`
called with a node that some state is mapped to, every node `N` in the image of the
state-to-node mapping is allocated, `getNode(s) == N` holds exactly for the members `s` of `N`,
and no state is a member of two different mapped nodes. -/
theorem partition_invariant {o : Order} (h : Reachable o) :
    (∀ k : Nat, o.IsMapped k → ∃ n, o.heap[k]? = some n) ∧
    (∀ (s k : Nat) (n : Node), o.IsMapped k → o.heap[k]? = some n →
      (o.getNode s = Except.ok (some k) ↔ s ∈ n.states)) ∧
    (∀ (s k1 k2 : Nat) (n1 n2 : Node), o.IsMapped k1 → o.IsMapped k2 →
      o.heap[k1]? = some n1 → o.heap[k2]? = some n2 → s ∈ n1.states → s ∈ n2.states →
      k1 = k2) :=
  partition_spec (reachable_partition h).1 (reachable_partition h).2

end Order

/-- C16 (counterexample): the order built by `Order(0, 1, 4, ...)`, `add(2)`, `merge(2, 0)`
and `addToNode(3, getTop())`.  The old top node, at address 0, is in the image of the mapping
(state 3 is mapped to it) and has the member 0, but `getNode(0)` is the node at address 2; state
0 is a member of both mapped nodes. -/
theorem partition_invariant_counterexample :
    Order.sampleTopReused = Except.ok (Order.returned Order.sampleTopReused) ∧
    (Order.returned Order.sampleTopReused).getNode 3 = Except.ok (some 0) ∧
    ((Order.returned Order.sampleTopReused).heap[0]?).map (fun n => n.states) = some [0, 3] ∧
    (Order.returned Order.sampleTopReused).getNode 0 = Except.ok (some 2) ∧
    ((Order.returned Order.sampleTopReused).heap[2]?).map (fun n => n.states) = some [0, 2] ∧
    ¬ (Order.returned Order.sampleTopReused).Partition := by
  decide

/-- C16 (witness): the order of the second constructor after `add(2)`, `merge(2, 0)`,
`addToNode(3, getNode(2))` and `copy` is reachable by admissible calls, so the invariant holds
of it. -/
theorem partition_invariant_witness :
    Order.Reachable (Order.returned Order.sampleJoinedCopy) ∧
    (∀ k : Nat, (Order.returned Order.sampleJoinedCopy).IsMapped k →
      ∃ n, (Order.returned Order.sampleJoinedCopy).heap[k]? = some n) ∧
    (∀ (s k : Nat) (n : Node), (Order.returned Order.sampleJoinedCopy).IsMapped k →
      (Order.returned Order.sampleJoinedCopy).heap[k]? = some n →
      ((Order.returned Order.sampleJoinedCopy).getNode s = Except.ok (some k) ↔ s ∈ n.states)) ∧
    (∀ (s k1 k2 : Nat) (n1 n2 : Node), (Order.returned Order.sampleJoinedCopy).IsMapped k1 →
      (Order.returned Order.sampleJoinedCopy).IsMapped k2 →
      (Order.returned Order.sampleJoinedCopy).heap[k1]? = some n1 →
      (Order.returned Order.sampleJoinedCopy).heap[k2]? = some n2 →
      s ∈ n1.states → s ∈ n2.states → k1 = k2) :=
  (fun hr => ⟨hr, Order.partition_invariant hr⟩)
    (Order.Reachable.copy
      (Order.Reachable.call (c := Order.Call.addToNode 3 (some 2))
        (Order.Reachable.call (c := Order.Call.merge 2 0)
          (Order.Reachable.call (c := Order.Call.add 2)
            (Order.Reachable.ofStates
              (by decide : Order.ofStates 0 1 4 [] [] true false
                = Except.ok (Order.returned (Order.ofStates 0 1 4 [] [] true false))))
            trivial
            (by decide : (Order.returned (Order.ofStates 0 1 4 [] [] true false)).run (Order.Call.add 2)
              = Except.ok (Order.returned Order.sampleBase)))
          trivial
          (by decide : (Order.returned Order.sampleBase).run (Order.Call.merge 2 0)
            = Except.ok (Order.returned Order.sampleMerged)))
        ⟨2, rfl, by unfold Order.IsMapped; decide⟩
        (by decide : (Order.returned Order.sampleMerged).run (Order.Call.addToNode 3 (some 2))
          = Except.ok (Order.returned Order.sampleJoined)))
      (by decide : (Order.returned Order.sampleJoined).copy none none
        = Except.ok (Order.returned Order.sampleJoinedCopy)))

/-! ## The meaning of `statesAbove` -/

namespace Order

/-- C21 (amended): in a valid order with the partition invariant, let `N` be a mapped node, and
`s` a mapped state outside `N` whose bit is set in `N.statesAbove`.  Then `s` is above `N`:
`compareFast(s, n) == ABOVE` for every member `n` of `N`.  The converse comparison
`compareFast(n, s)` is BELOW whenever `N` is not the top node, the node of `s` is not the bottom
node and no member of `N` has its bit in the `statesAbove` of the node of `s`. -/
theorem statesAbove_meaning (o : Order) (s ks k : Nat) (N : Node)
    (hv : o.Valid) (hp : o.Partition)
    (hs : o.getNode s = Except.ok (some ks))
    (hk : o.IsMapped k) (hN : o.heap[k]? = some N)
    (hout : s ∉ N.states)
    (hbit : N.statesAbove.bits.testBit s = true) :
    ∀ n ∈ N.states, o.compareFast s n UNKNOWN = Except.ok ABOVE ∧
      (some k ≠ o.top → some ks ≠ o.bottom → o.aboveFastP k ks = false →
        o.compareFast n s UNKNOWN = Except.ok BELOW) := by
  intro n hn
  have hnk : o.getNode n = Except.ok (some k) :=
    getNode_of_nodes hv.1 (exclusive_iff.mp hp.2 k N n hk hN hn)
  obtain ⟨ns, hns, hsm⟩ := anchored_iff.mp hp.1 s ks (getNode_eq_ok.mp hs).2
  have hne : ks ≠ k := by
    rintro rfl
    rw [hN] at hns
    cases hns
    exact hout hsm
  have habove : o.aboveFastP ks k = true := aboveFastP_of_mem hns hN hsm hbit
  constructor
  · simp only [compareFast, hs, hnk, ok_bind]
    rw [compareFastNodes_of_valid hv hns hN hne]
    simp [fastAboveP, habove]
  · intro htop hbot hno
    simp only [compareFast, hs, hnk, ok_bind]
    rw [compareFastNodes_of_valid hv hN hns (fun e => hne e.symm)]
    simp [fastAboveP, habove, hno, htop, hbot]

end Order

/-- C21 (counterexample): in the sample chain state 2 is recorded above state 4, so bit 2 is set
in the `statesAbove` of the node of state 4, a mapped node that is neither top nor bottom; state
2 is mapped and outside that node.  `compareFast(4, 2)` is BELOW, not ABOVE, and
`compareFast(2, 4)` is ABOVE. -/
theorem statesAbove_meaning_counterexample :
    (Order.returned Order.sampleChain).getNode 4 = Except.ok (some 4) ∧
    (Order.returned Order.sampleChain).getNode 2 = Except.ok (some 2) ∧
    (((Order.returned Order.sampleChain).heap[4]?).map
      (fun n => (n.states, n.statesAbove.bits.testBit 2))) = some ([4], true) ∧
    (Order.returned Order.sampleChain).top = some 0 ∧
    (Order.returned Order.sampleChain).bottom = some 1 ∧
    (Order.returned Order.sampleChain).compareFast 4 2 UNKNOWN = Except.ok BELOW ∧
    (Order.returned Order.sampleChain).compareFast 2 4 UNKNOWN = Except.ok ABOVE := by
  decide

/-- C21 (witness): the amended statement for the node of state 4 of the sample chain and the
state 2 above it, at the member 4 of that node. -/
theorem statesAbove_meaning_witness :
    (Order.returned Order.sampleChain).compareFast 2 4 UNKNOWN = Except.ok ABOVE ∧
    (some 4 ≠ (Order.returned Order.sampleChain).top →
      some 2 ≠ (Order.returned Order.sampleChain).bottom →
      (Order.returned Order.sampleChain).aboveFastP 4 2 = false →
      (Order.returned Order.sampleChain).compareFast 4 2 UNKNOWN = Except.ok BELOW) :=
  Order.statesAbove_meaning (Order.returned Order.sampleChain) 2 2 4 ⟨[4], ⟨5, 5⟩⟩
    (by decide) (by decide) (by decide) (by unfold Order.IsMapped; decide) (by decide)
    (by decide) (by decide) 4 (by decide)

/-! ## The selection of an action -/

/-- C26 (divergence): minimising, for state 2 of the order with top state 0 and bottom state 1 the
successors sort into `[0, 1]`.  Action 0 goes to the lower state 1 with weight 9 and action 1 with
weight 1, and `isFunctionGreaterEqual(1, 9)` is false; nevertheless `findBestAction` returns true
and assigns action 1.  The loop reads the row `getRow(getRowGroupIndices()[state])` of action 0 in
both iterations, so `bestFunc` is 9 both times and the last action is kept. -/
theorem findBestAction_min_diverges :
    (Order.returned (Order.ofStates 0 1 3 [] [] true false)).sortStates UNKNOWN
        (ReachabilityOrderExtender.sampleMdpMin.getSuccessors 2
          (Order.returned (Order.ofStates 0 1 3 [] [] true false)))
      = Except.ok ([0, 1], Order.returned (Order.ofStates 0 1 3 [] [] true false)) ∧
    ReachabilityOrderExtender.sampleMdpMin.getRowGroupSize 2 = 2 ∧
    ReachabilityOrderExtender.sampleMdpMin.getRow
        (ReachabilityOrderExtender.sampleMdpMin.getRowGroupIndices 2 + 0) = [(0, 1), (1, 9)] ∧
    ReachabilityOrderExtender.sampleMdpMin.getRow
        (ReachabilityOrderExtender.sampleMdpMin.getRowGroupIndices 2 + 1) = [(0, 9), (1, 1)] ∧
    ReachabilityOrderExtender.sampleMdpMin.isFunctionGreaterEqual 1 9 () = false ∧
    ReachabilityOrderExtender.sampleMdpMin.bestOfTwoLoop () 2 1 [0, 1] none 4
      = Except.ok (some 9, 1) ∧
    (ReachabilityOrderExtender.sampleMdpMin.findBestAction UNKNOWN
        (Order.returned (Order.ofStates 0 1 3 [] [] true false)) () 2).map
      (fun r => (r.1, r.2.getActionAtState 2)) = Except.ok (true, Except.ok 1) := by
  decide

/-- C27 (divergence): maximising, for state 3 of the sample base order the successors sort into
`[0, 2, 1]`.  Action 2 is reported GEQ against the actions 0 and 1, neither of them is GEQ
against action 2, and `simpleActionCheck` fails; nevertheless the elimination ends with the
candidates 1 and 2, and `findBestAction` stops at `assert(false)` instead of assigning action 2.
When action 2 erases the candidate 0, the loop index moves on and the candidate 1, which has
taken the place of 0, is never compared with action 2. -/
theorem findBestAction_max_diverges :
    (Order.returned Order.sampleBase).sortStates UNKNOWN
        (ReachabilityOrderExtender.sampleMdpMax.getSuccessors 3 (Order.returned Order.sampleBase))
      = Except.ok ([0, 2, 1], Order.returned Order.sampleBase) ∧
    ReachabilityOrderExtender.sampleMdpMax.getRowGroupSize 3 = 3 ∧
    (ReachabilityOrderExtender.sampleMdpMax.actionSMTCompare UNKNOWN
        (Order.returned Order.sampleBase) [0, 2, 1] ()
        (ReachabilityOrderExtender.sampleMdpMax.getRow 5)
        (ReachabilityOrderExtender.sampleMdpMax.getRow 3)).map Prod.fst
      = Except.ok ActionComparison.GEQ ∧
    (ReachabilityOrderExtender.sampleMdpMax.actionSMTCompare UNKNOWN
        (Order.returned Order.sampleBase) [0, 2, 1] ()
        (ReachabilityOrderExtender.sampleMdpMax.getRow 5)
        (ReachabilityOrderExtender.sampleMdpMax.getRow 4)).map Prod.fst
      = Except.ok ActionComparison.GEQ ∧
    (ReachabilityOrderExtender.sampleMdpMax.actionSMTCompare UNKNOWN
        (Order.returned Order.sampleBase) [0, 2, 1] ()
        (ReachabilityOrderExtender.sampleMdpMax.getRow 3)
        (ReachabilityOrderExtender.sampleMdpMax.getRow 5)).map Prod.fst
      = Except.ok ActionComparison.LEQ ∧
    (ReachabilityOrderExtender.sampleMdpMax.actionSMTCompare UNKNOWN
        (Order.returned Order.sampleBase) [0, 2, 1] ()
        (ReachabilityOrderExtender.sampleMdpMax.getRow 4)
        (ReachabilityOrderExtender.sampleMdpMax.getRow 5)).map Prod.fst
      = Except.ok ActionComparison.LEQ ∧
    ReachabilityOrderExtender.sampleMdpMax.simpleActionCheck 3 [0, 2, 1]
      = Except.ok (false, 0) ∧
    (ReachabilityOrderExtender.sampleMdpMax.eliminateCandidates UNKNOWN [0, 2, 1] () 3
        ActionComparison.GEQ ActionComparison.LEQ [0, 1, 2] []
        (Order.returned Order.sampleBase)).map Prod.fst = Except.ok [1, 2] ∧
    (ReachabilityOrderExtender.sampleMdpMax.findBestAction UNKNOWN
        (Order.returned Order.sampleBase) () 3).map Prod.fst
      = Except.error Fault.assertion := by
  decide

/-- C29 (divergence): for state 3 of the interleaved sample and the ordered successors
`[0, 2, 1]`, `simpleActionCheck` returns `(true, 0)`.  The hit set of action 0 holds the positions
0 and 2, that of action 1 the position 1: position 2, which action 0 can reach, is not smaller
than position 1, which action 1 can reach.  The check only finds that action 0 alone reaches
position 0 and that the two hit sets have no position in common. -/
theorem simpleActionCheck_not_dominance :
    ReachabilityOrderExtender.sampleMdpInterleaved.stateMap[3]? = some [[0, 1], [2]] ∧
    ReachabilityOrderExtender.sampleMdpInterleaved.simpleActionCheck 3 [0, 2, 1]
      = Except.ok (true, 0) ∧
    (ReachabilityOrderExtender.sampleMdpInterleaved.getHitSuccs 3 0 [0, 2, 1]).map
      (fun b => b.indices) = Except.ok [0, 2] ∧
    (ReachabilityOrderExtender.sampleMdpInterleaved.getHitSuccs 3 1 [0, 2, 1]).map
      (fun b => b.indices) = Except.ok [1] ∧
    ¬ (2 < 1) := by
  decide

namespace ReachabilityOrderExtender

variable {V R : Type}

theorem hitPositions_spec (succ : Nat) (orderedSuccs : List Nat) :
    ∀ (L : List Nat) (res : BitVector), (∀ i ∈ L, i < res.size) →
      ∃ r, hitPositions succ orderedSuccs res L = Except.ok r ∧ r.size = res.size ∧
        ∀ j, r.bits.testBit j
          = (res.bits.testBit j || decide (j ∈ L ∧ orderedSuccs[j]? = some succ)) := by
  intro L
  induction L with
  | nil =>
    intro res _
    exact ⟨res, rfl, rfl, fun j => by simp⟩
  | cons i rest ih =>
    intro res hL
    have hi := hL i (List.mem_cons_self _ _)
    have hrest : ∀ j ∈ rest, j < res.size := fun j hj => hL j (List.mem_cons_of_mem _ hj)
    unfold hitPositions
    by_cases hhit : orderedSuccs[i]? = some succ
    · rw [if_pos hhit, BitVector.set_of_lt hi, ok_bind]
      obtain ⟨r, hr, hsz, hbits⟩ := ih ⟨res.size, res.bits ||| 2 ^ i⟩ hrest
      refine ⟨r, hr, hsz, ?_⟩
      intro j
      rw [hbits j]
      simp only [Nat.testBit_or, Nat.testBit_two_pow, List.mem_cons]
      by_cases hij : i = j
      · subst hij
        simp [hhit]
      · have hji : ¬ j = i := fun e => hij e.symm
        simp [hij, hji]
    · rw [if_neg hhit]
      obtain ⟨r, hr, hsz, hbits⟩ := ih res hrest
      refine ⟨r, hr, hsz, ?_⟩
      intro j
      rw [hbits j]
      simp only [List.mem_cons]
      by_cases hij : j = i
      · subst hij
        simp [hhit]
      · simp [hij]

theorem hitFold_spec (orderedSuccs : List Nat) :
    ∀ (succs : List Nat) (res : BitVector), res.size = orderedSuccs.length →
      ∃ r,
        succs.foldlM
          (fun (res : BitVector) (succ : Nat) =>
            hitPositions succ orderedSuccs res (List.range orderedSuccs.length)) res
          = Except.ok r ∧
        r.size = orderedSuccs.length ∧
        ∀ j, r.bits.testBit j
          = (res.bits.testBit j || decide (∃ s ∈ succs, orderedSuccs[j]? = some s)) := by
  intro succs
  induction succs with
  | nil =>
    intro res hsz
    exact ⟨res, rfl, hsz, fun j => by simp⟩
  | cons succ rest ih =>
    intro res hsz
    obtain ⟨r1, hr1, hsz1, hbits1⟩ :=
      hitPositions_spec succ orderedSuccs (List.range orderedSuccs.length) res
        (fun i hi => by rw [hsz]; exact List.mem_range.mp hi)
    obtain ⟨r, hr, hszr, hbits⟩ := ih r1 (hsz1.trans hsz)
    refine ⟨r, ?_, hszr, ?_⟩
    · rw [List.foldlM_cons, hr1]
      exact hr
    · intro j
      rw [hbits j, hbits1 j]
      have hlt : orderedSuccs[j]? = some succ → j < orderedSuccs.length := fun h =>
        (List.getElem?_eq_some_iff.mp h).1
      by_cases h1 : orderedSuccs[j]? = some succ
      · simp [h1, hlt h1]
      · simp [h1]

theorem getHitSuccs_spec (ext : ReachabilityOrderExtender V R) {state action : Nat}
    {actions : List (List Nat)} {succs : List Nat} (orderedSuccs : List Nat)
    (hmap : ext.stateMap[state]? = some actions) (hact : actions[action]? = some succs) :
    ∃ r, ext.getHitSuccs state action orderedSuccs = Except.ok r ∧
      r.size = orderedSuccs.length ∧
      ∀ j, r.bits.testBit j = true ↔ ∃ s ∈ succs, orderedSuccs[j]? = some s := by
  obtain ⟨r, hr, hsz, hbits⟩ :=
    hitFold_spec orderedSuccs succs (BitVector.zeros orderedSuccs.length) rfl
  refine ⟨r, ?_, hsz, ?_⟩
  · simp only [getHitSuccs, hmap, hact, ok_bind]
    exact hr
  · intro j
    rw [hbits j]
    simp [BitVector.zeros]

end ReachabilityOrderExtender

namespace BitVector

theorem empty_eq_false {b : BitVector} {p : Nat} (hp : p < b.size)
    (hbit : b.bits.testBit p = true) : b.empty = false := by
  have hmem : p ∈ b.indices := mem_indices.mpr ⟨hp, hbit⟩
  unfold empty
  cases h : b.indices with
  | nil => rw [h] at hmem; cases hmem
  | cons x xs => rfl

end BitVector

namespace ReachabilityOrderExtender

variable {V R : Type}

/-- The outcome of `simpleActionCheck` for a state with two actions whose hit sets `h0` and
`h1` have the position `p` in common, when position 0 is hit by one of them. -/
theorem simpleActionCheck_two (ext : ReachabilityOrderExtender V R) {state : Nat}
    {orderedSuccs a0 a1 : List Nat} {h0 h1 : BitVector} {p : Nat}
    (hmap : ext.stateMap[state]? = some [a0, a1])
    (hh0 : ext.getHitSuccs state 0 orderedSuccs = Except.ok h0)
    (hh1 : ext.getHitSuccs state 1 orderedSuccs = Except.ok h1)
    (hs0 : h0.size = orderedSuccs.length) (hs1 : h1.size = orderedSuccs.length)
    (hp : p < orderedSuccs.length)
    (hb0 : h0.bits.testBit p = true) (hb1 : h1.bits.testBit p = true)
    (hfirst : h0.bits.testBit 0 = true ∨ h1.bits.testBit 0 = true) :
    ext.simpleActionCheck state orderedSuccs = Except.ok (false, 0) := by
  have hpos : 0 < orderedSuccs.length := by omega
  have hg0 : h0.get 0 = Except.ok (h0.bits.testBit 0) := BitVector.get_of_lt (by omega)
  have hg1 : h1.get 0 = Except.ok (h1.bits.testBit 0) := BitVector.get_of_lt (by omega)
  have hrange : List.range 2 = [0, 1] := rfl
  have hand : ∀ x y : BitVector, x.size = orderedSuccs.length → y.size = orderedSuccs.length →
      x.bits.testBit p = true → y.bits.testBit p = true →
      (BitVector.mk orderedSuccs.length (x.bits &&& y.bits)).empty = false := by
    intro x y _ _ hxp hyp
    exact BitVector.empty_eq_false (p := p) hp (by simp [Nat.testBit_and, hxp, hyp])
  cases e0 : h0.bits.testBit 0 <;> cases e1 : h1.bits.testBit 0
  · rw [e0, e1] at hfirst
    simp at hfirst
  · simp [simpleActionCheck, hmap, hrange, hitTable, hh0, hh1, hg0, hg1, e0, e1, otherHits,
      BitVector.orAssign, BitVector.zeros, BitVector.andWith, hs0, hs1]
    exact hand h1 h0 hs1 hs0 hb1 hb0
  · simp [simpleActionCheck, hmap, hrange, hitTable, hh0, hh1, hg0, hg1, e0, e1, otherHits,
      BitVector.orAssign, BitVector.zeros, BitVector.andWith, hs0, hs1]
    exact hand h0 h1 hs0 hs1 hb0 hb1
  · simp [simpleActionCheck, hmap, hrange, hitTable, hh0, hh1, hg0, hg1, e0, e1]

/-- C28: for a state with exactly two enabled actions and a list `orderedSuccs` whose first
element is a successor of one of them (as it is when the list orders the union of their
successors): if the hit sets that `getHitSuccs` computes for the two actions have a position in
common, `simpleActionCheck(state, orderedSuccs)` returns `(false, 0)`. -/
theorem simpleActionCheck_overlap (ext : ReachabilityOrderExtender V R) (state : Nat)
    (orderedSuccs a0 a1 : List Nat) (h0 h1 : BitVector) (p : Nat)
    (hmap : ext.stateMap[state]? = some [a0, a1])
    (hunion : ∀ s ∈ orderedSuccs, s ∈ a0 ∨ s ∈ a1)
    (hh0 : ext.getHitSuccs state 0 orderedSuccs = Except.ok h0)
    (hh1 : ext.getHitSuccs state 1 orderedSuccs = Except.ok h1)
    (hb0 : h0.bits.testBit p = true) (hb1 : h1.bits.testBit p = true) :
    ext.simpleActionCheck state orderedSuccs = Except.ok (false, 0) := by
  obtain ⟨r0, hr0, hs0, hbits0⟩ := getHitSuccs_spec ext orderedSuccs hmap
    (show [a0, a1][0]? = some a0 from rfl)
  obtain ⟨r1, hr1, hs1, hbits1⟩ := getHitSuccs_spec ext orderedSuccs hmap
    (show [a0, a1][1]? = some a1 from rfl)
  rw [hh0] at hr0
  rw [hh1] at hr1
  cases hr0
  cases hr1
  obtain ⟨s, _, hps⟩ := (hbits0 p).mp hb0
  have hp : p < orderedSuccs.length := (List.getElem?_eq_some_iff.mp hps).1
  have hpos : 0 < orderedSuccs.length := by omega
  have hfirst : h0.bits.testBit 0 = true ∨ h1.bits.testBit 0 = true := by
    have h0mem : orderedSuccs[0] ∈ orderedSuccs := List.getElem_mem hpos
    rcases hunion _ h0mem with h | h
    · exact Or.inl ((hbits0 0).mpr ⟨_, h, List.getElem?_eq_getElem hpos⟩)
    · exact Or.inr ((hbits1 0).mpr ⟨_, h, List.getElem?_eq_getElem hpos⟩)
  exact simpleActionCheck_two ext hmap hh0 hh1 hs0 hs1 hp hb0 hb1 hfirst

end ReachabilityOrderExtender

/-- C28 (witness): state 3 of the undecided sample has two actions with the successors `[0, 1]`
and `[0, 2]`; for the ordered successors `[0, 2, 1]` both hit sets hold position 0. -/
theorem simpleActionCheck_overlap_witness :
    (ReachabilityOrderExtender.sampleMdpUndecided true).stateMap[3]? = some [[0, 1], [0, 2]] ∧
    (ReachabilityOrderExtender.sampleMdpUndecided true).getHitSuccs 3 0 [0, 2, 1]
      = Except.ok ⟨3, 5⟩ ∧
    (ReachabilityOrderExtender.sampleMdpUndecided true).getHitSuccs 3 1 [0, 2, 1]
      = Except.ok ⟨3, 3⟩ ∧
    (ReachabilityOrderExtender.sampleMdpUndecided true).simpleActionCheck 3 [0, 2, 1]
      = Except.ok (false, 0) :=
  ⟨by decide, by decide, by decide,
    ReachabilityOrderExtender.simpleActionCheck_overlap
      (ReachabilityOrderExtender.sampleMdpUndecided true) 3 [0, 2, 1] [0, 1] [0, 2] ⟨3, 5⟩ ⟨3, 3⟩ 0
      (by decide) (by decide) (by decide) (by decide) (by decide) (by decide)⟩

namespace Order

theorem uint64Max_pos : 0 ≠ uint64Max := by
  unfold uint64Max
  exact Nat.ne_of_lt (Nat.sub_pos_of_lt (Nat.one_lt_two_pow (by decide)))

theorem isTopState_total {o : Order} (hv : o.Valid) (state : Nat) :
    ∃ b, o.isTopState state = Except.ok b := by
  unfold isTopState
  by_cases ht : o.top = none
  · exact ⟨false, by rw [if_pos ht]⟩
  · rw [if_neg ht]
    obtain ⟨k, hk⟩ := Option.ne_none_iff_exists'.mp ht
    have hlt : k < o.heap.length := hv.2.2.1 k (by rw [hk]; rfl)
    obtain ⟨n, hn⟩ : ∃ n, o.heap[k]? = some n := ⟨_, List.getElem?_eq_getElem hlt⟩
    refine ⟨decide (state ∈ n.states), ?_⟩
    rw [hk, deref_some hn, ok_bind]
    rfl

theorem addToMdpScheduler_spec {o : Order} {state : Nat} (action : Nat)
    (hsched : ∀ v, o.mdpScheduler = some v → v.length = o.numberOfStates)
    (hs : state < o.numberOfStates) :
    ∃ v o1, o.addToMdpScheduler state action = Except.ok o1 ∧
      o1 = { o with mdpScheduler := some v } ∧ v.length = o.numberOfStates ∧
      v[state]? = some action ∧
      (∀ w, o.mdpScheduler = some w → ∀ x, x ≠ state → v[x]? = w[x]?) := by
  unfold addToMdpScheduler
  cases hm : o.mdpScheduler with
  | none =>
    simp only [List.length_replicate, hs, if_true]
    refine ⟨_, _, rfl, rfl, by simp, by simp [hs], ?_⟩
    intro w hw
    cases hw
  | some w =>
    have hl := hsched w hm
    simp only [hl, hs, if_true]
    refine ⟨_, _, rfl, rfl, by simp [hl], by simp [hl, hs], ?_⟩
    intro w1 hw1 x hx
    cases hw1
    rw [List.getElem?_set_ne (fun e => hx e.symm)]

theorem scheduler_after_set {o : Order} {v : List Nat} {state action : Nat}
    (hm : o.mdpScheduler = some v) (hv : v[state]? = some action) (ha : action ≠ uint64Max) :
    o.isActionSetAtState state = true ∧ o.getActionAtState state = Except.ok action := by
  have hlt : state < v.length := (List.getElem?_eq_some_iff.mp hv).1
  constructor
  · simp [isActionSetAtState, hm, hv, ha, Nat.not_le.mpr hlt]
  · simp [getActionAtState, hm, hv, hlt]

end Order

namespace ReachabilityOrderExtender

variable {V R : Type}

/-- C25: for a state below `numberOfStates` of a valid order whose scheduler, if present, has
an entry for every state.  If an action is set at the state, `findBestAction` returns true and
leaves the order as it is.  If no action is set and the state has exactly one enabled action, or
is a top state, or is a bottom state, `findBestAction` returns true, and the order it leaves is
that of `addToMdpScheduler(state, 0)`: `isActionSetAtState(state)` holds and
`getActionAtState(state)` is 0. -/
theorem findBestAction_trivial (ext : ReachabilityOrderExtender V R) (hypothesis : NodeComparison)
    (o : Order) (region : R) (state : Nat) (actions : List (List Nat))
    (hv : o.Valid)
    (hsched : ∀ v, o.mdpScheduler = some v → v.length = o.numberOfStates)
    (hs : state < o.numberOfStates) (hmap : ext.stateMap[state]? = some actions) :
    (o.isActionSetAtState state = true →
      ext.findBestAction hypothesis o region state = Except.ok (true, o)) ∧
    (o.isActionSetAtState state = false →
      (actions.length = 1 ∨ o.isTopState state = Except.ok true ∨
        o.isBottomState state = Except.ok true) →
      ∃ o1, ext.findBestAction hypothesis o region state = Except.ok (true, o1) ∧
        o.addToMdpScheduler state 0 = Except.ok o1 ∧
        o1.isActionSetAtState state = true ∧ o1.getActionAtState state = Except.ok 0) := by
  constructor
  · intro hset
    simp [findBestAction, hset]
  · intro hset hcase
    obtain ⟨v, o1, hadd, ho1, _, hvs, _⟩ := Order.addToMdpScheduler_spec 0 hsched hs
    have hafter := Order.scheduler_after_set (o := o1) (by rw [ho1]) hvs Order.uint64Max_pos
    refine ⟨o1, ?_, hadd, hafter.1, hafter.2⟩
    unfold findBestAction
    rw [hset]
    simp only [Bool.false_eq_true, if_false, hmap]
    by_cases h1 : actions.length = 1
    · rw [if_pos h1, hadd]
      rfl
    · rw [if_neg h1]
      obtain ⟨b, hb⟩ := Order.isTopState_total hv state
      rw [hb, ok_bind]
      cases b with
      | true =>
        simp only [if_true, hadd]
        rfl
      | false =>
        simp only [Bool.false_eq_true, if_false]
        rcases hcase with h | h | h
        · exact absurd h h1
        · rw [hb] at h
          cases h
        · rw [h, ok_bind]
          simp only [if_true, hadd]
          rfl

end ReachabilityOrderExtender

/-- C25 (witness): state 0 of the minimising sample is the top state of the order with top state
0 and bottom state 1, and no action is set in that order. -/
theorem findBestAction_trivial_witness :
    ((Order.returned (Order.ofStates 0 1 3 [] [] true false)).isActionSetAtState 0 = true →
      ReachabilityOrderExtender.sampleMdpMin.findBestAction UNKNOWN
        (Order.returned (Order.ofStates 0 1 3 [] [] true false)) () 0
        = Except.ok (true, Order.returned (Order.ofStates 0 1 3 [] [] true false))) ∧
    ((Order.returned (Order.ofStates 0 1 3 [] [] true false)).isActionSetAtState 0 = false →
      ([[0]].length = 1 ∨
        (Order.returned (Order.ofStates 0 1 3 [] [] true false)).isTopState 0 = Except.ok true ∨
        (Order.returned (Order.ofStates 0 1 3 [] [] true false)).isBottomState 0
          = Except.ok true) →
      ∃ o1, ReachabilityOrderExtender.sampleMdpMin.findBestAction UNKNOWN
          (Order.returned (Order.ofStates 0 1 3 [] [] true false)) () 0 = Except.ok (true, o1) ∧
        (Order.returned (Order.ofStates 0 1 3 [] [] true false)).addToMdpScheduler 0 0
          = Except.ok o1 ∧
        o1.isActionSetAtState 0 = true ∧ o1.getActionAtState 0 = Except.ok 0) :=
  ReachabilityOrderExtender.findBestAction_trivial ReachabilityOrderExtender.sampleMdpMin UNKNOWN
    (Order.returned (Order.ofStates 0 1 3 [] [] true false)) () 0 [[0]]
    (by decide) (by decide) (by decide) (by decide)

namespace Order

theorem placeState_bitsGrow (hyp : NodeComparison) (state : Nat) :
    ∀ (rest : List Nat) (o : Order) (front : List Nat) (pl : Placement) (o1 : Order),
      placeState hyp state o front rest = Except.ok (pl, o1) → BitsGrow o o1 := by
  intro rest
  induction rest with
  | nil =>
    intro o front pl o1 h
    simp only [placeState, Except.ok.injEq, Prod.mk.injEq] at h
    rw [← h.2]
    exact bitsGrow_refl _
  | cons y rest ih =>
    intro o front pl o1 h
    simp only [placeState, bind_eq_ok] at h
    obtain ⟨⟨c, oc⟩, hc, h⟩ := h
    have hg := compare_bitsGrow hc
    simp only at h
    split at h
    · simp only [pure_eq_ok, Except.ok.injEq, Prod.mk.injEq] at h
      rw [← h.2]
      exact hg
    · split at h
      · simp only [pure_eq_ok, Except.ok.injEq, Prod.mk.injEq] at h
        rw [← h.2]
        exact hg
      · exact bitsGrow_trans hg (ih _ _ _ _ h)

theorem sortLoop_bitsGrow (hyp : NodeComparison) :
    ∀ (states : List Nat) (o : Order) (result R : List Nat) (o1 : Order),
      sortLoop hyp o result states = Except.ok (R, o1) → BitsGrow o o1 := by
  intro states
  induction states with
  | nil =>
    intro o result R o1 h
    simp only [sortLoop, Except.ok.injEq, Prod.mk.injEq] at h
    rw [← h.2]
    exact bitsGrow_refl _
  | cons state rest ih =>
    intro o result R o1 h
    unfold sortLoop at h
    by_cases hl : result.length = 0
    · rw [if_pos hl] at h
      exact ih _ _ _ _ h
    · rw [if_neg hl] at h
      simp only [bind_eq_ok] at h
      obtain ⟨⟨pl, oc⟩, hpl, h⟩ := h
      have hg := placeState_bitsGrow hyp state _ _ _ _ _ hpl
      cases pl with
      | placed r => exact bitsGrow_trans hg (ih _ _ _ _ h)
      | unknown y =>
        simp only [pure_eq_ok, Except.ok.injEq, Prod.mk.injEq] at h
        rw [← h.2]
        exact hg

theorem sortStates_bitsGrow {hyp : NodeComparison} {o o1 : Order} {L R : List Nat}
    (h : o.sortStates hyp L = Except.ok (R, o1)) : BitsGrow o o1 := by
  unfold sortStates at h
  split at h
  · cases h
  · simp only [bind_eq_ok] at h
    obtain ⟨⟨r, oc⟩, hl, h⟩ := h
    have hg := sortLoop_bitsGrow hyp _ _ _ _ _ hl
    simp only at h
    split at h
    · simp only [pure_eq_ok, Except.ok.injEq, Prod.mk.injEq] at h
      rw [← h.2]
      exact hg
    · cases h

theorem bitsGrow_mdpScheduler {o o1 : Order} (h : BitsGrow o o1) :
    o1.mdpScheduler = o.mdpScheduler := by
  rw [h.1]

end Order

namespace ReachabilityOrderExtender

variable {V R : Type}

open Order in
theorem stateRelations_bitsGrow (hyp : NodeComparison) :
    ∀ (l : List Nat) (o : Order) (previous : Nat) (same : List Bool) (o1 : Order),
      stateRelations hyp o previous l = Except.ok (same, o1) → BitsGrow o o1 := by
  intro l
  induction l with
  | nil =>
    intro o previous same o1 h
    simp only [stateRelations, Except.ok.injEq, Prod.mk.injEq] at h
    rw [← h.2]
    exact bitsGrow_refl _
  | cons s rest ih =>
    intro o previous same o1 h
    simp only [stateRelations, bind_eq_ok] at h
    obtain ⟨⟨c, oc⟩, hc, ⟨sm, o2⟩, hr, h⟩ := h
    simp only [pure_eq_ok, Except.ok.injEq, Prod.mk.injEq] at h
    rw [← h.2]
    exact bitsGrow_trans (compare_bitsGrow hc) (ih _ _ _ _ hr)

open Order in
theorem actionSMTCompare_bitsGrow (ext : ReachabilityOrderExtender V R) {hyp : NodeComparison}
    {o o1 : Order} {orderedSuccs : List Nat} {region : R} {action1 action2 : List (Nat × V)}
    {c : ActionComparison}
    (h : ext.actionSMTCompare hyp o orderedSuccs region action1 action2 = Except.ok (c, o1)) :
    BitsGrow o o1 := by
  unfold actionSMTCompare at h
  simp only [bind_eq_ok] at h
  obtain ⟨⟨same, oc⟩, hrel, h⟩ := h
  have hg : BitsGrow o oc := by
    unfold occRelations at hrel
    split at hrel
    · simp only [Except.ok.injEq, Prod.mk.injEq] at hrel
      rw [← hrel.2]
      exact bitsGrow_refl _
    · exact stateRelations_bitsGrow hyp _ _ _ _ _ hrel
  simp only at h
  split at h
  · simp only [pure_eq_ok, Except.ok.injEq, Prod.mk.injEq] at h
    rw [← h.2]
    exact hg
  · split at h
    · simp only [pure_eq_ok, Except.ok.injEq, Prod.mk.injEq] at h
      rw [← h.2]
      exact hg
    · simp only [pure_eq_ok, Except.ok.injEq, Prod.mk.injEq] at h
      rw [← h.2]
      exact hg

open Order in
theorem compareWithCandidates_bitsGrow (ext : ReachabilityOrderExtender V R)
    (hyp : NodeComparison) (orderedSuccs : List Nat) (region : R) (state index : Nat)
    (drop out : ActionComparison) :
    ∀ (fuel i : Nat) (candidates : List Nat) (isIn : Bool) (o : Order) (r : List Nat) (b : Bool)
      (o1 : Order),
      ext.compareWithCandidates hyp orderedSuccs region state index drop out fuel i candidates
        isIn o = Except.ok (r, b, o1) → BitsGrow o o1 := by
  intro fuel
  induction fuel with
  | zero =>
    intro i candidates isIn o r b o1 h
    unfold compareWithCandidates at h
    split at h
    · cases h
    · simp only [Except.ok.injEq, Prod.mk.injEq] at h
      rw [← h.2.2]
      exact bitsGrow_refl _
  | succ fuel ih =>
    intro i candidates isIn o r b o1 h
    unfold compareWithCandidates at h
    split at h
    · split at h
      · cases h
      · simp only [bind_eq_ok] at h
        obtain ⟨⟨c, oc⟩, hc, h⟩ := h
        have hg := actionSMTCompare_bitsGrow ext hc
        simp only at h
        split at h
        · exact bitsGrow_trans hg (ih _ _ _ _ _ _ _ h)
        · split at h
          · exact bitsGrow_trans hg (ih _ _ _ _ _ _ _ h)
          · exact bitsGrow_trans hg (ih _ _ _ _ _ _ _ h)
    · simp only [Except.ok.injEq, Prod.mk.injEq] at h
      rw [← h.2.2]
      exact bitsGrow_refl _

open Order in
theorem eliminateCandidates_bitsGrow (ext : ReachabilityOrderExtender V R)
    (hyp : NodeComparison) (orderedSuccs : List Nat) (region : R) (state : Nat)
    (drop out : ActionComparison) :
    ∀ (indices candidates : List Nat) (o : Order) (r : List Nat) (o1 : Order),
      ext.eliminateCandidates hyp orderedSuccs region state drop out indices candidates o
        = Except.ok (r, o1) → BitsGrow o o1 := by
  intro indices
  induction indices with
  | nil =>
    intro candidates o r o1 h
    simp only [eliminateCandidates, Except.ok.injEq, Prod.mk.injEq] at h
    rw [← h.2]
    exact bitsGrow_refl _
  | cons index rest ih =>
    intro candidates o r o1 h
    simp only [eliminateCandidates, bind_eq_ok] at h
    obtain ⟨⟨c1, isIn, oc⟩, hc, h⟩ := h
    exact bitsGrow_trans (compareWithCandidates_bitsGrow ext hyp _ _ _ _ _ _ _ _ _ _ _ _ _ _ hc)
      (ih _ _ _ _ h)

/-- The two ends of `findBestAction` when no single candidate is left, for a state without an
assigned action that has several enabled actions and is neither a top nor a bottom state, whose
successors could be sorted and for which `simpleActionCheck` fails: the minimising branch (with
a number of sorted successors other than two) returns false with the scheduler of the order as
before, the maximising branch stops at the `assert(false)` that precedes its warning. -/
theorem findBestAction_fails (ext : ReachabilityOrderExtender V R) (hypothesis : NodeComparison)
    (o o1 o2 : Order) (region : R) (state : Nat) (actions : List (List Nat))
    (orderedSuccs candidates : List Nat) (last r : Nat)
    (hset : o.isActionSetAtState state = false)
    (hmap : ext.stateMap[state]? = some actions) (hseveral : actions.length ≠ 1)
    (htop : o.isTopState state = Except.ok false)
    (hbot : o.isBottomState state = Except.ok false)
    (hsort : o.sortStates hypothesis (ext.getSuccessors state o) = Except.ok (orderedSuccs, o1))
    (hlast : orderedSuccs.getLast? = some last) (hne : last ≠ ext.numberOfStates)
    (hmany : ext.prMax = false → orderedSuccs.length ≠ 2)
    (hsimple : ext.simpleActionCheck state orderedSuccs = Except.ok (false, r))
    (helim : ext.eliminateCandidates hypothesis
        (if ext.prMax then orderedSuccs else orderedSuccs.reverse) region state
        (if ext.prMax then ActionComparison.GEQ else ActionComparison.LEQ)
        (if ext.prMax then ActionComparison.LEQ else ActionComparison.GEQ)
        (List.range (ext.getRowGroupSize state)) [] o1 = Except.ok (candidates, o2))
    (hcount : candidates.length ≠ 1) :
    ext.findBestAction hypothesis o region state
      = (if ext.prMax then Except.error Fault.assertion else Except.ok (false, o2)) ∧
    o2.mdpScheduler = o.mdpScheduler ∧ o2.isActionSetAtState state = false := by
  have hg1 := Order.sortStates_bitsGrow hsort
  have hg2 := eliminateCandidates_bitsGrow ext _ _ _ _ _ _ _ _ _ _ _ helim
  have hsch : o2.mdpScheduler = o.mdpScheduler := by
    rw [Order.bitsGrow_mdpScheduler hg2, Order.bitsGrow_mdpScheduler hg1]
  refine ⟨?_, hsch, ?_⟩
  · unfold findBestAction
    rw [hset]
    simp only [Bool.false_eq_true, if_false, hmap, if_neg hseveral, htop, ok_bind, hbot]
    unfold chooseAction
    simp only [hsort, ok_bind, hlast, if_neg hne]
    cases hpr : ext.prMax with
    | true =>
      rw [hpr] at helim
      simp only [if_true] at helim
      simp only [if_true, bestActionMax, hsimple, ok_bind, Bool.false_eq_true, if_false, helim,
        if_neg hcount]
      rfl
    | false =>
      rw [hpr] at helim
      simp only [Bool.false_eq_true, if_false] at helim
      simp only [Bool.false_eq_true, if_false, bestActionMin, if_neg (hmany hpr), hsimple,
        ok_bind, helim, if_neg hcount, pure_eq_ok, ne_eq, not_true_eq_false]
  · unfold Order.isActionSetAtState at hset ⊢
    rw [hsch]
    exact hset

end ReachabilityOrderExtender

/-- C30: maximising, for state 3 of the undecided sample on the sample base order
`simpleActionCheck` fails and the elimination leaves the two candidates 0 and 1; `findBestAction`
does not return false but stops at the `assert(false)` that stands before the warning "No best
action found. Take action 0 as default."  Minimising, for the same state of the same model the
elimination leaves the same two candidates, and `findBestAction` returns false and leaves the
action of state 3 unset, as the warning says. -/
theorem findBestAction_max_asserts :
    ((ReachabilityOrderExtender.sampleMdpUndecided true).simpleActionCheck 3 [0, 2, 1]
        = Except.ok (false, 0) ∧
      ((ReachabilityOrderExtender.sampleMdpUndecided true).eliminateCandidates UNKNOWN [0, 2, 1]
          () 3 ActionComparison.GEQ ActionComparison.LEQ [0, 1] []
          (Order.returned Order.sampleBase)).map Prod.fst = Except.ok [0, 1] ∧
      ((ReachabilityOrderExtender.sampleMdpUndecided true).findBestAction UNKNOWN
          (Order.returned Order.sampleBase) () 3).map Prod.fst
        = Except.error Fault.assertion) ∧
    ((ReachabilityOrderExtender.sampleMdpUndecided false).simpleActionCheck 3 [0, 2, 1]
        = Except.ok (false, 0) ∧
      ((ReachabilityOrderExtender.sampleMdpUndecided false).eliminateCandidates UNKNOWN
          [1, 2, 0] () 3 ActionComparison.LEQ ActionComparison.GEQ [0, 1] []
          (Order.returned Order.sampleBase)).map Prod.fst = Except.ok [0, 1] ∧
      ((ReachabilityOrderExtender.sampleMdpUndecided false).findBestAction UNKNOWN
          (Order.returned Order.sampleBase) () 3).map
          (fun r => (r.1, r.2.isActionSetAtState 3)) = Except.ok (false, false)) := by
  decide

/-! ## Backward reasoning -/

namespace ReachabilityOrderExtender

variable {V R : Type}

/-- C24: if `sortStatesUnorderedPair` returns an unresolved pair for the successors of the state
`c`, then `extendByBackwardReasoning` returns exactly that pair, both components are below
`numberOfStates`, and the order it leaves has the state-to-node mapping, the member sets and the
number of added states of the order before the call; so `contains(c)` is as before. -/
theorem backward_unresolved (ext : ReachabilityOrderExtender V R) (o o1 : Order) (region : R)
    (c s1 s2 : Nat) (sorted : List Nat)
    (hn : ext.numberOfStates = o.numberOfStates)
    (hsort : o.sortStatesUnorderedPair UNKNOWN (ext.getSuccessors c o)
      = Except.ok (((s1, s2), sorted), o1))
    (hpair : (s1, s2) ≠ (o.numberOfStates, o.numberOfStates)) :
    ext.extendByBackwardReasoning UNKNOWN o region c = Except.ok ((s1, s2), o1) ∧
    s1 < o.numberOfStates ∧ s2 < o.numberOfStates ∧
    o1.contains c = o.contains c ∧ o1.nodes = o.nodes ∧ o1.memberLists = o.memberLists ∧
    o1.numberOfAddedStates = o.numberOfAddedStates := by
  have hspec := hsort
  unfold Order.sortStatesUnorderedPair at hspec
  obtain ⟨hg, _, hcase⟩ := Order.sortPairLoop_spec _ _ o [] [] s1 s2 sorted o1 List.chain'_nil
    (List.Perm.refl _) hspec
  have hnum := Order.bitsGrow_numberOfStates hg
  have hnodes := Order.bitsGrow_nodes hg
  have hshape := Order.sameShape_of_bitsGrow hg
  rcases hcase with ⟨e1, e2, _⟩ | ⟨pre, post, _, _, _, hlt2, hcmp⟩
  · exact absurd (by rw [e1, e2]) hpair
  · have hlt1 : s1 < o.numberOfStates := by
      rw [← hnum]
      exact (Order.compare_lt hcmp).2
    refine ⟨?_, hlt1, hlt2, ?_, hnodes, hshape.2, ?_⟩
    · unfold extendByBackwardReasoning
      simp only [hsort, ok_bind]
      rw [if_pos (by rw [hn]; exact Nat.ne_of_lt hlt1)]
      rfl
    · simp only [Order.contains, hnum, hnodes]
    · rw [hg.1]

end ReachabilityOrderExtender

/-- C24 (witness): in the open sample order the states 2 and 3 are incomparable; for state 4
with the successors 2 and 3, `extendByBackwardReasoning` returns the pair `(2, 3)` and leaves
the order as it is. -/
theorem backward_unresolved_witness :
    (Order.returned Order.sampleOpen).sortStatesUnorderedPair UNKNOWN
        ((ReachabilityOrderExtender.sampleDtmc [(2, 1), (3, 1)]).getSuccessors 4
          (Order.returned Order.sampleOpen))
      = Except.ok (((2, 3), [2]), Order.returned Order.sampleOpen) ∧
    ((ReachabilityOrderExtender.sampleDtmc [(2, 1), (3, 1)]).extendByBackwardReasoning UNKNOWN
        (Order.returned Order.sampleOpen) () 4
      = Except.ok ((2, 3), Order.returned Order.sampleOpen) ∧
    2 < (Order.returned Order.sampleOpen).numberOfStates ∧
    3 < (Order.returned Order.sampleOpen).numberOfStates ∧
    (Order.returned Order.sampleOpen).contains 4 = (Order.returned Order.sampleOpen).contains 4 ∧
    (Order.returned Order.sampleOpen).nodes = (Order.returned Order.sampleOpen).nodes ∧
    (Order.returned Order.sampleOpen).memberLists
      = (Order.returned Order.sampleOpen).memberLists ∧
    (Order.returned Order.sampleOpen).numberOfAddedStates
      = (Order.returned Order.sampleOpen).numberOfAddedStates) :=
  ⟨by decide,
    ReachabilityOrderExtender.backward_unresolved
      (ReachabilityOrderExtender.sampleDtmc [(2, 1), (3, 1)]) (Order.returned Order.sampleOpen)
      (Order.returned Order.sampleOpen) () 4 2 3 [2] (by decide) (by decide) (by decide)⟩

/-! ## Attaching a state to a node -/

namespace Order

@[simp] theorem heap_attached (o : Order) (state k : Nat) (n : Node) :
    (o.attached state k n).heap = o.heap.set k { n with states := setInsert state n.states } := by
  simp [attached]

@[simp] theorem nodes_attached (o : Order) (state k : Nat) (n : Node) :
    (o.attached state k n).nodes = o.nodes.set state (some k) := by
  simp [attached]

@[simp] theorem top_attached (o : Order) (state k : Nat) (n : Node) :
    (o.attached state k n).top = o.top := by
  simp [attached]

@[simp] theorem bottom_attached (o : Order) (state k : Nat) (n : Node) :
    (o.attached state k n).bottom = o.bottom := by
  simp [attached]

@[simp] theorem numberOfStates_attached (o : Order) (state k : Nat) (n : Node) :
    (o.attached state k n).numberOfStates = o.numberOfStates := by
  simp [attached]

theorem lt_of_unmapped {o : Order} (hv : o.Valid) {c : Nat} (hun : o.nodes[c]? = some none) :
    c < o.numberOfStates := by
  rw [← hv.1]
  exact (List.getElem?_eq_some_iff.mp hun).1

theorem addToNode_attach {o : Order} (hv : o.Valid) (hc : o.Counted) {c k : Nat} {N : Node}
    (hun : o.nodes[c]? = some none) (hN : o.heap[k]? = some N) :
    o.addToNode c (some k) = Except.ok (o.attached c k N) := by
  have hlt := lt_of_unmapped hv hun
  have hcl : c < o.nodes.length := by rw [hv.1]; exact hlt
  have hk := lt_length_of_getElem? hN
  have hcount := counted_lt_of_unmapped hv hc hun
  have hnode : o.nodeAt c = Except.ok none := nodeAt_eq_ok.mpr hun
  simp only [addToNode, hnode, ok_bind, if_true, deref_some hN, store, hk, setNodeAt, hcl]
  have hle : ¬ ¬ (o.attached c k N).numberOfAddedStates ≤ (o.attached c k N).numberOfStates := by
    simp [attached]
    omega
  simp only [attached] at hle ⊢
  rw [if_neg hle]
  rfl

theorem valid_attached {o : Order} (hv : o.Valid) {c k : Nat} {N : Node}
    (hc : c < o.numberOfStates) (hN : o.heap[k]? = some N) : (o.attached c k N).Valid := by
  have hk := lt_length_of_getElem? hN
  obtain ⟨h1, h2, h3, h4, h5⟩ := hv
  refine ⟨by simpa using h1, ?_, ?_, ?_, ?_⟩
  · intro p hp j hj
    simp only [nodes_attached] at hp
    simp only [heap_attached, List.length_set]
    rcases List.mem_or_eq_of_mem_set hp with hp | hp
    · exact h2 p hp j hj
    · subst hp
      cases hj
      exact hk
  · intro j hj
    simp only [top_attached] at hj
    simpa using h3 j hj
  · intro j hj
    simp only [bottom_attached] at hj
    simpa using h4 j hj
  · intro n hn
    simp only [heap_attached] at hn
    simp only [numberOfStates_attached]
    rcases List.mem_or_eq_of_mem_set hn with hn | hn
    · exact h5 n hn
    · subst hn
      have hNok := h5 N (List.getElem?_mem hN)
      refine ⟨hNok.1, ?_⟩
      intro s hs
      rcases mem_setInsert.mp hs with rfl | hs
      · exact hc
      · exact hNok.2 s hs

theorem getNode_attached_self {o : Order} (hv : o.Valid) {c k : Nat} {N : Node}
    (hc : c < o.numberOfStates) : (o.attached c k N).getNode c = Except.ok (some k) := by
  have hcl : c < o.nodes.length := by rw [hv.1]; exact hc
  exact getNode_eq_ok.mpr ⟨by simpa using hc, by simp [List.getElem?_set, hcl]⟩

theorem getNode_attached_other {o : Order} {c k : Nat} {N : Node} {t : Nat} {p : Ptr}
    (ht : o.getNode t = Except.ok p) (hne : c ≠ t) :
    (o.attached c k N).getNode t = Except.ok p := by
  obtain ⟨h1, h2⟩ := getNode_eq_ok.mp ht
  exact getNode_eq_ok.mpr ⟨by simpa using h1, by simpa [List.getElem?_set_ne hne] using h2⟩

theorem heap_attached_self {o : Order} {c k : Nat} {N : Node} (hN : o.heap[k]? = some N) :
    (o.attached c k N).heap[k]? = some { N with states := setInsert c N.states } := by
  simp [List.getElem?_set, lt_length_of_getElem? hN]

theorem heap_attached_other {o : Order} {c k : Nat} {N : Node} {j : Nat} (hne : k ≠ j) :
    (o.attached c k N).heap[j]? = o.heap[j]? := by
  simp [List.getElem?_set_ne hne]

end Order

/-! ## Placing a state between two nodes -/

namespace Order

theorem counted_of_bitsGrow {o o1 : Order} (hc : o.Counted) (h : BitsGrow o o1) :
    o1.Counted := by
  unfold Counted at hc ⊢
  rw [bitsGrow_nodes h, ← hc, h.1]

theorem getNode_of_bitsGrow {o o1 : Order} (h : BitsGrow o o1) {s : Nat} {p : Ptr}
    (hs : o.getNode s = Except.ok p) : o1.getNode s = Except.ok p := by
  rw [getNode_bitsGrow h]
  exact hs

theorem contains_of_bitsGrow {o o1 : Order} (h : BitsGrow o o1) (s : Nat) :
    o1.contains s = o.contains s := by
  simp only [contains, bitsGrow_numberOfStates h, bitsGrow_nodes h]

theorem contains_unmapped {o : Order} {c : Nat} (hun : o.nodes[c]? = some none) :
    o.contains c = false := by
  simp [contains, hun]

theorem contains_mapped {o : Order} {s k : Nat} (h : o.getNode s = Except.ok (some k)) :
    o.contains s = true := by
  obtain ⟨h1, h2⟩ := getNode_eq_ok.mp h
  simp [contains, h1, h2]

/-- The order that `addBetween(s, A, B)` returns for an unmapped state `s`. -/
theorem addBetweenNodes_new {o o1 : Order} {s pa pb : Nat} {A B : Node}
    (hv : o.Valid) (hc : o.Counted) (hun : o.nodes[s]? = some none)
    (hA : o.heap[pa]? = some A) (hB : o.heap[pb]? = some B) (hne : pa ≠ pb)
    (hcmp : o.compareNodes (some pa) (some pb) UNKNOWN = Except.ok (ABOVE, o1)) :
    ∃ B1, o1.heap[pb]? = some B1 ∧ B1.states = B.states ∧ o1.Valid ∧ o1.nodes = o.nodes ∧
      o1.heap[pa]? = some A ∧ o1.heap.length = o.heap.length ∧
      o1.numberOfStates = o.numberOfStates ∧
      o.addBetweenNodes s (some pa) (some pb) =
        Except.ok (o1.placed s
          ⟨[s], ⟨A.statesAbove.size, BitVector.setBits A.statesAbove.bits A.states⟩⟩ pb
          (withAboveBits B1 (B1.statesAbove.bits ||| 2 ^ s))) := by
  have hs := lt_of_unmapped hv hun
  have hlA := lt_length_of_getElem? hA
  have hlB := lt_length_of_getElem? hB
  have hnab : pb ≠ pa := fun h => hne h.symm
  have hcount := counted_lt_of_unmapped hv hc hun
  obtain ⟨B1, hB1, hBst, hv1, hnodes1, hheap1, hlen1, hn1, hcnt1⟩ :
      ∃ B1, o1.heap[pb]? = some B1 ∧ B1.states = B.states ∧ o1.Valid ∧ o1.nodes = o.nodes ∧
        o1.heap[pa]? = some A ∧ o1.heap.length = o.heap.length ∧
        o1.numberOfStates = o.numberOfStates ∧
        o1.numberOfAddedStates = o.numberOfAddedStates := by
    rcases compareNodes_above_effect hcmp with rfl | ⟨n1, n2, h1, h2, _, rfl⟩
    · exact ⟨B, hB, rfl, hv, rfl, hA, rfl, rfl, rfl⟩
    · rw [hB] at h2
      cases h2
      have hsz : (withAboveBits B (BitVector.setBits B.statesAbove.bits n1.states)).statesAbove.size
          = o.numberOfStates := (valid_node_size hv hB : B.statesAbove.size = _)
      exact ⟨_, heap_setHeap_self _ hlB, rfl,
        valid_set_heap hv pb hsz (fun t ht => valid_state_lt hv hB ht), rfl,
        (heap_setHeap_ne _ hnab).trans hA, by simp, rfl, rfl⟩
  have hs1 : s < o1.numberOfStates := by rw [hn1]; exact hs
  refine ⟨B1, hB1, hBst, hv1, hnodes1, hheap1, hlen1, hn1, ?_⟩
  have hne2 : ¬ (some pa : Ptr) = some pb := by simpa using hne
  have hun1 : o1.nodeAt s = Except.ok none := nodeAt_eq_ok.mpr (by rw [hnodes1]; exact hun)
  have hle : o1.numberOfAddedStates + 1 ≤ o1.numberOfStates := by
    rw [hcnt1, hn1]
    omega
  simp only [addBetweenNodes, hne2, if_false, reduceCtorEq, hcmp, ok_bind, ne_eq,
    not_true_eq_false, not_false_eq_true, and_self, hun1, if_true,
    insertBelowAnchor_of_valid hv1 hs1 hheap1 hB1]
  simp [hle]

end Order

namespace ReachabilityOrderExtender

open Order

theorem strictlyBetweenSentinels_of {o : Order} (hv : o.Valid) {c p kt kb : Nat} {P T : Node}
    (hc : o.getNode c = Except.ok (some p)) (htop : o.top = some kt) (hbot : o.bottom = some kb)
    (hP : o.heap[p]? = some P) (hT : o.heap[kt]? = some T)
    (hpt : p ≠ kt) (hpb : p ≠ kb) (htb : kt ≠ kb)
    (hclear : ∀ x ∈ P.states, T.statesAbove.bits.testBit x = false) :
    strictlyBetweenSentinels UNKNOWN o c = Except.ok (true, o) := by
  have hkb : kb < o.heap.length := hv.2.2.2.1 kb (by rw [hbot]; rfl)
  obtain ⟨Bt, hBt⟩ : ∃ n, o.heap[kb]? = some n := ⟨_, List.getElem?_eq_getElem hkb⟩
  have habove : o.aboveFastP p kt = false := by
    simp only [aboveFastP, hP, hT, List.any_eq_false]
    intro x hx
    simp [hclear x hx]
  have h1 : o.compareNodes (some p) (some kb) UNKNOWN = Except.ok (ABOVE, o) :=
    compareNodes_of_fastAbove hv hP hBt hpb (by simp [fastAboveP, hbot])
  have h2 : o.compareNodes (some p) (some kt) UNKNOWN = Except.ok (BELOW, o) :=
    compareNodes_of_fastBelow hv hP hT hpt
      (by simp [fastAboveP, htop, hbot, habove, hpt, htb])
      (by simp [fastAboveP, htop])
  simp [strictlyBetweenSentinels, contains_mapped hc, hc, getBottom, getTop, hbot, htop, h1, h2]

theorem placeSorted_of {o1 o2 o3 o4 : Order} {c h l n : Nat} {sorted : List Nat}
    {r : NodeComparison}
    (hh : sorted[0]? = some h) (hl : sorted[sorted.length - 1]? = some l)
    (hcmp : o1.compare h l UNKNOWN = Except.ok (r, o2))
    (hplace : (if r = SAME then placeTie o2 c h else placeStrict o2 c h l sorted.length)
      = Except.ok o3)
    (hfinal : strictlyBetweenSentinels UNKNOWN o3 c = Except.ok (true, o4)) :
    placeSorted UNKNOWN n o1 c sorted = Except.ok ((n, n), o4) := by
  simp [placeSorted, hh, hl, hcmp, hplace, hfinal]

theorem placeSorted_error {o1 o2 : Order} {c h l n : Nat} {sorted : List Nat}
    {r : NodeComparison} {e : Fault}
    (hh : sorted[0]? = some h) (hl : sorted[sorted.length - 1]? = some l)
    (hcmp : o1.compare h l UNKNOWN = Except.ok (r, o2))
    (hplace : (if r = SAME then placeTie o2 c h else placeStrict o2 c h l sorted.length)
      = Except.error e) :
    placeSorted UNKNOWN n o1 c sorted = Except.error e := by
  simp [placeSorted, hh, hl, hcmp, hplace]

end ReachabilityOrderExtender

namespace ReachabilityOrderExtender

variable {V R : Type}

open Order

/-- C23 (amended): in a well-formed order whose top node `T` and bottom node are different, let
`c` be a state without a node, and let `sortStatesUnorderedPair` sort the successors of `c`
without an unresolved pair, with highest state `h` and lowest state `l`, both mapped; let bit `c`
be unset in `T.statesAbove`.  If `compare(h, l)` is SAME, the node of `h` is neither top nor
bottom and has no member recorded above the top node, then `extendByBackwardReasoning` returns
`(numberOfStates, numberOfStates)`, and `c` is in the node of `h`: `compare(c, h)` is SAME.  If
`compare(h, l)` is ABOVE and `l` is not in the top node, it returns that pair, `c` is the only
member of a new node, `compare(h, c)` is ABOVE and `compare(c, l)` is ABOVE.  If `compare(h, l)`
is neither SAME nor ABOVE, it stops at the assertion of `addBetween`. -/
theorem backward_placement (ext : ReachabilityOrderExtender V R) (o o1 o2 : Order) (region : R)
    (c h l : Nat) (sorted : List Nat) (r : NodeComparison) (ph pl kt kb : Nat) (H T : Node)
    (hn : ext.numberOfStates = o.numberOfStates)
    (hv : o.Valid) (hp : o.Partition) (hc : o.Counted)
    (hun : o.nodes[c]? = some none)
    (hsort : o.sortStatesUnorderedPair UNKNOWN (ext.getSuccessors c o)
      = Except.ok (((o.numberOfStates, o.numberOfStates), sorted), o1))
    (hh : sorted[0]? = some h) (hl : sorted[sorted.length - 1]? = some l)
    (hph : o.getNode h = Except.ok (some ph)) (hpl : o.getNode l = Except.ok (some pl))
    (hcmp : o1.compare h l UNKNOWN = Except.ok (r, o2))
    (htop : o.top = some kt) (hbot : o.bottom = some kb) (hne : kt ≠ kb)
    (hH : o2.heap[ph]? = some H) (hT : o2.heap[kt]? = some T)
    (hcT : T.statesAbove.bits.testBit c = false) :
    (r = SAME → ph ≠ kt → ph ≠ kb → (∀ x ∈ H.states, T.statesAbove.bits.testBit x = false) →
      ext.extendByBackwardReasoning UNKNOWN o region c
        = Except.ok ((o.numberOfStates, o.numberOfStates), o2.attached c ph H) ∧
      (o2.attached c ph H).getNode c = Except.ok (some ph) ∧
      (o2.attached c ph H).getNode h = Except.ok (some ph) ∧
      (o2.attached c ph H).compare c h UNKNOWN = Except.ok (SAME, o2.attached c ph H)) ∧
    (r = ABOVE → pl ≠ kt →
      ∃ o3 nw, ext.extendByBackwardReasoning UNKNOWN o region c
          = Except.ok ((o.numberOfStates, o.numberOfStates), o3) ∧
        o3.getNode c = Except.ok (some o.heap.length) ∧
        o3.heap[o.heap.length]? = some nw ∧ nw.states = [c] ∧
        o3.compare h c UNKNOWN = Except.ok (ABOVE, o3) ∧
        o3.compare c l UNKNOWN = Except.ok (ABOVE, o3)) ∧
    (r ≠ SAME → r ≠ ABOVE →
      ext.extendByBackwardReasoning UNKNOWN o region c = Except.error Fault.assertion) := by
  -- the order after the sort and the comparison
  have hspec := hsort
  unfold Order.sortStatesUnorderedPair at hspec
  obtain ⟨hg1, _, _⟩ := sortPairLoop_spec _ _ o [] [] _ _ sorted o1 List.chain'_nil
    (List.Perm.refl _) hspec
  have hg2 := compare_bitsGrow hcmp
  have hg := bitsGrow_trans hg1 hg2
  have hv2 := valid_of_bitsGrow hv hg
  have hp2 := partition_of_bitsGrow hp hg
  have hc2 := counted_of_bitsGrow hc hg
  have hun2 : o2.nodes[c]? = some none := by rw [bitsGrow_nodes hg]; exact hun
  have hph1 := getNode_of_bitsGrow hg1 hph
  have hpl1 := getNode_of_bitsGrow hg1 hpl
  have hph2 := getNode_of_bitsGrow hg hph
  have hpl2 := getNode_of_bitsGrow hg hpl
  have htop2 : o2.top = some kt := by rw [bitsGrow_top hg]; exact htop
  have hbot2 : o2.bottom = some kb := by rw [bitsGrow_bottom hg]; exact hbot
  have hn2 : o2.numberOfStates = o.numberOfStates := bitsGrow_numberOfStates hg
  have hlen2 : o2.heap.length = o.heap.length := hg.2.1
  have hcl := lt_of_unmapped hv hun
  have hcl2 : c < o2.numberOfStates := by rw [hn2]; exact hcl
  have hcont : o2.contains c = false := contains_unmapped hun2
  have hch : c ≠ h := by
    rintro rfl
    rw [(getNode_eq_ok.mp hph).2] at hun
    simp at hun
  have hcl' : c ≠ l := by
    rintro rfl
    rw [(getNode_eq_ok.mp hpl).2] at hun
    simp at hun
  have hstart : ext.extendByBackwardReasoning UNKNOWN o region c
      = placeSorted UNKNOWN o.numberOfStates o1 c sorted := by
    simp [extendByBackwardReasoning, hsort, hn]
  obtain ⟨Hh, hHh, hhmem⟩ := anchored_iff.mp hp2.1 h ph (getNode_eq_ok.mp hph2).2
  rw [hH] at hHh
  cases hHh
  obtain ⟨L, hL, hlmem⟩ := anchored_iff.mp hp2.1 l pl (getNode_eq_ok.mp hpl2).2
  refine ⟨?_, ?_, ?_⟩
  · -- the tie
    intro hr hpt hpb hclear
    subst hr
    have hplace : placeTie o2 c h = Except.ok (o2.attached c ph H) := by
      simp [placeTie, hcont, hph2, addToNode_attach hv2 hc2 hun2 hH]
    have hv3 : (o2.attached c ph H).Valid := valid_attached hv2 hcl2 hH
    have hgc : (o2.attached c ph H).getNode c = Except.ok (some ph) :=
      getNode_attached_self hv2 hcl2
    have hgh : (o2.attached c ph H).getNode h = Except.ok (some ph) :=
      getNode_attached_other hph2 hch
    have hT3 : (o2.attached c ph H).heap[kt]? = some T := by
      rw [heap_attached_other hpt]
      exact hT
    have hfinal := strictlyBetweenSentinels_of hv3 hgc (by simpa using htop2)
      (by simpa using hbot2) (heap_attached_self hH) hT3 hpt hpb hne
      (by
        intro x hx
        rcases mem_setInsert.mp hx with rfl | hx
        · exact hcT
        · exact hclear x hx)
    refine ⟨?_, hgc, hgh, ?_⟩
    · rw [hstart]
      exact placeSorted_of hh hl hcmp (by rw [if_pos rfl]; exact hplace) hfinal
    · simp only [Order.compare, hgc, hgh, ok_bind]
      exact compareNodes_same _ _
  · -- the strict case
    intro hr hplt
    subst hr
    have hfast := compareFast_after_compare hph1 hpl1 hcmp (by simp)
    have hagain := compare_of_compareFast hfast (by simp)
    have hnodes : o2.compareNodes (some ph) (some pl) UNKNOWN = Except.ok (ABOVE, o2) := by
      simpa [Order.compare, hph2, hpl2] using hagain
    have hnepl : ph ≠ pl := by
      rintro rfl
      rw [compareNodes_same] at hnodes
      simp at hnodes
    obtain ⟨B1, hB1, hB1st, _, _, _, _, _, hadd⟩ :=
      addBetweenNodes_new hv2 hc2 hun2 hH hL hnepl hnodes
    rw [hL] at hB1
    cases hB1
    let nw : Node := ⟨[c], ⟨H.statesAbove.size, BitVector.setBits H.statesAbove.bits H.states⟩⟩
    let L2 := withAboveBits L (L.statesAbove.bits ||| 2 ^ c)
    let o3 := o2.placed c nw pl L2
    have hlpl := lt_length_of_getElem? hL
    have hlph := lt_length_of_getElem? hH
    have hlkt := lt_length_of_getElem? hT
    have hnwok : nw.statesAbove.size = o2.numberOfStates ∧
        ∀ t ∈ nw.states, t < o2.numberOfStates := by
      refine ⟨(valid_node_size hv2 hH : H.statesAbove.size = _), ?_⟩
      intro t ht
      simp only [nw, List.mem_singleton] at ht
      subst ht
      exact hcl2
    have hL2ok : L2.statesAbove.size = o2.numberOfStates ∧
        ∀ t ∈ L2.states, t < o2.numberOfStates :=
      ⟨(valid_node_size hv2 hL : L.statesAbove.size = _), fun t ht => valid_state_lt hv2 hL ht⟩
    have hv3 : o3.Valid := valid_placed hv2 hnwok hL2ok
    have hnew3 : o3.heap[o2.heap.length]? = some nw := heap_placed_new hlpl
    have hrec3 : o3.heap[pl]? = some L2 := heap_placed_receiver hlpl
    have hH3 : o3.heap[ph]? = some H := (heap_placed_other hlph (fun e => hnepl e.symm)).trans hH
    have hT3 : o3.heap[kt]? = some T := (heap_placed_other hlkt hplt).trans hT
    have hgc : o3.getNode c = Except.ok (some o2.heap.length) := getNode_placed_self hv2 hcl2
    have hgh : o3.getNode h = Except.ok (some ph) := getNode_placed_other hph2 hch
    have hgl : o3.getNode l = Except.ok (some pl) := getNode_placed_other hpl2 hcl'
    have hplace : placeStrict o2 c h l sorted.length = Except.ok o3 := by
      have hmemh : ¬ h ∉ H.states := not_not.mpr hhmem
      have hmeml : ¬ l ∉ L.states := not_not.mpr hlmem
      simp only [placeStrict, placeHighest, placeLowest, contains_mapped hph2,
        contains_mapped hpl2, hcont, not_true_eq_false, if_false, ok_bind, Bool.false_eq_true,
        not_false_eq_true, if_true, addBetween, hpl2, hph2, deref_some hL, deref_some hH,
        hmemh, hmeml, hadd]
    have hfinal := strictlyBetweenSentinels_of hv3 hgc (by simpa [o3] using htop2)
      (by simpa [o3] using hbot2) hnew3 hT3 (by omega) (by
        have := hv2.2.2.2.1 kb (by rw [hbot2]; rfl)
        omega) hne
      (by
        intro x hx
        simp only [nw, List.mem_singleton] at hx
        subst hx
        exact hcT)
    refine ⟨o3, nw, ?_, by rw [← hlen2]; exact hgc, by rw [← hlen2]; exact hnew3, rfl, ?_, ?_⟩
    · rw [hstart]
      exact placeSorted_of hh hl hcmp (by rw [if_neg (by simp)]; exact hplace) hfinal
    · simp only [Order.compare, hgh, hgc, ok_bind]
      refine compareNodes_of_fastAbove hv3 hH3 hnew3 (by omega) ?_
      have : o3.aboveFastP ph o2.heap.length = true :=
        aboveFastP_of_mem hH3 hnew3 hhmem (by simp [nw, BitVector.testBit_setBits, hhmem])
      simp [fastAboveP, this]
    · simp only [Order.compare, hgl, hgc, ok_bind]
      refine compareNodes_of_fastAbove hv3 hnew3 hrec3 (by omega) ?_
      have : o3.aboveFastP o2.heap.length pl = true :=
        aboveFastP_of_mem hnew3 hrec3 (s := c) (by simp [nw])
          (by simp [L2, withAboveBits, Nat.testBit_two_pow])
      simp [fastAboveP, this]
  · -- the comparison is neither SAME nor ABOVE
    intro hr1 hr2
    rw [hstart]
    apply placeSorted_error hh hl hcmp
    rw [if_neg hr1]
    have hagain : o2.compare h l UNKNOWN = Except.ok (r, o2) := by
      by_cases hu : r = UNKNOWN
      · subst hu
        obtain ⟨e, _⟩ := compare_unknown_symm hcmp
        rw [e] at hcmp ⊢
        exact hcmp
      · exact compare_of_compareFast (compareFast_after_compare hph1 hpl1 hcmp hu) hu
    have hnodes : o2.compareNodes (some ph) (some pl) UNKNOWN = Except.ok (r, o2) := by
      simpa [Order.compare, hph2, hpl2] using hagain
    have hmemh : ¬ h ∉ H.states := not_not.mpr hhmem
    have hmeml : ¬ l ∉ L.states := not_not.mpr hlmem
    simp only [placeStrict, placeHighest, placeLowest, contains_mapped hph2,
      contains_mapped hpl2, hcont, not_true_eq_false, if_false, ok_bind, Bool.false_eq_true,
      not_false_eq_true, if_true, addBetween, hpl2, hph2, deref_some hL, deref_some hH,
      hmemh, hmeml, addBetweenNodes]
    by_cases hsame : (some ph : Ptr) = some pl
    · rw [if_pos hsame]
    · rw [if_neg hsame]
      simp [hnodes, hr2]

end ReachabilityOrderExtender

/-- C23 (counterexample): in the order with the states 0 and 2 in the top node, state 3 has no
node and its successors 0 and 2 are mapped and sort into `[2, 0]` without an unresolved pair;
`compare(2, 0)` is SAME.  `extendByBackwardReasoning` does not return: after it has put state 3
into the top node, its final assertion `compare(getNode(3), getTop()) == BELOW` fails. -/
theorem backward_placement_counterexample :
    (Order.returned Order.sampleTopPair).contains 3 = false ∧
    (Order.returned Order.sampleTopPair).contains 0 = true ∧
    (Order.returned Order.sampleTopPair).contains 2 = true ∧
    ((Order.returned Order.sampleTopPair).sortStatesUnorderedPair UNKNOWN
        ((ReachabilityOrderExtender.sampleDtmcFour [(0, 1), (2, 1)]).getSuccessors 3
          (Order.returned Order.sampleTopPair))).map Prod.fst = Except.ok ((4, 4), [2, 0]) ∧
    ((Order.returned Order.sampleTopPair).compare 2 0 UNKNOWN).map Prod.fst = Except.ok SAME ∧
    ((ReachabilityOrderExtender.sampleDtmcFour [(0, 1), (2, 1)]).extendByBackwardReasoning
        UNKNOWN (Order.returned Order.sampleTopPair) () 3).map Prod.fst
      = Except.error Fault.assertion := by
  decide

/-- C23 (witness): the amended statement for state 4 of the tied sample order with the
successors 2 and 3, which share a node, and for state 4 of the open sample order with the
successors 1 and 2, of which 2 is above 1. -/
theorem backward_placement_witness :
    ((ReachabilityOrderExtender.sampleDtmc [(2, 1), (3, 1)]).extendByBackwardReasoning UNKNOWN
        (Order.returned Order.sampleTied) () 4
      = Except.ok (((Order.returned Order.sampleTied).numberOfStates,
          (Order.returned Order.sampleTied).numberOfStates),
          (Order.returned Order.sampleTied).attached 4 2 ⟨[2, 3], ⟨5, 1⟩⟩) ∧
      ((Order.returned Order.sampleTied).attached 4 2 ⟨[2, 3], ⟨5, 1⟩⟩).getNode 4
        = Except.ok (some 2) ∧
      ((Order.returned Order.sampleTied).attached 4 2 ⟨[2, 3], ⟨5, 1⟩⟩).getNode 3
        = Except.ok (some 2) ∧
      ((Order.returned Order.sampleTied).attached 4 2 ⟨[2, 3], ⟨5, 1⟩⟩).compare 4 3 UNKNOWN
        = Except.ok (SAME, (Order.returned Order.sampleTied).attached 4 2 ⟨[2, 3], ⟨5, 1⟩⟩)) ∧
    (∃ o3 nw, (ReachabilityOrderExtender.sampleDtmc [(1, 1), (2, 1)]).extendByBackwardReasoning
          UNKNOWN (Order.returned Order.sampleOpen) () 4
          = Except.ok (((Order.returned Order.sampleOpen).numberOfStates,
            (Order.returned Order.sampleOpen).numberOfStates), o3) ∧
        o3.getNode 4 = Except.ok (some (Order.returned Order.sampleOpen).heap.length) ∧
        o3.heap[(Order.returned Order.sampleOpen).heap.length]? = some nw ∧ nw.states = [4] ∧
        o3.compare 2 4 UNKNOWN = Except.ok (ABOVE, o3) ∧
        o3.compare 4 1 UNKNOWN = Except.ok (ABOVE, o3)) :=
  ⟨(ReachabilityOrderExtender.backward_placement
      (ReachabilityOrderExtender.sampleDtmc [(2, 1), (3, 1)])
      (Order.returned Order.sampleTied) (Order.returned Order.sampleTied)
      (Order.returned Order.sampleTied) () 4 3 2 [3, 2] SAME 2 2 0 1 ⟨[2, 3], ⟨5, 1⟩⟩
      ⟨[0], ⟨5, 0⟩⟩ (by decide) (by decide) (by decide) (by decide) (by decide) (by decide)
      (by decide) (by decide) (by decide) (by decide) (by decide) (by decide) (by decide)
      (by decide) (by decide) (by decide) (by decide)).1 rfl (by decide) (by decide)
      (by decide),
    (ReachabilityOrderExtender.backward_placement
      (ReachabilityOrderExtender.sampleDtmc [(1, 1), (2, 1)])
      (Order.returned Order.sampleOpen) (Order.returned Order.sampleOpen)
      (Order.returned Order.sampleOpen) () 4 2 1 [2, 1] ABOVE 2 1 0 1 ⟨[2], ⟨5, 1⟩⟩
      ⟨[0], ⟨5, 0⟩⟩ (by decide) (by decide) (by decide) (by decide) (by decide) (by decide)
      (by decide) (by decide) (by decide) (by decide) (by decide) (by decide) (by decide)
      (by decide) (by decide) (by decide) (by decide)).2.1 rfl (by decide)⟩

/-! ## Termination of `merge` -/

namespace Order

/-- The first part of `mergeNodes` as one update of the node `k1`, the re-mapping of the members
of `node2` and the propagation loop. -/
theorem mergeTransfer_eq {o : Order} {k1 k2 : Nat} {n1 n2 : Node}
    (hn1 : o.heap[k1]? = some n1) (hn2 : o.heap[k2]? = some n2)
    (hsize : n1.statesAbove.size = n2.statesAbove.size) :
    o.mergeTransfer (some k1) (some k2) =
      ((o.setHeap k1 ⟨setInsertAll n2.states n1.states,
            ⟨n1.statesAbove.size, n1.statesAbove.bits ||| n2.statesAbove.bits⟩⟩).remap (some k1)
          (if k1 = k2 then setInsertAll n2.states n1.states else n2.states) >>= fun oc =>
        oc.propagate (some k1) (some k2) oc.nodes) := by
  have hl1 := lt_length_of_getElem? hn1
  have hl2 := lt_length_of_getElem? hn2
  by_cases hk : k1 = k2
  · subst hk
    rw [hn1] at hn2
    cases hn2
    simp [mergeTransfer, deref, hn1, BitVector.orAssign, store, hl1, setHeap]
  · have hk' : ¬ k2 = k1 := fun e => hk e.symm
    obtain ⟨_, e2⟩ := List.getElem?_eq_some_iff.mp hn2
    simp [mergeTransfer, deref, hn1, hn2, BitVector.orAssign, hsize, store, hl1, hl2, setHeap,
      List.getElem?_set, hk, hk', e2]

theorem remap_total (p : Ptr) :
    ∀ (l : List Nat) (o : Order), (∀ x ∈ l, x < o.nodes.length) → ∃ o1, o.remap p l = Except.ok o1 := by
  intro l
  induction l with
  | nil => intro o _; exact ⟨o, rfl⟩
  | cons i rest ih =>
    intro o hl
    have hi := hl i (List.mem_cons_self _ _)
    simp only [remap, setNodeAt, hi, if_true, ok_bind]
    apply ih
    intro x hx
    simpa using hl x (List.mem_cons_of_mem _ hx)

theorem propagateNode_total {o : Order} (hv : o.Valid) {k1 k : Nat} {n1 n : Node} (node2 : Ptr)
    (hn1 : o.heap[k1]? = some n1) (hn : o.heap[k]? = some n) :
    ∀ l : List Nat, (∀ s ∈ l, s < o.numberOfStates) →
      ∃ o1, o.propagateNode (some k1) node2 (some k) l = Except.ok o1 := by
  intro l
  induction l with
  | nil => intro _; exact ⟨o, rfl⟩
  | cons s rest ih =>
    intro hl
    have hs : s < n.statesAbove.size := by
      rw [valid_node_size hv hn]
      exact hl s (List.mem_cons_self _ _)
    simp only [propagateNode, deref_some hn, ok_bind, BitVector.get_of_lt hs]
    cases hb : n.statesAbove.bits.testBit s
    · simp only [Bool.false_eq_true, if_false]
      exact ih (fun t ht => hl t (List.mem_cons_of_mem _ ht))
    · have hall : ∀ i ∈ n1.states, i < n.statesAbove.size := fun i hi => by
        rw [valid_node_size hv hn]
        exact valid_state_lt hv hn1 hi
      simp only [if_true, deref_some hn1, ok_bind, BitVector.setAll_of_lt hall, store,
        lt_length_of_getElem? hn]
      exact ⟨_, rfl⟩

theorem propagateEntry_bitsGrow {o o1 : Order} {k1 : Nat} {node2 node : Ptr}
    (h : o.propagateEntry (some k1) node2 node = Except.ok o1) : BitsGrow o o1 := by
  unfold propagateEntry at h
  split at h
  · simp only [bind_eq_ok] at h
    obtain ⟨n2, _, h⟩ := h
    cases node with
    | none => simp at *
    | some k => exact propagateNode_bitsGrow h
  · simp only [pure_eq_ok, Except.ok.injEq] at h
    rw [← h]
    exact bitsGrow_refl _

theorem isMapped_of_bitsGrow {o o1 : Order} (h : BitsGrow o o1) {k : Nat} :
    o1.IsMapped k ↔ o.IsMapped k := by
  unfold IsMapped
  rw [bitsGrow_nodes h]

theorem propagateEntry_bitsMapped {o o1 : Order} (hbm : o.BitsMapped) (hex : o.Exclusive)
    {k1 : Nat} (hm : o.IsMapped k1) {node2 node : Ptr}
    (h : o.propagateEntry (some k1) node2 node = Except.ok o1) : o1.BitsMapped := by
  unfold propagateEntry at h
  split at h
  · simp only [bind_eq_ok] at h
    obtain ⟨n2, _, h⟩ := h
    cases node with
    | none => simp at *
    | some k =>
      rcases propagateNode_eq_ok h with ⟨rfl, _⟩ | ⟨n, n1, hn, hn1, _, rfl⟩
      · exact hbm
      · exact bitsMapped_writeBack hbm hex hn1 hn hm
  · simp only [pure_eq_ok, Except.ok.injEq] at h
    rw [← h]
    exact hbm

theorem propagate_total {k1 k2 : Nat} :
    ∀ (ptrs : List Ptr) (o : Order), o.Valid → o.BitsMapped → o.Exclusive → o.IsMapped k1 →
      k1 < o.heap.length → k2 < o.heap.length → (∀ p ∈ ptrs, ∀ k ∈ p, k < o.heap.length) →
      ∃ o1, o.propagate (some k1) (some k2) ptrs = Except.ok o1 ∧ BitsGrow o o1 ∧
        o1.BitsMapped := by
  intro ptrs
  induction ptrs with
  | nil =>
    intro o _ hbm _ _ _ _ _
    exact ⟨o, rfl, bitsGrow_refl _, hbm⟩
  | cons node rest ih =>
    intro o hv hbm hex hm hl1 hl2 hptrs
    obtain ⟨n1, hn1⟩ : ∃ n, o.heap[k1]? = some n := ⟨_, List.getElem?_eq_getElem hl1⟩
    obtain ⟨n2, hn2⟩ : ∃ n, o.heap[k2]? = some n := ⟨_, List.getElem?_eq_getElem hl2⟩
    have hstep : ∃ oa, o.propagateEntry (some k1) (some k2) node = Except.ok oa := by
      unfold propagateEntry
      cases node with
      | none => exact ⟨o, by simp⟩
      | some k =>
        have hk := hptrs (some k) (List.mem_cons_self _ _) k rfl
        obtain ⟨n, hn⟩ : ∃ n, o.heap[k]? = some n := ⟨_, List.getElem?_eq_getElem hk⟩
        simp only [ne_eq, reduceCtorEq, not_false_eq_true, if_true, deref_some hn2, ok_bind]
        exact propagateNode_total hv (some k2) hn1 hn n2.states
          (fun s hs => valid_state_lt hv hn2 hs)
    obtain ⟨oa, hoa⟩ := hstep
    have hg := propagateEntry_bitsGrow hoa
    have hbma := propagateEntry_bitsMapped hbm hex hm hoa
    have hlen : oa.heap.length = o.heap.length := hg.2.1
    obtain ⟨o1, ho1, hg1, hbm1⟩ := ih oa (valid_of_bitsGrow hv hg) hbma
      (exclusive_of_bitsGrow hex hg) ((isMapped_of_bitsGrow hg).mpr hm) (by rw [hlen]; exact hl1)
      (by rw [hlen]; exact hl2)
      (fun p hp k hk => by rw [hlen]; exact hptrs p (List.mem_cons_of_mem _ hp) k hk)
    refine ⟨o1, ?_, bitsGrow_trans hg hg1, hbm1⟩
    simp only [propagate, hoa, ok_bind]
    exact ho1

end Order

namespace Order

theorem isSome_getD_iff {o : Order} {i : Nat} :
    (o.nodes.getD i none).isSome = true ↔ ∃ k, o.nodes[i]? = some (some k) := by
  rw [List.getD_eq_getElem?_getD]
  cases h : o.nodes[i]? with
  | none => simp
  | some p => cases p <;> simp

/-- The first part of `mergeNodes` returns on a well-formed order, and the order it leaves is
well-formed; no node becomes mapped, and `node2` is no longer mapped if it differs from
`node1`. -/
theorem mergeTransfer_total {o : Order} (hv : o.Valid) (hp : o.Partition) (hbm : o.BitsMapped)
    {k1 k2 : Nat} (hm1 : o.IsMapped k1) (hm2 : o.IsMapped k2) :
    ∃ oa, o.mergeTransfer (some k1) (some k2) = Except.ok oa ∧ oa.Valid ∧ oa.BitsMapped ∧
      oa.heap.length = o.heap.length ∧ (∀ k, oa.IsMapped k → o.IsMapped k) ∧
      (k1 ≠ k2 → ¬ oa.IsMapped k2) := by
  obtain ⟨n1, hn1⟩ := mapped_allocated hp.1 hm1
  obtain ⟨n2, hn2⟩ := mapped_allocated hp.1 hm2
  have hl1 := lt_length_of_getElem? hn1
  have hl2 := lt_length_of_getElem? hn2
  have hsz1 : n1.statesAbove.size = o.numberOfStates := valid_node_size hv hn1
  have hsz2 : n2.statesAbove.size = o.numberOfStates := valid_node_size hv hn2
  have hanch := anchored_iff.mp hp.1
  have hexcl := exclusive_iff.mp hp.2
  rw [mergeTransfer_eq hn1 hn2 (hsz1.trans hsz2.symm)]
  generalize hm0 : (⟨setInsertAll n2.states n1.states,
    ⟨n1.statesAbove.size, n1.statesAbove.bits ||| n2.statesAbove.bits⟩⟩ : Node) = m0
  generalize hl : (if k1 = k2 then setInsertAll n2.states n1.states else n2.states) = l
  have hm0s : ∀ s, s ∈ m0.states ↔ s ∈ n1.states ∨ s ∈ n2.states := by
    intro s
    rw [← hm0]
    simp only [mem_setInsertAll]
    tauto
  have hm0b : ∀ i, m0.statesAbove.bits.testBit i = true →
      n1.statesAbove.bits.testBit i = true ∨ n2.statesAbove.bits.testBit i = true := by
    intro i hi
    rw [← hm0] at hi
    simpa [Nat.testBit_or] using hi
  have hm0z : m0.statesAbove.size = o.numberOfStates := by rw [← hm0]; exact hsz1
  have hsame : k1 = k2 → n2 = n1 := by
    rintro rfl
    rw [hn1] at hn2
    exact (Option.some.inj hn2).symm
  have hlmem : ∀ s, s ∈ l → s ∈ n1.states ∨ s ∈ n2.states := by
    intro s hs
    rw [← hl] at hs
    by_cases hk : k1 = k2
    · rw [if_pos hk] at hs
      simpa [mem_setInsertAll, or_comm] using hs
    · rw [if_neg hk] at hs
      exact Or.inr hs
  have hl2mem : ∀ s, s ∈ n2.states → s ∈ l := by
    intro s hs
    rw [← hl]
    by_cases hk : k1 = k2
    · rw [if_pos hk]
      exact mem_setInsertAll.mpr (Or.inl hs)
    · rw [if_neg hk]
      exact hs
  -- members of `l` are mapped to `k1` or `k2`, and to `k2` only if they are in `node2`
  have hlk : ∀ s, s ∈ l → o.nodes[s]? = some (some k1) ∨ o.nodes[s]? = some (some k2) := by
    intro s hs
    rcases hlmem s hs with h | h
    · exact Or.inl (hexcl k1 n1 s hm1 hn1 h)
    · exact Or.inr (hexcl k2 n2 s hm2 hn2 h)
  have hnotl : ∀ x : Nat, x ∉ l → o.nodes[x]? ≠ some (some k2) := by
    intro x hx h
    obtain ⟨n, hn, hmem⟩ := hanch x k2 h
    rw [hn2] at hn
    cases hn
    exact hx (hl2mem x hmem)
  have hllt : ∀ x ∈ l, x < (o.setHeap k1 m0).nodes.length := by
    intro x hx
    simp only [nodes_setHeap, hv.1]
    rcases hlmem x hx with h | h
    · exact valid_state_lt hv hn1 h
    · exact valid_state_lt hv hn2 h
  obtain ⟨oc, hoc⟩ := remap_total (some k1) l (o.setHeap k1 m0) hllt
  obtain ⟨hframe, hclen, hcin, hcout⟩ := remap_eq_ok hoc
  simp only [nodes_setHeap] at hclen hcin hcout
  have hcheap : oc.heap = o.heap.set k1 m0 := by rw [hframe]; rfl
  have hcn : oc.numberOfStates = o.numberOfStates := by rw [hframe]; rfl
  have hctop : oc.top = o.top := by rw [hframe]; rfl
  have hcbot : oc.bottom = o.bottom := by rw [hframe]; rfl
  have hchl : oc.heap.length = o.heap.length := by rw [hcheap, List.length_set]
  have hcnode : ∀ x p : Nat, oc.nodes[x]? = some (some p) →
      (x ∈ l ∧ p = k1) ∨ (x ∉ l ∧ o.nodes[x]? = some (some p)) := by
    intro x p hx
    by_cases hxl : x ∈ l
    · rw [(hcin x hxl).2] at hx
      exact Or.inl ⟨hxl, by simpa using hx.symm⟩
    · rw [hcout x hxl] at hx
      exact Or.inr ⟨hxl, hx⟩
  have hstay : ∀ x k : Nat, o.nodes[x]? = some (some k) →
      ∃ k' : Nat, oc.nodes[x]? = some (some k') := by
    intro x k hx
    by_cases hxl : x ∈ l
    · exact ⟨k1, (hcin x hxl).2⟩
    · exact ⟨k, by rw [hcout x hxl]; exact hx⟩
  have hcmem : ∀ n, n ∈ oc.heap → n ∈ o.heap ∨ n = m0 := by
    intro n hn
    rw [hcheap] at hn
    exact List.mem_or_eq_of_mem_set hn
  have hvc : oc.Valid := by
    refine ⟨by rw [hclen, hcn]; exact hv.1, ?_, ?_, ?_, ?_⟩
    · intro p hp k hk
      cases hk
      obtain ⟨x, hx⟩ := List.mem_iff_getElem?.mp hp
      rw [hchl]
      rcases hcnode x k hx with ⟨_, rfl⟩ | ⟨_, h⟩
      · exact hl1
      · exact hv.2.1 _ (List.getElem?_mem h) k rfl
    · rw [hctop, hchl]; exact hv.2.2.1
    · rw [hcbot, hchl]; exact hv.2.2.2.1
    · intro n hn
      rw [hcn]
      rcases hcmem n hn with h | rfl
      · exact hv.2.2.2.2 n h
      · refine ⟨hm0z, ?_⟩
        intro s hs
        rcases (hm0s s).mp hs with h | h
        · exact valid_state_lt hv hn1 h
        · exact valid_state_lt hv hn2 h
  have hbmc : oc.BitsMapped := by
    intro n hn i hi
    have hold : ∀ m ∈ o.heap, i ∈ m.statesAbove.indices → (oc.nodes.getD i none).isSome = true := by
      intro m hm him
      obtain ⟨k, hk⟩ := isSome_getD_iff.mp (hbm m hm i him)
      exact isSome_getD_iff.mpr (hstay i k hk)
    rcases hcmem n hn with h | rfl
    · exact hold n h hi
    · obtain ⟨hlt, hbit⟩ := BitVector.mem_indices.mp hi
      rcases hm0b i hbit with h | h
      · exact hold n1 (List.getElem?_mem hn1)
          (BitVector.mem_indices.mpr ⟨by rw [hsz1, ← hm0z]; exact hlt, h⟩)
      · exact hold n2 (List.getElem?_mem hn2)
          (BitVector.mem_indices.mpr ⟨by rw [hsz2, ← hm0z]; exact hlt, h⟩)
  have hck1 : oc.heap[k1]? = some m0 := by
    rw [hcheap]
    simp [hl1]
  have hcother : ∀ k, k ≠ k1 → oc.heap[k]? = o.heap[k]? := by
    intro k hk
    rw [hcheap, List.getElem?_set_ne (fun e => hk e.symm)]
  have hexc : oc.Exclusive := by
    rw [exclusive_iff]
    intro k n s hk hn hs
    obtain ⟨x, hx⟩ := isMapped_iff.mp hk
    by_cases hkk : k = k1
    · subst hkk
      rw [hck1] at hn
      cases hn
      by_cases hsl : s ∈ l
      · exact (hcin s hsl).2
      · rw [hcout s hsl]
        rcases (hm0s s).mp hs with h | h
        · exact hexcl k n1 s hm1 hn1 h
        · exact absurd (hl2mem s h) hsl
    · rw [hcother k hkk] at hn
      rcases hcnode x k hx with ⟨_, h⟩ | ⟨hxl, hxo⟩
      · exact absurd h hkk
      · have hmk : o.IsMapped k := isMapped_iff.mpr ⟨x, hxo⟩
        have hso := hexcl k n s hmk hn hs
        have hsl : s ∉ l := by
          intro hsl
          rcases hlk s hsl with h | h
          · rw [hso] at h
            exact hkk (by simpa using h)
          · rw [hso] at h
            have hk2 : k = k2 := by simpa using h
            subst hk2
            exact hnotl x hxl hxo
        rw [hcout s hsl]
        exact hso
  have hmc1 : oc.IsMapped k1 := by
    obtain ⟨x, hx⟩ := isMapped_iff.mp hm1
    by_cases hxl : x ∈ l
    · exact isMapped_iff.mpr ⟨x, (hcin x hxl).2⟩
    · exact isMapped_iff.mpr ⟨x, by rw [hcout x hxl]; exact hx⟩
  obtain ⟨oa, hoa, hg, hbma⟩ := @propagate_total k1 k2 oc.nodes oc hvc hbmc hexc
    hmc1 (by rw [hchl]; exact hl1) (by rw [hchl]; exact hl2) hvc.2.1
  refine ⟨oa, ?_, valid_of_bitsGrow hvc hg, hbma, by rw [hg.2.1, hchl], ?_, ?_⟩
  · simp only [hoc, ok_bind]
    exact hoa
  · intro k hk
    obtain ⟨x, hx⟩ := isMapped_iff.mp ((isMapped_of_bitsGrow hg).mp hk)
    rcases hcnode x k hx with ⟨_, rfl⟩ | ⟨_, h⟩
    · exact hm1
    · exact isMapped_iff.mpr ⟨x, h⟩
  · intro hne hk
    obtain ⟨x, hx⟩ := isMapped_iff.mp ((isMapped_of_bitsGrow hg).mp hk)
    rcases hcnode x k2 hx with ⟨_, h⟩ | ⟨hxl, h⟩
    · exact hne h.symm
    · exact hnotl x hxl h

end Order

/-! ## Termination of `mergeNodes` -/

namespace Order

theorem mem_mappedNodes {o : Order} {k : Nat} : k ∈ o.mappedNodes ↔ o.IsMapped k := by
  simp [mappedNodes, IsMapped]

theorem card_mappedNodes_le (o : Order) : o.mappedNodes.card ≤ o.nodes.length :=
  (List.toFinset_card_le _).trans (List.length_filterMap_le _ _)

theorem mappedNodes_of_bitsGrow {o o1 : Order} (h : BitsGrow o o1) :
    o1.mappedNodes = o.mappedNodes := by
  unfold mappedNodes
  rw [bitsGrow_nodes h]

theorem wellFormed_of_bitsGrow {o o1 : Order} (hw : o.WellFormed) (hbm : o1.BitsMapped)
    (h : BitsGrow o o1) : o1.WellFormed :=
  ⟨valid_of_bitsGrow hw.1 h, partition_of_bitsGrow hw.2.1 h, hbm,
    by rw [bitsGrow_bottom h]; exact hw.2.2.2.1,
    by rw [bitsGrow_top h, bitsGrow_bottom h]; exact hw.2.2.2.2⟩

/-- With a null node among the two, `compare` answers the two directions consistently. -/
theorem consistent_null {o o1 a1 a2 : Order} (hb : o.bottom ≠ none) (htb : o.top ≠ o.bottom)
    (ht1 : o1.top = o.top) (hb1 : o1.bottom = o.bottom) {p q : Ptr}
    (h : ¬ (p ≠ none ∧ q ≠ none)) {c1 c2 : NodeComparison}
    (h1 : o.compareNodes p q UNKNOWN = Except.ok (c1, a1))
    (h2 : o1.compareNodes q p UNKNOWN = Except.ok (c2, a2)) : consistent c1 c2 = true := by
  rw [compareNodes_null _ h] at h1
  rw [compareNodes_null _ (fun hh => h ⟨hh.2, hh.1⟩), ht1, hb1] at h2
  simp only [Except.ok.injEq, Prod.mk.injEq] at h1 h2
  obtain ⟨rfl, _⟩ := h1
  obtain ⟨rfl, _⟩ := h2
  cases p <;> cases q <;> cases ht : o.top <;> cases hbt : o.bottom <;>
    simp only [ht, hbt, ne_eq, not_true_eq_false, not_false_eq_true, false_and, true_and,
      false_or, or_false, if_false, Option.some.injEq, reduceCtorEq, and_self, and_false,
      not_and_self_iff] at h hb htb ⊢ <;>
    first
      | rfl
      | (split_ifs <;> first | rfl | (exfalso; omega))

theorem mergeResult_trans {o a : Order} {r : Except Fault Order} (hs : a.mappedNodes ⊆ o.mappedNodes)
    (hn : a.numberOfStates = o.numberOfStates) (h : MergeResult a r) : MergeResult o r := by
  rcases h with h | ⟨o1, h, hw, hsub, hnum⟩
  · exact Or.inl h
  · exact Or.inr ⟨o1, h, hw, hsub.trans hs, hnum.trans hn⟩

/-- One step of the re-scan: the two comparisons return or stop at an assertion, and `merge` is
called only for two states in different non-null nodes. -/
theorem rescanStep_total (fuel : Nat)
    (ih : ∀ (a : Order) (ka kb : Nat), a.WellFormed → a.IsMapped ka → a.IsMapped kb → ka ≠ kb →
      a.mappedNodes.card ≤ fuel → MergeResult a (mergeNodesFuel fuel a (some ka) (some kb)))
    {a : Order} {i j : Nat} (hw : a.WellFormed) (hi : i < a.numberOfStates)
    (hj : j < a.numberOfStates) (hcard : a.mappedNodes.card ≤ fuel) :
    MergeResult a (rescanStep
      (fun (a : Order) (i j : Nat) => do
        let p ← a.getNode i
        let q ← a.getNode j
        mergeNodesFuel fuel a p q) a i j) := by
  obtain ⟨hv, hp, hbm, hbot, htb⟩ := hw
  rcases compare_total_inv hv hbm hp.2 hi hj with h1 | ⟨c1, a1, h1, hv1, hbm1, hex1, hn1⟩
  · left
    simp [rescanStep, h1]
  have hg1 := compare_bitsGrow h1
  rcases compare_total_inv hv1 hbm1 hex1 (hn1.symm ▸ hj) (hn1.symm ▸ hi) with
    h2 | ⟨c2, a2, h2, hv2, hbm2, hex2, hn2⟩
  · left
    simp [rescanStep, h1, h2]
  have hg2 := compare_bitsGrow h2
  have hg := bitsGrow_trans hg1 hg2
  have hw2 : a2.WellFormed := wellFormed_of_bitsGrow ⟨hv, hp, hbm, hbot, htb⟩ hbm2 hg
  have hm2 := mappedNodes_of_bitsGrow hg
  have hnum2 : a2.numberOfStates = a.numberOfStates := bitsGrow_numberOfStates hg
  simp only [rescanStep, h1, h2, ok_bind]
  by_cases hcons : consistent c1 c2 = true
  · right
    refine ⟨a2, ?_, hw2, by rw [hm2], hnum2⟩
    simp [hcons]
  · rw [if_pos hcons]
    have hli : i < a.nodes.length := by rw [hv.1]; exact hi
    have hlj : j < a.nodes.length := by rw [hv.1]; exact hj
    have hgi := getNode_of_nodes hv.1 (List.getElem?_eq_getElem hli)
    have hgj := getNode_of_nodes hv.1 (List.getElem?_eq_getElem hlj)
    have hgi1 := getNode_of_bitsGrow hg1 hgi
    have hgj1 := getNode_of_bitsGrow hg1 hgj
    have hgi2 := getNode_of_bitsGrow hg hgi
    have hgj2 := getNode_of_bitsGrow hg hgj
    simp only [Order.compare, hgi, hgj, ok_bind] at h1
    simp only [Order.compare, hgi1, hgj1, ok_bind] at h2
    simp only [hgi2, hgj2, ok_bind]
    by_cases hnn : a.nodes[i] ≠ none ∧ a.nodes[j] ≠ none
    · obtain ⟨ka, hka⟩ := Option.ne_none_iff_exists'.mp hnn.1
      obtain ⟨kb, hkb⟩ := Option.ne_none_iff_exists'.mp hnn.2
      rw [hka, hkb] at h1 h2
      rw [hka, hkb]
      rw [hka] at hgi2
      rw [hkb] at hgj2
      by_cases hne : ka = kb
      · subst hne
        rw [compareNodes_same] at h1 h2
        simp only [Except.ok.injEq, Prod.mk.injEq] at h1 h2
        rw [← h1.1, ← h2.1] at hcons
        exact absurd rfl hcons
      · exact mergeResult_trans (by rw [hm2]) hnum2
          (ih a2 ka kb hw2 (isMapped_of_getNode hgi2) (isMapped_of_getNode hgj2) hne
            (by rw [hm2]; exact hcard))
    · exact absurd (consistent_null hbot htb (bitsGrow_top hg1) (bitsGrow_bottom hg1) hnn h1 h2)
        hcons

/-- The re-scan returns or stops at an assertion, if the nested merges of two different mapped
nodes do. -/
theorem rescan_total (fuel n : Nat)
    (ih : ∀ (a : Order) (ka kb : Nat), a.WellFormed → a.IsMapped ka → a.IsMapped kb → ka ≠ kb →
      a.mappedNodes.card ≤ fuel → MergeResult a (mergeNodesFuel fuel a (some ka) (some kb))) :
    ∀ (l : List (Nat × Nat)), (∀ ij ∈ l, ij.1 < n ∧ ij.2 < n) → ∀ (a : Order), a.WellFormed →
      a.numberOfStates = n → a.mappedNodes.card ≤ fuel →
      MergeResult a (rescan
        (fun (a : Order) (i j : Nat) => do
          let p ← a.getNode i
          let q ← a.getNode j
          mergeNodesFuel fuel a p q) a l) := by
  intro l
  induction l with
  | nil =>
    intro _ a hw hn _
    exact Or.inr ⟨a, rfl, hw, Finset.Subset.refl _, rfl⟩
  | cons ij rest ihl =>
    intro hl a hw hn hcard
    obtain ⟨i, j⟩ := ij
    have hij := hl (i, j) (List.mem_cons_self _ _)
    simp only [rescan]
    rcases rescanStep_total fuel ih hw (hn.symm ▸ hij.1) (hn.symm ▸ hij.2) hcard with
      h | ⟨a1, h, hw1, hsub, hn1⟩
    · left
      rw [h]
      rfl
    · rw [h, ok_bind]
      exact mergeResult_trans hsub hn1
        (ihl (fun x hx => hl x (List.mem_cons_of_mem _ hx)) a1 hw1 (hn1.trans hn)
          ((Finset.card_le_card hsub).trans hcard))

/-- The recursion of `mergeNodes` is bounded by the number of mapped nodes: with at least that
much fuel (one more for a merge of a node with itself) the merge of two mapped nodes of a
well-formed order returns a well-formed order or stops at an assertion; it maps no further node,
and `node2` is no longer mapped when it differs from `node1`. -/
theorem mergeNodesFuel_total (fuel : Nat) :
    ∀ (o : Order) (k1 k2 : Nat), o.WellFormed → o.IsMapped k1 → o.IsMapped k2 →
      o.mappedNodes.card + (if k1 = k2 then 1 else 0) ≤ fuel →
      mergeNodesFuel fuel o (some k1) (some k2) = Except.error Fault.assertion ∨
        ∃ o1, mergeNodesFuel fuel o (some k1) (some k2) = Except.ok o1 ∧ o1.WellFormed ∧
          o1.mappedNodes ⊆ o.mappedNodes ∧ o1.numberOfStates = o.numberOfStates ∧
          (k1 ≠ k2 → k2 ∉ o1.mappedNodes) := by
  induction fuel with
  | zero =>
    intro o k1 k2 _ hm1 _ hcard
    have : 0 < o.mappedNodes.card := Finset.card_pos.mpr ⟨k1, mem_mappedNodes.mpr hm1⟩
    omega
  | succ fuel ih =>
    intro o k1 k2 hw hm1 hm2 hcard
    obtain ⟨hv, hp, hbm, hbot, htb⟩ := hw
    obtain ⟨oa, htr, hva, hbma, _, hsub, hk2⟩ := mergeTransfer_total hv hp hbm hm1 hm2
    obtain ⟨hpa, hfr, _, _⟩ := mergeTransfer_extends hp hm1 hm2 htr
    have hna : oa.numberOfStates = o.numberOfStates := sameFrame_numberOfStates hfr
    have hta : oa.top = o.top := by rw [hfr]
    have hba : oa.bottom = o.bottom := by rw [hfr]
    have hwa : oa.WellFormed := ⟨hva, hpa, hbma, by rw [hba]; exact hbot, by rw [hta, hba]; exact htb⟩
    have hsuba : oa.mappedNodes ⊆ o.mappedNodes := fun k hk =>
      mem_mappedNodes.mpr (hsub k (mem_mappedNodes.mp hk))
    have hcarda : oa.mappedNodes.card ≤ fuel := by
      by_cases hk : k1 = k2
      · rw [if_pos hk] at hcard
        have := Finset.card_le_card hsuba
        omega
      · rw [if_neg hk] at hcard
        have hss : oa.mappedNodes ⊂ o.mappedNodes :=
          Finset.ssubset_iff_subset_ne.mpr ⟨hsuba, fun e =>
            hk2 hk (mem_mappedNodes.mp (e ▸ mem_mappedNodes.mpr hm2))⟩
        have := Finset.card_lt_card hss
        omega
    rw [mergeNodesFuel_succ, htr, ok_bind]
    have ih0 : ∀ (a : Order) (ka kb : Nat), a.WellFormed → a.IsMapped ka → a.IsMapped kb →
        ka ≠ kb → a.mappedNodes.card ≤ fuel →
        MergeResult a (mergeNodesFuel fuel a (some ka) (some kb)) := by
      intro a ka kb hwa1 hma hmb hne hc
      rcases ih a ka kb hwa1 hma hmb (by rw [if_neg hne]; exact hc) with h | ⟨a1, h, hw1, hs1, hn1, _⟩
      · exact Or.inl h
      · exact Or.inr ⟨a1, h, hw1, hs1, hn1⟩
    rcases rescan_total fuel oa.numberOfStates ih0 (scanPairs oa.numberOfStates)
        (fun ij hij => by
          obtain ⟨i, j⟩ := ij
          have := mem_scanPairs.mp hij
          exact ⟨by simp only; omega, this.2⟩)
        oa hwa rfl hcarda with h | ⟨o1, h, hw1, hs1, hn1⟩
    · exact Or.inl h
    · refine Or.inr ⟨o1, h, hw1, hs1.trans hsuba, hn1.trans hna, ?_⟩
      intro hne hmem
      exact hk2 hne (mem_mappedNodes.mp (hs1 hmem))

/-- The method `mergeNodes` has enough fuel on every well-formed order. -/
theorem mergeNodes_total {o : Order} (hw : o.WellFormed) {k1 k2 : Nat} (hm1 : o.IsMapped k1)
    (hm2 : o.IsMapped k2) :
    o.mergeNodes (some k1) (some k2) = Except.error Fault.assertion ∨
      ∃ o1, o.mergeNodes (some k1) (some k2) = Except.ok o1 ∧ o1.WellFormed ∧
        o1.mappedNodes ⊆ o.mappedNodes ∧ o1.numberOfStates = o.numberOfStates ∧
        (k1 ≠ k2 → k2 ∉ o1.mappedNodes) := by
  apply mergeNodesFuel_total _ o k1 k2 hw hm1 hm2
  have := card_mappedNodes_le o
  rw [hw.1.1] at this
  split <;> omega

end Order

namespace Order

/-- When the two directions of `compare` are inconsistent, the two states are in different
non-null nodes. -/
theorem inconsistent_distinct {a a1 a2 : Order} {i j : Nat} {c1 c2 : NodeComparison}
    (hb : a.bottom ≠ none) (htb : a.top ≠ a.bottom)
    (h1 : a.compare i j UNKNOWN = Except.ok (c1, a1))
    (h2 : a1.compare j i UNKNOWN = Except.ok (c2, a2)) (hc : consistent c1 c2 = false) :
    ∃ ka kb, ka ≠ kb ∧ a2.getNode i = Except.ok (some ka) ∧
      a2.getNode j = Except.ok (some kb) := by
  have hg1 := compare_bitsGrow h1
  have hg2 := compare_bitsGrow h2
  simp only [Order.compare, bind_eq_ok] at h1
  obtain ⟨p, hp, q, hq, h1⟩ := h1
  simp only [Order.compare, getNode_of_bitsGrow hg1 hp, getNode_of_bitsGrow hg1 hq, ok_bind] at h2
  have hp2 := getNode_of_bitsGrow (bitsGrow_trans hg1 hg2) hp
  have hq2 := getNode_of_bitsGrow (bitsGrow_trans hg1 hg2) hq
  by_cases hnn : p ≠ none ∧ q ≠ none
  · obtain ⟨ka, rfl⟩ := Option.ne_none_iff_exists'.mp hnn.1
    obtain ⟨kb, rfl⟩ := Option.ne_none_iff_exists'.mp hnn.2
    refine ⟨ka, kb, ?_, hp2, hq2⟩
    rintro rfl
    rw [compareNodes_same] at h1 h2
    simp only [Except.ok.injEq, Prod.mk.injEq] at h1 h2
    rw [← h1.1, ← h2.1] at hc
    exact absurd hc (by decide)
  · have := consistent_null hb htb (bitsGrow_top hg1) (bitsGrow_bottom hg1) hnn h1 h2
    rw [hc] at this
    exact absurd this (by decide)

/-- After `merge(s1, s2)` both states are in the same node. -/
theorem merge_joins {o o1 : Order} {s1 s2 k1 k2 : Nat} (hv : o.Valid) (hp : o.Partition)
    (h1 : o.getNode s1 = Except.ok (some k1)) (h2 : o.getNode s2 = Except.ok (some k2))
    (hm : o.merge s1 s2 = Except.ok o1) :
    ∃ k, o1.getNode s1 = Except.ok (some k) ∧ o1.getNode s2 = Except.ok (some k) ∧
      o1.compare s1 s2 UNKNOWN = Except.ok (SAME, o1) := by
  have hk1 := (getNode_eq_ok.mp h1).2
  have hk2 := (getNode_eq_ok.mp h2).2
  have hmap1 : o.IsMapped k1 := isMapped_of_getNode h1
  have hmap2 : o.IsMapped k2 := isMapped_of_getNode h2
  obtain ⟨n2, hn2, hs2mem⟩ := anchored_iff.mp hp.1 s2 k2 hk2
  obtain ⟨oa, htr, hscan⟩ := merge_eq_ok h1 h2 hm
  obtain ⟨n1', n2', m1, hn1', hn2', hm1, hframe, _, hnlen, hin, hout, _⟩ :=
    mergeTransfer_eq_ok htr
  rw [hn2] at hn2'
  cases hn2'
  obtain ⟨hpa, _⟩ := mergeTransfer_extends hp hmap1 hmap2 htr
  obtain ⟨hp1, hfr1, _, hlen1, _, hmapped, hsame⟩ := rescan_extends _ _ oa o1 hpa hscan
  have hnum : o1.nodes.length = o1.numberOfStates := by
    rw [hlen1, hnlen, sameFrame_numberOfStates hfr1, sameFrame_numberOfStates hframe]
    exact hv.1
  have hs2a : oa.nodes[s2]? = some (some k1) := (hin s2 hs2mem).2
  have hs1a : oa.nodes[s1]? = some (some k1) := by
    by_cases hx : s1 ∈ n2.states
    · exact (hin s1 hx).2
    · rw [hout s1 hx]
      exact hk1
  obtain ⟨k, hk, _⟩ := hmapped s1 k1 hs1a
  have hg1 := getNode_of_nodes hnum hk
  have hg2 : o1.getNode s2 = Except.ok (some k) := by
    apply getNode_of_nodes hnum
    rw [← hsame s1 s2 k1 hs1a hs2a]
    exact hk
  refine ⟨k, hg1, hg2, ?_⟩
  simp only [Order.compare, hg1, hg2, ok_bind]
  exact compareNodes_same _ _

/-- On a well-formed order `merge` of two mapped states returns or stops at an assertion. -/
theorem merge_total {o : Order} (hw : o.WellFormed) {s1 s2 k1 k2 : Nat}
    (h1 : o.getNode s1 = Except.ok (some k1)) (h2 : o.getNode s2 = Except.ok (some k2)) :
    o.merge s1 s2 = Except.error Fault.assertion ∨
      ∃ o1, o.merge s1 s2 = Except.ok o1 ∧ o1.WellFormed ∧
        o1.numberOfStates = o.numberOfStates := by
  simp only [merge, h1, h2, ok_bind]
  rcases mergeNodes_total hw (isMapped_of_getNode h1) (isMapped_of_getNode h2) with
    h | ⟨o1, h, hw1, _, hn, _⟩
  · exact Or.inl h
  · exact Or.inr ⟨o1, h, hw1, hn⟩

end Order

namespace Order

/-- C38: on a well-formed order (valid, partition invariant, every `statesAbove` bit belongs to a
mapped state, `bottom` a node different from `top`) `mergeNodes` of two mapped nodes terminates:
with fuel for a recursion depth of the number of mapped nodes plus one, and so with the fuel of
`mergeNodes` itself, it returns a well-formed order or stops at an assertion of `compare`.  The
re-scan calls `merge(i, j)` only when the two directions of `compare` are inconsistent, and then
`i` and `j` are in two different non-null nodes; a merge of two different nodes maps no further
node and strictly decreases the number of mapped nodes. -/
theorem mergeNodes_terminates (o : Order) (k1 k2 : Nat) (hw : o.WellFormed)
    (hm1 : o.IsMapped k1) (hm2 : o.IsMapped k2) :
    (∀ fuel, o.mappedNodes.card + 1 ≤ fuel →
      mergeNodesFuel fuel o (some k1) (some k2) = Except.error Fault.assertion ∨
      ∃ o1, mergeNodesFuel fuel o (some k1) (some k2) = Except.ok o1 ∧ o1.WellFormed ∧
        o1.mappedNodes ⊆ o.mappedNodes ∧
        (k1 ≠ k2 → o1.mappedNodes.card < o.mappedNodes.card)) ∧
    o.mappedNodes.card + 1 ≤ o.numberOfStates + 2 ∧
    (∀ (a a1 a2 : Order) (i j : Nat) (c1 c2 : NodeComparison), a.WellFormed →
      a.compare i j UNKNOWN = Except.ok (c1, a1) → a1.compare j i UNKNOWN = Except.ok (c2, a2) →
      consistent c1 c2 = false →
      ∃ ka kb, ka ≠ kb ∧ a2.getNode i = Except.ok (some ka) ∧
        a2.getNode j = Except.ok (some kb)) := by
  refine ⟨?_, ?_, ?_⟩
  · intro fuel hfuel
    rcases mergeNodesFuel_total fuel o k1 k2 hw hm1 hm2 (by split <;> omega) with
      h | ⟨o1, h, hw1, hsub, _, hk2⟩
    · exact Or.inl h
    · refine Or.inr ⟨o1, h, hw1, hsub, fun hne => ?_⟩
      exact Finset.card_lt_card (Finset.ssubset_iff_subset_ne.mpr ⟨hsub, fun e =>
        hk2 hne (e ▸ mem_mappedNodes.mpr hm2)⟩)
  · have := card_mappedNodes_le o
    rw [hw.1.1] at this
    omega
  · intro a a1 a2 i j c1 c2 hwa h1 h2 hc
    exact inconsistent_distinct hwa.2.2.2.1 hwa.2.2.2.2 h1 h2 hc

end Order

/-- C38 (witness): the nodes of the states 2 and 3 of the sample chain. -/
theorem mergeNodes_terminates_witness :
    ∃ o, Order.sampleChain = Except.ok o ∧ o.WellFormed ∧ o.IsMapped 2 ∧ o.IsMapped 3 ∧
    (∀ fuel, o.mappedNodes.card + 1 ≤ fuel →
      Order.mergeNodesFuel fuel o (some 2) (some 3) = Except.error Fault.assertion ∨
      ∃ o1, Order.mergeNodesFuel fuel o (some 2) (some 3) = Except.ok o1 ∧ o1.WellFormed ∧
        o1.mappedNodes ⊆ o.mappedNodes ∧
        ((2 : Nat) ≠ 3 → o1.mappedNodes.card < o.mappedNodes.card)) ∧
    o.mappedNodes.card + 1 ≤ o.numberOfStates + 2 ∧
    (∀ (a a1 a2 : Order) (i j : Nat) (c1 c2 : NodeComparison), a.WellFormed →
      a.compare i j UNKNOWN = Except.ok (c1, a1) → a1.compare j i UNKNOWN = Except.ok (c2, a2) →
      Order.consistent c1 c2 = false →
      ∃ ka kb, ka ≠ kb ∧ a2.getNode i = Except.ok (some ka) ∧
        a2.getNode j = Except.ok (some kb)) :=
  ⟨_, rfl, by decide, by unfold Order.IsMapped; decide, by unfold Order.IsMapped; decide,
    Order.mergeNodes_terminates _ 2 3 (by decide) (by unfold Order.IsMapped; decide)
      (by unfold Order.IsMapped; decide)⟩

namespace ReachabilityOrderExtender

open Order

/-- C22: on a well-formed order whose counter is the number of mapped states, let the successor
`t` be mapped to the node `kt`.  If `s == t`, `handleOneSuccessor(order, s, t)` returns the order
unchanged.  If `s != t` and `s` has no node, it returns the order in which `s` is attached to the
node of `t`, and `compare(s, t)` is SAME.  If `s != t` and `s` has a node, it is `merge(s, t)`,
which returns or stops at an assertion of `compare`, and whenever it returns `s` and `t` are in
the same node and `compare(s, t)` is SAME. -/
theorem handleOneSuccessor_joins (o : Order) (s t kt : Nat) (N : Node) (hw : o.WellFormed)
    (hc : o.Counted) (ht : o.getNode t = Except.ok (some kt)) (hN : o.heap[kt]? = some N) :
    (s = t → handleOneSuccessor o s t = Except.ok o) ∧
    (s ≠ t → o.nodes[s]? = some none →
      handleOneSuccessor o s t = Except.ok (o.attached s kt N) ∧
      (o.attached s kt N).getNode s = Except.ok (some kt) ∧
      (o.attached s kt N).getNode t = Except.ok (some kt) ∧
      (o.attached s kt N).compare s t UNKNOWN = Except.ok (SAME, o.attached s kt N)) ∧
    (s ≠ t → ∀ ks : Nat, o.nodes[s]? = some (some ks) →
      handleOneSuccessor o s t = o.merge s t ∧
      (o.merge s t = Except.error Fault.assertion ∨ ∃ o1, o.merge s t = Except.ok o1) ∧
      ∀ o1, o.merge s t = Except.ok o1 →
        ∃ k, o1.getNode s = Except.ok (some k) ∧ o1.getNode t = Except.ok (some k) ∧
          o1.compare s t UNKNOWN = Except.ok (SAME, o1)) := by
  have hct := contains_mapped ht
  refine ⟨?_, ?_, ?_⟩
  · intro hst
    simp [handleOneSuccessor, hct, hst]
  · intro hst hun
    have hlt := lt_of_unmapped hw.1 hun
    have hgs := getNode_attached_self (k := kt) (N := N) hw.1 hlt
    have hgt := getNode_attached_other (k := kt) (N := N) ht hst
    refine ⟨?_, hgs, hgt, ?_⟩
    · simp only [handleOneSuccessor, hct, contains_unmapped hun, ht, ok_bind]
      simpa [hst] using addToNode_attach hw.1 hc hun hN
    · simp only [Order.compare, hgs, hgt, ok_bind]
      exact compareNodes_same _ _
  · intro hst ks hks
    have hgs : o.getNode s = Except.ok (some ks) := getNode_of_nodes hw.1.1 hks
    refine ⟨?_, ?_, ?_⟩
    · simp [handleOneSuccessor, hct, contains_mapped hgs, hst]
    · rcases merge_total hw hgs ht with h | ⟨o1, h, _⟩
      · exact Or.inl h
      · exact Or.inr ⟨o1, h⟩
    · intro o1 h
      exact merge_joins hw.1 hw.2.1 hgs ht h

end ReachabilityOrderExtender

/-- C22 (witness): in the sample base the unmapped state 3 is attached to the node of its
successor 2, and in the sample chain the mapped state 2 is merged with its successor 3. -/
theorem handleOneSuccessor_joins_witness :
    (ReachabilityOrderExtender.handleOneSuccessor (Order.returned Order.sampleBase) 3 2
        = Except.ok ((Order.returned Order.sampleBase).attached 3 2 ⟨[2], ⟨4, 1⟩⟩) ∧
      ((Order.returned Order.sampleBase).attached 3 2 ⟨[2], ⟨4, 1⟩⟩).getNode 3
        = Except.ok (some 2) ∧
      ((Order.returned Order.sampleBase).attached 3 2 ⟨[2], ⟨4, 1⟩⟩).getNode 2
        = Except.ok (some 2) ∧
      ((Order.returned Order.sampleBase).attached 3 2 ⟨[2], ⟨4, 1⟩⟩).compare 3 2 UNKNOWN
        = Except.ok (SAME, (Order.returned Order.sampleBase).attached 3 2 ⟨[2], ⟨4, 1⟩⟩)) ∧
    (ReachabilityOrderExtender.handleOneSuccessor (Order.returned Order.sampleChain) 2 3
        = (Order.returned Order.sampleChain).merge 2 3 ∧
      ((Order.returned Order.sampleChain).merge 2 3 = Except.error Fault.assertion ∨
        ∃ o1, (Order.returned Order.sampleChain).merge 2 3 = Except.ok o1) ∧
      ∀ o1, (Order.returned Order.sampleChain).merge 2 3 = Except.ok o1 →
        ∃ k, o1.getNode 2 = Except.ok (some k) ∧ o1.getNode 3 = Except.ok (some k) ∧
          o1.compare 2 3 UNKNOWN = Except.ok (SAME, o1)) :=
  ⟨(ReachabilityOrderExtender.handleOneSuccessor_joins (Order.returned Order.sampleBase) 3 2 2
      ⟨[2], ⟨4, 1⟩⟩ (by decide) (by decide) (by decide) (by decide)).2.1 (by decide)
      (by decide),
    (ReachabilityOrderExtender.handleOneSuccessor_joins (Order.returned Order.sampleChain) 2 3 3
      ⟨[3], ⟨5, 21⟩⟩ (by decide) (by decide) (by decide) (by decide)).2.2 (by decide) 2
      (by decide)⟩

/-- C35 (divergence): in the sample base (top state 0, bottom state 1, state 3 without a node) the
two tiers disagree on the unmapped state against the top state: `compareFast(3, 0)` is UNKNOWN,
`compare(3, 0)` is BELOW.  The other three combinations agree: `compareFast(0, 3)` and
`compare(0, 3)` are ABOVE, `compareFast(3, 1)` and `compare(3, 1)` are ABOVE,
`compareFast(1, 3)` and `compare(1, 3)` are BELOW. -/
theorem compareFast_unmapped_diverges :
    (Order.returned Order.sampleBase).top = some 0 ∧
    (Order.returned Order.sampleBase).getNode 0 = Except.ok (some 0) ∧
    (Order.returned Order.sampleBase).getNode 3 = Except.ok none ∧
    (Order.returned Order.sampleBase).compareFast 3 0 UNKNOWN = Except.ok UNKNOWN ∧
    (Order.returned Order.sampleBase).compare 3 0 UNKNOWN
      = Except.ok (BELOW, Order.returned Order.sampleBase) ∧
    (Order.returned Order.sampleBase).compareFast 0 3 UNKNOWN = Except.ok ABOVE ∧
    (Order.returned Order.sampleBase).compare 0 3 UNKNOWN
      = Except.ok (ABOVE, Order.returned Order.sampleBase) ∧
    (Order.returned Order.sampleBase).compareFast 3 1 UNKNOWN = Except.ok ABOVE ∧
    (Order.returned Order.sampleBase).compare 3 1 UNKNOWN
      = Except.ok (ABOVE, Order.returned Order.sampleBase) ∧
    (Order.returned Order.sampleBase).compareFast 1 3 UNKNOWN = Except.ok BELOW ∧
    (Order.returned Order.sampleBase).compare 1 3 UNKNOWN
      = Except.ok (BELOW, Order.returned Order.sampleBase) := by
  decide

/-- C32 (divergence): in the sample base with action 1 chosen for state 2, the original answers
`isActionSetAtState(2) == true` and `getActionAtState(2) == 1`; its copy has no scheduler and
answers `false` and `0`. -/
theorem copy_drops_scheduler :
    (Order.returned Order.sampleScheduled).isActionSetAtState 2 = true ∧
    (Order.returned Order.sampleScheduled).getActionAtState 2 = Except.ok 1 ∧
    ∃ c, (Order.returned Order.sampleScheduled).copy none none = Except.ok c ∧
      c.mdpScheduler = none ∧ c.isActionSetAtState 2 = false ∧
      c.getActionAtState 2 = Except.ok 0 :=
  ⟨by decide, by decide, _, rfl, by decide, by decide, by decide⟩

/-- C36 (divergence): minimising, state 3 of the sample model has the successors 0, 2 and 1,
sorted from highest to lowest as `[0, 2, 1]`.  The simple check is given this list, not its
reverse: it succeeds with action 0, the only action that reaches the highest successor 0, and
`findBestAction` assigns action 0, although action 1 is the only action that reaches the lowest
successor 1 (on the list from lowest to highest the check answers action 1). -/
theorem findBestAction_min_unreversed :
    (Order.returned Order.sampleBase).sortStates UNKNOWN
        (ReachabilityOrderExtender.sampleMdpMinThree.getSuccessors 3
          (Order.returned Order.sampleBase))
      = Except.ok ([0, 2, 1], Order.returned Order.sampleBase) ∧
    ReachabilityOrderExtender.sampleMdpMinThree.simpleActionCheck 3 [0, 2, 1]
      = Except.ok (true, 0) ∧
    ReachabilityOrderExtender.sampleMdpMinThree.simpleActionCheck 3 [1, 2, 0]
      = Except.ok (true, 1) ∧
    ((ReachabilityOrderExtender.sampleMdpMinThree.findBestAction UNKNOWN
        (Order.returned Order.sampleBase) () 3).map
      (fun r => (r.1, r.2.getActionAtState 3))) = Except.ok (true, Except.ok 0) := by
  decide

namespace MonotonicityHelper

/-- In the valuation for the variable `p`, the entry of `p` is
`lb_p + i * (ub_p - lb_p) / (n - 1)` and the entry of every other variable is the lower boundary
of `p`. -/
theorem sampleValuation_entries {Var : Type} [DecidableEq Var] (region : ParameterRegion Var)
    (vars : List Var) (p : Var) (i n : Nat) :
    sampleValuation region vars p i n
      = vars.map (fun q => (q,
          if p = q then region.getLowerBoundary p
            + (i : ℚ) * (region.getUpperBoundary p - region.getLowerBoundary p)
              / ((n - 1 : Nat) : ℚ)
          else region.getLowerBoundary p)) := by
  unfold sampleValuation
  apply List.map_congr_left
  intro q _
  split <;> rfl

end MonotonicityHelper

/-- C37 (divergence): for the sample region (parameter 0 in `[1/10, 9/10]`, parameter 1 in
`[3/10, 7/10]`) and three samples, the valuations for parameter 0 give it the values `1/10`,
`1/2` and `9/10`, and give parameter 1 the value `1/10`, the lower boundary of parameter 0,
instead of its own lower boundary `3/10`. -/
theorem sampleValuation_other_parameter :
    MonotonicityHelper.sampleValuation MonotonicityHelper.sampleRegion [0, 1] 0 0 3
      = [(0, 1 / 10), (1, 1 / 10)] ∧
    MonotonicityHelper.sampleValuation MonotonicityHelper.sampleRegion [0, 1] 0 1 3
      = [(0, 1 / 2), (1, 1 / 10)] ∧
    MonotonicityHelper.sampleValuation MonotonicityHelper.sampleRegion [0, 1] 0 2 3
      = [(0, 9 / 10), (1, 1 / 10)] ∧
    MonotonicityHelper.sampleRegion.getLowerBoundary 1 = 3 / 10 := by
  refine ⟨?_, ?_, ?_, ?_⟩ <;>
    norm_num [MonotonicityHelper.sampleValuation, MonotonicityHelper.sampleRegion]

/-- C33 (divergence): the search for the pair (2, 3) on the sample order in which the states 2
and 3 are unrelated, with the two candidates "2 above 3" and "3 above 2".  The first candidate is
not the last one, and its branch is explored on the order object itself: when the second
candidate is explored, `compare(3, 2)` on the order it is given answers BELOW (on the order as it
was before the first branch it answers UNKNOWN); in the end the one order object has both
relations, and `monResults` has one entry, for the order object 0 with the assumption list of the
first branch. -/
theorem assumption_branches_share_order :
    (MonotonicityHelper.sampleHelper.extendOrderWithAssumptions 3
        ⟨(), [Order.returned Order.sampleOpen], []⟩ 0 2 3 [] []).map Prod.snd
      = Except.ok [(3, 2, BELOW)] ∧
    ((Order.returned Order.sampleOpen).compare 3 2 UNKNOWN).map Prod.fst = Except.ok UNKNOWN ∧
    (MonotonicityHelper.sampleHelper.extendOrderWithAssumptions 3
        ⟨(), [Order.returned Order.sampleOpen], []⟩ 0 2 3 [] []).map
      (fun r => r.1.orders.map (fun o =>
        ((o.compare 2 3 UNKNOWN).map Prod.fst, (o.compare 3 2 UNKNOWN).map Prod.fst)))
      = Except.ok [(Except.ok ABOVE, Except.ok ABOVE)] ∧
    (MonotonicityHelper.sampleHelper.extendOrderWithAssumptions 3
        ⟨(), [Order.returned Order.sampleOpen], []⟩ 0 2 3 [] []).map
      (fun r => r.1.monResults.map (fun e => (e.1, e.2.2)))
      = Except.ok [(0, [(2, 3)])] := by
  refine ⟨?_, ?_, ?_, ?_⟩ <;> decide

namespace MonotonicityHelper

variable {A M E : Type}

theorem explored_cons_invalid {c : A × AssumptionStatus} {rest : List (A × AssumptionStatus)}
    (hc : c.2 = AssumptionStatus.INVALID) : explored (c :: rest) = explored rest := by
  simp [explored, hc]

theorem explored_cons_valid {c : A × AssumptionStatus} {rest : List (A × AssumptionStatus)}
    (hc : c.2 ≠ AssumptionStatus.INVALID) : explored (c :: rest) = c :: explored rest := by
  simp [explored, hc]

theorem expectedEvents_cons {assumptions : List A} {c : A × AssumptionStatus}
    {rest : List (A × AssumptionStatus)} (hc : c.2 ≠ AssumptionStatus.INVALID) (f : Bool)
    (flags : List Bool) :
    expectedEvents assumptions (c :: rest) (f :: flags)
      = SearchEvent.extended c.1 ::
          ((if f then [SearchEvent.branched (branchAssumptions assumptions c)] else [])
            ++ expectedEvents assumptions rest flags) := by
  simp [expectedEvents, explored_cons_valid hc]

/-- One explored candidate: the call of `extendOrder` with it and, if the search continues, the
continuation with the assumption list of its branch. -/
theorem branch_events (h : MonotonicityHelper A M E) (g : List Order → List Order)
    {w w2 : Search A M (E × List (SearchEvent A))} {order : Nat} {monRes monRes2 : M}
    {assumption : A} {branch : List A} {e1 : E × List (SearchEvent A)} {orders1 : List Order}
    {monRes1 : M} {criticalTuple : Nat × Nat × Nat}
    (hx : h.logging.extendOrder w.extender w.orders order monRes assumption
      = Except.ok (e1, orders1, monRes1, criticalTuple))
    (hr : h.logging.recurseWhen (recordBranch g) { w with extender := e1, orders := orders1 }
      criticalTuple branch monRes1 = Except.ok (w2, monRes2)) :
    ∃ f : Bool, w2.extender.2 = w.extender.2 ++ SearchEvent.extended assumption ::
      (if f then [SearchEvent.branched branch] else []) := by
  simp only [logging, bind_eq_ok, pure_eq_ok, Except.ok.injEq, Prod.mk.injEq] at hx
  obtain ⟨⟨e0, r⟩, _, rfl, _⟩ := hx
  unfold recurseWhen at hr
  split at hr
  · simp only [recordBranch, Except.ok.injEq, Prod.mk.injEq] at hr
    refine ⟨true, ?_⟩
    rw [← hr.1]
    simp
  · simp only [Except.ok.injEq, Prod.mk.injEq] at hr
    refine ⟨false, ?_⟩
    rw [← hr.1]
    simp

/-- The local list `assumptions` after the loop: only the last candidate can change it. -/
theorem exploreCandidates_assumptions (h : MonotonicityHelper A M E)
    (recurse : Search A M E → Nat → Nat → Nat → List A → M → Except Fault (Search A M E × M))
    (order : Nat) (candidates : List (A × AssumptionStatus)) :
    ∀ (w w1 : Search A M E) (assumptions assumptions1 : List A) (monRes monRes1 : M),
      h.exploreCandidates recurse order w assumptions monRes candidates
        = Except.ok (w1, assumptions1, monRes1) →
      assumptions1 = match candidates.getLast? with
        | some c =>
          if c.2 ≠ AssumptionStatus.INVALID then branchAssumptions assumptions c else assumptions
        | none => assumptions := by
  induction candidates with
  | nil =>
    intro w w1 assumptions assumptions1 monRes monRes1 hrun
    simp only [exploreCandidates, Except.ok.injEq, Prod.mk.injEq] at hrun
    simp [hrun.2.1]
  | cons c rest ih =>
    intro w w1 assumptions assumptions1 monRes monRes1 hrun
    unfold exploreCandidates at hrun
    by_cases hc : c.2 ≠ AssumptionStatus.INVALID
    · rw [if_pos hc] at hrun
      by_cases hlast : rest.length ≠ 0
      · rw [if_pos hlast] at hrun
        simp only [bind_eq_ok] at hrun
        obtain ⟨_, _, ⟨w2, _⟩, _, hrest⟩ := hrun
        have := ih _ _ _ _ _ _ hrest
        cases rest with
        | nil => simp at hlast
        | cons d rest2 => simpa [List.getLast?_cons_cons] using this
      · rw [if_neg hlast] at hrun
        have hnil : rest = [] := by
          cases rest with
          | nil => rfl
          | cons _ _ => simp at hlast
        subst hnil
        simp only [bind_eq_ok] at hrun
        obtain ⟨_, _, ⟨w2, m2⟩, _, hrest⟩ := hrun
        simp only [exploreCandidates, Except.ok.injEq, Prod.mk.injEq] at hrest
        simp [hc, branchAssumptions, hrest.2.1]
    · rw [if_neg hc] at hrun
      have := ih _ _ _ _ _ _ hrun
      cases rest with
      | nil =>
        simp only [exploreCandidates, Except.ok.injEq, Prod.mk.injEq] at hrun
        simp [hc, hrun.2.1]
      | cons d rest2 => simpa [List.getLast?_cons_cons] using this

/-- C34: `extendOrderWithAssumptions` stops at its assertion when the assumption maker returns
more than three candidates.  Its loop over the candidates, run with an extender that records
every call of `extendOrder` and with the recursive call replaced by a recorder of the assumption
list it is given, records, whatever the extender and the recorder do to the orders: one call of
`extendOrder` for every candidate whose status is not INVALID, with that candidate, in the order
of the candidates, and none for an INVALID candidate; and, where the search continues after the
call, the assumption list of the branch, which is the list of the caller with the candidate
appended if its status is UNKNOWN and the list of the caller itself if its status is VALID.
After the loop the list of the caller is the assumption list of the branch of the last candidate,
if that was explored, and unchanged otherwise. -/
theorem assumption_bookkeeping (h : MonotonicityHelper A M E) (g : List Order → List Order)
    (order : Nat) (candidates : List (A × AssumptionStatus))
    (w w1 : Search A M (E × List (SearchEvent A))) (assumptions assumptions1 : List A)
    (monRes monRes1 : M)
    (hrun : h.logging.exploreCandidates (recordBranch g) order w assumptions monRes candidates
      = Except.ok (w1, assumptions1, monRes1)) :
    (∃ flags : List Bool, flags.length = (explored candidates).length ∧
      w1.extender.2 = w.extender.2 ++ expectedEvents assumptions candidates flags) ∧
    (assumptions1 = match candidates.getLast? with
      | some c =>
        if c.2 ≠ AssumptionStatus.INVALID then branchAssumptions assumptions c else assumptions
      | none => assumptions) ∧
    (∀ (fuel val1 val2 : Nat) (s : Search A M E) (o : Order) (l : List A) (m : M),
      s.orders[order]? = some o → ¬ (val1 = h.getNumberOfStates ∨ val2 = h.getNumberOfStates) →
      3 < (h.createAndCheckAssumptions val1 val2 o).length →
      h.extendOrderWithAssumptions (fuel + 1) s order val1 val2 l m
        = Except.error Fault.assertion) := by
  refine ⟨?_, exploreCandidates_assumptions _ _ _ _ _ _ _ _ _ _ hrun, ?_⟩
  · induction candidates generalizing w assumptions1 monRes1 monRes with
    | nil =>
      simp only [exploreCandidates, Except.ok.injEq, Prod.mk.injEq] at hrun
      exact ⟨[], rfl, by rw [← hrun.1]; simp [expectedEvents, explored]⟩
    | cons c rest ih =>
      unfold exploreCandidates at hrun
      by_cases hc : c.2 ≠ AssumptionStatus.INVALID
      · rw [if_pos hc] at hrun
        by_cases hlast : rest.length ≠ 0
        · rw [if_pos hlast] at hrun
          simp only [bind_eq_ok] at hrun
          obtain ⟨⟨e1, orders1, monResCopy1, criticalTuple⟩, hx, ⟨w2, m2⟩, hr, hrest⟩ := hrun
          obtain ⟨f, hf⟩ := branch_events h g hx hr
          obtain ⟨flags, hlen, hlog⟩ := ih w2 assumptions1 monRes monRes1 hrest
          refine ⟨f :: flags, by simp [explored_cons_valid hc, hlen], ?_⟩
          rw [hlog, hf, expectedEvents_cons hc]
          simp [branchAssumptions]
        · rw [if_neg hlast] at hrun
          have hnil : rest = [] := by
            cases rest with
            | nil => rfl
            | cons _ _ => simp at hlast
          subst hnil
          simp only [bind_eq_ok] at hrun
          obtain ⟨⟨e1, orders1, monRes2, criticalTuple⟩, hx, ⟨w2, m2⟩, hr, hrest⟩ := hrun
          obtain ⟨f, hf⟩ := branch_events h g hx hr
          simp only [exploreCandidates, Except.ok.injEq, Prod.mk.injEq] at hrest
          refine ⟨[f], by simp [explored, hc], ?_⟩
          rw [← hrest.1, hf, expectedEvents_cons hc]
          simp [branchAssumptions, expectedEvents, explored]
      · rw [if_neg hc] at hrun
        obtain ⟨flags, hlen, hlog⟩ := ih w assumptions1 monRes monRes1 hrun
        have hinv : c.2 = AssumptionStatus.INVALID := not_not.mp hc
        refine ⟨flags, by rw [explored_cons_invalid hinv]; exact hlen, ?_⟩
        rw [hlog]
        simp [expectedEvents, explored_cons_invalid hinv]
  · intro fuel val1 val2 s o l m ho hval hlen
    simp only [extendOrderWithAssumptions, ho, if_neg hval]
    rw [if_pos (by omega)]

end MonotonicityHelper

/-- C34 (witness): the loop for the candidates "2 above 3" (UNKNOWN), "3 above 2" (INVALID) and
"2 above 2" (VALID) on the sample order. -/
theorem assumption_bookkeeping_witness :
    ∃ w1 assumptions1 monRes1,
      MonotonicityHelper.sampleHelper.logging.exploreCandidates
        (MonotonicityHelper.recordBranch (fun orders => orders)) 0
        ⟨((), []), [Order.returned Order.sampleOpen], []⟩ [] []
        [((2, 3), AssumptionStatus.UNKNOWN), ((3, 2), AssumptionStatus.INVALID),
          ((2, 2), AssumptionStatus.VALID)]
        = Except.ok (w1, assumptions1, monRes1) ∧
    (∃ flags : List Bool, flags.length
        = (MonotonicityHelper.explored [((2, 3), AssumptionStatus.UNKNOWN),
            ((3, 2), AssumptionStatus.INVALID), ((2, 2), AssumptionStatus.VALID)]).length ∧
      w1.extender.2 = [] ++ MonotonicityHelper.expectedEvents []
        [((2, 3), AssumptionStatus.UNKNOWN), ((3, 2), AssumptionStatus.INVALID),
          ((2, 2), AssumptionStatus.VALID)] flags) ∧
    (assumptions1 = match [((2, 3), AssumptionStatus.UNKNOWN), ((3, 2), AssumptionStatus.INVALID),
          ((2, 2), AssumptionStatus.VALID)].getLast? with
      | some c =>
        if c.2 ≠ AssumptionStatus.INVALID then MonotonicityHelper.branchAssumptions [] c else []
      | none => []) ∧
    (∀ (fuel val1 val2 : Nat) (s : MonotonicityHelper.Search (Nat × Nat)
        (List (Nat × Nat × NodeComparison)) Unit) (o : Order) (l : List (Nat × Nat))
        (m : List (Nat × Nat × NodeComparison)),
      s.orders[0]? = some o →
      ¬ (val1 = MonotonicityHelper.sampleHelper.getNumberOfStates ∨
        val2 = MonotonicityHelper.sampleHelper.getNumberOfStates) →
      3 < (MonotonicityHelper.sampleHelper.createAndCheckAssumptions val1 val2 o).length →
      MonotonicityHelper.sampleHelper.extendOrderWithAssumptions (fuel + 1) s 0 val1 val2 l m
        = Except.error Fault.assertion) :=
  ⟨_, _, _, rfl,
    MonotonicityHelper.assumption_bookkeeping MonotonicityHelper.sampleHelper
      (fun orders => orders) 0
      [((2, 3), AssumptionStatus.UNKNOWN), ((3, 2), AssumptionStatus.INVALID),
        ((2, 2), AssumptionStatus.VALID)]
      ⟨((), []), [Order.returned Order.sampleOpen], []⟩ _ [] _ [] _ rfl⟩

/-! ## The counter invariant -/

namespace Order

theorem countP_set_some {l : List Ptr} {i k : Nat} (h : l[i]? = some none) :
    (l.set i (some k)).countP (fun p => p.isSome) = l.countP (fun p => p.isSome) + 1 := by
  induction l generalizing i with
  | nil => simp at h
  | cons a rest ih =>
    cases i with
    | zero =>
      simp only [List.getElem?_cons_zero, Option.some.injEq] at h
      subst h
      simp [List.countP_cons]
    | succ j =>
      simp only [List.getElem?_cons_succ] at h
      simp only [List.set_cons_succ, List.countP_cons, ih h]
      omega

theorem countP_congr_isSome {l1 l2 : List Ptr} (hlen : l1.length = l2.length)
    (h : ∀ i, (l1.getD i none).isSome = (l2.getD i none).isSome) :
    l1.countP (fun p => p.isSome) = l2.countP (fun p => p.isSome) := by
  have hmap : l1.map (fun p => p.isSome) = l2.map (fun p => p.isSome) := by
    apply List.ext_getElem?
    intro i
    have hi := h i
    rw [List.getD_eq_getElem?_getD, List.getD_eq_getElem?_getD] at hi
    simp only [List.getElem?_map]
    by_cases hlt : i < l1.length
    · have hlt2 : i < l2.length := hlen ▸ hlt
      rw [List.getElem?_eq_getElem hlt, List.getElem?_eq_getElem hlt2] at hi ⊢
      simpa using hi
    · rw [List.getElem?_eq_none (by omega), List.getElem?_eq_none (by omega)]
  have e : ∀ l : List Ptr, l.countP (fun p => p.isSome)
      = (l.map (fun p => p.isSome)).countP (fun b => b) := by
    intro l
    rw [List.countP_map]
    rfl
  rw [e l1, e l2, hmap]

theorem containedCount_eq (o : Order) (hlen : o.nodes.length = o.numberOfStates) :
    o.containedCount = o.nodes.countP (fun p => p.isSome) := by
  unfold containedCount contains
  rw [← hlen]
  generalize o.nodes = l
  have key : ∀ (l : List Ptr) (m : Nat), m = l.length →
      ((List.range m).filter (fun s => decide (s < m) &&
        (match l[s]? with
         | some (some _) => true
         | _ => false))).length = l.countP (fun p => p.isSome) := by
    intro l
    induction l using List.reverseRecOn with
    | nil => intro m hm; subst hm; simp
    | append_singleton rest a ih =>
      intro m hm
      subst hm
      simp only [List.length_append, List.length_singleton, List.range_succ, List.filter_append,
        List.countP_append, List.length_append]
      congr 1
      · rw [← ih rest.length rfl]
        congr 1
        apply List.filter_congr
        intro s hs
        have hs' := List.mem_range.mp hs
        simp [hs', Nat.lt_succ_of_lt hs', List.getElem?_append_left hs']
      · cases a <;> simp
  exact key l l.length rfl

theorem tallied_le {o : Order} (h : o.Tallied) : o.numberOfAddedStates ≤ o.numberOfStates := by
  rw [h.1, ← h.2.2]
  exact List.countP_le_length _

theorem tallied_sameShape {o o1 : Order} (ht : o.Tallied) (hs : SameShape o o1)
    (hc : o1.numberOfAddedStates = o.numberOfAddedStates)
    (hn : o1.numberOfStates = o.numberOfStates) : o1.Tallied := by
  obtain ⟨h1, h2, h3⟩ := ht
  refine ⟨?_, ?_, ?_⟩
  · unfold Counted
    rw [hc, hs.1]
    exact h1
  · unfold MembersMapped
    rw [hs.1, hs.2]
    exact h2
  · rw [hs.1, hn]
    exact h3

theorem isSome_set_of_isSome {l : List Ptr} {i k s : Nat}
    (h : (l.getD s none).isSome = true) : ((l.set i (some k)).getD s none).isSome = true := by
  rw [List.getD_eq_getElem?_getD] at h ⊢
  rw [List.getElem?_set]
  split
  · split
    · rfl
    · rename_i hlt
      subst_vars
      rw [List.getElem?_eq_none (by omega)] at h
      simp at h
  · exact h

theorem isSome_set_self {l : List Ptr} {i k : Nat} (h : i < l.length) :
    ((l.set i (some k)).getD i none).isSome = true := by
  rw [List.getD_eq_getElem?_getD]
  simp [h]

/-- A new node with the unmapped state as its only member, and the counter incremented. -/
theorem tallied_place {o o1 : Order} {state k : Nat} (ht : o.Tallied)
    (hun : o.nodes[state]? = some none)
    (hnodes : o1.nodes = o.nodes.set state (some k))
    (hlists : o1.memberLists = o.memberLists ++ [[state]])
    (hc : o1.numberOfAddedStates = o.numberOfAddedStates + 1)
    (hn : o1.numberOfStates = o.numberOfStates) : o1.Tallied := by
  obtain ⟨h1, h2, h3⟩ := ht
  have hlt := (List.getElem?_eq_some_iff.mp hun).1
  refine ⟨?_, ?_, ?_⟩
  · unfold Counted
    rw [hc, hnodes, countP_set_some hun, h1]
  · unfold MembersMapped
    rw [hnodes, hlists]
    intro l hl s hs
    rcases List.mem_append.mp hl with h | h
    · exact isSome_set_of_isSome (h2 l h s hs)
    · simp only [List.mem_singleton] at h
      subst h
      simp only [List.mem_singleton] at hs
      subst hs
      exact isSome_set_self hlt
  · rw [hnodes, List.length_set, hn]
    exact h3

/-- The unmapped state joins the node `k`, and the counter is incremented. -/
theorem tallied_join {o o1 : Order} {state k : Nat} {old : List Nat} (ht : o.Tallied)
    (hun : o.nodes[state]? = some none)
    (hold : o.memberLists[k]? = some old)
    (hnodes : o1.nodes = o.nodes.set state (some k))
    (hlists : o1.memberLists = o.memberLists.set k (setInsert state old))
    (hc : o1.numberOfAddedStates = o.numberOfAddedStates + 1)
    (hn : o1.numberOfStates = o.numberOfStates) : o1.Tallied := by
  obtain ⟨h1, h2, h3⟩ := ht
  have hlt := (List.getElem?_eq_some_iff.mp hun).1
  refine ⟨?_, ?_, ?_⟩
  · unfold Counted
    rw [hc, hnodes, countP_set_some hun, h1]
  · unfold MembersMapped
    rw [hnodes, hlists]
    intro l hl s hs
    rcases List.mem_or_eq_of_mem_set hl with h | h
    · exact isSome_set_of_isSome (h2 l h s hs)
    · subst h
      rcases mem_setInsert.mp hs with rfl | hs
      · exact isSome_set_self hlt
      · exact isSome_set_of_isSome (h2 old (List.getElem?_mem hold) s hs)
  · rw [hnodes, List.length_set, hn]
    exact h3

end Order

namespace Order

/-- The counter and the number of states are the same in both orders. -/
theorem store_counter {o o1 : Order} {p : Ptr} {n : Node} (h : o.store p n = Except.ok o1) :
    o1.numberOfAddedStates = o.numberOfAddedStates ∧ o1.numberOfStates = o.numberOfStates := by
  obtain ⟨k, _, _, rfl⟩ := store_eq_ok.mp h
  exact ⟨rfl, rfl⟩

theorem setNodeAt_counter {o o1 : Order} {s : Nat} {p : Ptr}
    (h : o.setNodeAt s p = Except.ok o1) :
    o1.numberOfAddedStates = o.numberOfAddedStates ∧ o1.numberOfStates = o.numberOfStates := by
  obtain ⟨_, rfl⟩ := setNodeAt_eq_ok.mp h
  exact ⟨rfl, rfl⟩

theorem counter_trans {a b c : Order}
    (h1 : b.numberOfAddedStates = a.numberOfAddedStates ∧ b.numberOfStates = a.numberOfStates)
    (h2 : c.numberOfAddedStates = b.numberOfAddedStates ∧ c.numberOfStates = b.numberOfStates) :
    c.numberOfAddedStates = a.numberOfAddedStates ∧ c.numberOfStates = a.numberOfStates :=
  ⟨h2.1.trans h1.1, h2.2.trans h1.2⟩

theorem tallied_place_then {o o3 o6 : Order} {state : Nat} (ht : o.Tallied)
    (hun : o.nodes[state]? = some none)
    (h3 : o3.nodes = o.nodes.set state (some o.heap.length) ∧
      o3.memberLists = o.memberLists ++ [[state]])
    (hs : SameShape o3 o6)
    (hf : o6.numberOfAddedStates = o.numberOfAddedStates ∧ o6.numberOfStates = o.numberOfStates)
    (b : Bool) :
    (({ o6 with numberOfAddedStates := o6.numberOfAddedStates + 1,
                onlyInitialOrder := b } : Order).updateDoneBuilding).Tallied := by
  have hs2 := sameShape_trans hs (sameShape_finish o6 (o6.numberOfAddedStates + 1) b)
  refine tallied_place ht hun (hs2.1.trans h3.1) (hs2.2.trans h3.2) ?_ ?_
  · simp [hf.1]
  · simp [hf.2]

theorem addRelationNodes_tallied {o o1 : Order} {a b : Ptr} (ht : o.Tallied)
    (h : o.addRelationNodes a b = Except.ok o1) : o1.Tallied := by
  have hs := addRelationNodes_sameShape h
  simp only [addRelationNodes, bind_eq_ok] at h
  obtain ⟨_, _, _, _, _, _, o2, h2, _, _, _, _, _, _, h3⟩ := h
  have hf := counter_trans (store_counter h2) (store_counter h3)
  exact tallied_sameShape ht hs hf.1 hf.2

/-- The counter frame of the allocation of a node and the steps that fill it. -/
theorem placeNew_counter {o o2 o3 : Order} {state : Nat} {z : BitVector} {n : Node}
    (h2 : ({ o with heap := o.heap ++ [⟨[], z⟩] } : Order).setNodeAt state (some o.heap.length)
      = Except.ok o2)
    (h3 : o2.store (some o.heap.length) { n with states := setInsert state n.states }
      = Except.ok o3) :
    o3.numberOfAddedStates = o.numberOfAddedStates ∧ o3.numberOfStates = o.numberOfStates := by
  have e2 := setNodeAt_counter h2
  have e3 := store_counter h3
  exact ⟨e3.1.trans e2.1, e3.2.trans e2.2⟩

theorem addAbove_tallied {o o1 : Order} {state : Nat} {node : Ptr} (ht : o.Tallied)
    (h : o.addAbove state node = Except.ok o1) : o1.Tallied := by
  unfold addAbove at h
  by_cases h1 : node = none
  · rw [if_pos h1] at h; cases h
  rw [if_neg h1] at h
  by_cases h2 : ¬ state < o.numberOfStates
  · rw [if_pos h2] at h; cases h
  rw [if_neg h2] at h
  simp only [bind_eq_ok] at h
  obtain ⟨cur, hcur, h⟩ := h
  by_cases h3 : cur = none
  · rw [if_pos h3] at h
    have hun := nodeAt_none hcur h3
    simp only [alloc, bind_eq_ok] at h
    obtain ⟨o2, h2, n, hn, o3, h3, n3, hn3, o4, h4, h⟩ := h
    have s3 := placeNew_shape h2 hn h3
    have s4 := store_sameShape hn3 h4 rfl
    have f4 := counter_trans (placeNew_counter h2 h3) (store_counter h4)
    by_cases h5 : o4.top ≠ none
    · rw [if_pos h5] at h
      simp only [bind_eq_ok] at h
      obtain ⟨_, _, n4, hn4, _, _, o5, h5, nd, hnd, _, _, o6, h6, h⟩ := h
      simp only [pure_eq_ok, Except.ok.injEq] at h
      subst h
      exact tallied_place_then ht hun s3 (sameShape_trans s4 (sameShape_trans
        (store_sameShape hn4 h5 rfl) (store_sameShape hnd h6 rfl)))
        (counter_trans f4 (counter_trans (store_counter h5) (store_counter h6))) false
    · rw [if_neg h5] at h
      simp only [bind_eq_ok, pure_eq_ok, Except.ok.injEq] at h
      obtain ⟨_, rfl, nd, hnd, _, _, o6, h6, h⟩ := h
      subst h
      exact tallied_place_then ht hun s3 (sameShape_trans s4 (store_sameShape hnd h6 rfl))
        (counter_trans f4 (store_counter h6)) false
  · rw [if_neg h3] at h
    simp only [bind_eq_ok] at h
    obtain ⟨_, _, h⟩ := h
    exact addRelationNodes_tallied ht h

theorem insertBelowAnchor_tallied {o o1 : Order} {state : Nat} {anchor receiver : Ptr}
    (ht : o.Tallied) (hun : o.nodes[state]? = some none)
    (h : o.insertBelowAnchor state anchor receiver = Except.ok o1) : o1.Tallied := by
  simp only [insertBelowAnchor, alloc, bind_eq_ok] at h
  obtain ⟨o2, h2, n, hn, o3, h3, _, _, n3, hn3, o4, h4, _, _, n4, hn4, _, _, o5, h5, r, hr, _, _,
    o6, h6, h⟩ := h
  simp only [pure_eq_ok, Except.ok.injEq] at h
  subst h
  exact tallied_place_then ht hun (placeNew_shape h2 hn h3)
    (sameShape_trans (store_sameShape hn3 h4 rfl) (sameShape_trans (store_sameShape hn4 h5 rfl)
      (store_sameShape hr h6 rfl)))
    (counter_trans (placeNew_counter h2 h3) (counter_trans (store_counter h4)
      (counter_trans (store_counter h5) (store_counter h6)))) false

theorem addBelow_tallied {o o1 : Order} {state : Nat} {node : Ptr} (ht : o.Tallied)
    (h : o.addBelow state node = Except.ok o1) : o1.Tallied := by
  unfold addBelow at h
  by_cases h1 : node = none
  · rw [if_pos h1] at h; cases h
  rw [if_neg h1] at h
  by_cases h2 : ¬ state < o.numberOfStates
  · rw [if_pos h2] at h; cases h
  rw [if_neg h2] at h
  have gtail : ∀ o2, o2.Tallied →
      (if ¬ (o2.numberOfAddedStates ≤ o2.numberOfStates) then Except.error Fault.assertion
        else (pure o2 : Except Fault Order)) = Except.ok o1 → o1.Tallied := by
    intro o2 g2 h
    split at h
    · cases h
    · simp only [pure_eq_ok, Except.ok.injEq] at h
      subst h
      exact g2
  by_cases h3 : ¬ o.contains state = true
  · rw [if_pos h3] at h
    simp only [bind_eq_ok] at h
    obtain ⟨o2, h2a, h⟩ := h
    exact gtail o2 (insertBelowAnchor_tallied ht
      (not_contains (not_not.mp h2) ht.2.2 h3) h2a) h
  · rw [if_neg h3] at h
    simp only [bind_eq_ok] at h
    obtain ⟨_, _, o2, h2a, h⟩ := h
    exact gtail o2 (addRelationNodes_tallied ht h2a) h

theorem tallied_of_bitsGrow {o o1 : Order} (ht : o.Tallied) (hg : BitsGrow o o1) :
    o1.Tallied :=
  tallied_sameShape ht (sameShape_of_bitsGrow hg) (by rw [hg.1]) (bitsGrow_numberOfStates hg)

theorem addBetweenNodes_tallied {o o1 : Order} {state : Nat} {above below : Ptr}
    (ht : o.Tallied) (h : o.addBetweenNodes state above below = Except.ok o1) :
    o1.Tallied := by
  unfold addBetweenNodes at h
  by_cases h1 : above = below
  · rw [if_pos h1] at h; cases h
  rw [if_neg h1] at h
  by_cases h2 : above = none
  · rw [if_pos h2] at h
    exact addAbove_tallied ht h
  rw [if_neg h2] at h
  simp only [bind_eq_ok] at h
  obtain ⟨⟨c, oc⟩, hc, h⟩ := h
  have hg := compareNodes_bitsGrow hc
  have htc := tallied_of_bitsGrow ht hg
  simp only at h
  by_cases h3 : c ≠ ABOVE
  · rw [if_pos h3] at h; cases h
  rw [if_neg h3] at h
  by_cases h4 : ¬ (above ≠ none ∧ below ≠ none)
  · rw [if_pos h4] at h; cases h
  rw [if_neg h4] at h
  simp only [bind_eq_ok] at h
  obtain ⟨cur, hcur, h⟩ := h
  by_cases h5 : cur = none
  · rw [if_pos h5] at h
    simp only [bind_eq_ok] at h
    obtain ⟨o2, h2a, h⟩ := h
    split at h
    · cases h
    simp only [pure_eq_ok, Except.ok.injEq] at h
    subst h
    exact insertBelowAnchor_tallied htc (nodeAt_none hcur h5) h2a
  · rw [if_neg h5] at h
    simp only [bind_eq_ok] at h
    obtain ⟨o2, h2a, _, _, h⟩ := h
    exact addRelationNodes_tallied (addRelationNodes_tallied htc h2a) h

theorem addBetween_tallied {o o1 : Order} {state above below : Nat} (ht : o.Tallied)
    (h : o.addBetween state above below = Except.ok o1) : o1.Tallied := by
  simp only [addBetween, bind_eq_ok] at h
  obtain ⟨_, _, _, _, h⟩ := h
  split at h
  · cases h
  simp only [bind_eq_ok] at h
  obtain ⟨_, _, _, _, h⟩ := h
  split at h
  · cases h
  simp only [bind_eq_ok] at h
  obtain ⟨_, _, _, _, h⟩ := h
  exact addBetweenNodes_tallied ht h

theorem add_tallied {o o1 : Order} {state : Nat} (ht : o.Tallied)
    (h : o.add state = Except.ok o1) : o1.Tallied := by
  simp only [add, bind_eq_ok] at h
  obtain ⟨_, _, h⟩ := h
  split at h
  · cases h
  split at h
  · exact addAbove_tallied ht h
  · exact addBetweenNodes_tallied ht h

theorem addRelation_tallied {o o1 : Order} {above below : Nat} (m : Bool) (ht : o.Tallied)
    (h : o.addRelation above below m = Except.ok o1) : o1.Tallied := by
  simp only [addRelation, bind_eq_ok] at h
  obtain ⟨_, _, _, _, h⟩ := h
  exact addRelationNodes_tallied ht h

end Order

namespace Order

theorem isSome_getD_of_getElem? {l : List Ptr} {x k : Nat} (h : l[x]? = some (some k)) :
    (l.getD x none).isSome = true := by
  rw [List.getD_eq_getElem?_getD, h]
  rfl

theorem mergeTransfer_tallied {o o1 : Order} {k1 k2 : Nat} (ht : o.Tallied)
    (h : o.mergeTransfer (some k1) (some k2) = Except.ok o1) : o1.Tallied := by
  obtain ⟨n1, n2, m1, hn1, hn2, hk1, hframe, hlen, hnlen, hin, hout, hst, _, _, _, hother, _, _⟩ :=
    mergeTransfer_eq_ok h
  obtain ⟨h1, h2, h3⟩ := ht
  have hmem1 : ∀ s ∈ n1.states, (o.nodes.getD s none).isSome = true :=
    h2 n1.states (List.getElem?_mem (memberLists_eq_some.mpr ⟨n1, hn1, rfl⟩))
  have hmem2 : ∀ s ∈ n2.states, (o.nodes.getD s none).isSome = true :=
    h2 n2.states (List.getElem?_mem (memberLists_eq_some.mpr ⟨n2, hn2, rfl⟩))
  have hpoint : ∀ x, (o1.nodes.getD x none).isSome = (o.nodes.getD x none).isSome := by
    intro x
    by_cases hx : x ∈ n2.states
    · rw [isSome_getD_of_getElem? (hin x hx).2, hmem2 x hx]
    · rw [List.getD_eq_getElem?_getD, List.getD_eq_getElem?_getD, hout x hx]
  refine ⟨?_, ?_, ?_⟩
  · unfold Counted
    rw [countP_congr_isSome hnlen hpoint, ← h1, hframe]
  · intro l hl s hs
    rw [hpoint]
    obtain ⟨k, hk⟩ := List.getElem?_of_mem hl
    obtain ⟨n', hn', rfl⟩ := memberLists_eq_some.mp hk
    by_cases hkk : k = k1
    · subst hkk
      rw [hk1] at hn'
      cases hn'
      rcases (hst s).mp hs with h | h
      · exact hmem1 s h
      · exact hmem2 s h
    · have hlt : k < o.heap.length := by
        rw [← hlen]
        exact (List.getElem?_eq_some_iff.mp hn').1
      obtain ⟨n'', hn'', hstates, _⟩ := hother k hkk _ (List.getElem?_eq_getElem hlt)
      rw [hn'] at hn''
      cases hn''
      rw [hstates] at hs
      exact h2 _ (List.getElem?_mem (memberLists_eq_some.mpr
        ⟨_, List.getElem?_eq_getElem hlt, rfl⟩)) s hs
  · rw [hnlen, sameFrame_numberOfStates hframe]
    exact h3

theorem mergeNodesFuel_tallied (fuel : Nat) :
    ∀ (o o1 : Order) (p q : Ptr), o.Tallied → mergeNodesFuel fuel o p q = Except.ok o1 →
      o1.Tallied := by
  induction fuel with
  | zero => intro o o1 p q _ h; simp [mergeNodesFuel] at h
  | succ fuel ih =>
    intro o o1 p q ht h
    obtain ⟨k1, k2, rfl, rfl⟩ := mergeNodesFuel_ptrs h
    rw [mergeNodesFuel_succ] at h
    simp only [bind_eq_ok] at h
    obtain ⟨oa, ha, h⟩ := h
    have ta := mergeTransfer_tallied ht ha
    exact (@rescan_induct _ Tallied (fun _ _ => True) (fun _ => trivial)
      (fun _ _ _ _ _ => trivial)
      (fun _ _ hi hg => ⟨tallied_of_bitsGrow hi hg, trivial⟩)
      (fun a i j a1 hi hm => by
        simp only [bind_eq_ok] at hm
        obtain ⟨p, _, q, _, hm⟩ := hm
        exact ⟨ih a a1 p q hi hm, trivial⟩)
      (scanPairs oa.numberOfStates) oa o1 ta h).1

theorem merge_tallied {o o1 : Order} {state1 state2 : Nat} (ht : o.Tallied)
    (h : o.merge state1 state2 = Except.ok o1) : o1.Tallied := by
  simp only [merge, bind_eq_ok, mergeNodes] at h
  obtain ⟨p, _, q, _, h⟩ := h
  exact mergeNodesFuel_tallied _ _ _ _ _ ht h

theorem addToNode_tallied {o o1 : Order} {state : Nat} {node : Ptr} (ht : o.Tallied)
    (h : o.addToNode state node = Except.ok o1) : o1.Tallied := by
  simp only [addToNode, bind_eq_ok] at h
  obtain ⟨cur, hcur, h⟩ := h
  by_cases hc : cur = none
  · rw [if_pos hc] at h
    simp only [bind_eq_ok] at h
    obtain ⟨n, hn, o2, h2, o3, h3, h⟩ := h
    split at h
    · cases h
    simp only [pure_eq_ok, Except.ok.injEq] at h
    subst h
    obtain ⟨k, rfl, hnk⟩ := deref_eq_ok.mp hn
    obtain ⟨e1, e2, _⟩ := store_shape h2
    have f2 := store_counter h2
    obtain ⟨_, rfl⟩ := setNodeAt_eq_ok.mp h3
    have hs := sameShape_counter { o2 with nodes := o2.nodes.set state (some k) }
      ({ o2 with nodes := o2.nodes.set state (some k) } : Order).numberOfAddedStates.succ
    refine tallied_join ht (nodeAt_none hcur hc) (memberLists_eq_some.mpr ⟨n, hnk, rfl⟩)
      ?_ ?_ ?_ ?_
    · rw [hs.1]
      simp only
      rw [e1]
    · rw [hs.2]
      exact e2
    · simp [f2.1]
    · simp [f2.2]
  · rw [if_neg hc] at h
    exact mergeNodesFuel_tallied _ _ _ _ _ ht h

theorem run_tallied {o o1 : Order} {c : Call} (ht : o.Tallied) (h : o.run c = Except.ok o1) :
    o1.Tallied := by
  cases c with
  | add s => exact add_tallied ht h
  | addAbove s n => exact addAbove_tallied ht h
  | addBelow s n => exact addBelow_tallied ht h
  | addBetweenNodes s a b => exact addBetweenNodes_tallied ht h
  | addBetween s a b => exact addBetween_tallied ht h
  | addToNode s n => exact addToNode_tallied ht h
  | addRelation a b m => exact addRelation_tallied m ht h
  | merge a b => exact merge_tallied ht h

theorem runAll_tallied (calls : List Call) :
    ∀ (o o1 : Order), o.Tallied → o.runAll calls = Except.ok o1 → o1.Tallied := by
  induction calls with
  | nil =>
    intro o o1 ht h
    simp only [runAll, Except.ok.injEq] at h
    subst h
    exact ht
  | cons c cs ih =>
    intro o o1 ht h
    simp only [runAll, bind_eq_ok] at h
    obtain ⟨o2, h2, h⟩ := h
    exact ih o2 o1 (run_tallied ht h2) h

end Order

namespace Order

theorem membersMapped_of_copyInv {c : Order} {seen : BitVector} (h : CopyInv c seen) :
    c.MembersMapped := by
  intro l hl s hs
  obtain ⟨p, hp⟩ := List.getElem?_of_mem hl
  exact isSome_getD_of_getElem? (h.2 p l s hp hs)

theorem unmapped_of_copyInv {c : Order} {seen : BitVector} (h : CopyInv c seen) {i : Nat}
    (hlt : i < c.nodes.length) (hbit : ¬ seen.bits.testBit i = true) :
    c.nodes[i]? = some none := by
  rw [List.getElem?_eq_getElem hlt]
  cases hp : c.nodes[i] with
  | none => rfl
  | some p =>
    have := (h.1 i p (by rw [List.getElem?_eq_getElem hlt, hp])).1
    exact absurd this hbit

/-- One state placed into a sentinel node: one more state is mapped; the counter is untouched. -/
theorem join_count {o o2 o3 : Order} {k i : Nat} {n : Node} (seen : BitVector)
    (h2 : o.store (some k) { n with states := setInsert i n.states } = Except.ok o2)
    (h3 : o2.setNodeAt i (some k) = Except.ok o3)
    (hbit : ¬ seen.bits.testBit i = true) (hinv : CopyInv o seen) :
    o3.nodes.countP (fun p => p.isSome) = o.nodes.countP (fun p => p.isSome) + 1 ∧
      o3.numberOfAddedStates = o.numberOfAddedStates := by
  obtain ⟨k1, hk1, _, rfl⟩ := store_eq_ok.mp h2
  obtain ⟨hlt, rfl⟩ := setNodeAt_eq_ok.mp h3
  exact ⟨countP_set_some (unmapped_of_copyInv hinv hlt hbit), rfl⟩

theorem placeSentinelState_count {o o1 : Order} {p : Ptr} {i : Nat}
    (h : o.placeSentinelState p i = Except.ok o1)
    (hbit : ¬ o.sufficientForState.bits.testBit i = true)
    (hinv : CopyInv o o.sufficientForState) :
    o1.nodes.countP (fun p => p.isSome) = o.nodes.countP (fun p => p.isSome) + 1 ∧
      o1.numberOfAddedStates = o.numberOfAddedStates := by
  unfold placeSentinelState at h
  simp only [bind_eq_ok] at h
  obtain ⟨suff, hs, done, _, n, hn, o2, h2, h3⟩ := h
  obtain ⟨k, rfl, _⟩ := deref_eq_ok.mp hn
  exact join_count (o := { o with sufficientForState := suff, doneForState := done })
    o.sufficientForState h2 h3 hbit (copyInv_of_sameShape hinv ⟨rfl, rfl⟩)

theorem placeTop_count {o o2 o3 o4 : Order} {i : Nat} {suff done sa : BitVector} {b t : Node}
    (hb : ({ o with sufficientForState := suff, doneForState := done } : Order).deref o.bottom
      = Except.ok b)
    (h2 : ({ o with sufficientForState := suff, doneForState := done } : Order).store o.bottom
      { b with statesAbove := sa } = Except.ok o2)
    (ht : o2.deref o2.top = Except.ok t)
    (h3 : o2.store o2.top { t with states := setInsert i t.states } = Except.ok o3)
    (h4 : o3.setNodeAt i o3.top = Except.ok o4)
    (hbit : ¬ o.sufficientForState.bits.testBit i = true)
    (hinv : CopyInv o o.sufficientForState) :
    o4.nodes.countP (fun p => p.isSome) = o.nodes.countP (fun p => p.isSome) + 1 ∧
      o4.numberOfAddedStates = o.numberOfAddedStates := by
  have hshape := store_sameShape hb h2 rfl
  have f2 := store_counter h2
  obtain ⟨kt, hkt, _⟩ := deref_eq_ok.mp ht
  have htop3 : o3.top = o2.top := by
    obtain ⟨k1, _, _, e3⟩ := store_eq_ok.mp h3
    rw [e3]
  rw [htop3] at h4
  rw [hkt] at h3 h4
  obtain ⟨c1, c2⟩ := join_count o.sufficientForState h3 h4 hbit
    (copyInv_of_sameShape hinv hshape)
  rw [hshape.1] at c1
  exact ⟨c1, c2.trans f2.1⟩

theorem placeTopStates_count (L : List Nat) :
    ∀ o o1 : Order, placeTopStates o L = Except.ok o1 → L.Nodup →
      (∀ i ∈ L, ¬ o.sufficientForState.bits.testBit i = true) →
      CopyInv o o.sufficientForState →
      o1.nodes.countP (fun p => p.isSome) = o.nodes.countP (fun p => p.isSome) + L.length ∧
        o1.numberOfAddedStates = o.numberOfAddedStates + L.length := by
  induction L with
  | nil =>
    intro o o1 h _ _ _
    simp only [placeTopStates, Except.ok.injEq] at h
    subst h
    exact ⟨rfl, rfl⟩
  | cons i rest ih =>
    intro o o1 h hnd hbits hinv
    simp only [placeTopStates, bind_eq_ok] at h
    obtain ⟨suff, hs, done, _, b, hb, sa, _, o2, h2, t, ht, o3, h3, o4, h4, h⟩ := h
    obtain ⟨_, e1, _, _, _, _, hstep⟩ := placeTop_step hs hb h2 ht h3 h4
    have hbi := hbits i (List.mem_cons_self _ _)
    obtain ⟨c1, c2⟩ := placeTop_count hb h2 ht h3 h4 hbi hinv
    have hnd2 := List.nodup_cons.mp hnd
    obtain ⟨r1, r2⟩ := ih _ _ h hnd2.2
      (by
        intro j hj
        show ¬ o4.sufficientForState.bits.testBit j = true
        rw [e1]
        exact testBit_step (fun e => hnd2.1 (e ▸ hj)) (hbits j (List.mem_cons_of_mem _ hj)))
      (copyInv_of_sameShape (hstep hbi hinv) ⟨rfl, rfl⟩)
    simp only [List.length_cons] at r1 r2 ⊢
    constructor
    · rw [r1, c1]; omega
    · rw [r2, c2]; omega

theorem placeBottomStates_count (L : List Nat) :
    ∀ o o1 : Order, placeBottomStates o L = Except.ok o1 → L.Nodup →
      (∀ i ∈ L, ¬ o.sufficientForState.bits.testBit i = true) →
      CopyInv o o.sufficientForState →
      o1.nodes.countP (fun p => p.isSome) = o.nodes.countP (fun p => p.isSome) + L.length ∧
        o1.numberOfAddedStates = o.numberOfAddedStates + L.length := by
  induction L with
  | nil =>
    intro o o1 h _ _ _
    simp only [placeBottomStates, Except.ok.injEq] at h
    subst h
    exact ⟨rfl, rfl⟩
  | cons i rest ih =>
    intro o o1 h hnd hbits hinv
    simp only [placeBottomStates, bind_eq_ok] at h
    obtain ⟨o4, h4, h⟩ := h
    obtain ⟨_, e1, _, _, _, _, hstep⟩ := placeSentinelState_step h4
    have hbi := hbits i (List.mem_cons_self _ _)
    obtain ⟨c1, c2⟩ := placeSentinelState_count h4 hbi hinv
    have hnd2 := List.nodup_cons.mp hnd
    obtain ⟨r1, r2⟩ := ih _ _ h hnd2.2
      (by
        intro j hj
        show ¬ o4.sufficientForState.bits.testBit j = true
        rw [e1]
        exact testBit_step (fun e => hnd2.1 (e ▸ hj)) (hbits j (List.mem_cons_of_mem _ hj)))
      (copyInv_of_sameShape (hstep hbi hinv) ⟨rfl, rfl⟩)
    simp only [List.length_cons] at r1 r2 ⊢
    constructor
    · rw [r1, c1]; omega
    · rw [r2, c2]; omega

end Order

namespace Order

theorem countP_replicate_none (n : Nat) :
    (List.replicate n (none : Ptr)).countP (fun p => p.isSome) = 0 := by
  rw [List.countP_eq_zero]
  intro p hp
  rw [(List.mem_replicate.mp hp).2]
  simp

theorem tallied_of_copyInv {o o1 : Order} {seen : BitVector} (hinv : CopyInv o seen)
    (hs : SameShape o o1)
    (hc : o1.numberOfAddedStates = o.nodes.countP (fun p => p.isSome))
    (hlen : o1.nodes.length = o1.numberOfStates) : o1.Tallied := by
  refine ⟨?_, membersMapped_of_copyInv (copyInv_of_sameShape hinv hs), hlen⟩
  unfold Counted
  rw [hc, hs.1]

theorem ofStates_tallied {topState bottomState numberOfStates : Nat}
    {decomposition : List (List Nat)} {statesSorted : List Nat} {isOptimistic doneBuilding : Bool}
    {o : Order}
    (h : ofStates topState bottomState numberOfStates decomposition statesSorted isOptimistic
      doneBuilding = Except.ok o) : o.Tallied := by
  have hlen := (ofStates_partition h).2
  unfold ofStates at h
  simp only [bind_eq_ok] at h
  obtain ⟨o0, h0, suff, hs, done, _, bn, hb, sa, _, o3, h3, tn, ht, o4, h4, o5, h5, o6, h6, h⟩ := h
  obtain ⟨i1, i2, _, _, i5, i6⟩ := init_eq_ok h0
  obtain ⟨_, e1, _, _, e3, e4, hstep⟩ :=
    placeTop_step (o := { o0 with onlyInitialOrder := true }) hs hb h3 ht h4 h5
  obtain ⟨_, r1, _, _, r3, r4, hstep2⟩ := placeSentinelState_step h6
  split at h
  · cases h
  split at h
  · cases h
  rename_i _ hcount
  simp only [pure_eq_ok, Except.ok.injEq] at h
  subst h
  have hsuff6 : o6.sufficientForState
      = ⟨numberOfStates, BitVector.setBits 0 ([topState] ++ [bottomState])⟩ := by
    rw [r1, e1]
    show BitVector.mk o0.sufficientForState.size
      ((o0.sufficientForState.bits ||| 2 ^ topState) ||| 2 ^ bottomState) = _
    rw [i6]
    rfl
  have hcount2 : o6.sufficientForState.getNumberOfSetBits = 2 := not_not.mp hcount
  rw [hsuff6] at hcount2
  have hdis := BitVector.disjoint_of_count hcount2 topState (List.mem_singleton.mpr rfl)
  have hne : topState ≠ bottomState := fun e => hdis (List.mem_singleton.mpr e)
  have hinv0 : CopyInv ({ o0 with onlyInitialOrder := true } : Order) o0.sufficientForState :=
    copyInv_init i1 i2
  have hbit0 : ¬ o0.sufficientForState.bits.testBit topState = true := by
    rw [i6]
    simp [BitVector.zeros]
  have hinv5 : CopyInv o5 o5.sufficientForState := hstep hbit0 hinv0
  have hbit5 : ¬ o5.sufficientForState.bits.testBit bottomState = true := by
    rw [e1]
    show ¬ (o0.sufficientForState.bits ||| 2 ^ topState).testBit bottomState = true
    apply testBit_step hne
    rw [i6]
    simp [BitVector.zeros]
  have hinv6 : CopyInv o6 o6.sufficientForState := hstep2 hbit5 hinv5
  have c5 := (placeTop_count (o := { o0 with onlyInitialOrder := true }) hb h3 ht h4 h5 hbit0
    hinv0).1
  have c6 := (placeSentinelState_count h6 hbit5 hinv5).1
  have hzero : o0.nodes.countP (fun p => p.isSome) = 0 := by
    rw [i2]
    exact countP_replicate_none _
  refine tallied_of_copyInv hinv6 (sameShape_trans
      (sameShape_updateDoneBuilding
        ({ o6 with numberOfAddedStates := 2, statesSorted := statesSorted } : Order)) ⟨rfl, rfl⟩)
    ?_ hlen
  show (Order.updateDoneBuilding _).numberOfAddedStates = _
  rw [numberOfAddedStates_updateDoneBuilding, c6, c5]
  show 2 = o0.nodes.countP (fun p => p.isSome) + 1 + 1
  rw [hzero]

end Order

namespace Order

theorem ofBitVectors_tallied {topStates bottomStates : BitVector} {numberOfStates : Nat}
    {decomposition : List (List Nat)} {statesSorted : List Nat} {isOptimistic doneBuilding : Bool}
    {o : Order}
    (h : ofBitVectors topStates bottomStates numberOfStates decomposition statesSorted
      isOptimistic doneBuilding = Except.ok o) : o.Tallied := by
  have hlen := (ofBitVectors_partition h).2
  unfold ofBitVectors at h
  split at h
  · cases h
  have key : ∃ o2 o4 : Order,
      o2.sufficientForState = ⟨numberOfStates, BitVector.setBits 0 topStates.indices⟩ ∧
      (CopyInv o2 o2.sufficientForState) ∧
      o2.numberOfAddedStates = o2.nodes.countP (fun p => p.isSome) ∧
      placeBottomStates { o2 with statesSorted := statesSorted } bottomStates.indices
        = Except.ok o4 ∧
      o4.sufficientForState.getNumberOfSetBits
        = topStates.getNumberOfSetBits + bottomStates.getNumberOfSetBits ∧
      o = { o4.updateDoneBuilding with changed := true } := by
    by_cases hempty : ¬ topStates.empty = true
    · simp only [bind_eq_ok] at h
      obtain ⟨o0, h0, h⟩ := h
      rw [if_pos hempty] at h
      simp only [bind_eq_ok] at h
      obtain ⟨o2, h2, o4, h4, h⟩ := h
      split at h
      · cases h
      split at h
      · cases h
      rename_i _ hcount
      simp only [pure_eq_ok, Except.ok.injEq] at h
      obtain ⟨i1, i2, _, _, i5, i6⟩ := init_eq_ok h0
      obtain ⟨r1, _, _, r4, r5, hinv⟩ := placeTopStates_spec _ _ _ h2
      have hbits : ∀ i ∈ topStates.indices,
          ¬ ({ o0 with numberOfAddedStates := 0,
                       onlyInitialOrder := true } : Order).sufficientForState.bits.testBit i
            = true := by
        intro i _
        show ¬ o0.sufficientForState.bits.testBit i = true
        rw [i6]
        simp [BitVector.zeros]
      have hinv0 : CopyInv ({ o0 with numberOfAddedStates := 0, onlyInitialOrder := true } : Order)
          o0.sufficientForState := copyInv_init i1 i2
      obtain ⟨c1, c2⟩ := placeTopStates_count _ _ _ h2 (BitVector.nodup_indices _) hbits hinv0
      refine ⟨o2, o4, ?_, ?_, ?_, h4, not_not.mp hcount, h.symm⟩
      · rw [r1]
        show BitVector.mk o0.sufficientForState.size
          (BitVector.setBits o0.sufficientForState.bits topStates.indices) = _
        rw [i6]
        rfl
      · exact hinv (BitVector.nodup_indices _) hbits hinv0
      · rw [c1, c2]
        show 0 + _ = o0.nodes.countP (fun p => p.isSome) + _
        rw [i2, countP_replicate_none]
    · simp only [bind_eq_ok] at h
      obtain ⟨o0, h0, h⟩ := h
      rw [if_neg hempty] at h
      simp only [bind_eq_ok, pure_eq_ok, Except.ok.injEq] at h
      obtain ⟨o2, h2, o4, h4, h⟩ := h
      subst h2
      split at h
      · cases h
      split at h
      · cases h
      rename_i _ hcount
      simp only [pure_eq_ok, Except.ok.injEq] at h
      obtain ⟨i1, i2, _, _, i5, i6⟩ := init_eq_ok h0
      have hnil : topStates.indices = [] := by
        have := not_not.mp hempty
        unfold BitVector.empty at this
        exact List.isEmpty_iff.mp this
      refine ⟨_, o4, ?_, ?_, ?_, h4, not_not.mp hcount, h.symm⟩
      · show o0.sufficientForState = _
        rw [i6, hnil]
        rfl
      · exact copyInv_init
          (c := { o0 with numberOfAddedStates := 0, onlyInitialOrder := true, top := none })
          i1 i2
      · show 0 = o0.nodes.countP (fun p => p.isSome)
        rw [i2, countP_replicate_none]
  obtain ⟨o2, o4, hsuff2, hinv2, hc2, h4, hcount, rfl⟩ := key
  obtain ⟨r1, _, _, r4, r5, hinv⟩ := placeBottomStates_spec _ _ _ h4
  have hsuff4 : o4.sufficientForState
      = ⟨numberOfStates, BitVector.setBits 0 (topStates.indices ++ bottomStates.indices)⟩ := by
    rw [r1, BitVector.setBits_append]
    show BitVector.mk o2.sufficientForState.size
      (BitVector.setBits o2.sufficientForState.bits bottomStates.indices) = _
    rw [hsuff2]
  rw [hsuff4] at hcount
  have hdis := BitVector.disjoint_of_count hcount
  have hbits : ∀ i ∈ bottomStates.indices,
      ¬ ({ o2 with statesSorted := statesSorted } : Order).sufficientForState.bits.testBit i
        = true := by
    intro i hi
    show ¬ o2.sufficientForState.bits.testBit i = true
    rw [hsuff2]
    simp only [BitVector.testBit_setBits, Nat.zero_testBit, Bool.false_or, decide_eq_true_eq]
    exact fun hT => hdis i hT hi
  have hinv2' : CopyInv ({ o2 with statesSorted := statesSorted } : Order)
      ({ o2 with statesSorted := statesSorted } : Order).sufficientForState :=
    copyInv_of_sameShape hinv2 ⟨rfl, rfl⟩
  have hinv4 : CopyInv o4 o4.sufficientForState :=
    hinv (BitVector.nodup_indices _) hbits hinv2'
  obtain ⟨c1, c2⟩ := placeBottomStates_count _ _ _ h4 (BitVector.nodup_indices _) hbits hinv2'
  refine tallied_of_copyInv hinv4
    (sameShape_trans (sameShape_updateDoneBuilding o4) ⟨rfl, rfl⟩) ?_ hlen
  show (Order.updateDoneBuilding o4).numberOfAddedStates = _
  rw [numberOfAddedStates_updateDoneBuilding, c1, c2]
  show o2.numberOfAddedStates + _ = o2.nodes.countP (fun p => p.isSome) + _
  rw [hc2]

end Order

namespace Order

/-- C39: in every order that one of the two constructors returns (its assertions make the top
and the bottom states disjoint) and in every order that a sequence of calls of `add`, `addAbove`,
`addBelow`, `addBetween` (both overloads), `addToNode`, `addRelation` and `merge` returns from
it, `numberOfAddedStates` is the number of states `s` with `contains(s)` and is at most
`numberOfStates`. -/
theorem counter_invariant (topStates bottomStates : BitVector) (topState bottomState : Nat)
    (numberOfStates : Nat) (decomposition : List (List Nat)) (statesSorted : List Nat)
    (isOptimistic doneBuilding : Bool) (calls : List Call) (o o1 : Order)
    (hctor : ofBitVectors topStates bottomStates numberOfStates decomposition statesSorted
        isOptimistic doneBuilding = Except.ok o ∨
      ofStates topState bottomState numberOfStates decomposition statesSorted isOptimistic
        doneBuilding = Except.ok o)
    (hrun : o.runAll calls = Except.ok o1) :
    o1.getNumberOfAddedStates = o1.containedCount ∧
      o1.getNumberOfAddedStates ≤ o1.numberOfStates := by
  have ht : o.Tallied := by
    rcases hctor with h | h
    · exact ofBitVectors_tallied h
    · exact ofStates_tallied h
  have ht1 := runAll_tallied calls o o1 ht hrun
  exact ⟨by rw [containedCount_eq o1 ht1.2.2]; exact ht1.1, tallied_le ht1⟩

end Order

/-- C39 (witness): the order `Order(0, 1, 5, ...)` after `add(2)`, `add(3)`, `addToNode(4, ...)`
with the node of state 2, `addRelation(2, 3)` and `merge(3, 2)`. -/
theorem counter_invariant_witness :
    (Order.returned (Order.ofStates 0 1 5 [] [] true false)).runAll
        [Order.Call.add 2, Order.Call.add 3, Order.Call.addToNode 4 (some 2),
          Order.Call.addRelation 2 3 false, Order.Call.merge 3 2]
      = Except.ok (Order.returned ((Order.returned (Order.ofStates 0 1 5 [] [] true false)).runAll
        [Order.Call.add 2, Order.Call.add 3, Order.Call.addToNode 4 (some 2),
          Order.Call.addRelation 2 3 false, Order.Call.merge 3 2])) ∧
    (Order.returned ((Order.returned (Order.ofStates 0 1 5 [] [] true false)).runAll
        [Order.Call.add 2, Order.Call.add 3, Order.Call.addToNode 4 (some 2),
          Order.Call.addRelation 2 3 false, Order.Call.merge 3 2])).getNumberOfAddedStates
      = (Order.returned ((Order.returned (Order.ofStates 0 1 5 [] [] true false)).runAll
        [Order.Call.add 2, Order.Call.add 3, Order.Call.addToNode 4 (some 2),
          Order.Call.addRelation 2 3 false, Order.Call.merge 3 2])).containedCount ∧
    (Order.returned ((Order.returned (Order.ofStates 0 1 5 [] [] true false)).runAll
        [Order.Call.add 2, Order.Call.add 3, Order.Call.addToNode 4 (some 2),
          Order.Call.addRelation 2 3 false, Order.Call.merge 3 2])).getNumberOfAddedStates
      ≤ (Order.returned ((Order.returned (Order.ofStates 0 1 5 [] [] true false)).runAll
        [Order.Call.add 2, Order.Call.add 3, Order.Call.addToNode 4 (some 2),
          Order.Call.addRelation 2 3 false, Order.Call.merge 3 2])).numberOfStates :=
  ⟨by decide,
    Order.counter_invariant ⟨0, 0⟩ ⟨0, 0⟩ 0 1 5 [] [] true false
      [Order.Call.add 2, Order.Call.add 3, Order.Call.addToNode 4 (some 2),
        Order.Call.addRelation 2 3 false, Order.Call.merge 3 2]
      (Order.returned (Order.ofStates 0 1 5 [] [] true false)) _ (Or.inr (by decide))
      (by decide)⟩

namespace Order

/-- What is reachable from the `statesAbove` of the node of a reachable state is reachable. -/
theorem reachAbove_lift {o : Order} {start : BitVector} {z : Nat} {n : Node}
    (hz : ReachAbove o start z) (hn : o.nodeOfState z = some n) {w : Nat}
    (hw : ReachAbove o n.statesAbove w) : ReachAbove o start w := by
  induction hw with
  | base h => exact ReachAbove.step hz hn h
  | step _ hn2 hs ih => exact ReachAbove.step ih hn2 hs

theorem nodes_of_bitsGrow {o o1 : Order} (h : BitsGrow o o1) : o1.nodes = o.nodes := by
  rw [h.1]

theorem nodeOfState_of_bitsGrow {o o1 : Order} (h : BitsGrow o o1) {z : Nat} {n : Node}
    (hn : o.nodeOfState z = some n) :
    ∃ n1, o1.nodeOfState z = some n1 ∧ n1.states = n.states ∧ NodeLe n n1 := by
  obtain ⟨k, hk, hheap⟩ := nodeOfState_eq_some.mp hn
  obtain ⟨n1, hn1, hst, hle⟩ := h.2.2 k n hheap
  refine ⟨n1, nodeOfState_eq_some.mpr ⟨k, ?_, hn1⟩, hst, hle⟩
  rw [nodes_of_bitsGrow h]
  exact hk

theorem indices_of_nodeLe {n n1 : Node} (h : NodeLe n n1) {i : Nat}
    (hi : i ∈ n.statesAbove.indices) : i ∈ n1.statesAbove.indices := by
  obtain ⟨hlt, hbit⟩ := BitVector.mem_indices.mp hi
  exact BitVector.mem_indices.mpr ⟨by rw [h.1]; exact hlt, h.2.2 i hbit⟩

theorem reachAbove_of_bitsGrow {o o1 : Order} (h : BitsGrow o o1) {start start1 : BitVector}
    (hstart : ∀ i ∈ start.indices, i ∈ start1.indices) {z : Nat}
    (hz : ReachAbove o start z) : ReachAbove o1 start1 z := by
  induction hz with
  | base hs => exact ReachAbove.base (hstart _ hs)
  | step _ hn hs ih =>
    obtain ⟨n1, hn1, _, hle⟩ := nodeOfState_of_bitsGrow h hn
    exact ReachAbove.step ih hn1 (indices_of_nodeLe hle hs)

/-- Chains survive while bits are only added. -/
theorem chain_of_bitsGrow {o o1 : Order} (h : BitsGrow o o1) {p q : Nat} (hc : o.Chain p q) :
    o1.Chain p q := by
  obtain ⟨n1, n2, x, nx, hp, hq, hR, hnx, s, hs, hbit⟩ := hc
  obtain ⟨m1, hm1, hst1, _⟩ := h.2.2 p n1 hp
  obtain ⟨m2, hm2, _, hle2⟩ := h.2.2 q n2 hq
  obtain ⟨mx, hmx, _, hlex⟩ := nodeOfState_of_bitsGrow h hnx
  refine ⟨m1, m2, x, mx, hm1, hm2,
    reachAbove_of_bitsGrow h (fun i hi => indices_of_nodeLe hle2 hi) hR, hmx, s, ?_,
    hlex.2.2 s hbit⟩
  rw [hst1]
  exact hs

/-- The node of a state after a write-back into node `y`. -/
theorem nodeOfState_writeBack {o : Order} {y : Nat} {ny : Node} {bits : Nat}
    (hy : o.heap[y]? = some ny) {z : Nat} {n1 : Node}
    (h : (o.setHeap y (withAboveBits ny bits)).nodeOfState z = some n1) :
    (o.nodeOfState z = some n1 ∧ o.nodes[z]? ≠ some (some y)) ∨
      (o.nodeOfState z = some ny ∧ o.nodes[z]? = some (some y) ∧ n1 = withAboveBits ny bits) := by
  have hly := lt_length_of_getElem? hy
  obtain ⟨k, hk, hheap⟩ := nodeOfState_eq_some.mp h
  rw [nodes_setHeap] at hk
  by_cases hky : k = y
  · subst hky
    rw [heap_setHeap_self _ hly] at hheap
    cases hheap
    exact Or.inr ⟨nodeOfState_eq_some.mpr ⟨k, hk, hy⟩, hk, rfl⟩
  · rw [heap_setHeap_ne _ (Ne.symm hky)] at hheap
    refine Or.inl ⟨nodeOfState_eq_some.mpr ⟨k, hk, hheap⟩, ?_⟩
    rw [hk]
    intro hc
    cases hc
    exact hky rfl

/-- After the write-back of `x` above `y`, where a chain from `y` up to `x` exists, every state
reachable from a start set was reachable before, or is a member of `x` while the chain's last
state `s0` was reachable before. -/
theorem reachAbove_writeBack {o : Order} (hex : o.Exclusive) {x y : Nat}
    {nx ny : Node} (hx : o.heap[x]? = some nx) (hy : o.heap[y]? = some ny) (hmx : o.IsMapped x)
    (hne : x ≠ y) {s0 : Nat} (hs0 : s0 ∈ nx.states) (hR0 : ReachAbove o ny.statesAbove s0)
    {start start1 : BitVector}
    (hstart : ∀ i ∈ start1.indices, i ∈ start.indices ∨ (i ∈ nx.states ∧ ReachAbove o start s0))
    {z : Nat}
    (hz : ReachAbove (o.setHeap y (withAboveBits ny
      (BitVector.setBits ny.statesAbove.bits nx.states))) start1 z) :
    ReachAbove o start z ∨ (z ∈ nx.states ∧ ReachAbove o start s0) := by
  have hexcl := exclusive_iff.mp hex
  have hns0 : o.nodeOfState s0 = some nx :=
    nodeOfState_eq_some.mpr ⟨x, hexcl x nx s0 hmx hx hs0, hx⟩
  induction hz with
  | base hs => exact (hstart _ hs).imp_left ReachAbove.base
  | @step z1 w n1 _ hn hs ih =>
    rcases ih with hold | ⟨hmem, hold⟩
    · rcases nodeOfState_writeBack hy hn with ⟨hn0, _⟩ | ⟨hn0, _, rfl⟩
      · exact Or.inl (ReachAbove.step hold hn0 hs)
      · obtain ⟨hlt, hbit⟩ := BitVector.mem_indices.mp hs
        simp only [withAboveBits, BitVector.testBit_setBits, Bool.or_eq_true,
          decide_eq_true_eq] at hlt hbit
        rcases hbit with hbit | hw
        · exact Or.inl (ReachAbove.step hold hn0 (BitVector.mem_indices.mpr ⟨hlt, hbit⟩))
        · exact Or.inr ⟨hw, reachAbove_lift hold hn0 hR0⟩
    · have hz1 : o.nodes[z1]? = some (some x) := hexcl x nx z1 hmx hx hmem
      rcases nodeOfState_writeBack hy hn with ⟨hn0, _⟩ | ⟨_, hzy, _⟩
      · have : o.nodeOfState z1 = some nx := nodeOfState_eq_some.mpr ⟨x, hz1, hx⟩
        rw [this] at hn0
        cases hn0
        exact Or.inl (ReachAbove.step hold hns0 hs)
      · rw [hz1] at hzy
        cases hzy
        exact absurd rfl hne

/-- The write-back of a relation the search could derive adds no chain. -/
theorem chain_writeBack {o : Order} (hv : o.Valid) (hex : o.Exclusive) {x y : Nat}
    {nx ny : Node} (hx : o.heap[x]? = some nx) (hy : o.heap[y]? = some ny) (hmx : o.IsMapped x)
    (hne : x ≠ y) (hxy : o.Chain x y) {u v : Nat} (hmu : o.IsMapped u)
    (h : (o.setHeap y (withAboveBits ny
      (BitVector.setBits ny.statesAbove.bits nx.states))).Chain u v) : o.Chain u v := by
  have hexcl := exclusive_iff.mp hex
  have hly := lt_length_of_getElem? hy
  -- the chain from y up to x, ending in a member s0 of x
  obtain ⟨nx2, ny2, x0, nx0, hx2, hy2, hRx0, hnx0, s0, hs0, hbit0⟩ := hxy
  rw [hx] at hx2; cases hx2
  rw [hy] at hy2; cases hy2
  obtain ⟨k0, _, hk0⟩ := nodeOfState_eq_some.mp hnx0
  have hs0lt : s0 < nx0.statesAbove.size := by
    rw [valid_node_size hv hk0]
    exact valid_state_lt hv hx hs0
  have hR0 : ReachAbove o ny.statesAbove s0 :=
    ReachAbove.step hRx0 hnx0 (BitVector.mem_indices.mpr ⟨hs0lt, hbit0⟩)
  have hns0 : o.nodeOfState s0 = some nx :=
    nodeOfState_eq_some.mpr ⟨x, hexcl x nx s0 hmx hx hs0, hx⟩
  obtain ⟨m1, m2, z, mz, hu, hv2, hRz, hnz, s, hs, hbit⟩ := h
  -- the nodes of u and v before the write-back
  obtain ⟨n1, hn1, hst1⟩ : ∃ n1, o.heap[u]? = some n1 ∧ m1.states = n1.states := by
    by_cases huy : u = y
    · subst huy
      rw [heap_setHeap_self _ hly] at hu
      cases hu
      exact ⟨ny, hy, rfl⟩
    · rw [heap_setHeap_ne _ (Ne.symm huy)] at hu
      exact ⟨m1, hu, rfl⟩
  rw [hst1] at hs
  obtain ⟨n2, hn2, hstart⟩ : ∃ n2, o.heap[v]? = some n2 ∧
      ∀ i ∈ m2.statesAbove.indices, i ∈ n2.statesAbove.indices ∨
        (i ∈ nx.states ∧ ReachAbove o n2.statesAbove s0) := by
    by_cases hvy : v = y
    · subst hvy
      rw [heap_setHeap_self _ hly] at hv2
      cases hv2
      refine ⟨ny, hy, ?_⟩
      intro i hi
      obtain ⟨hlt, hb⟩ := BitVector.mem_indices.mp hi
      simp only [withAboveBits, BitVector.testBit_setBits, Bool.or_eq_true,
        decide_eq_true_eq] at hlt hb
      rcases hb with hb | hb
      · exact Or.inl (BitVector.mem_indices.mpr ⟨hlt, hb⟩)
      · exact Or.inr ⟨hb, hR0⟩
    · rw [heap_setHeap_ne _ (Ne.symm hvy)] at hv2
      exact ⟨m2, hv2, fun i hi => Or.inl hi⟩
  rcases reachAbove_writeBack hex hx hy hmx hne hs0 hR0 hstart hRz with hold | ⟨hzx, hold⟩
  · rcases nodeOfState_writeBack hy hnz with ⟨hn0, _⟩ | ⟨hn0, _, rfl⟩
    · exact ⟨n1, n2, z, mz, hn1, hn2, hold, hn0, s, hs, hbit⟩
    · simp only [withAboveBits, BitVector.testBit_setBits, Bool.or_eq_true,
        decide_eq_true_eq] at hbit
      rcases hbit with hbit | hsx
      · exact ⟨n1, n2, z, ny, hn1, hn2, hold, hn0, s, hs, hbit⟩
      · -- s is a member of both u and x, so u = x
        have h1 := hexcl u n1 s hmu hn1 hs
        have h2 := hexcl x nx s hmx hx hsx
        rw [h1] at h2
        have hux : u = x := by simpa using h2
        subst hux
        rw [hx] at hn1
        cases hn1
        exact ⟨_, n2, x0, nx0, hx, hn2, reachAbove_lift hold hn0 hRx0, hnx0, s0, hs0, hbit0⟩
  · have hz1 : o.nodes[z]? = some (some x) := hexcl x nx z hmx hx hzx
    rcases nodeOfState_writeBack hy hnz with ⟨hn0, _⟩ | ⟨_, hzy, _⟩
    · have : o.nodeOfState z = some nx := nodeOfState_eq_some.mpr ⟨x, hz1, hx⟩
      rw [this] at hn0
      cases hn0
      exact ⟨n1, n2, s0, _, hn1, hn2, hold, hns0, s, hs, hbit⟩
    · rw [hz1] at hzy
      cases hzy
      exact absurd rfl hne

end Order
namespace Order

/-- The comparison of two different mapped nodes of a well-formed order has the outcome described
by `Outcome`; in particular it returns or stops at its assertion. -/
theorem compareNodes_outcome {o : Order} (hv : o.Valid) (hex : o.Exclusive) (hbm : o.BitsMapped)
    {u v : Nat} {nu nv : Node} (hu : o.heap[u]? = some nu) (hv2 : o.heap[v]? = some nv)
    (hmu : o.IsMapped u) (hmv : o.IsMapped v) (hne : u ≠ v) :
    o.Outcome u v (o.compareNodes (some u) (some v) UNKNOWN) := by
  unfold Outcome
  by_cases h1 : o.fastAboveP u v = true
  · rw [if_pos h1]
    exact compareNodes_of_fastAbove hv hu hv2 hne h1
  rw [if_neg h1]
  have h1f : o.fastAboveP u v = false := by simpa using h1
  by_cases h2 : o.fastAboveP v u = true
  · rw [if_pos h2]
    exact compareNodes_of_fastBelow hv hu hv2 hne h1f h2
  rw [if_neg h2]
  have h2f : o.fastAboveP v u = false := by simpa using h2
  have hcf : o.compareFastNodes (some u) (some v) UNKNOWN = Except.ok UNKNOWN := by
    rw [compareFastNodes_of_valid hv hu hv2 hne, h1f, h2f]
    rfl
  have hfa := fastAboveP_false h1f
  have hfb := fastAboveP_false h2f
  by_cases hen : o.SearchEnabled
  · rw [if_neg (not_not.mpr hen)]
    obtain ⟨r, o1, hab, hiff⟩ := above_spec hv hbm hen hu hv2 hfa
    cases r with
    | true =>
      have hcuv : o.Chain u v := hiff.mp rfl
      have hgrow := above_bitsGrow hab
      have hv1 : o1.Valid := valid_of_bitsGrow hv hgrow
      rcases above_eq_ok hab with ⟨hr, _⟩ | ⟨_, m1, m2, hm1, hm2, _, ho1⟩
      · cases hr
      · rw [hu] at hm1; rw [hv2] at hm2
        cases hm1; cases hm2
        have hbm1 : o1.BitsMapped := by
          rw [ho1]
          exact bitsMapped_writeBack hbm hex hu hv2 hmu
        have hen1 : o1.SearchEnabled := by
          rw [ho1]
          exact hen
        have hlen : v < o.heap.length := (List.getElem?_eq_some_iff.mp hv2).1
        have hnb1 : o1.heap[v]? = some
            (withAboveBits nv (BitVector.setBits nv.statesAbove.bits nu.states)) := by
          rw [ho1]
          exact heap_setHeap_self _ hlen
        have hna1 : o1.heap[u]? = some nu := by
          rw [ho1, heap_setHeap_ne _ (Ne.symm hne)]
          exact hu
        have hfb1 : o1.aboveFastP v u = false := by
          rw [aboveFastP_eq_any hnb1 hna1]
          rw [aboveFastP_eq_any hv2 hu] at hfb
          exact hfb
        obtain ⟨r2, o2, hba, hiff2⟩ := above_spec hv1 hbm1 hen1 hnb1 hna1 hfb1
        have hback : o1.Chain v u ↔ o.Chain v u := by
          constructor
          · intro hc
            rw [ho1] at hc
            exact chain_writeBack hv hex hu hv2 hmu hne hcuv hmv hc
          · exact chain_of_bitsGrow hgrow
        cases r2 with
        | true =>
          left
          refine ⟨hcuv, hback.mp (hiff2.mp rfl), ?_⟩
          simp [compareNodes, hcf, aboveWhen, hab, hba]
        | false =>
          have ho2 : o2 = o1 := above_false_eq hba
          subst ho2
          right; left
          refine ⟨hcuv, fun hc => ?_, nu, nv, hu, hv2, ?_⟩
          · exact absurd (hiff2.mpr (hback.mpr hc)) (by simp)
          · rw [← ho1]
            simp [compareNodes, hcf, aboveWhen, hab, hba]
    | false =>
      have ho1 : o1 = o := above_false_eq hab
      subst ho1
      have hnuv : ¬ o1.Chain u v := fun hc => absurd (hiff.mpr hc) (by simp)
      obtain ⟨r3, o3, hba, hiff3⟩ := above_spec hv hbm hen hv2 hu hfb
      cases r3 with
      | true =>
        rcases above_eq_ok hba with ⟨hr, _⟩ | ⟨_, m2, m1, hm2, hm1, _, ho3⟩
        · cases hr
        · rw [hu] at hm1; rw [hv2] at hm2
          cases hm1; cases hm2
          right; right; left
          refine ⟨hnuv, hiff3.mp rfl, nu, nv, hu, hv2, ?_⟩
          rw [← ho3]
          simp [compareNodes, hcf, aboveWhen, hab, hba]
      | false =>
        have ho3 : o3 = o1 := above_false_eq hba
        subst ho3
        right; right; right
        refine ⟨hnuv, fun hc => absurd (hiff3.mpr hc) (by simp), ?_⟩
        simp [compareNodes, hcf, aboveWhen, hab, hba]
  · rw [if_pos hen]
    have hab := above_disabled hv hen hu hv2 hfa
    have hba := above_disabled hv hen hv2 hu hfb
    simp [compareNodes, hcf, aboveWhen, hab, hba]

end Order
namespace Order

theorem fastAboveP_of_bitsGrow {o o1 : Order} (h : BitsGrow o o1) {u v : Nat}
    (hf : o.fastAboveP u v = true) : o1.fastAboveP u v = true := by
  have htop : o1.top = o.top := by rw [h.1]
  have hbot : o1.bottom = o.bottom := by rw [h.1]
  unfold fastAboveP at hf ⊢
  simp only [Bool.or_eq_true] at hf ⊢
  rw [htop, hbot]
  rcases hf with hf | hf
  · exact Or.inl hf
  · right
    obtain ⟨na, nb, s, hna, hnb, hs, hbit⟩ := aboveFastP_true hf
    obtain ⟨ma, hma, hsta, _⟩ := h.2.2 u na hna
    obtain ⟨mb, hmb, _, hle⟩ := h.2.2 v nb hnb
    exact aboveFastP_of_mem hma hmb (by rw [hsta]; exact hs) (hle.2.2 s hbit)

/-- The write-back of `x` above `y` changes the fast test of the pair `(x, y)` only. -/
theorem fastAboveP_writeBack {o : Order} (hex : o.Exclusive) {x y : Nat} {nx ny : Node}
    (hx : o.heap[x]? = some nx) (hy : o.heap[y]? = some ny) (hmx : o.IsMapped x)
    {u v : Nat} (hmu : o.IsMapped u) (hn : ¬ (u = x ∧ v = y)) :
    (o.setHeap y (withAboveBits ny
      (BitVector.setBits ny.statesAbove.bits nx.states))).fastAboveP u v = o.fastAboveP u v := by
  by_cases hvy : v = y
  · subst hvy
    have hux : u ≠ x := fun h => hn ⟨h, rfl⟩
    have hgrow : BitsGrow o (o.setHeap v (withAboveBits ny
        (BitVector.setBits ny.statesAbove.bits nx.states))) :=
      bitsGrow_setHeap hy (fun i hi => testBit_setBits_of_testBit _ hi)
    rw [Bool.eq_iff_iff]
    constructor
    · intro h
      rcases fastAboveP_writeBack_eq hex hx hy hmx hmu h with h | h
      · exact h
      · exact absurd h hux
    · exact fastAboveP_of_bitsGrow hgrow
  · exact fastAboveP_writeBack_ne hy hvy

/-- After the write-back of a relation `x` above `y` that the search derived, while no chain leads
from `x` up to `y`, the outcome of every comparison of two mapped nodes gives the result it gave
before. -/
theorem outcome_writeBack {o : Order} (hv : o.Valid) (hex : o.Exclusive) {x y : Nat}
    {nx ny : Node} (hx : o.heap[x]? = some nx) (hy : o.heap[y]? = some ny) (hmx : o.IsMapped x)
    (hmy : o.IsMapped y) (hne : x ≠ y) (hfxy : o.fastAboveP x y = false)
    (hfyx : o.fastAboveP y x = false) (hen : o.SearchEnabled) (hxy : o.Chain x y)
    (hyx : ¬ o.Chain y x) {u v : Nat} (hmu : o.IsMapped u) (hmv : o.IsMapped v)
    {r1 r : Except Fault (NodeComparison × Order)}
    (h1 : (o.setHeap y (withAboveBits ny
      (BitVector.setBits ny.statesAbove.bits nx.states))).Outcome u v r1)
    (h : o.Outcome u v r) : r1.map Prod.fst = r.map Prod.fst := by
  have hly := lt_length_of_getElem? hy
  have hgrow : BitsGrow o (o.setHeap y (withAboveBits ny
      (BitVector.setBits ny.statesAbove.bits nx.states))) :=
    bitsGrow_setHeap hy (fun i hi => testBit_setBits_of_testBit _ hi)
  have hen1 : (o.setHeap y (withAboveBits ny
      (BitVector.setBits ny.statesAbove.bits nx.states))).SearchEnabled := hen
  have hfast1 : (o.setHeap y (withAboveBits ny
      (BitVector.setBits ny.statesAbove.bits nx.states))).fastAboveP x y = true := by
    obtain ⟨n1, _, _, _, h1x, _, _, _, s0, hs0, _⟩ := hxy
    rw [hx] at h1x
    cases h1x
    have hx1 : (o.setHeap y (withAboveBits ny
        (BitVector.setBits ny.statesAbove.bits nx.states))).heap[x]? = some nx := by
      rw [heap_setHeap_ne _ (Ne.symm hne)]
      exact hx
    have := aboveFastP_of_mem hx1 (heap_setHeap_self _ hly) hs0
      (by simp [withAboveBits, BitVector.testBit_setBits, hs0])
    unfold fastAboveP
    simp [this]
  have hn1 : ¬ o.fastAboveP x y = true := by simp [hfxy]
  have hn2 : ¬ o.fastAboveP y x = true := by simp [hfyx]
  by_cases hc1 : u = x ∧ v = y
  · obtain ⟨rfl, rfl⟩ := hc1
    unfold Outcome at h1 h
    rw [if_pos hfast1] at h1
    rw [if_neg hn1, if_neg hn2, if_neg (not_not.mpr hen)] at h
    subst h1
    rcases h with ⟨_, hc, _⟩ | ⟨_, _, _, _, _, _, rfl⟩ | ⟨hc, _⟩ | ⟨hc, _⟩
    · exact absurd hc hyx
    · rfl
    · exact absurd hxy hc
    · exact absurd hxy hc
  by_cases hc2 : u = y ∧ v = x
  · obtain ⟨rfl, rfl⟩ := hc2
    have hF : (o.setHeap u (withAboveBits ny
        (BitVector.setBits ny.statesAbove.bits nx.states))).fastAboveP u v = o.fastAboveP u v :=
      fastAboveP_writeBack hex hx hy hmx hmu hc1
    unfold Outcome at h1 h
    rw [hF, if_neg hn2, if_pos hfast1] at h1
    rw [if_neg hn2, if_neg hn1, if_neg (not_not.mpr hen)] at h
    subst h1
    rcases h with ⟨hc, _⟩ | ⟨hc, _⟩ | ⟨_, _, _, _, _, _, rfl⟩ | ⟨_, hc, _⟩
    · exact absurd hc hyx
    · exact absurd hc hyx
    · rfl
    · exact absurd hxy hc
  · have hc3 : ¬ (v = x ∧ u = y) := fun h => hc2 ⟨h.2, h.1⟩
    have hF1 := fastAboveP_writeBack hex hx hy hmx hmu hc1
    have hF2 := fastAboveP_writeBack hex hx hy hmx hmv hc3
    have hC1 : (o.setHeap y (withAboveBits ny
        (BitVector.setBits ny.statesAbove.bits nx.states))).Chain u v ↔ o.Chain u v :=
      ⟨chain_writeBack hv hex hx hy hmx hne hxy hmu, chain_of_bitsGrow hgrow⟩
    have hC2 : (o.setHeap y (withAboveBits ny
        (BitVector.setBits ny.statesAbove.bits nx.states))).Chain v u ↔ o.Chain v u :=
      ⟨chain_writeBack hv hex hx hy hmx hne hxy hmv, chain_of_bitsGrow hgrow⟩
    unfold Outcome at h1 h
    rw [hF1, hF2, if_neg (not_not.mpr hen1), hC1, hC2] at h1
    rw [if_neg (not_not.mpr hen)] at h
    by_cases ha : o.fastAboveP u v = true
    · rw [if_pos ha] at h1 h
      subst h1; subst h
      rfl
    rw [if_neg ha] at h1 h
    by_cases hb : o.fastAboveP v u = true
    · rw [if_pos hb] at h1 h
      subst h1; subst h
      rfl
    rw [if_neg hb] at h1 h
    rcases h1 with ⟨a1, b1, rfl⟩ | ⟨a1, b1, _, _, _, _, rfl⟩ | ⟨a1, b1, _, _, _, _, rfl⟩ |
        ⟨a1, b1, rfl⟩ <;>
      rcases h with ⟨a2, b2, rfl⟩ | ⟨a2, b2, _, _, _, _, rfl⟩ | ⟨a2, b2, _, _, _, _, rfl⟩ |
        ⟨a2, b2, rfl⟩ <;>
      first | rfl | contradiction

/-- After the write-back of a relation `x` above `y` that the search derived, while no chain leads
from `x` up to `y`, every comparison gives the result it gave before. -/
theorem compare_writeBack {o : Order} (hv : o.Valid) (hex : o.Exclusive) (hbm : o.BitsMapped)
    {x y : Nat} {nx ny : Node} (hx : o.heap[x]? = some nx) (hy : o.heap[y]? = some ny)
    (hmx : o.IsMapped x) (hmy : o.IsMapped y) (hne : x ≠ y) (hfxy : o.fastAboveP x y = false)
    (hfyx : o.fastAboveP y x = false) (hen : o.SearchEnabled) (hxy : o.Chain x y)
    (hyx : ¬ o.Chain y x) (c d : Nat) :
    ((o.setHeap y (withAboveBits ny
      (BitVector.setBits ny.statesAbove.bits nx.states))).compare c d UNKNOWN).map Prod.fst =
      (o.compare c d UNKNOWN).map Prod.fst := by
  have hgrow : BitsGrow o (o.setHeap y (withAboveBits ny
      (BitVector.setBits ny.statesAbove.bits nx.states))) :=
    bitsGrow_setHeap hy (fun i hi => testBit_setBits_of_testBit _ hi)
  have hv1 := valid_of_bitsGrow hv hgrow
  have hex1 := exclusive_of_bitsGrow hex hgrow
  have hbm1 := bitsMapped_writeBack hbm hex hx hy hmx
  have hget : ∀ s, (o.setHeap y (withAboveBits ny
      (BitVector.setBits ny.statesAbove.bits nx.states))).getNode s = o.getNode s := fun _ => rfl
  unfold compare
  rw [hget, hget]
  cases hc : o.getNode c with
  | error e => rfl
  | ok pc =>
    cases hd : o.getNode d with
    | error e => rfl
    | ok pd =>
      simp only [ok_bind]
      by_cases hnn : pc ≠ none ∧ pd ≠ none
      · obtain ⟨u, rfl⟩ := Option.ne_none_iff_exists'.mp hnn.1
        obtain ⟨v, rfl⟩ := Option.ne_none_iff_exists'.mp hnn.2
        by_cases huv : u = v
        · subst huv
          rw [compareNodes_same, compareNodes_same]
          rfl
        · have hmu := isMapped_of_getNode hc
          have hmv := isMapped_of_getNode hd
          obtain ⟨nu, hu⟩ := heap_of_valid_node hv (getNode_eq_ok.mp hc).2
          obtain ⟨nv, hv2⟩ := heap_of_valid_node hv (getNode_eq_ok.mp hd).2
          obtain ⟨mu, hmu1, _⟩ := hgrow.2.2 u nu hu
          obtain ⟨mv, hmv1, _⟩ := hgrow.2.2 v nv hv2
          exact outcome_writeBack hv hex hx hy hmx hmy hne hfxy hfyx hen hxy hyx hmu hmv
            (compareNodes_outcome hv1 hex1 hbm1 hmu1 hmv1 hmu hmv huv)
            (compareNodes_outcome hv hex hbm hu hv2 hmu hmv huv)
      · rw [compareNodes_null _ hnn, compareNodes_null _ hnn]
        rfl

end Order
namespace Order

/-- C40: on a well-formed order (valid pointers and sizes, the partition invariant, every
`statesAbove` bit the bit of a mapped state) `compare(a, b)` stops at its assertion only when the
nodes of `a` and `b` are two different nodes with chains in both directions, that is, nodes that
are mutually above each other.  Otherwise it returns, and then: the state-to-node mapping is
unchanged; only the heap changed, and there only `statesAbove` bits were added (`BitsGrow`); the
order is still well-formed; every later `compare(c, d)` gives the result it gave before; and the
order is unchanged or differs by the write-back of one relation between the nodes of `a` and `b`
for which a chain existed, which is the relation the search derives. -/
theorem compare_observationally_pure (o : Order) (a b : Nat) (hv : o.Valid) (hp : o.Partition)
    (hbm : o.BitsMapped) (ha : a < o.numberOfStates) (hb : b < o.numberOfStates) :
    (o.compare a b UNKNOWN = Except.error Fault.assertion ∧
      ∃ p q, o.nodes[a]? = some (some p) ∧ o.nodes[b]? = some (some q) ∧ p ≠ q ∧
        o.Chain p q ∧ o.Chain q p) ∨
    ∃ r o1, o.compare a b UNKNOWN = Except.ok (r, o1) ∧
      o1.nodes = o.nodes ∧ BitsGrow o o1 ∧ (o1.Valid ∧ o1.Partition ∧ o1.BitsMapped) ∧
      (∀ c d : Nat,
        (o1.compare c d UNKNOWN).map Prod.fst = (o.compare c d UNKNOWN).map Prod.fst) ∧
      (o1 = o ∨ ∃ x y nx ny,
        ((o.nodes[a]? = some (some x) ∧ o.nodes[b]? = some (some y)) ∨
          (o.nodes[a]? = some (some y) ∧ o.nodes[b]? = some (some x))) ∧
        o.heap[x]? = some nx ∧ o.heap[y]? = some ny ∧ o.Chain x y ∧
        o1 = o.setHeap y
          (withAboveBits ny (BitVector.setBits ny.statesAbove.bits nx.states))) := by
  have hex := hp.2
  -- a comparison that leaves the order as it is
  have hsame : ∀ r, o.compare a b UNKNOWN = Except.ok (r, o) →
      ∃ r o1, o.compare a b UNKNOWN = Except.ok (r, o1) ∧
        o1.nodes = o.nodes ∧ BitsGrow o o1 ∧ (o1.Valid ∧ o1.Partition ∧ o1.BitsMapped) ∧
        (∀ c d : Nat,
          (o1.compare c d UNKNOWN).map Prod.fst = (o.compare c d UNKNOWN).map Prod.fst) ∧
        (o1 = o ∨ ∃ x y nx ny,
          ((o.nodes[a]? = some (some x) ∧ o.nodes[b]? = some (some y)) ∨
            (o.nodes[a]? = some (some y) ∧ o.nodes[b]? = some (some x))) ∧
          o.heap[x]? = some nx ∧ o.heap[y]? = some ny ∧ o.Chain x y ∧
          o1 = o.setHeap y
            (withAboveBits ny (BitVector.setBits ny.statesAbove.bits nx.states))) :=
    fun r h => ⟨r, o, h, rfl, bitsGrow_refl o, ⟨hv, hp, hbm⟩, fun _ _ => rfl, Or.inl rfl⟩
  have hla : a < o.nodes.length := by rw [hv.1]; exact ha
  have hlb : b < o.nodes.length := by rw [hv.1]; exact hb
  have hga := getNode_of_nodes hv.1 (List.getElem?_eq_getElem hla)
  have hgb := getNode_of_nodes hv.1 (List.getElem?_eq_getElem hlb)
  have hcmp : o.compare a b UNKNOWN = o.compareNodes o.nodes[a] o.nodes[b] UNKNOWN := by
    simp only [compare, hga, hgb, ok_bind]
  by_cases hnn : o.nodes[a] ≠ none ∧ o.nodes[b] ≠ none
  · obtain ⟨u, hpu⟩ := Option.ne_none_iff_exists'.mp hnn.1
    obtain ⟨v, hpv⟩ := Option.ne_none_iff_exists'.mp hnn.2
    rw [hpu, hpv] at hcmp
    rw [hpu] at hga
    rw [hpv] at hgb
    have hma : o.nodes[a]? = some (some u) := (getNode_eq_ok.mp hga).2
    have hmb : o.nodes[b]? = some (some v) := (getNode_eq_ok.mp hgb).2
    by_cases hne : u = v
    · subst hne
      right
      exact hsame SAME (by rw [hcmp]; exact compareNodes_same _ _)
    obtain ⟨nu, hu⟩ := heap_of_valid_node hv hma
    obtain ⟨nv, hv2⟩ := heap_of_valid_node hv hmb
    have hmu := isMapped_of_getNode hga
    have hmv := isMapped_of_getNode hgb
    have hout := compareNodes_outcome hv hex hbm hu hv2 hmu hmv hne
    rw [← hcmp] at hout
    unfold Outcome at hout
    by_cases h1 : o.fastAboveP u v = true
    · rw [if_pos h1] at hout
      exact Or.inr (hsame _ hout)
    rw [if_neg h1] at hout
    by_cases h2 : o.fastAboveP v u = true
    · rw [if_pos h2] at hout
      exact Or.inr (hsame _ hout)
    rw [if_neg h2] at hout
    by_cases hen : o.SearchEnabled
    · rw [if_neg (not_not.mpr hen)] at hout
      have h1f : o.fastAboveP u v = false := by simpa using h1
      have h2f : o.fastAboveP v u = false := by simpa using h2
      rcases hout with ⟨c1, c2, herr⟩ | ⟨c1, c2, mu, mv, hmu2, hmv2, hok⟩ |
          ⟨c1, c2, mu, mv, hmu2, hmv2, hok⟩ | ⟨_, _, hok⟩
      · exact Or.inl ⟨herr, u, v, hma, hmb, hne, c1, c2⟩
      · rw [hu] at hmu2; rw [hv2] at hmv2
        cases hmu2; cases hmv2
        have hgrow : BitsGrow o (o.setHeap v (withAboveBits nv
            (BitVector.setBits nv.statesAbove.bits nu.states))) :=
          bitsGrow_setHeap hv2 (fun i hi => testBit_setBits_of_testBit _ hi)
        exact Or.inr ⟨_, _, hok, rfl, hgrow,
          ⟨valid_of_bitsGrow hv hgrow, partition_of_bitsGrow hp hgrow,
            bitsMapped_writeBack hbm hex hu hv2 hmu⟩,
          compare_writeBack hv hex hbm hu hv2 hmu hmv hne h1f h2f hen c1 c2,
          Or.inr ⟨u, v, nu, nv, Or.inl ⟨hma, hmb⟩, hu, hv2, c1, rfl⟩⟩
      · rw [hu] at hmu2; rw [hv2] at hmv2
        cases hmu2; cases hmv2
        have hgrow : BitsGrow o (o.setHeap u (withAboveBits nu
            (BitVector.setBits nu.statesAbove.bits nv.states))) :=
          bitsGrow_setHeap hu (fun i hi => testBit_setBits_of_testBit _ hi)
        exact Or.inr ⟨_, _, hok, rfl, hgrow,
          ⟨valid_of_bitsGrow hv hgrow, partition_of_bitsGrow hp hgrow,
            bitsMapped_writeBack hbm hex hv2 hu hmv⟩,
          compare_writeBack hv hex hbm hv2 hu hmv hmu (Ne.symm hne) h2f h1f hen c2 c1,
          Or.inr ⟨v, u, nv, nu, Or.inr ⟨hma, hmb⟩, hv2, hu, c2, rfl⟩⟩
      · exact Or.inr (hsame _ hok)
    · rw [if_pos hen] at hout
      exact Or.inr (hsame _ hout)
  · right
    exact hsame _ (by rw [hcmp]; exact compareNodes_null _ hnn)

end Order

/-- C40 (witness): the statement applied to `compare(2, 4)` on the sample ladder: the search
finds state 2 above state 4 and writes the bit of state 2 into the node of state 4; afterwards
`compare(4, 2)`, `compare(2, 6)` and `compare(3, 5)` answer as before. -/
theorem compare_observationally_pure_witness :
    (((Order.returned Order.sampleLadder).compare 2 4 UNKNOWN).map Prod.fst
        = Except.ok ABOVE ∧
      ((Order.returned Order.sampleLadder).compare 2 4 UNKNOWN).map
        (fun r => decide (r.2 = Order.returned Order.sampleLadder)) = Except.ok false) ∧
    (((Order.returned Order.sampleLadder).compare 2 4 UNKNOWN
        = Except.error Fault.assertion ∧
      ∃ p q, (Order.returned Order.sampleLadder).nodes[2]? = some (some p) ∧
        (Order.returned Order.sampleLadder).nodes[4]? = some (some q) ∧ p ≠ q ∧
        (Order.returned Order.sampleLadder).Chain p q ∧
        (Order.returned Order.sampleLadder).Chain q p) ∨
    ∃ r o1, (Order.returned Order.sampleLadder).compare 2 4 UNKNOWN = Except.ok (r, o1) ∧
      o1.nodes = (Order.returned Order.sampleLadder).nodes ∧
      Order.BitsGrow (Order.returned Order.sampleLadder) o1 ∧
      (o1.Valid ∧ o1.Partition ∧ o1.BitsMapped) ∧
      (∀ c d : Nat, (o1.compare c d UNKNOWN).map Prod.fst =
        ((Order.returned Order.sampleLadder).compare c d UNKNOWN).map Prod.fst) ∧
      (o1 = Order.returned Order.sampleLadder ∨ ∃ x y nx ny,
        (((Order.returned Order.sampleLadder).nodes[2]? = some (some x) ∧
            (Order.returned Order.sampleLadder).nodes[4]? = some (some y)) ∨
          ((Order.returned Order.sampleLadder).nodes[2]? = some (some y) ∧
            (Order.returned Order.sampleLadder).nodes[4]? = some (some x))) ∧
        (Order.returned Order.sampleLadder).heap[x]? = some nx ∧
        (Order.returned Order.sampleLadder).heap[y]? = some ny ∧
        (Order.returned Order.sampleLadder).Chain x y ∧
        o1 = (Order.returned Order.sampleLadder).setHeap y
          (Order.withAboveBits ny (BitVector.setBits ny.statesAbove.bits nx.states)))) :=
  ⟨by decide,
    Order.compare_observationally_pure (Order.returned Order.sampleLadder) 2 4 (by decide)
      (by decide) (by decide) (by decide) (by decide)⟩

namespace Order

theorem take_set_of_le {l : List Node} {base k : Nat} (n : Node) (h : base ≤ k) :
    (l.set k n).take base = l.take base := by
  apply List.ext_getElem?
  intro i
  by_cases hi : i < base
  · rw [List.getElem?_take_of_lt hi, List.getElem?_take_of_lt hi,
      List.getElem?_set_ne (by omega)]
  · rw [List.getElem?_take_eq_none (by omega), List.getElem?_take_eq_none (by omega)]

theorem owns_none (base : Nat) : Owns base none := by
  intro k hk
  cases hk

theorem owns_some {base k : Nat} : Owns base (some k) ↔ base ≤ k := by
  constructor
  · intro h
    exact h k rfl
  · intro h j hj
    cases hj
    exact h

theorem keeps_refl {base : Nat} {c : Order} (h : Apart base c) : Keeps base c c := ⟨h, rfl⟩

theorem keeps_trans {base : Nat} {a b c : Order} (h1 : Keeps base a b) (h2 : Keeps base b c) :
    Keeps base a c := ⟨h2.1, h2.2.trans h1.2⟩

/-- A step that changes neither the memory nor a pointer of the order. -/
theorem keeps_of_fields {base : Nat} {c c1 : Order} (ha : Apart base c)
    (h1 : c1.heap = c.heap) (h2 : c1.nodes = c.nodes) (h3 : c1.top = c.top)
    (h4 : c1.bottom = c.bottom) : Keeps base c c1 := by
  refine ⟨⟨?_, ?_, ?_, ?_⟩, ?_⟩
  · rw [h1]; exact ha.1
  · rw [h2]; exact ha.2.1
  · rw [h3]; exact ha.2.2.1
  · rw [h4]; exact ha.2.2.2
  · rw [h1]

theorem keeps_updateDoneBuilding {base : Nat} {c : Order} (ha : Apart base c) :
    Keeps base c c.updateDoneBuilding := by
  unfold updateDoneBuilding
  split
  · exact keeps_of_fields ha rfl rfl rfl rfl
  · exact keeps_refl ha

/-- The statements that finish a placement: the counter, `onlyInitialOrder`, `doneBuilding`. -/
theorem keeps_finish {base : Nat} {c : Order} (ha : Apart base c) (n : Nat) (b : Bool) :
    Keeps base c
      ({ c with numberOfAddedStates := n, onlyInitialOrder := b } : Order).updateDoneBuilding :=
  keeps_trans (keeps_of_fields ha rfl rfl rfl rfl)
    (keeps_updateDoneBuilding (keeps_of_fields ha rfl rfl rfl rfl).1)

/-- Writing through a pointer that keeps apart. -/
theorem store_keeps {base : Nat} {c c1 : Order} {p : Ptr} {n : Node} (ha : Apart base c)
    (hp : Owns base p) (h : c.store p n = Except.ok c1) : Keeps base c c1 := by
  obtain ⟨k, rfl, hk, rfl⟩ := store_eq_ok.mp h
  refine ⟨⟨?_, ha.2.1, ha.2.2.1, ha.2.2.2⟩, ?_⟩
  · simp only [List.length_set]
    exact ha.1
  · exact take_set_of_le n (owns_some.mp hp)

theorem setNodeAt_keeps {base : Nat} {c c1 : Order} {s : Nat} {p : Ptr} (ha : Apart base c)
    (hp : Owns base p) (h : c.setNodeAt s p = Except.ok c1) : Keeps base c c1 := by
  obtain ⟨_, rfl⟩ := setNodeAt_eq_ok.mp h
  refine ⟨⟨ha.1, ?_, ha.2.2.1, ha.2.2.2⟩, rfl⟩
  intro q hq
  rcases List.mem_or_eq_of_mem_set hq with hq | rfl
  · exact ha.2.1 q hq
  · exact hp

/-- The expression `new Node()`: the fresh cell lies beyond the first `base` cells. -/
theorem alloc_keeps {base : Nat} {c : Order} (n : Node) (ha : Apart base c) :
    Keeps base c ({ c with heap := c.heap ++ [n] } : Order) ∧ Owns base (some c.heap.length) := by
  refine ⟨⟨⟨?_, ha.2.1, ha.2.2.1, ha.2.2.2⟩, ?_⟩, owns_some.mpr ha.1⟩
  · simp only [List.length_append, List.length_singleton]
    exact Nat.le_succ_of_le ha.1
  · exact List.take_append_of_le_length ha.1

theorem nodeAt_owns {base : Nat} {c : Order} {s : Nat} {p : Ptr} (ha : Apart base c)
    (h : c.nodeAt s = Except.ok p) : Owns base p :=
  ha.2.1 p (List.getElem?_mem (nodeAt_eq_ok.mp h))

theorem getNode_owns {base : Nat} {c : Order} {s : Nat} {p : Ptr} (ha : Apart base c)
    (h : c.getNode s = Except.ok p) : Owns base p :=
  ha.2.1 p (List.getElem?_mem (getNode_eq_ok.mp h).2)

theorem addRelationNodes_keeps {base : Nat} {c c1 : Order} {a b : Ptr} (ha : Apart base c)
    (hb : Owns base b) (h : c.addRelationNodes a b = Except.ok c1) : Keeps base c c1 := by
  simp only [addRelationNodes, bind_eq_ok] at h
  obtain ⟨_, _, _, _, _, _, o2, h2, _, _, _, _, _, _, h3⟩ := h
  have k2 := store_keeps ha hb h2
  exact keeps_trans k2 (store_keeps k2.1 hb h3)

theorem addRelation_keeps {base : Nat} {c c1 : Order} {above below : Nat} (m : Bool)
    (ha : Apart base c) (h : c.addRelation above below m = Except.ok c1) : Keeps base c c1 := by
  simp only [addRelation, bind_eq_ok] at h
  obtain ⟨_, _, q, hq, h⟩ := h
  exact addRelationNodes_keeps ha (getNode_owns ha hq) h

/-- The allocation of a node for `state` and the two steps that enter the state. -/
theorem placeNew_keeps {base : Nat} {c c2 c3 : Order} {state : Nat} {z : BitVector} {n : Node}
    (ha : Apart base c)
    (h2 : ({ c with heap := c.heap ++ [⟨[], z⟩] } : Order).setNodeAt state (some c.heap.length)
      = Except.ok c2)
    (h3 : c2.store (some c.heap.length) { n with states := setInsert state n.states }
      = Except.ok c3) :
    Keeps base c c3 := by
  obtain ⟨k1, hown⟩ := alloc_keeps (⟨[], z⟩ : Node) ha
  have k2 := setNodeAt_keeps k1.1 hown h2
  have k3 := store_keeps k2.1 hown h3
  exact keeps_trans k1 (keeps_trans k2 k3)

theorem addAbove_keeps {base : Nat} {c c1 : Order} {state : Nat} {node : Ptr}
    (ha : Apart base c) (hnode : Owns base node) (h : c.addAbove state node = Except.ok c1) :
    Keeps base c c1 := by
  unfold addAbove at h
  by_cases h1 : node = none
  · rw [if_pos h1] at h; cases h
  rw [if_neg h1] at h
  by_cases h2 : ¬ state < c.numberOfStates
  · rw [if_pos h2] at h; cases h
  rw [if_neg h2] at h
  simp only [bind_eq_ok] at h
  obtain ⟨cur, hcur, h⟩ := h
  by_cases h3 : cur = none
  · rw [if_pos h3] at h
    simp only [alloc, bind_eq_ok] at h
    obtain ⟨o2, h2, n, hn, o3, h3, n3, hn3, o4, h4, h⟩ := h
    have hown : Owns base (some c.heap.length) := owns_some.mpr ha.1
    have k3 := placeNew_keeps ha h2 h3
    have k4 := keeps_trans k3 (store_keeps k3.1 hown h4)
    by_cases h5 : o4.top ≠ none
    · rw [if_pos h5] at h
      simp only [bind_eq_ok] at h
      obtain ⟨_, _, n4, hn4, _, _, o5, h5, nd, hnd, _, _, o6, h6, h⟩ := h
      simp only [pure_eq_ok, Except.ok.injEq] at h
      subst h
      have k5 := keeps_trans k4 (store_keeps k4.1 hown h5)
      have k6 := keeps_trans k5 (store_keeps k5.1 hnode h6)
      exact keeps_trans k6 (keeps_finish k6.1 _ _)
    · rw [if_neg h5] at h
      simp only [bind_eq_ok, pure_eq_ok, Except.ok.injEq] at h
      obtain ⟨_, rfl, nd, hnd, _, _, o6, h6, h⟩ := h
      subst h
      have k6 := keeps_trans k4 (store_keeps k4.1 hnode h6)
      exact keeps_trans k6 (keeps_finish k6.1 _ _)
  · rw [if_neg h3] at h
    simp only [bind_eq_ok] at h
    obtain ⟨_, _, h⟩ := h
    exact addRelationNodes_keeps ha hnode h

theorem insertBelowAnchor_keeps {base : Nat} {c c1 : Order} {state : Nat}
    {anchor receiver : Ptr} (ha : Apart base c) (hr : Owns base receiver)
    (h : c.insertBelowAnchor state anchor receiver = Except.ok c1) : Keeps base c c1 := by
  simp only [insertBelowAnchor, alloc, bind_eq_ok] at h
  obtain ⟨o2, h2, n, hn, o3, h3, _, _, n3, hn3, o4, h4, _, _, n4, hn4, _, _, o5, h5, r, hr2, _, _,
    o6, h6, h⟩ := h
  simp only [pure_eq_ok, Except.ok.injEq] at h
  subst h
  have hown : Owns base (some c.heap.length) := owns_some.mpr ha.1
  have k3 := placeNew_keeps ha h2 h3
  have k4 := keeps_trans k3 (store_keeps k3.1 hown h4)
  have k5 := keeps_trans k4 (store_keeps k4.1 hown h5)
  have k6 := keeps_trans k5 (store_keeps k5.1 hr h6)
  exact keeps_trans k6 (keeps_finish k6.1 _ _)

theorem addBelow_keeps {base : Nat} {c c1 : Order} {state : Nat} {node : Ptr}
    (ha : Apart base c) (h : c.addBelow state node = Except.ok c1) : Keeps base c c1 := by
  unfold addBelow at h
  by_cases h1 : node = none
  · rw [if_pos h1] at h; cases h
  rw [if_neg h1] at h
  by_cases h2 : ¬ state < c.numberOfStates
  · rw [if_pos h2] at h; cases h
  rw [if_neg h2] at h
  have gtail : ∀ o2, Keeps base c o2 →
      (if ¬ (o2.numberOfAddedStates ≤ o2.numberOfStates) then Except.error Fault.assertion
        else (pure o2 : Except Fault Order)) = Except.ok c1 → Keeps base c c1 := by
    intro o2 g2 h
    split at h
    · cases h
    · simp only [pure_eq_ok, Except.ok.injEq] at h
      subst h
      exact g2
  by_cases h3 : ¬ c.contains state = true
  · rw [if_pos h3] at h
    simp only [bind_eq_ok] at h
    obtain ⟨o2, h2a, h⟩ := h
    exact gtail o2 (insertBelowAnchor_keeps ha ha.2.2.2 h2a) h
  · rw [if_neg h3] at h
    simp only [bind_eq_ok] at h
    obtain ⟨p, hp, o2, h2a, h⟩ := h
    exact gtail o2 (addRelationNodes_keeps ha (getNode_owns ha hp) h2a) h

end Order
namespace Order

theorem above_keeps {base : Nat} {c c1 : Order} {p q : Ptr} {r : Bool} (ha : Apart base c)
    (hq : Owns base q) (h : c.above p q = Except.ok (r, c1)) : Keeps base c c1 := by
  simp only [above, bind_eq_ok] at h
  obtain ⟨fast, _, h⟩ := h
  cases fast
  · simp only [Bool.false_eq_true, if_false, bind_eq_ok] at h
    obtain ⟨isAbove, _, h⟩ := h
    cases isAbove
    · simp only [Bool.false_eq_true, if_false, pure_eq_ok, Except.ok.injEq, Prod.mk.injEq] at h
      rw [← h.2]
      exact keeps_refl ha
    · simp only [if_true, bind_eq_ok, pure_eq_ok, Except.ok.injEq, Prod.mk.injEq] at h
      obtain ⟨_, _, _, _, _, _, o2, h2, _, ho⟩ := h
      rw [← ho]
      exact store_keeps ha hq h2
  · simp at h

theorem aboveWhen_keeps {base : Nat} {c c1 : Order} {b : Bool} {p q : Ptr} {r : Bool}
    (ha : Apart base c) (hq : Owns base q) (h : c.aboveWhen b p q = Except.ok (r, c1)) :
    Keeps base c c1 := by
  unfold aboveWhen at h
  split at h
  · exact above_keeps ha hq h
  · simp only [Except.ok.injEq, Prod.mk.injEq] at h
    rw [← h.2]
    exact keeps_refl ha

theorem compareNodes_keeps {base : Nat} {c c1 : Order} {p q : Ptr} {hyp r : NodeComparison}
    (ha : Apart base c) (hp : Owns base p) (hq : Owns base q)
    (h : c.compareNodes p q hyp = Except.ok (r, c1)) : Keeps base c c1 := by
  unfold compareNodes at h
  split at h
  · simp only [bind_eq_ok] at h
    obtain ⟨comp, _, h⟩ := h
    split at h
    · simp only [pure_eq_ok, Except.ok.injEq, Prod.mk.injEq] at h
      rw [← h.2]
      exact keeps_refl ha
    · simp only [bind_eq_ok] at h
      obtain ⟨⟨isAbove, oa⟩, hab, h⟩ := h
      have hoa : Keeps base c oa := aboveWhen_keeps ha hq hab
      cases isAbove
      · simp only [Bool.false_eq_true, if_false, bind_eq_ok] at h
        obtain ⟨⟨isBelow, ob⟩, hb, h⟩ := h
        have hob : Keeps base oa ob := aboveWhen_keeps hoa.1 hp hb
        have : c1 = ob := by
          cases isBelow <;> simp at h <;> exact h.2.symm
        rw [this]
        exact keeps_trans hoa hob
      · simp only [if_true, bind_eq_ok] at h
        obtain ⟨⟨rev, orev⟩, hrev, h⟩ := h
        have horev := above_keeps hoa.1 hp hrev
        cases rev
        · simp only [Bool.false_eq_true, if_false, pure_eq_ok, Except.ok.injEq, Prod.mk.injEq] at h
          rw [← h.2]
          exact keeps_trans hoa horev
        · simp at h
  · split at h
    · simp only [Except.ok.injEq, Prod.mk.injEq] at h
      rw [← h.2]
      exact keeps_refl ha
    · split at h <;>
      · simp only [Except.ok.injEq, Prod.mk.injEq] at h
        rw [← h.2]
        exact keeps_refl ha

theorem compare_keeps {base : Nat} {c c1 : Order} {i j : Nat} {hyp r : NodeComparison}
    (ha : Apart base c) (h : c.compare i j hyp = Except.ok (r, c1)) : Keeps base c c1 := by
  simp only [compare, bind_eq_ok] at h
  obtain ⟨p, hp, q, hq, h⟩ := h
  exact compareNodes_keeps ha (getNode_owns ha hp) (getNode_owns ha hq) h

theorem addBetweenNodes_keeps {base : Nat} {c c1 : Order} {state : Nat} {above below : Ptr}
    (ha : Apart base c) (hab : Owns base above) (hbe : Owns base below)
    (h : c.addBetweenNodes state above below = Except.ok c1) : Keeps base c c1 := by
  unfold addBetweenNodes at h
  by_cases h1 : above = below
  · rw [if_pos h1] at h; cases h
  rw [if_neg h1] at h
  by_cases h2 : above = none
  · rw [if_pos h2] at h
    exact addAbove_keeps ha hbe h
  rw [if_neg h2] at h
  simp only [bind_eq_ok] at h
  obtain ⟨⟨r, oc⟩, hc, h⟩ := h
  have kc := compareNodes_keeps ha hab hbe hc
  simp only at h
  by_cases h3 : r ≠ ABOVE
  · rw [if_pos h3] at h; cases h
  rw [if_neg h3] at h
  by_cases h4 : ¬ (above ≠ none ∧ below ≠ none)
  · rw [if_pos h4] at h; cases h
  rw [if_neg h4] at h
  simp only [bind_eq_ok] at h
  obtain ⟨cur, hcur, h⟩ := h
  by_cases h5 : cur = none
  · rw [if_pos h5] at h
    simp only [bind_eq_ok] at h
    obtain ⟨o2, h2a, h⟩ := h
    split at h
    · cases h
    simp only [pure_eq_ok, Except.ok.injEq] at h
    subst h
    exact keeps_trans kc (insertBelowAnchor_keeps kc.1 hbe h2a)
  · rw [if_neg h5] at h
    simp only [bind_eq_ok] at h
    obtain ⟨o2, h2a, cur2, hcur2, h⟩ := h
    have k2 := keeps_trans kc (addRelationNodes_keeps kc.1 (nodeAt_owns kc.1 hcur) h2a)
    exact keeps_trans k2 (addRelationNodes_keeps k2.1 hbe h)

theorem addBetween_keeps {base : Nat} {c c1 : Order} {state above below : Nat}
    (ha : Apart base c) (h : c.addBetween state above below = Except.ok c1) :
    Keeps base c c1 := by
  simp only [addBetween, bind_eq_ok] at h
  obtain ⟨_, _, _, _, h⟩ := h
  split at h
  · cases h
  simp only [bind_eq_ok] at h
  obtain ⟨_, _, _, _, h⟩ := h
  split at h
  · cases h
  simp only [bind_eq_ok] at h
  obtain ⟨pa, hpa, pb, hpb, h⟩ := h
  exact addBetweenNodes_keeps ha (getNode_owns ha hpa) (getNode_owns ha hpb) h

theorem add_keeps {base : Nat} {c c1 : Order} {state : Nat} (ha : Apart base c)
    (h : c.add state = Except.ok c1) : Keeps base c c1 := by
  simp only [add, bind_eq_ok] at h
  obtain ⟨_, _, h⟩ := h
  split at h
  · cases h
  split at h
  · exact addAbove_keeps ha ha.2.2.2 h
  · exact addBetweenNodes_keeps ha ha.2.2.1 ha.2.2.2 h

theorem remap_keeps {base : Nat} {p : Ptr} (hp : Owns base p) (l : List Nat) :
    ∀ (c c1 : Order), Apart base c → c.remap p l = Except.ok c1 → Keeps base c c1 := by
  induction l with
  | nil =>
    intro c c1 ha h
    simp only [remap, Except.ok.injEq] at h
    subst h
    exact keeps_refl ha
  | cons i is ih =>
    intro c c1 ha h
    simp only [remap, bind_eq_ok] at h
    obtain ⟨o1, h1, h⟩ := h
    have k1 := setNodeAt_keeps ha hp h1
    exact keeps_trans k1 (ih o1 c1 k1.1 h)

theorem propagateNode_keeps {base : Nat} {node1 node2 node : Ptr} (hn : Owns base node)
    (l : List Nat) :
    ∀ (c c1 : Order), Apart base c → c.propagateNode node1 node2 node l = Except.ok c1 →
      Keeps base c c1 := by
  induction l with
  | nil =>
    intro c c1 ha h
    simp only [propagateNode, Except.ok.injEq] at h
    subst h
    exact keeps_refl ha
  | cons s rest ih =>
    intro c c1 ha h
    simp only [propagateNode, bind_eq_ok] at h
    obtain ⟨n, _, hit, _, h⟩ := h
    cases hit
    · simp only [Bool.false_eq_true, if_false] at h
      exact ih c c1 ha h
    · simp only [if_true, bind_eq_ok] at h
      obtain ⟨_, _, _, _, h⟩ := h
      exact store_keeps ha hn h

theorem propagateEntry_keeps {base : Nat} {c c1 : Order} {node1 node2 node : Ptr}
    (ha : Apart base c) (hn : Owns base node)
    (h : c.propagateEntry node1 node2 node = Except.ok c1) : Keeps base c c1 := by
  unfold propagateEntry at h
  split at h
  · simp only [bind_eq_ok] at h
    obtain ⟨_, _, h⟩ := h
    exact propagateNode_keeps hn _ c c1 ha h
  · simp only [pure_eq_ok, Except.ok.injEq] at h
    subst h
    exact keeps_refl ha

theorem propagate_keeps {base : Nat} {node1 node2 : Ptr} (l : List Ptr)
    (hl : ∀ p ∈ l, Owns base p) :
    ∀ (c c1 : Order), Apart base c → c.propagate node1 node2 l = Except.ok c1 →
      Keeps base c c1 := by
  induction l with
  | nil =>
    intro c c1 ha h
    simp only [propagate, Except.ok.injEq] at h
    subst h
    exact keeps_refl ha
  | cons node rest ih =>
    intro c c1 ha h
    simp only [propagate, bind_eq_ok] at h
    obtain ⟨o1, h1, h⟩ := h
    have k1 := propagateEntry_keeps ha (hl node (List.mem_cons_self _ _)) h1
    exact keeps_trans k1
      (ih (fun p hp => hl p (List.mem_cons_of_mem _ hp)) o1 c1 k1.1 h)

theorem mergeTransfer_keeps {base : Nat} {c c1 : Order} {node1 node2 : Ptr}
    (ha : Apart base c) (h1 : Owns base node1)
    (h : c.mergeTransfer node1 node2 = Except.ok c1) : Keeps base c c1 := by
  simp only [mergeTransfer, bind_eq_ok] at h
  obtain ⟨_, _, _, _, _, _, o1, hs1, _, _, _, _, o2, hs2, _, _, o3, hr, hp⟩ := h
  have k1 := store_keeps ha h1 hs1
  have k2 := keeps_trans k1 (store_keeps k1.1 h1 hs2)
  have k3 := keeps_trans k2 (remap_keeps h1 _ o2 o3 k2.1 hr)
  exact keeps_trans k3 (propagate_keeps _ k3.1.2.1 o3 c1 k3.1 hp)

theorem rescan_keeps {base : Nat} {mergeStates : Order → Nat → Nat → Except Fault Order}
    (hmerge : ∀ c i j c1, Apart base c → mergeStates c i j = Except.ok c1 → Keeps base c c1)
    (l : List (Nat × Nat)) :
    ∀ c c1, Apart base c → rescan mergeStates c l = Except.ok c1 → Keeps base c c1 := by
  induction l with
  | nil =>
    intro c c1 ha h
    simp only [rescan, Except.ok.injEq] at h
    subst h
    exact keeps_refl ha
  | cons ij rest ih =>
    intro c c1 ha h
    obtain ⟨i, j⟩ := ij
    simp only [rescan, rescanStep, bind_eq_ok] at h
    obtain ⟨oc, ⟨⟨r1, oa⟩, hc1, ⟨r2, ob⟩, hc2, hstep⟩, hrest⟩ := h
    have ka := compare_keeps ha hc1
    have kb := keeps_trans ka (compare_keeps ka.1 hc2)
    have kc : Keeps base c oc := by
      split at hstep
      · exact keeps_trans kb (hmerge ob i j oc kb.1 hstep)
      · simp only [pure_eq_ok, Except.ok.injEq] at hstep
        subst hstep
        exact kb
    exact keeps_trans kc (ih oc c1 kc.1 hrest)

theorem mergeNodesFuel_keeps {base : Nat} (fuel : Nat) :
    ∀ (c c1 : Order) (p q : Ptr), Apart base c → Owns base p →
      mergeNodesFuel fuel c p q = Except.ok c1 → Keeps base c c1 := by
  induction fuel with
  | zero => intro c c1 p q _ _ h; simp [mergeNodesFuel] at h
  | succ fuel ih =>
    intro c c1 p q ha hp h
    rw [mergeNodesFuel_succ] at h
    simp only [bind_eq_ok] at h
    obtain ⟨oa, hta, h⟩ := h
    have ka := mergeTransfer_keeps ha hp hta
    refine keeps_trans ka (rescan_keeps ?_ _ oa c1 ka.1 h)
    intro a i j a1 hia hm
    simp only [bind_eq_ok] at hm
    obtain ⟨p1, hp1, q1, _, hm⟩ := hm
    exact ih a a1 p1 q1 hia (getNode_owns hia hp1) hm

theorem merge_keeps {base : Nat} {c c1 : Order} {state1 state2 : Nat} (ha : Apart base c)
    (h : c.merge state1 state2 = Except.ok c1) : Keeps base c c1 := by
  simp only [merge, bind_eq_ok, mergeNodes] at h
  obtain ⟨p, hp, q, _, h⟩ := h
  exact mergeNodesFuel_keeps _ c c1 p q ha (getNode_owns ha hp) h

theorem addToNode_keeps {base : Nat} {c c1 : Order} {state : Nat} {node : Ptr}
    (ha : Apart base c) (hnode : Owns base node) (h : c.addToNode state node = Except.ok c1) :
    Keeps base c c1 := by
  simp only [addToNode, bind_eq_ok] at h
  obtain ⟨cur, hcur, h⟩ := h
  by_cases hc : cur = none
  · rw [if_pos hc] at h
    simp only [bind_eq_ok] at h
    obtain ⟨n, hn, o2, h2, o3, h3, h⟩ := h
    split at h
    · cases h
    simp only [pure_eq_ok, Except.ok.injEq] at h
    subst h
    have k2 := store_keeps ha hnode h2
    have k3 := keeps_trans k2 (setNodeAt_keeps k2.1 hnode h3)
    exact keeps_trans k3 (keeps_trans (keeps_of_fields k3.1 rfl rfl rfl rfl)
      (keeps_updateDoneBuilding (keeps_of_fields k3.1 rfl rfl rfl rfl).1))
  · rw [if_neg hc] at h
    exact mergeNodesFuel_keeps _ c c1 cur node ha (nodeAt_owns ha hcur) h

theorem run_keeps {base : Nat} {c c1 : Order} {call : Call} (ha : Apart base c)
    (hw : call.Within base) (h : c.run call = Except.ok c1) : Keeps base c c1 := by
  cases call with
  | add s => exact add_keeps ha h
  | addAbove s n => exact addAbove_keeps ha hw h
  | addBelow s n => exact addBelow_keeps ha h
  | addBetweenNodes s a b => exact addBetweenNodes_keeps ha hw.1 hw.2 h
  | addBetween s a b => exact addBetween_keeps ha h
  | addToNode s n => exact addToNode_keeps ha hw h
  | addRelation a b m => exact addRelation_keeps m ha h
  | merge a b => exact merge_keeps ha h

theorem setSufficientForState_keeps {base : Nat} {c c1 : Order} {s : Nat} (ha : Apart base c)
    (h : c.setSufficientForState s = Except.ok c1) : Keeps base c c1 := by
  simp only [setSufficientForState, bind_eq_ok, pure_eq_ok, Except.ok.injEq] at h
  obtain ⟨_, _, rfl⟩ := h
  exact keeps_of_fields ha rfl rfl rfl rfl

theorem setDoneForState_keeps {base : Nat} {c c1 : Order} {s : Nat} (ha : Apart base c)
    (h : c.setDoneForState s = Except.ok c1) : Keeps base c c1 := by
  simp only [setDoneForState, bind_eq_ok] at h
  obtain ⟨_, _, h⟩ := h
  split at h
  · simp only [bind_eq_ok, pure_eq_ok, Except.ok.injEq] at h
    obtain ⟨_, _, rfl⟩ := h
    exact keeps_of_fields ha rfl rfl rfl rfl
  · cases h

theorem getNextStateNumber_keeps {base : Nat} {c c1 : Order} {r : Nat × Bool}
    (ha : Apart base c) (h : c.getNextStateNumber = Except.ok (r, c1)) : Keeps base c c1 := by
  unfold getNextStateNumber at h
  split at h
  · cases h
  simp only [bind_eq_ok] at h
  obtain ⟨⟨found, rest⟩, _, h⟩ := h
  cases found with
  | none =>
    simp only [pure_eq_ok, Except.ok.injEq, Prod.mk.injEq] at h
    rw [← h.2]
    exact keeps_of_fields ha rfl rfl rfl rfl
  | some s =>
    simp only [pure_eq_ok, Except.ok.injEq, Prod.mk.injEq] at h
    rw [← h.2]
    exact keeps_of_fields ha rfl rfl rfl rfl

theorem getStateToHandle_keeps {base : Nat} {c c1 : Order} {r : Nat × Bool}
    (ha : Apart base c) (h : c.getStateToHandle = Except.ok (r, c1)) : Keeps base c c1 := by
  unfold getStateToHandle at h
  split at h
  · simp only [Except.ok.injEq, Prod.mk.injEq] at h
    rw [← h.2]
    exact keeps_of_fields ha rfl rfl rfl rfl
  · simp only [bind_eq_ok] at h
    obtain ⟨⟨found, rest⟩, _, h⟩ := h
    have k1 : Keeps base c ({ c with statesToHandle := rest.reverse } : Order) :=
      keeps_of_fields ha rfl rfl rfl rfl
    cases found with
    | none => exact keeps_trans k1 (getNextStateNumber_keeps k1.1 h)
    | some s =>
      simp only [pure_eq_ok, Except.ok.injEq, Prod.mk.injEq] at h
      rw [← h.2]
      exact k1

theorem existsStateToHandle_keeps {base : Nat} {c c1 : Order} {r : Bool}
    (ha : Apart base c) (h : c.existsStateToHandle = Except.ok (r, c1)) : Keeps base c c1 := by
  unfold existsStateToHandle at h
  split at h
  · simp only [Except.ok.injEq, Prod.mk.injEq] at h
    rw [← h.2]
    exact keeps_refl ha
  · simp only [bind_eq_ok, pure_eq_ok, Except.ok.injEq, Prod.mk.injEq] at h
    obtain ⟨_, _, _, h⟩ := h
    rw [← h]
    exact keeps_of_fields ha rfl rfl rfl rfl

theorem addStateToHandle_keeps {base : Nat} {c c1 : Order} {s : Nat} (ha : Apart base c)
    (h : c.addStateToHandle s = Except.ok c1) : Keeps base c c1 := by
  simp only [addStateToHandle, bind_eq_ok] at h
  obtain ⟨_, _, h⟩ := h
  split at h
  · simp only [pure_eq_ok, Except.ok.injEq] at h
    subst h
    exact keeps_of_fields ha rfl rfl rfl rfl
  · simp only [pure_eq_ok, Except.ok.injEq] at h
    subst h
    exact keeps_refl ha

theorem map_snd_eq_ok {α : Type} {x : Except Fault (α × Order)} {c1 : Order}
    (h : x.map Prod.snd = Except.ok c1) : ∃ r, x = Except.ok (r, c1) := by
  cases x with
  | error e => cases h
  | ok v =>
    obtain ⟨r, o⟩ := v
    simp only [Except.map, Except.ok.injEq] at h
    exact ⟨r, by rw [h]⟩

theorem mutate_keeps {base : Nat} {c c1 : Order} {m : Mutation} (ha : Apart base c)
    (hw : m.Within base) (h : c.mutate m = Except.ok c1) : Keeps base c c1 := by
  cases m with
  | modify call => exact run_keeps ha hw h
  | compare s1 s2 hyp =>
    obtain ⟨r, hr⟩ := map_snd_eq_ok h
    exact compare_keeps ha hr
  | setSufficientForState s => exact setSufficientForState_keeps ha h
  | setDoneForState s => exact setDoneForState_keeps ha h
  | addStateToHandle s => exact addStateToHandle_keeps ha h
  | addSpecialStateToHandle s =>
    simp only [mutate, Except.ok.injEq] at h
    subst h
    exact keeps_of_fields ha rfl rfl rfl rfl
  | addStateSorted s =>
    simp only [mutate, Except.ok.injEq] at h
    subst h
    exact keeps_of_fields ha rfl rfl rfl rfl
  | getNextStateNumber =>
    obtain ⟨r, hr⟩ := map_snd_eq_ok h
    exact getNextStateNumber_keeps ha hr
  | getStateToHandle =>
    obtain ⟨r, hr⟩ := map_snd_eq_ok h
    exact getStateToHandle_keeps ha hr
  | existsStateToHandle =>
    obtain ⟨r, hr⟩ := map_snd_eq_ok h
    exact existsStateToHandle_keeps ha hr

theorem mutateAll_keeps {base : Nat} (ms : List Mutation) :
    ∀ (c c1 : Order), Apart base c → (∀ m ∈ ms, m.Within base) →
      c.mutateAll ms = Except.ok c1 → Keeps base c c1 := by
  induction ms with
  | nil =>
    intro c c1 ha _ h
    simp only [mutateAll, Except.ok.injEq] at h
    subst h
    exact keeps_refl ha
  | cons m rest ih =>
    intro c c1 ha hw h
    simp only [mutateAll, bind_eq_ok] at h
    obtain ⟨o1, h1, h⟩ := h
    have k1 := mutate_keeps ha (hw m (List.mem_cons_self _ _)) h1
    exact keeps_trans k1 (ih o1 c1 k1.1 (fun x hx => hw x (List.mem_cons_of_mem _ hx)) h)

end Order
namespace Order

theorem copyStates_keeps {base : Nat} {newNode : Ptr} (hn : Owns base newNode) (l : List Nat) :
    ∀ (c c1 : Order) (seen seen1 : BitVector), Apart base c →
      copyStates c newNode seen l = Except.ok (c1, seen1) → Keeps base c c1 := by
  induction l with
  | nil =>
    intro c c1 seen seen1 ha h
    simp only [copyStates, Except.ok.injEq, Prod.mk.injEq] at h
    rw [← h.1]
    exact keeps_refl ha
  | cons i rest ih =>
    intro c c1 seen seen1 ha h
    simp only [copyStates, bind_eq_ok] at h
    obtain ⟨s, _, h⟩ := h
    cases s
    · simp only [Bool.false_eq_true, if_false, bind_eq_ok] at h
      obtain ⟨_, _, o1, h1, _, _, o2, h2, h⟩ := h
      have k1 := store_keeps ha hn h1
      have k2 := keeps_trans k1 (setNodeAt_keeps k1.1 hn h2)
      exact keeps_trans k2 (ih o2 c1 _ seen1 k2.1 h)
    · simp at h

theorem copyNodesShared_keeps {base : Nat} (o : Order) (l : List Nat) :
    ∀ (c c1 : Order) (seen seen1 : BitVector), Apart base c →
      copyNodesShared o c seen l = Except.ok (c1, seen1) → Keeps base c c1 := by
  induction l with
  | nil =>
    intro c c1 seen seen1 ha h
    simp only [copyNodesShared, Except.ok.injEq, Prod.mk.injEq] at h
    rw [← h.1]
    exact keeps_refl ha
  | cons state rest ih =>
    intro c c1 seen seen1 ha h
    simp only [copyNodesShared, bind_eq_ok] at h
    obtain ⟨oldNode, _, h⟩ := h
    by_cases hold : oldNode ≠ none
    · rw [if_pos hold] at h
      simp only [bind_eq_ok] at h
      obtain ⟨old, _, h⟩ := h
      cases hfirst : old.states.head? with
      | none =>
        rw [hfirst] at h
        cases h
      | some first =>
        rw [hfirst] at h
        simp only [bind_eq_ok] at h
        obtain ⟨s, _, h⟩ := h
        cases s
        · simp only [Bool.false_eq_true, not_false_eq_true, if_true, alloc, bind_eq_ok] at h
          obtain ⟨_, _, _, _, o3, h3, _, _, ⟨o4, seen4⟩, h4, h⟩ := h
          obtain ⟨k1, hown⟩ := alloc_keeps (⟨[], BitVector.zeros 0⟩ : Node) ha
          have k2 : Keeps base c
              (if oldNode = o.top then
                ({ ({ c with heap := c.heap ++ [⟨[], BitVector.zeros 0⟩] } : Order) with
                  top := some c.heap.length } : Order)
              else if oldNode = o.bottom then
                ({ ({ c with heap := c.heap ++ [⟨[], BitVector.zeros 0⟩] } : Order) with
                  bottom := some c.heap.length } : Order)
              else ({ c with heap := c.heap ++ [⟨[], BitVector.zeros 0⟩] } : Order)) := by
            split
            · exact ⟨⟨k1.1.1, k1.1.2.1, hown, k1.1.2.2.2⟩, k1.2⟩
            · split
              · exact ⟨⟨k1.1.1, k1.1.2.1, k1.1.2.2.1, hown⟩, k1.2⟩
              · exact k1
          have k3 := keeps_trans k2 (store_keeps k2.1 hown h3)
          have k4 := keeps_trans k3 (copyStates_keeps hown _ o3 o4 _ seen4 k3.1 h4)
          exact keeps_trans k4 (ih o4 c1 seen4 seen1 k4.1 h)
        · simp only [not_true_eq_false, if_false] at h
          exact ih c c1 seen seen1 ha h
    · rw [if_neg hold] at h
      simp only [bind_eq_ok] at h
      obtain ⟨p, _, h⟩ := h
      split at h
      · cases h
      · exact ih c c1 seen seen1 ha h

/-- The copy made in the memory of the original leaves the nodes of the original as they are and
holds no pointer to them, provided the values the default constructor left in `top` and `bottom`
are no such pointers. -/
theorem copyShared_keeps {o c : Order} {uninitTop uninitBottom : Ptr}
    (ht : Owns o.heap.length uninitTop) (hb : Owns o.heap.length uninitBottom)
    (h : o.copyShared uninitTop uninitBottom = Except.ok c) :
    Apart o.heap.length c ∧ c.heap.take o.heap.length = o.heap := by
  simp only [copyShared, bind_eq_ok, pure_eq_ok, Except.ok.injEq] at h
  obtain ⟨⟨c2, seen2⟩, h, rfl⟩ := h
  have hnodes : ∀ p ∈ List.replicate o.numberOfStates (none : Ptr), Owns o.heap.length p := by
    intro p hp
    rw [(List.mem_replicate.mp hp).2]
    exact owns_none _
  by_cases htop : o.top = none
  · rw [if_pos htop] at h
    have k := @copyNodesShared_keeps o.heap.length o _ _ c2 _ seen2
      (by exact ⟨le_refl _, hnodes, owns_none _, hb⟩) h
    exact ⟨k.1, k.2.trans (List.take_length _)⟩
  · rw [if_neg htop] at h
    have k := @copyNodesShared_keeps o.heap.length o _ _ c2 _ seen2
      (by exact ⟨le_refl _, hnodes, ht, hb⟩) h
    exact ⟨k.1, k.2.trans (List.take_length _)⟩

/-- C31: clone independence in a common memory.  The copy `c` of `o` is made in the memory that
holds the nodes of `o` (`copyShared`: `new Node()` takes fresh cells of that memory), and any
sequence of mutations is run on `c`: the modifying methods, `compare` with its write-back, the
setters and the methods of the work queues.  Provided the values the default constructor leaves
in `top` and `bottom` of the copy are null or no addresses of nodes of `o`, and the nodes passed
to `addAbove`, `addBetween` and `addToNode` are null or no nodes of `o`: after the copy and
after the mutations the order `o`, read with its nodes in the memory left behind, is the order
it was, and the copy holds no pointer to a node of `o`.  The other data members of `o` are
values of an object that no method of the copy receives. -/
theorem clone_independence (o c c1 : Order) (uninitTop uninitBottom : Ptr)
    (ms : List Mutation) (ht : Owns o.heap.length uninitTop)
    (hb : Owns o.heap.length uninitBottom)
    (hc : o.copyShared uninitTop uninitBottom = Except.ok c)
    (hms : ∀ m ∈ ms, m.Within o.heap.length) (hrun : c.mutateAll ms = Except.ok c1) :
    ({ o with heap := c.heap.take o.heap.length } : Order) = o ∧
      ({ o with heap := c1.heap.take o.heap.length } : Order) = o ∧
      Apart o.heap.length c ∧ Apart o.heap.length c1 := by
  obtain ⟨ha, hk⟩ := copyShared_keeps ht hb hc
  have k1 := mutateAll_keeps ms c c1 ha hms hrun
  refine ⟨?_, ?_, ha, k1.1⟩
  · rw [hk]
  · rw [k1.2, hk]

end Order
/-- C31 (witness): the sample chain is copied in its own memory, where the copy takes the cells 5
to 9, and the sample mutations are run on the copy; they change the copy, and the sample chain
read from the first five cells of the memory is the order it was. -/
theorem clone_independence_witness :
    (((Order.returned Order.sampleChainShared).mutateAll Order.sampleMutations).map
        (fun c1 => decide (c1 = Order.returned Order.sampleChainShared)) = Except.ok false ∧
      (Order.returned Order.sampleChain).heap.length = 5) ∧
    (({ Order.returned Order.sampleChain with
        heap := (Order.returned Order.sampleChainShared).heap.take
          (Order.returned Order.sampleChain).heap.length } : Order)
        = Order.returned Order.sampleChain ∧
      ({ Order.returned Order.sampleChain with
        heap := (Order.returned
            ((Order.returned Order.sampleChainShared).mutateAll Order.sampleMutations)).heap.take
          (Order.returned Order.sampleChain).heap.length } : Order)
        = Order.returned Order.sampleChain ∧
      Order.Apart (Order.returned Order.sampleChain).heap.length
        (Order.returned Order.sampleChainShared) ∧
      Order.Apart (Order.returned Order.sampleChain).heap.length
        (Order.returned
          ((Order.returned Order.sampleChainShared).mutateAll Order.sampleMutations))) :=
  ⟨by decide,
    Order.clone_independence (Order.returned Order.sampleChain)
      (Order.returned Order.sampleChainShared)
      (Order.returned
        ((Order.returned Order.sampleChainShared).mutateAll Order.sampleMutations))
      none none Order.sampleMutations (by decide) (by decide) (by decide) (by decide)
      (by decide)⟩

end Storm
